import Mathlib

/-! # FatLib file layer (`src/FatLib/FatFile.cpp`)

A shallow embedding of the `FatFile` member functions of the SdFs FAT library and
of the partition services they call.

* `FatFile.cpp` is embedded function by function (`seekSet`, `read`, `write`,
  `truncate`, `preAllocate`, `contiguousRange`, `sync`, `addCluster`, ...).
* `FatPartition.h`, `FatFile.h` and the block device are not part of the
  sources at hand.  The partition services (`fatGet`, `allocateCluster`,
  the one-line sector cache, raw sector transfers, ...) are modelled from the
  specification; every such definition says so in its doc comment.
* The C loops `while (toRead)`, `while (nToWrite)` and `for (c = first; ; c++)`
  are embedded with an explicit iteration budget (fuel): the result `none`
  means that the loop is still running when the budget is used up.
* `uint32_t` file fields are natural numbers; reductions modulo a power of two
  are written out at the places where the C arithmetic can wrap or truncate
  (`uint8_t ns`, `uint16_t tmp16`, `m_curPosition - 1`, `cacheSectorNumber() + ns`,
  `m_curPosition += n`, the `int` result of `read`).
* The sector offset `uint16_t offset` / `sectorOffset` is kept exact: the
  theorems about file contents assume sectors of at most 2^15 bytes (`LayoutOk`).
-/

set_option autoImplicit false

namespace SdFs

/-! ## Machine arithmetic -/

/-- Modulus of `uint32_t` arithmetic. -/
def U32 : Nat := 4294967296

/-- Subtraction of two `uint32_t` values, wrapping modulo 2^32. -/
def sub32 (a b : Nat) : Nat := (a + U32 - b) % U32

/-- Largest `size_t` (a 32-bit `size_t` is assumed); also the value of `(size_t)-1`. -/
def SIZE_MAX : Nat := 4294967295

/-- Conversion of a `size_t` value to the 32-bit `int` that `read` returns. -/
def toInt32 (x : Nat) : Int :=
  if x % U32 < 2147483648 then ((x % U32 : Nat) : Int) else ((x % U32 : Nat) : Int) - 4294967296

/-- Pointwise update of a table indexed by natural numbers. -/
def upd {α : Type} (t : Nat → α) (a : Nat) (v : α) : Nat → α :=
  fun x => if x = a then v else t x

/-- Store one byte in a sector buffer. -/
def setByte (d : Nat → Nat) (i v : Nat) : Nat → Nat := upd d i v

/-- Little-endian store of a 16-bit value (`setLe16`). -/
def setLe16 (d : Nat → Nat) (off v : Nat) : Nat → Nat :=
  setByte (setByte d off (v % 256)) (off + 1) (v / 256 % 256)

/-- Little-endian store of a 32-bit value (`setLe32`). -/
def setLe32 (d : Nat → Nat) (off v : Nat) : Nat → Nat :=
  setByte (setByte (setByte (setByte d off (v % 256)) (off + 1) (v / 256 % 256))
    (off + 2) (v / 65536 % 256)) (off + 3) (v / 16777216 % 256)

/-- The `memcpy(dst + off, src, n)` of `n` bytes into a sector buffer. -/
def memcpyAt (d : Nat → Nat) (off n : Nat) (src : Nat → Nat) : Nat → Nat :=
  fun i => if off ≤ i ∧ i < off + n then src (i - off) else d i

/-! ## The partition (external collaborator) -/

/-- Modelled from the spec: the three results of the partition service
`fatGet(c) -> (status, next)`, status -1 (error), 0 (end of chain) and +1
(continues with `next`).  `FatPartition.h` is not among the sources.  A FAT
table entry is stored in the same form; a free cluster is the zero entry,
`continues 0`. -/
inductive FatEntry where
  | error : FatEntry
  | endOfChain : FatEntry
  | continues (next : Nat) : FatEntry
deriving DecidableEq, Repr

/-- Modelled from the spec: the modes of `cacheFetchData` that `FatFile.cpp`
uses (`FatCache::CACHE_FOR_READ`, `CACHE_FOR_WRITE`, `CACHE_RESERVE_FOR_WRITE`). -/
inductive CacheMode where
  | forRead : CacheMode
  | forWrite : CacheMode
  | reserveForWrite : CacheMode
deriving DecidableEq, Repr

/-- A call of a state-changing partition service made by the file layer.  The
partition keeps the calls it received, newest first, so that statements such as
"allocateCluster is called exactly three times" can be expressed. -/
inductive Call where
  | allocateCluster (current : Nat) : Call
  | allocContiguous (count : Nat) : Call
  | freeChain (cluster : Nat) : Call
  | fatPutEOC (cluster : Nat) : Call
  | cacheFetchData (sector : Nat) (mode : CacheMode) : Call
  | cacheSync : Call
  | cacheSyncData : Call
  | cacheInvalidate : Call
  | readSector (sector : Nat) : Call
  | readSectors (sector count : Nat) : Call
  | writeSector (sector : Nat) : Call
  | writeSectors (sector count : Nat) : Call
deriving DecidableEq, Repr

/-- Modelled from the spec: the per-mount parameters of the partition of
section 3.1 (class `FatPartition`, not among the sources), which no operation
changes: the two shifts (sector and cluster sizes are powers of two),
`clusterStartSector` (kept as a parameter, the spec gives no formula),
`rootDirStart`, `rootDirEntryCount`, `lastCluster`, the allocation policies
`allocSearch` / `contigSearch` (which cluster the allocator looks at is not
specified), the set of unreadable device sectors `badSector`, and the optional
global date/time callback `FsDateTime::callback`, here `dateTime`. -/
structure Mount where
  bytesPerSectorShift : Nat
  sectorsPerClusterShift : Nat
  clusterStartSector : Nat → Nat
  rootDirStart : Nat
  rootDirEntryCount : Nat
  lastCluster : Nat
  allocSearch : (Nat → FatEntry) → Nat → Option Nat
  contigSearch : (Nat → FatEntry) → Nat → Option Nat
  badSector : Nat → Bool
  dateTime : Option (Nat × Nat)

/-- Modelled from the spec: the partition together with its block device: the
mount parameters and the mutable state, which is the FAT table `fat`, the
device sectors `dev` (sector number, byte offset), the single cache line
(`cacheSector`, `cacheDirty`, `cacheData`) and the call log. -/
structure FatPartition extends Mount where
  fat : Nat → FatEntry
  dev : Nat → Nat → Nat
  cacheSector : Nat
  cacheDirty : Bool
  cacheData : Nat → Nat
  log : List Call

namespace FatPartition

/-- Modelled from the spec: `bytesPerSector()`, a power of two. -/
def bytesPerSector (p : FatPartition) : Nat := 2 ^ p.bytesPerSectorShift

/-- Modelled from the spec: `sectorsPerCluster()`, a power of two. -/
def sectorsPerCluster (p : FatPartition) : Nat := 2 ^ p.sectorsPerClusterShift

/-- Modelled from the spec: `bytesPerClusterShift()`. -/
def bytesPerClusterShift (p : FatPartition) : Nat :=
  p.bytesPerSectorShift + p.sectorsPerClusterShift

/-- Modelled from the spec: `bytesPerCluster()`. -/
def bytesPerCluster (p : FatPartition) : Nat := 2 ^ p.bytesPerClusterShift

/-- Modelled from the spec: `sectorMask()`, the mask of the byte offset in a sector. -/
def sectorMask (p : FatPartition) : Nat := p.bytesPerSector - 1

/-- Modelled from the spec: `sectorOfCluster(pos)`, the index
`(pos / bytesPerSector) mod sectorsPerCluster` of invariant 9. -/
def sectorOfCluster (p : FatPartition) (pos : Nat) : Nat :=
  (pos / p.bytesPerSector) % p.sectorsPerCluster

/-- Modelled from the spec: `cacheSectorNumber()`, the resident sector or the
sentinel `0xFFFFFFFF`. -/
def cacheSectorNumber (p : FatPartition) : Nat := p.cacheSector

/-- Record a service call in the log. -/
def logCall (p : FatPartition) (c : Call) : FatPartition :=
  { p with log := c :: p.log }

/-- Number of `allocateCluster` calls received so far. -/
def allocCalls (p : FatPartition) : Nat :=
  p.log.countP (fun c => match c with | Call.allocateCluster _ => true | _ => false)

/-- Modelled from the spec: `fatGet(c)`.  Cluster numbers outside
`2 .. lastCluster` are an error; otherwise the table entry is the answer.  The
call does not change the partition and is not logged.  In the C interface the
out-parameter is written only for the result `continues`. -/
def fatGet (p : FatPartition) (c : Nat) : FatEntry :=
  if c < 2 ∨ p.lastCluster < c then FatEntry.error else p.fat c

/-- Modelled from the spec: `allocateCluster(current) -> cluster`: take the
cluster proposed by the allocation policy, which must be a free cluster in
range, mark it end of chain and, when `current` is not zero, link `current` to
it ("the partition appends or starts a chain as needed").  On failure the
out-parameter keeps `current`. -/
def allocateCluster (p : FatPartition) (current : Nat) : Bool × FatPartition × Nat :=
  let p0 := p.logCall (Call.allocateCluster current)
  match p0.allocSearch p0.fat current with
  | none => (false, p0, current)
  | some c =>
    if 2 ≤ c ∧ c ≤ p0.lastCluster ∧ p0.fat c = FatEntry.continues 0
        ∧ (current = 0 ∨ (2 ≤ current ∧ current ≤ p0.lastCluster)) then
      let fat1 := upd p0.fat c FatEntry.endOfChain
      let fat2 := if current = 0 then fat1 else upd fat1 current (FatEntry.continues c)
      (true, { p0 with fat := fat2 }, c)
    else (false, p0, current)

/-- Modelled from the spec: `allocContiguous(n) -> firstCluster`: the run of
`n` clusters proposed by the policy must be free and in range; it is linked
`c -> c+1 -> ... -> c+n-1 -> end of chain`.  On failure the out-parameter
keeps its old value `old`. -/
def allocContiguous (p : FatPartition) (count old : Nat) : Bool × FatPartition × Nat :=
  let p0 := p.logCall (Call.allocContiguous count)
  match p0.contigSearch p0.fat count with
  | none => (false, p0, old)
  | some c =>
    if 1 ≤ count ∧ 2 ≤ c ∧ c + count - 1 ≤ p0.lastCluster
        ∧ (List.range count).all (fun i => decide (p0.fat (c + i) = FatEntry.continues 0)) then
      let fat1 : Nat → FatEntry := fun x =>
        if c ≤ x ∧ x < c + count - 1 then FatEntry.continues (x + 1)
        else if x = c + count - 1 then FatEntry.endOfChain
        else p0.fat x
      (true, { p0 with fat := fat1 }, c)
    else (false, p0, old)

/-- Modelled from the spec: `fatPutEOC(c)`: write the end-of-chain mark; fails
for a cluster number out of range. -/
def fatPutEOC (p : FatPartition) (c : Nat) : Bool × FatPartition :=
  let p0 := p.logCall (Call.fatPutEOC c)
  if c < 2 ∨ p0.lastCluster < c then (false, p0)
  else (true, { p0 with fat := upd p0.fat c FatEntry.endOfChain })

/-- The walk of `freeChain`: free `c` and follow its link, at most `k` clusters. -/
def freeWalk (last : Nat) : Nat → (Nat → FatEntry) → Nat → Bool × (Nat → FatEntry)
  | 0, fat, _ => (false, fat)
  | k + 1, fat, c =>
    if c < 2 ∨ last < c then (false, fat)
    else
      match fat c with
      | FatEntry.error => (false, fat)
      | FatEntry.endOfChain => (true, upd fat c (FatEntry.continues 0))
      | FatEntry.continues n => freeWalk last k (upd fat c (FatEntry.continues 0)) n

/-- Modelled from the spec: `freeChain(first)`: free every cluster of the
chain that starts at `first`; fails on a `fatGet` error.  A chain cannot be
longer than the number of clusters, which bounds the walk. -/
def freeChain (p : FatPartition) (c : Nat) : Bool × FatPartition :=
  let p0 := p.logCall (Call.freeChain c)
  match freeWalk p0.lastCluster p0.lastCluster p0.fat c with
  | (ok, fat1) => (ok, { p0 with fat := fat1 })

/-- Write the cache line back to the device if it is dirty. -/
def flushLine (p : FatPartition) : Bool × FatPartition :=
  if p.cacheDirty then
    if p.badSector p.cacheSector then (false, p)
    else (true, { p with dev := upd p.dev p.cacheSector p.cacheData, cacheDirty := false })
  else (true, p)

/-- Modelled from the spec: `cacheSyncData()`, flush the data cache line. -/
def cacheSyncData (p : FatPartition) : Bool × FatPartition :=
  flushLine (p.logCall Call.cacheSyncData)

/-- Modelled from the spec: `cacheSync()`, flush metadata and data.  The FAT
table of the model is not cached, so this is the flush of the one cache line. -/
def cacheSync (p : FatPartition) : Bool × FatPartition :=
  flushLine (p.logCall Call.cacheSync)

/-- Modelled from the spec: `cacheInvalidate()`, discard the cache line
without writing it. -/
def cacheInvalidate (p : FatPartition) : FatPartition :=
  let p0 := p.logCall Call.cacheInvalidate
  { p0 with cacheSector := 4294967295, cacheDirty := false }

/-- Modelled from the spec: `cacheFetchData(sector, mode)`.  A resident sector
is returned as it is.  Otherwise the old line is flushed if dirty and the
sector is read from the device, except in mode `reserveForWrite`, which only
reserves the line.  The two write modes mark the line dirty.  The result
`false` stands for the null pointer. -/
def cacheFetchData (p : FatPartition) (sector : Nat) (mode : CacheMode) : Bool × FatPartition :=
  let p0 := p.logCall (Call.cacheFetchData sector mode)
  if p0.cacheSector = sector then
    (true, { p0 with cacheDirty := p0.cacheDirty || decide (mode ≠ CacheMode.forRead) })
  else
    match flushLine p0 with
    | (false, p1) => (false, p1)
    | (true, p1) =>
      if mode = CacheMode.reserveForWrite then
        (true, { p1 with cacheSector := sector, cacheDirty := true })
      else if p1.badSector sector then (false, p1)
      else (true, { p1 with cacheSector := sector, cacheData := p1.dev sector,
                            cacheDirty := decide (mode ≠ CacheMode.forRead) })

/-- Modelled from the spec: `readSector(n, buf)`; the bytes delivered are
`dev n`. -/
def readSector (p : FatPartition) (sector : Nat) : Bool × FatPartition :=
  (!p.badSector sector, p.logCall (Call.readSector sector))

/-- Modelled from the spec: `readSectors(n, buf, count)`; byte `i` delivered is
byte `i mod bytesPerSector` of sector `n + i / bytesPerSector`. -/
def readSectors (p : FatPartition) (sector count : Nat) : Bool × FatPartition :=
  ((List.range count).all (fun i => !p.badSector (sector + i)),
   p.logCall (Call.readSectors sector count))

/-- Modelled from the spec: `writeSector(n, buf)`. -/
def writeSector (p : FatPartition) (sector : Nat) (src : Nat → Nat) : Bool × FatPartition :=
  let p0 := p.logCall (Call.writeSector sector)
  if p0.badSector sector then (false, p0)
  else (true, { p0 with dev := upd p0.dev sector src })

/-- Modelled from the spec: `writeSectors(n, buf, count)`. -/
def writeSectors (p : FatPartition) (sector count : Nat) (src : Nat → Nat) :
    Bool × FatPartition :=
  let p0 := p.logCall (Call.writeSectors sector count)
  if (List.range count).all (fun i => !p0.badSector (sector + i)) then
    let dev1 : Nat → Nat → Nat := fun t =>
      if sector ≤ t ∧ t < sector + count then
        fun j => src ((t - sector) * p0.bytesPerSector + j)
      else p0.dev t
    (true, { p0 with dev := dev1 })
  else (false, p0)

end FatPartition


open FatPartition

/-! ## The open file handle -/

/-- Modelled from the spec: the type part of `m_attr`, "exactly one of CLOSED,
FILE, SUBDIR, ROOT_FIXED, ROOT32" (`FatFile.h` is not among the sources). -/
inductive FileKind where
  | closed : FileKind
  | file : FileKind
  | subdir : FileKind
  | rootFixed : FileKind
  | root32 : FileKind
deriving DecidableEq, Repr

/-- Modelled from the spec: `m_flags`, the open-mode bits kept in the handle
(READ, WRITE, APPEND, SYNC) and the internal bit `F_FILE_DIR_DIRTY`. -/
structure Flags where
  read : Bool
  write : Bool
  append : Bool
  sync : Bool
  dirDirty : Bool
deriving DecidableEq, Repr

/-- Modelled from the spec: `m_error`, the sticky bits READ_ERROR and WRITE_ERROR. -/
structure ErrorBits where
  readError : Bool
  writeError : Bool
deriving DecidableEq, Repr

/-- The member variables of `class FatFile` that `FatFile.cpp` uses; `m_part`
is passed next to the handle. -/
structure FatFile where
  kind : FileKind
  readOnly : Bool
  flags : Flags
  error : ErrorBits
  curCluster : Nat
  curPosition : Nat
  dirCluster : Nat
  dirSector : Nat
  dirIndex : Nat
  fileSize : Nat
  firstCluster : Nat
  lfnOrd : Nat
deriving DecidableEq, Repr

namespace FatFile

/-- Modelled from the spec: `isOpen()`, the handle is not CLOSED. -/
def isOpen (f : FatFile) : Bool := decide (f.kind ≠ FileKind.closed)

/-- Modelled from the spec: `isFile()`, the handle is a regular file. -/
def isFile (f : FatFile) : Bool := decide (f.kind = FileKind.file)

/-- Modelled from the spec: `isRootFixed()`, the FAT12/FAT16 root directory. -/
def isRootFixed (f : FatFile) : Bool := decide (f.kind = FileKind.rootFixed)

/-- Modelled from the spec: `isRoot32()`, the FAT32 root directory. -/
def isRoot32 (f : FatFile) : Bool := decide (f.kind = FileKind.root32)

/-- Modelled from the spec: `isDir()`, a subdirectory or a root directory. -/
def isDir (f : FatFile) : Bool :=
  decide (f.kind = FileKind.subdir ∨ f.kind = FileKind.rootFixed ∨ f.kind = FileKind.root32)

/-- The statement `m_flags |= F_FILE_DIR_DIRTY`. -/
def setDirDirty (f : FatFile) : FatFile :=
  { f with flags := { f.flags with dirDirty := true } }

/-- The statement `m_flags &= ~F_FILE_DIR_DIRTY`. -/
def clearDirDirty (f : FatFile) : FatFile :=
  { f with flags := { f.flags with dirDirty := false } }

/-- The statement `m_error |= WRITE_ERROR`. -/
def setWriteError (f : FatFile) : FatFile :=
  { f with error := { f.error with writeError := true } }

/-- The statement `m_error |= READ_ERROR`. -/
def setReadError (f : FatFile) : FatFile :=
  { f with error := { f.error with readError := true } }

/-- The first cluster of the chain of the handle: `rootDirStart()` for the
FAT32 root, `m_firstCluster` otherwise (the expression
`isRoot32() ? m_part->rootDirStart() : m_firstCluster`). -/
def chainStart (f : FatFile) (p : FatPartition) : Nat :=
  if f.isRoot32 then p.rootDirStart else f.firstCluster

/-- `FatFile::addCluster` (lines 25-28). -/
def addCluster (f : FatFile) (p : FatPartition) : Bool × FatFile × FatPartition :=
  let f1 := f.setDirDirty
  match p.allocateCluster f1.curCluster with
  | (ok, p1, c) => (ok, { f1 with curCluster := c }, p1)

/-- `FatFile::cacheDirEntry` (lines 73-84): fetch the sector of the directory
entry; the entry is slot `m_dirIndex & 0xF` of the cached sector. -/
def cacheDirEntry (f : FatFile) (p : FatPartition) (action : CacheMode) : Bool × FatPartition :=
  p.cacheFetchData f.dirSector action

/-- Byte offset of the directory entry of the handle in its sector
(`pc->dir + (m_dirIndex & 0XF)`, 32 bytes per entry). -/
def dirOffset (f : FatFile) : Nat := 32 * (f.dirIndex &&& 15)

/-- The loop `while (nNew--)` of `seekSet` (lines 1037-1042): `n` steps of
`fatGet`, each of which has to return a positive status. -/
def seekWalk (p : FatPartition) : Nat → Nat → Option Nat
  | 0, c => some c
  | n + 1, c =>
    match p.fatGet c with
    | FatEntry.continues next => seekWalk p n next
    | _ => none

/-- `FatFile::seekSet` (lines 996-1051).  The partition is not changed. -/
def seekSet (f : FatFile) (p : FatPartition) (pos : Nat) : Bool × FatFile :=
  let tmp := f.curCluster
  if f.isOpen = false then (false, { f with curCluster := tmp })
  else if pos = f.curPosition then (true, f)
  else if pos = 0 then (true, { f with curCluster := 0, curPosition := pos })
  else if f.isFile = true ∧ pos > f.fileSize then (false, { f with curCluster := tmp })
  else if f.isFile = false ∧ f.isRootFixed = true then
    if pos ≤ 32 * p.rootDirEntryCount then (true, { f with curPosition := pos })
    else (false, { f with curCluster := tmp })
  else
    let nCur := sub32 f.curPosition 1 >>> p.bytesPerClusterShift
    let nNew := (pos - 1) >>> p.bytesPerClusterShift
    let restart : Bool := decide (nNew < nCur ∨ f.curPosition = 0)
    let start := if restart then f.chainStart p else f.curCluster
    let steps := if restart then nNew else nNew - nCur
    match seekWalk p steps start with
    | some c => (true, { f with curCluster := c, curPosition := pos })
    | none => (false, { f with curCluster := tmp })

/-- The last part of `FatFile::sync` (lines 1084-1091): `cacheSync`, and
WRITE_ERROR when it fails. -/
def syncTail (f : FatFile) (p : FatPartition) : Bool × FatFile × FatPartition :=
  match p.cacheSync with
  | (true, p1) => (true, f, p1)
  | (false, p1) => (false, f.setWriteError, p1)

/-- The update of the cached directory entry in `FatFile::sync` (lines
1065-1080); entry layout of the spec: accessDate at 18, firstClusterHigh at 20,
modifyTime at 22, modifyDate at 24, firstClusterLow at 26, fileSize at 28. -/
def syncEntry (f : FatFile) (p : FatPartition) (d : Nat → Nat) : Nat → Nat :=
  let off := f.dirOffset
  let d1 := if f.isFile then setLe32 d (off + 28) f.fileSize else d
  let d2 := setLe16 d1 (off + 26) (f.firstCluster &&& 65535)
  let d3 := setLe16 d2 (off + 20) (f.firstCluster >>> 16)
  match p.dateTime with
  | none => d3
  | some (date, time) =>
    setLe16 (setLe16 (setLe16 d3 (off + 24) date) (off + 18) date) (off + 22) time

/-- `FatFile::sync` (lines 1053-1092). -/
def sync (f : FatFile) (p : FatPartition) : Bool × FatFile × FatPartition :=
  if f.isOpen = false then (true, f, p)
  else if f.flags.dirDirty = true then
    match f.cacheDirEntry p CacheMode.forWrite with
    | (false, p1) => (false, f.setWriteError, p1)
    | (true, p1) =>
      if p1.cacheData f.dirOffset = 229 then (false, f.setWriteError, p1)
      else
        let p2 := { p1 with cacheData := f.syncEntry p1 p1.cacheData }
        syncTail f.clearDirDirty p2
  else syncTail f p

/-- Outcome of one iteration of a transfer loop: `next` (the iteration moved
`n` bytes, `chunk i` being byte `i` of what a read delivered), `stop` (the
`break` of `read` at the end of a directory chain) or `fail` (`goto fail`). -/
inductive Step where
  | next (f : FatFile) (p : FatPartition) (n : Nat) (chunk : Nat → Nat) : Step
  | stop (f : FatFile) (p : FatPartition) : Step
  | fail (f : FatFile) (p : FatPartition) : Step

/-- Outcome of a transfer loop that has ended: `ok` with the bytes still to
transfer and the bytes delivered, or `failed`. -/
inductive LoopEnd where
  | ok (f : FatFile) (p : FatPartition) (rest : Nat) (out : List Nat) : LoopEnd
  | failed (f : FatFile) (p : FatPartition) (out : List Nat) : LoopEnd

/-- The sector to read, found in lines 623-651 of `read`: the handle (whose
`m_curCluster` may have moved), the device sector and `sectorOfCluster`. -/
inductive Locate where
  | found (f : FatFile) (sector sectorOfCluster : Nat) : Locate
  | stop : Locate
  | fail : Locate

/-- Lines 624-651 of `FatFile::read`. -/
def readLocate (f : FatFile) (p : FatPartition) (offset : Nat) : Locate :=
  if f.isRootFixed = true then
    Locate.found f (p.rootDirStart + (f.curPosition >>> p.bytesPerSectorShift)) 0
  else
    let sectorOfCluster := p.sectorOfCluster f.curPosition
    if offset = 0 ∧ sectorOfCluster = 0 then
      if f.curPosition = 0 then
        let f1 := { f with curCluster := if f.isRoot32 then p.rootDirStart else f.firstCluster }
        Locate.found f1 (p.clusterStartSector f1.curCluster + sectorOfCluster) sectorOfCluster
      else
        match p.fatGet f.curCluster with
        | FatEntry.error => Locate.fail
        | FatEntry.endOfChain => if f.isDir = true then Locate.stop else Locate.fail
        | FatEntry.continues next =>
          Locate.found { f with curCluster := next }
            (p.clusterStartSector next + sectorOfCluster) sectorOfCluster
    else
      Locate.found f (p.clusterStartSector f.curCluster + sectorOfCluster) sectorOfCluster

/-- The byte count of a transfer through the cache (lines 655-658 and
1256-1260): `n = bytesPerSector - offset; if (n > rest) n = rest;`. -/
def partCount (p : FatPartition) (offset rest : Nat) : Nat :=
  let n := p.bytesPerSector - offset
  if n > rest then rest else n

/-- Lines 654-666 of `FatFile::read`: read the sector to the cache and copy
`n` bytes to the caller. -/
def readCached (f : FatFile) (p : FatPartition) (toRead offset sector : Nat) : Step :=
  let n := partCount p offset toRead
  match p.cacheFetchData sector CacheMode.forRead with
  | (false, p1) => Step.fail f p1
  | (true, p1) => Step.next f p1 n (fun i => p1.cacheData (offset + i))

/-- Lines 669-675 of `FatFile::read`: the sector count `ns` of the
multi-sector read; `ns` and `mb` are `uint8_t`. -/
def readSectorCount (f : FatFile) (p : FatPartition) (toRead sectorOfCluster : Nat) : Nat :=
  let ns := (toRead >>> p.bytesPerSectorShift) % 256
  let mb := (p.sectorsPerCluster - sectorOfCluster) % 256
  if f.isRootFixed = false ∧ mb < ns then mb else ns

/-- Lines 668-688 of `FatFile::read`: the multi-sector read, after a flush of
the cache line when the test of lines 677-678 holds. -/
def readMulti (f : FatFile) (p : FatPartition) (toRead sector sectorOfCluster : Nat) : Step :=
  let ns := readSectorCount f p toRead sectorOfCluster
  let n := ns <<< p.bytesPerSectorShift
  let flushed : Bool × FatPartition :=
    if sector ≤ p.cacheSectorNumber ∧ sector < (p.cacheSectorNumber + ns) % U32 then
      p.cacheSyncData
    else (true, p)
  match flushed with
  | (false, p1) => Step.fail f p1
  | (true, p1) =>
    match p1.readSectors sector ns with
    | (false, p2) => Step.fail f p2
    | (true, p2) =>
      Step.next f p2 n (fun i => p2.dev (sector + i / p2.bytesPerSector) (i % p2.bytesPerSector))

/-- Lines 690-697 of `FatFile::read`: read a single sector past the cache. -/
def readSingle (f : FatFile) (p : FatPartition) (sector : Nat) : Step :=
  match p.readSector sector with
  | (false, p1) => Step.fail f p1
  | (true, p1) => Step.next f p1 p1.bytesPerSector (fun i => p1.dev sector i)

/-- Lines 652-697 of `FatFile::read`: the transfer from `sector`, by the cache,
by `readSectors` or by `readSector`. -/
def readTransfer (f : FatFile) (p : FatPartition) (toRead offset sector sectorOfCluster : Nat) :
    Step :=
  if offset ≠ 0 ∨ toRead < p.bytesPerSector ∨ sector = p.cacheSectorNumber then
    readCached f p toRead offset sector
  else if toRead ≥ 2 * p.bytesPerSector then
    readMulti f p toRead sector sectorOfCluster
  else
    readSingle f p sector

/-- One iteration of the loop `while (toRead)` of `FatFile::read` (lines
621-697), before the three updates `dst += n; m_curPosition += n; toRead -= n`. -/
def readStep (f : FatFile) (p : FatPartition) (toRead : Nat) : Step :=
  let offset := f.curPosition &&& p.sectorMask
  match readLocate f p offset with
  | Locate.fail => Step.fail f p
  | Locate.stop => Step.stop f p
  | Locate.found f1 sector sectorOfCluster =>
    readTransfer f1 p toRead offset sector sectorOfCluster

/-- The loop `while (toRead)` of `FatFile::read` with an iteration budget. -/
def readLoop : Nat → FatFile → FatPartition → Nat → List Nat → Option LoopEnd
  | 0, f, p, toRead, out => if toRead = 0 then some (LoopEnd.ok f p toRead out) else none
  | fuel + 1, f, p, toRead, out =>
    if toRead = 0 then some (LoopEnd.ok f p toRead out)
    else
      match readStep f p toRead with
      | Step.fail f1 p1 => some (LoopEnd.failed f1 p1 out)
      | Step.stop f1 p1 => some (LoopEnd.ok f1 p1 toRead out)
      | Step.next f1 p1 n chunk =>
        readLoop fuel { f1 with curPosition := (f1.curPosition + n) % U32 } p1 (toRead - n)
          (out ++ (List.range n).map chunk)

/-- What a call of `read` leaves: handle, partition, the `int` result and the
bytes stored in the buffer of the caller. -/
structure ReadOut where
  file : FatFile
  part : FatPartition
  ret : Int
  data : List Nat

/-- The clamp of `nbyte` in lines 609-619 of `FatFile::read` (`tmp32` is
`uint32_t`, `tmp16` is `uint16_t`). -/
def readClamp (f : FatFile) (p : FatPartition) (nbyte : Nat) : Nat :=
  if f.isFile = true then
    let tmp32 := sub32 f.fileSize f.curPosition
    if nbyte ≥ tmp32 then tmp32 else nbyte
  else if f.isRootFixed = true then
    let tmp16 := (32 * p.rootDirEntryCount + 65536 - f.curPosition % 65536) % 65536
    if nbyte > tmp16 then tmp16 else nbyte
  else nbyte

/-- `FatFile::read` (lines 594-707); `none` when the loop does not end within
`fuel` iterations. -/
def read (fuel : Nat) (f : FatFile) (p : FatPartition) (nbyte : Nat) : Option ReadOut :=
  if f.isOpen = false ∨ f.flags.read = false then
    some { file := f.setReadError, part := p, ret := -1, data := [] }
  else
    let nbyte1 := readClamp f p nbyte
    match readLoop fuel f p nbyte1 [] with
    | none => none
    | some (LoopEnd.failed f1 p1 out) =>
      some { file := f1.setReadError, part := p1, ret := -1, data := out }
    | some (LoopEnd.ok f1 p1 toRead out) =>
      some { file := f1, part := p1, ret := toInt32 (nbyte1 - toRead), data := out }

/-- Lines 1221-1248 of `FatFile::write`: at the start of a cluster move to the
next cluster of the chain, allocating one at the end of the chain or for an
empty file. -/
def writeAcquire (f : FatFile) (p : FatPartition) (sectorOfCluster sectorOffset : Nat) :
    Bool × FatFile × FatPartition :=
  if sectorOfCluster = 0 ∧ sectorOffset = 0 then
    if f.curCluster ≠ 0 then
      match p.fatGet f.curCluster with
      | FatEntry.error => (false, f, p)
      | FatEntry.endOfChain => f.addCluster p
      | FatEntry.continues next => (true, { f with curCluster := next }, p)
    else if f.firstCluster = 0 then
      match f.addCluster p with
      | (false, f1, p1) => (false, f1, p1)
      | (true, f1, p1) => (true, { f1 with firstCluster := f1.curCluster }, p1)
    else (true, { f with curCluster := f.firstCluster }, p)
  else (true, f, p)

/-- Lines 1254-1282 of `FatFile::write`: a partial sector goes through the
cache; a sector that has become full is written out at once. -/
def writeCached (f : FatFile) (p : FatPartition) (nToWrite sector sectorOffset : Nat)
    (src : Nat → Nat) : Step :=
  let n := partCount p sectorOffset nToWrite
  let cacheOption :=
    if sectorOffset = 0 ∧ f.curPosition ≥ f.fileSize then CacheMode.reserveForWrite
    else CacheMode.forWrite
  match p.cacheFetchData sector cacheOption with
  | (false, p1) => Step.fail f p1
  | (true, p1) =>
    let p2 := { p1 with cacheData := memcpyAt p1.cacheData sectorOffset n src }
    if p2.bytesPerSector = n + sectorOffset then
      match p2.cacheSyncData with
      | (false, p3) => Step.fail f p3
      | (true, p3) => Step.next f p3 n src
    else Step.next f p2 n src

/-- Lines 1286-1290 of `FatFile::write`: the sector count `nSector` of the
multi-sector write; `maxSectors` and `nSector` are `uint8_t`. -/
def writeSectorCount (p : FatPartition) (nToWrite sectorOfCluster : Nat) : Nat :=
  let maxSectors := (p.sectorsPerCluster - sectorOfCluster) % 256
  let nSector := (nToWrite >>> p.bytesPerSectorShift) % 256
  if nSector > maxSectors then maxSectors else nSector

/-- Lines 1284-1300 of `FatFile::write`: the multi-sector write, after the
cache line is invalidated when the test of lines 1292-1293 holds. -/
def writeMulti (f : FatFile) (p : FatPartition) (nToWrite sector sectorOfCluster : Nat)
    (src : Nat → Nat) : Step :=
  let nSector := writeSectorCount p nToWrite sectorOfCluster
  let n := nSector <<< p.bytesPerSectorShift
  let p1 :=
    if sector ≤ p.cacheSectorNumber ∧ sector < (p.cacheSectorNumber + nSector) % U32 then
      p.cacheInvalidate
    else p
  match p1.writeSectors sector nSector src with
  | (false, p2) => Step.fail f p2
  | (true, p2) => Step.next f p2 n src

/-- Lines 1302-1312 of `FatFile::write`: write a single sector past the cache. -/
def writeSingle (f : FatFile) (p : FatPartition) (sector : Nat) (src : Nat → Nat) : Step :=
  let n := p.bytesPerSector
  let p1 := if p.cacheSectorNumber = sector then p.cacheInvalidate else p
  match p1.writeSector sector src with
  | (false, p2) => Step.fail f p2
  | (true, p2) => Step.next f p2 n src

/-- Lines 1249-1312 of `FatFile::write`: the transfer of the next bytes of
`src` by the cache, by `writeSectors` or by `writeSector`. -/
def writeTransfer (f : FatFile) (p : FatPartition) (nToWrite sectorOfCluster sectorOffset : Nat)
    (src : Nat → Nat) : Step :=
  let sector := p.clusterStartSector f.curCluster + sectorOfCluster
  if sectorOffset ≠ 0 ∨ nToWrite < p.bytesPerSector then
    writeCached f p nToWrite sector sectorOffset src
  else if nToWrite ≥ 2 * p.bytesPerSector then
    writeMulti f p nToWrite sector sectorOfCluster src
  else
    writeSingle f p sector src

/-- One iteration of the loop `while (nToWrite)` of `FatFile::write` (lines
1219-1312), before the updates `m_curPosition += n; src += n; nToWrite -= n`. -/
def writeStep (f : FatFile) (p : FatPartition) (nToWrite : Nat) (src : Nat → Nat) : Step :=
  let sectorOfCluster := p.sectorOfCluster f.curPosition
  let sectorOffset := f.curPosition &&& p.sectorMask
  match writeAcquire f p sectorOfCluster sectorOffset with
  | (false, f1, p1) => Step.fail f1 p1
  | (true, f1, p1) => writeTransfer f1 p1 nToWrite sectorOfCluster sectorOffset src

/-- The loop `while (nToWrite)` of `FatFile::write` with an iteration budget;
`src` is the rest of the buffer of the caller. -/
def writeLoop : Nat → FatFile → FatPartition → Nat → (Nat → Nat) → Option LoopEnd
  | 0, f, p, nToWrite, _ => if nToWrite = 0 then some (LoopEnd.ok f p nToWrite []) else none
  | fuel + 1, f, p, nToWrite, src =>
    if nToWrite = 0 then some (LoopEnd.ok f p nToWrite [])
    else
      match writeStep f p nToWrite src with
      | Step.fail f1 p1 => some (LoopEnd.failed f1 p1 [])
      | Step.stop f1 p1 => some (LoopEnd.failed f1 p1 [])
      | Step.next f1 p1 n _ =>
        writeLoop fuel { f1 with curPosition := (f1.curPosition + n) % U32 } p1 (nToWrite - n)
          (fun i => src (n + i))

/-- What a call of `write` leaves: handle, partition and the `size_t` result. -/
structure WriteOut where
  file : FatFile
  part : FatPartition
  ret : Nat

/-- The exit `fail:` of `FatFile::write` (lines 1334-1337). -/
def writeFail (f : FatFile) (p : FatPartition) : WriteOut :=
  { file := f.setWriteError, part := p, ret := SIZE_MAX }

/-- Lines 1317-1324 of `FatFile::write`: the update of `m_fileSize` and of
`F_FILE_DIR_DIRTY` after the loop. -/
def writeMark (f : FatFile) (p : FatPartition) : FatFile :=
  if f.curPosition > f.fileSize then { f with fileSize := f.curPosition }.setDirDirty
  else if p.dateTime.isSome = true then f.setDirDirty
  else f

/-- Lines 1326-1332 of `FatFile::write`: the `sync()` of an O_SYNC handle,
then `return nbyte`. -/
def writeSync (f : FatFile) (p : FatPartition) (nbyte : Nat) : WriteOut :=
  if f.flags.sync = true then
    match f.sync p with
    | (false, f2, p2) => writeFail f2 p2
    | (true, f2, p2) => { file := f2, part := p2, ret := nbyte }
  else { file := f, part := p, ret := nbyte }

/-- Lines 1317-1332 of `FatFile::write`, the part after the loop. -/
def writeFinish (f : FatFile) (p : FatPartition) (nbyte : Nat) : WriteOut :=
  writeSync (writeMark f p) p nbyte

/-- `FatFile::write` (lines 1193-1338); `buf i` is byte `i` of the buffer of
the caller; `none` when the loop does not end within `fuel` iterations. -/
def write (fuel : Nat) (f : FatFile) (p : FatPartition) (buf : Nat → Nat) (nbyte : Nat) :
    Option WriteOut :=
  if f.isFile = false ∨ f.flags.write = false then some (writeFail f p)
  else
    match (if f.flags.append = true then f.seekSet p f.fileSize else (true, f)) with
    | (false, f1) => some (writeFail f1 p)
    | (true, f1) =>
      if nbyte > 4294967295 - f1.curPosition then some (writeFail f1 p)
      else
        match writeLoop fuel f1 p nbyte buf with
        | none => none
        | some (LoopEnd.failed f2 p2 _) => some (writeFail f2 p2)
        | some (LoopEnd.ok f2 p2 _ _) => some (writeFinish f2 p2 nbyte)

/-- Lines 1154-1171 of `FatFile::truncate`: find the chain `toFree` behind the
current position and cut it off. -/
def truncateCut (f : FatFile) (p : FatPartition) : Bool × FatFile × FatPartition × Nat :=
  if f.curCluster ≠ 0 then
    match p.fatGet f.curCluster with
    | FatEntry.error => (false, f, p, 0)
    | FatEntry.endOfChain => (true, f, p, 0)
    | FatEntry.continues next =>
      match p.fatPutEOC f.curCluster with
      | (ok, p1) => (ok, f, p1, next)
  else (true, { f with firstCluster := 0 }, p, f.firstCluster)

/-- `FatFile::truncate` (lines 1144-1191). -/
def truncate (f : FatFile) (p : FatPartition) : Bool × FatFile × FatPartition :=
  if f.isFile = false ∨ f.flags.write = false then (false, f, p)
  else if f.firstCluster = 0 then (true, f, p)
  else
    match truncateCut f p with
    | (false, f1, p1, _) => (false, f1, p1)
    | (true, f1, p1, toFree) =>
      let freed : Bool × FatPartition := if toFree ≠ 0 then p1.freeChain toFree else (true, p1)
      match freed with
      | (false, p2) => (false, f1, p2)
      | (true, p2) =>
        let f2 := { f1 with fileSize := f1.curPosition }.setDirDirty
        f2.sync p2

/-- `FatFile::preAllocate` (lines 123-143). -/
def preAllocate (f : FatFile) (p : FatPartition) (length : Nat) :
    Bool × FatFile × FatPartition :=
  if length = 0 ∨ f.isFile = false ∨ f.flags.write = false ∨ f.firstCluster ≠ 0 then
    (false, f, p)
  else
    let need := 1 + ((length - 1) >>> p.bytesPerClusterShift)
    match p.allocContiguous need f.firstCluster with
    | (false, p1, c) => (false, { f with firstCluster := c }, p1)
    | (true, p1, c) =>
      let f1 := { f with firstCluster := c, fileSize := length }.setDirDirty
      f1.sync p1

/-- What `contiguousRange` leaves: the result and the two out-parameters
(`none` when they were not written). -/
structure RangeOut where
  ok : Bool
  bgnSector : Option Nat
  endSector : Option Nat
deriving DecidableEq, Repr

/-- The loop `for (uint32_t c = m_firstCluster; ; c++)` of
`FatFile::contiguousRange` (lines 98-117) with an iteration budget. -/
def contiguousLoop (f : FatFile) (p : FatPartition) : Nat → Nat → Option RangeOut
  | 0, _ => none
  | fuel + 1, c =>
    match p.fatGet c with
    | FatEntry.error => some { ok := false, bgnSector := none, endSector := none }
    | FatEntry.endOfChain =>
      some { ok := true
             bgnSector := some (p.clusterStartSector f.firstCluster)
             endSector := some (p.clusterStartSector c + p.sectorsPerCluster - 1) }
    | FatEntry.continues next =>
      if next ≠ c + 1 then some { ok := false, bgnSector := none, endSector := none }
      else contiguousLoop f p fuel (c + 1)

/-- `FatFile::contiguousRange` (lines 92-121); `none` when the loop does not
end within `fuel` iterations. -/
def contiguousRange (fuel : Nat) (f : FatFile) (p : FatPartition) : Option RangeOut :=
  if f.firstCluster = 0 then some { ok := false, bgnSector := none, endSector := none }
  else contiguousLoop f p fuel f.firstCluster

end FatFile

/-! ## Directory entries and the operations on them -/

/-- Little-endian load of a 16-bit value (`getLe16`); the bytes of a sector
buffer are taken modulo 256. -/
def getLe16 (d : Nat → Nat) (off : Nat) : Nat :=
  d off % 256 + 256 * (d (off + 1) % 256)

/-- Little-endian load of a 32-bit value (`getLe32`). -/
def getLe32 (d : Nat → Nat) (off : Nat) : Nat :=
  d off % 256 + 256 * (d (off + 1) % 256) + 65536 * (d (off + 2) % 256)
    + 16777216 * (d (off + 3) % 256)

/-- Modelled from the spec: `isFileOrSubdir(entry)` of section 4.1 for the
32-byte slot at offset `off` of a sector buffer: "the entry is not a volume
label, not a long-name slot, and `name[0]` is neither 0x00 nor 0xE5".  The
attribute byte is byte 11; VOLUME_ID is bit 0x08 of the FAT format and a
long-name slot has the attribute byte 0x0F. -/
def isFileOrSubdir (d : Nat → Nat) (off : Nat) : Bool :=
  decide (d (off + 11) &&& 8 = 0 ∧ d (off + 11) ≠ 15 ∧ d off ≠ 0 ∧ d off ≠ 229)

/-- Modelled from the spec: `isFile(entry)` of section 4.1 (`isFileDir` in the
source): `attributes & (DIRECTORY | VOLUME_ID) == 0`, DIRECTORY being bit 0x10
and VOLUME_ID bit 0x08 of the FAT format. -/
def isFileDir (d : Nat → Nat) (off : Nat) : Bool :=
  decide (d (off + 11) &&& 24 = 0)

/-- Modelled from the spec: the open flags of section 6, "READ, WRITE, APPEND,
SYNC, TRUNC, AT_END, CREAT, EXCL (bitset)", the argument `oflag`. -/
structure OFlag where
  read : Bool
  write : Bool
  append : Bool
  sync : Bool
  trunc : Bool
  atEnd : Bool
  creat : Bool
  excl : Bool
deriving DecidableEq, Repr

/-- Modelled from the spec: the argument `flags` of `timestamp`, "the chosen
subset (ACCESS, CREATE, WRITE)", the bits T_ACCESS, T_CREATE and T_WRITE. -/
structure TFlag where
  access : Bool
  create : Bool
  write : Bool
deriving DecidableEq, Repr

/-- Modelled from the spec: `FS_DATE(year, month, day)`,
`((year - 1980) << 9) | (month << 5) | day`, as a `uint16_t`. -/
def FS_DATE (year month day : Nat) : Nat :=
  (((year - 1980) <<< 9) ||| (month <<< 5) ||| day) % 65536

/-- Modelled from the spec: `FS_TIME(hour, minute, second)`,
`(hour << 11) | (minute << 5) | (second >> 1)`, as a `uint16_t`. -/
def FS_TIME (hour minute second : Nat) : Nat :=
  ((hour <<< 11) ||| (minute <<< 5) ||| (second >>> 1)) % 65536

/-- Modelled from the spec: the build option `USE_LONG_FILE_NAMES`; the
library of the spec handles long file names. -/
def USE_LONG_FILE_NAMES : Bool := true

/-- The handle after `memset(this, 0, sizeof(FatFile))`: every member is zero,
so `m_attr` is `FILE_ATTR_CLOSED`. -/
def zeroFile : FatFile :=
  { kind := FileKind.closed
    readOnly := false
    flags := { read := false, write := false, append := false, sync := false, dirDirty := false }
    error := { readError := false, writeError := false }
    curCluster := 0
    curPosition := 0
    dirCluster := 0
    dirSector := 0
    dirIndex := 0
    fileSize := 0
    firstCluster := 0
    lfnOrd := 0 }

/-- Modelled from the spec: the functions of the library that `rename` and
`rmdir` call and that are not among the sources: `file.open(dirFile, newPath,
O_CREAT | O_EXCL | O_WRITE)` and `file.mkdir(dirFile, newPath, false)`, which
get the destination directory and the partition and leave the new handle
`file`, and `remove()`.  The callers are embedded for every choice of them. -/
structure Collab where
  openNew : FatFile → FatPartition → Bool × FatFile × FatPartition
  mkdirNew : FatFile → FatPartition → Bool × FatFile × FatPartition
  remove : FatFile → FatPartition → Bool × FatFile × FatPartition

namespace FatFile

/-- Modelled from the spec: `isSubDir()`, the handle is a subdirectory. -/
def isSubDir (f : FatFile) : Bool := decide (f.kind = FileKind.subdir)

/-- Modelled from the spec: `isLFN()`, the entry has long-name slots (`lfnOrd != 0`). -/
def isLFN (f : FatFile) : Bool := decide (f.lfnOrd ≠ 0)

/-- Modelled from the spec: `isReadOnly()`, the READ_ONLY attribute. -/
def isReadOnly (f : FatFile) : Bool := f.readOnly

/-- Modelled from the spec: `getError()`, the sticky error bits are not all clear. -/
def getError (f : FatFile) : Bool := f.error.readError || f.error.writeError

/-- Modelled from the spec: `rewind()`, which is `seekSet(0)` with the result dropped. -/
def rewind (f : FatFile) (p : FatPartition) : FatFile := (f.seekSet p 0).2

/-- The exit `fail:` of `openCachedEntry` (lines 494-496): `m_attr = FILE_ATTR_CLOSED`. -/
def openFail (f : FatFile) (p : FatPartition) : Bool × FatFile × FatPartition :=
  (false, { f with kind := FileKind.closed }, p)

/-- Lines 473-492 of `FatFile::openCachedEntry`: the O_TRUNC branch or the copy
of `firstCluster` and `fileSize` from the entry, then the O_AT_END seek. -/
def openFinish (f : FatFile) (p : FatPartition) (oflag : OFlag) (firstCluster size : Nat) :
    Bool × FatFile × FatPartition :=
  let step : Bool × FatFile × FatPartition :=
    if oflag.trunc = true then
      if oflag.write = false then (false, f, p)
      else
        let freed : Bool × FatPartition :=
          if firstCluster ≠ 0 then p.freeChain firstCluster else (true, p)
        match freed with
        | (false, p1) => (false, f, p1)
        | (true, p1) => (true, f.setDirDirty, p1)
    else (true, { f with firstCluster := firstCluster, fileSize := size }, p)
  match step with
  | (false, f1, p1) => openFail f1 p1
  | (true, f1, p1) =>
    if oflag.atEnd = true then
      match f1.seekSet p1 f1.fileSize with
      | (false, f2) => openFail f2 p1
      | (true, f2) => (true, f2, p1)
    else (true, f1, p1)

/-- `FatFile::openCachedEntry` (lines 436-497).  The entry is slot
`dirIndex & 0xF` of the cache line (`cacheAddress()`); of `m_attr` the model
keeps the type (FILE when `isFileDir`, else SUBDIR, the DIRECTORY bit of
`FILE_ATTR_COPY`) and the READ_ONLY bit; `m_flags = oflag & F_OFLAG` keeps
READ, WRITE, APPEND and SYNC. -/
def openCachedEntry (dirFile : FatFile) (p : FatPartition) (dirIndex : Nat) (oflag : OFlag)
    (lfnOrd : Nat) : Bool × FatFile × FatPartition :=
  let f0 : FatFile := { zeroFile with dirIndex := dirIndex, dirCluster := dirFile.firstCluster }
  let off := 32 * (dirIndex &&& 15)
  let dir := p.cacheData
  if isFileOrSubdir dir off = false then openFail f0 p
  else
    let f1 : FatFile :=
      { f0 with kind := if isFileDir dir off = true then FileKind.file else FileKind.subdir,
                readOnly := decide (dir (off + 11) &&& 1 ≠ 0),
                lfnOrd := lfnOrd }
    if (oflag.write = true ∨ oflag.trunc = true ∨ oflag.atEnd = true)
        ∧ (f1.isSubDir = true ∨ f1.isReadOnly = true) then openFail f1 p
    else
      let f2 : FatFile :=
        { f1 with flags := { read := oflag.read, write := oflag.write, append := oflag.append,
                             sync := oflag.sync, dirDirty := false },
                  dirSector := p.cacheSectorNumber }
      let firstCluster := (getLe16 dir (off + 20) <<< 16) ||| getLe16 dir (off + 26)
      openFinish f2 p oflag firstCluster (getLe32 dir (off + 28))

/-- Lines 1123-1137 of `FatFile::timestamp`: the stores in the cached entry
at offset `off` (accessDate at 18, createDate at 16, createTime at 14,
creationTimeTenths at 13, modifyDate at 24, modifyTime at 22). -/
def stampEntry (d : Nat → Nat) (off : Nat) (flags : TFlag)
    (year month day hour minute second : Nat) : Nat → Nat :=
  let dirDate := FS_DATE year month day
  let dirTime := FS_TIME hour minute second
  let d1 := if flags.access = true then setLe16 d (off + 18) dirDate else d
  let d2 :=
    if flags.create = true then
      setByte (setLe16 (setLe16 d1 (off + 16) dirDate) (off + 14) dirTime) (off + 13)
        (if second &&& 1 ≠ 0 then 100 else 0)
    else d1
  if flags.write = true then setLe16 (setLe16 d2 (off + 24) dirDate) (off + 22) dirTime else d2

/-- `FatFile::timestamp` (lines 1094-1142). -/
def timestamp (f : FatFile) (p : FatPartition) (flags : TFlag)
    (year month day hour minute second : Nat) : Bool × FatFile × FatPartition :=
  if f.isFile = false ∨ year < 1980 ∨ year > 2107 ∨ month < 1 ∨ month > 12 ∨ day < 1
      ∨ day > 31 ∨ hour > 23 ∨ minute > 59 ∨ second > 59 then (false, f, p)
  else
    match f.sync p with
    | (false, f1, p1) => (false, f1, p1)
    | (true, f1, p1) =>
      match f1.cacheDirEntry p1 CacheMode.forWrite with
      | (false, p2) => (false, f1, p2)
      | (true, p2) =>
        let d := stampEntry p2.cacheData f1.dirOffset flags year month day hour minute second
        let p3 := { p2 with cacheData := d }
        match p3.cacheSync with
        | (ok, p4) => (ok, f1, p4)

end FatFile

namespace FatFile

/-- What `readDirCache` leaves: the slot `i` of the entry in the cache line
(`none` for the null pointer), the handle and the partition. -/
structure DirCacheOut where
  slot : Option Nat
  file : FatFile
  part : FatPartition

/-- `FatFile::readDirCache` (lines 738-758); `none` when the `read` of one
byte does not end within `fuel` iterations.  The result of `read` is stored in
an `int8_t`; it is 1 exactly when `read` returned 1. -/
def readDirCache (fuel : Nat) (f : FatFile) (p : FatPartition) (skipReadOk : Bool) :
    Option DirCacheOut :=
  let i := (f.curPosition >>> 5) &&& 15
  if i = 0 ∨ skipReadOk = false then
    match f.read fuel p 1 with
    | none => none
    | some r =>
      if r.ret ≠ 1 then some { slot := none, file := r.file, part := r.part }
      else
        some { slot := some i
               file := { r.file with curPosition := (r.file.curPosition + 31) % U32 }
               part := r.part }
  else
    some { slot := some i, file := { f with curPosition := (f.curPosition + 32) % U32 }, part := p }

/-- The loop `while (1)` of `FatFile::rmdir` (lines 888-911) with an iteration
budget: `true` when the directory is empty (the `break`s), `false` for
`goto fail`.  `fuel` also bounds the iterations of every `read`. -/
def rmdirScan (fuel : Nat) : Nat → FatFile → FatPartition → Option (Bool × FatFile × FatPartition)
  | 0, _, _ => none
  | k + 1, f, p =>
    match readDirCache fuel f p true with
    | none => none
    | some r =>
      match r.slot with
      | none => some (!r.file.getError, r.file, r.part)
      | some i =>
        let name0 := r.part.cacheData (32 * i)
        if name0 = 0 then some (true, r.file, r.part)
        else if name0 = 229 ∨ name0 = 46 then rmdirScan fuel k r.file r.part
        else if isFileOrSubdir r.part.cacheData (32 * i) = true then some (false, r.file, r.part)
        else rmdirScan fuel k r.file r.part

/-- `FatFile::rmdir` (lines 879-919); `remove()` is the collaborator `c.remove`.
`none` when the scan does not end within `fuel` iterations.  The assignment
`m_attr = FILE_ATTR_FILE` also clears the READ_ONLY bit. -/
def rmdir (c : Collab) (fuel : Nat) (f : FatFile) (p : FatPartition) :
    Option (Bool × FatFile × FatPartition) :=
  if f.isSubDir = false ∨ (USE_LONG_FILE_NAMES = false ∧ f.isLFN = true) then some (false, f, p)
  else
    match rmdirScan fuel fuel (f.rewind p) p with
    | none => none
    | some (false, f1, p1) => some (false, f1, p1)
    | some (true, f1, p1) =>
      let g : FatFile :=
        { f1 with kind := FileKind.file, readOnly := false,
                  flags := { f1.flags with write := true } }
      some (c.remove g p1)

/-- Lines 841-864 of `FatFile::rename`: for a renamed directory, fetch the
new `..` entry (slot 1 of the cluster that `mkdir` made), free that cluster and
store the entry in slot 1 of the first cluster of the directory. -/
def renameDotDot (f : FatFile) (p : FatPartition) (dirCluster : Nat) : Bool × FatPartition :=
  if dirCluster ≠ 0 then
    match p.cacheFetchData (p.clusterStartSector dirCluster) CacheMode.forRead with
    | (false, p1) => (false, p1)
    | (true, p1) =>
      let entry : Nat → Nat := fun k => p1.cacheData (32 + k)
      match p1.freeChain dirCluster with
      | (false, p2) => (false, p2)
      | (true, p2) =>
        match p2.cacheFetchData (p2.clusterStartSector f.firstCluster) CacheMode.forWrite with
        | (false, p3) => (false, p3)
        | (true, p3) => (true, { p3 with cacheData := memcpyAt p3.cacheData 32 32 entry })
  else (true, p)

/-- Lines 829-838 of `FatFile::rename`: the new entry, at offset `off` of the
cache line, gets the bytes 13..31 of the saved entry (`memcpy` of
`sizeof(entry) - sizeof(dir->name) - 2 = 19` bytes from `creationTimeTenths`
on) and its attribute byte 11. -/
def renameEntry (d : Nat → Nat) (off : Nat) (entry : Nat → Nat) : Nat → Nat :=
  setByte (memcpyAt d (off + 13) 19 (fun k => entry (13 + k))) (off + 11) (entry 11)

/-- Lines 820-876 of `FatFile::rename`, after the new entry `file` was made. -/
def renameInto (c : Collab) (f oldFile file : FatFile) (p : FatPartition) (entry : Nat → Nat)
    (dirCluster : Nat) : Bool × FatFile × FatPartition :=
  let f2 : FatFile :=
    { f with dirSector := file.dirSector, dirIndex := file.dirIndex, lfnOrd := file.lfnOrd,
             dirCluster := file.dirCluster }
  match f2.cacheDirEntry p CacheMode.forWrite with
  | (false, p4) => (false, f2, p4)
  | (true, p4) =>
    let p5 := { p4 with cacheData := renameEntry p4.cacheData f2.dirOffset entry }
    match renameDotDot f2 p5 dirCluster with
    | (false, p6) => (false, f2, p6)
    | (true, p6) =>
      let old : FatFile :=
        { oldFile with firstCluster := 0, kind := FileKind.file, readOnly := false,
                       flags := { read := false, write := true, append := false, sync := false,
                                  dirDirty := false } }
      match c.remove old p6 with
      | (false, _, p7) => (false, f2, p7)
      | (true, _, p7) =>
        match p7.cacheSync with
        | (ok, p8) => (ok, f2, p8)

/-- `FatFile::rename` (lines 772-877).  `sameVolume` is the outcome of the
test `m_part == dirFile->m_part`; the result of the first `sync()` is dropped,
as in the source. -/
def rename (c : Collab) (f dirFile : FatFile) (sameVolume : Bool) (p : FatPartition) :
    Bool × FatFile × FatPartition :=
  if (f.isFile || f.isSubDir) = false then (false, f, p)
  else if USE_LONG_FILE_NAMES = false ∧ f.isLFN = true then (false, f, p)
  else if sameVolume = false then (false, f, p)
  else
    match f.sync p with
    | (_, f1, p1) =>
      match f1.cacheDirEntry p1 CacheMode.forRead with
      | (false, p2) => (false, f1, p2)
      | (true, p2) =>
        let entry : Nat → Nat := fun k => p2.cacheData (f1.dirOffset + k)
        let made := if f1.isFile = true then c.openNew dirFile p2 else c.mkdirNew dirFile p2
        match made with
        | (false, _, p3) => (false, f1, p3)
        | (true, file, p3) =>
          renameInto c f1 f1 file p3 entry (if f1.isFile = true then 0 else file.firstCluster)

end FatFile

namespace FatFile

/-- The loop `for (uint8_t i = 1; i < sectorsPerCluster(); i++)` of
`addDirCluster` (lines 60-65): write the zeroed cache buffer to `count` more
sectors, `sector + i`, `sector + i + 1`, ... -/
def zeroSectors (sector : Nat) : Nat → Nat → FatPartition → Bool × FatPartition
  | 0, _, p => (true, p)
  | count + 1, i, p =>
    match p.writeSector (sector + i) p.cacheData with
    | (false, p1) => (false, p1)
    | (true, p1) => zeroSectors sector count (i + 1) p1

/-- `FatFile::addDirCluster` (lines 32-69).  The `memset` zeroes the
`bytesPerSector()` bytes of the cache buffer. -/
def addDirCluster (f : FatFile) (p : FatPartition) : Bool × FatFile × FatPartition :=
  if f.isRootFixed = true then (false, f, p)
  else if f.curPosition ≥ 512 * 4095 then (false, f, p)
  else
    match f.addCluster p with
    | (false, f1, p1) => (false, f1, p1)
    | (true, f1, p1) =>
      let sector := p1.clusterStartSector f1.curCluster
      match p1.cacheFetchData sector CacheMode.reserveForWrite with
      | (false, p2) => (false, f1, p2)
      | (true, p2) =>
        let p3 := { p2 with cacheData := memcpyAt p2.cacheData 0 p2.bytesPerSector (fun _ => 0) }
        match zeroSectors sector (p3.sectorsPerCluster - 1) 1 p3 with
        | (false, p4) => (false, f1, p4)
        | (true, p4) =>
          (true, { f1 with curPosition := (f1.curPosition + p4.bytesPerCluster) % U32 }, p4)

/-- What `fgets` leaves: handle, partition, the `int` result, the characters
stored in `str` before the terminator, whether the terminator `'\0'` was
stored, and the results of the calls of `read`, oldest first. -/
structure FgetsOut where
  file : FatFile
  part : FatPartition
  ret : Int
  str : List Nat
  terminated : Bool
  reads : List Int

/-- The test `strchr(delim, ch)` of `fgets` for a delimiter string `d`
(without its terminator): `ch` occurs in `d`, or is the terminator itself. -/
def isDelim (delim : Option (List Nat)) (ch : Nat) : Bool :=
  match delim with
  | none => decide (ch = 10)
  | some d => decide (ch ∈ d ∨ ch = 0)

/-- The loop `while ((n + 1) < num && (r = read(&ch, 1)) == 1)` of
`FatFile::fgets` (lines 170-185) with an iteration budget; `str` holds the `n`
characters stored so far, `r` the value of the variable `r`. -/
def fgetsLoop (fuel : Nat) (num : Int) (delim : Option (List Nat)) :
    Nat → FatFile → FatPartition → List Nat → Int → List Int →
      Option (FatFile × FatPartition × List Nat × Int × List Int)
  | 0, _, _, _, _, _ => none
  | k + 1, f, p, str, r, reads =>
    if ¬ ((str.length : Int) + 1 < num) then some (f, p, str, r, reads)
    else
      match f.read fuel p 1 with
      | none => none
      | some ro =>
        if ro.ret ≠ 1 then some (ro.file, ro.part, str, ro.ret, reads ++ [ro.ret])
        else
          let ch := ro.data.headD 0
          if ch = 13 then fgetsLoop fuel num delim k ro.file ro.part str ro.ret (reads ++ [ro.ret])
          else if isDelim delim ch = true then
            some (ro.file, ro.part, str ++ [ch], ro.ret, reads ++ [ro.ret])
          else
            fgetsLoop fuel num delim k ro.file ro.part (str ++ [ch]) ro.ret (reads ++ [ro.ret])

/-- `FatFile::fgets` (lines 166-192); `delim` is `none` for the null pointer;
`none` when the loop or a `read` does not end within `fuel` iterations. -/
def fgets (fuel : Nat) (f : FatFile) (p : FatPartition) (num : Int) (delim : Option (List Nat)) :
    Option FgetsOut :=
  match fgetsLoop fuel num delim fuel f p [] (-1) [] with
  | none => none
  | some (f1, p1, str, r, reads) =>
    if r < 0 then
      some { file := f1, part := p1, ret := -1, str := str, terminated := false, reads := reads }
    else
      some { file := f1, part := p1, ret := (str.length : Int), str := str, terminated := true,
             reads := reads }

/-- Modelled from the spec: `read()` without arguments (declared in
`FatFile.h`, not among the sources), the one-byte read that `peek` performs:
the byte read, as a value in 0..255, or -1. -/
def readByte (fuel : Nat) (f : FatFile) (p : FatPartition) :
    Option (Int × FatFile × FatPartition) :=
  match f.read fuel p 1 with
  | none => none
  | some r => some (if r.ret = 1 then ((r.data.headD 0 % 256 : Nat) : Int) else -1, r.file, r.part)

/-- `FatFile::peek` (lines 585-592). -/
def peek (fuel : Nat) (f : FatFile) (p : FatPartition) : Option (Int × FatFile × FatPartition) :=
  match f.readByte fuel p with
  | none => none
  | some (c, f1, p1) =>
    some (c, { f1 with curPosition := f.curPosition, curCluster := f.curCluster }, p1)

/-- What `readDir` leaves: the `int8_t` result, the handle, the partition and
the 32 bytes that the last `read` stored in `*dir`. -/
structure ReadDirOut where
  ret : Int
  file : FatFile
  part : FatPartition
  dir : Nat → Nat

/-- The loop `while (1)` of `FatFile::readDir` (lines 716-733) with an
iteration budget; `dir` is the content of `*dir`. -/
def readDirLoop (fuel : Nat) : Nat → FatFile → FatPartition → (Nat → Nat) → Option ReadDirOut
  | 0, _, _, _ => none
  | k + 1, f, p, dir =>
    match f.read fuel p 32 with
    | none => none
    | some r =>
      let dir1 : Nat → Nat := fun i => if i < r.data.length then r.data.getD i 0 else dir i
      if r.ret ≠ 32 then
        some { ret := if r.ret = 0 then 0 else -1, file := r.file, part := r.part, dir := dir1 }
      else if dir1 0 = 0 then some { ret := 0, file := r.file, part := r.part, dir := dir1 }
      else if dir1 0 = 229 ∨ dir1 0 = 46 then readDirLoop fuel k r.file r.part dir1
      else if isFileOrSubdir dir1 0 = true then
        some { ret := r.ret, file := r.file, part := r.part, dir := dir1 }
      else readDirLoop fuel k r.file r.part dir1

/-- `FatFile::readDir` (lines 709-734); `dir` is the content of `*dir` before
the call. -/
def readDir (fuel : Nat) (f : FatFile) (p : FatPartition) (dir : Nat → Nat) : Option ReadDirOut :=
  if f.isDir = false ∨ f.curPosition &&& 31 ≠ 0 then
    some { ret := -1, file := f, part := p, dir := dir }
  else readDirLoop fuel fuel f p dir

end FatFile

/-! ## Concrete partitions and handles used to exercise the definitions -/

/-- An allocation policy: the lowest free cluster in `2 .. last`. -/
def lowestFree (last : Nat) (fat : Nat → FatEntry) (_hint : Nat) : Option Nat :=
  (List.range (last + 1)).find? (fun c => decide (2 ≤ c ∧ fat c = FatEntry.continues 0))

/-- A contiguous allocation policy: the lowest run of `n` free clusters in `2 .. last`. -/
def lowestRun (last : Nat) (fat : Nat → FatEntry) (n : Nat) : Option Nat :=
  (List.range (last + 1)).find? (fun c =>
    decide (2 ≤ c ∧ c + n ≤ last + 1) &&
      (List.range n).all (fun i => decide (fat (c + i) = FatEntry.continues 0)))

/-- A blank partition with 512-byte sectors, `2 ^ spcShift` sectors per
cluster, clusters `2 .. last` all free, data sectors starting at sector 100,
an empty cache and no date/time callback. -/
def blankPartition (spcShift last : Nat) : FatPartition :=
  { bytesPerSectorShift := 9
    sectorsPerClusterShift := spcShift
    clusterStartSector := fun c => 100 + (c - 2) * 2 ^ spcShift
    rootDirStart := 2
    rootDirEntryCount := 512
    lastCluster := last
    allocSearch := lowestFree last
    contigSearch := lowestRun last
    badSector := fun _ => false
    dateTime := none
    fat := fun _ => FatEntry.continues 0
    dev := fun _ _ => 0
    cacheSector := 4294967295
    cacheDirty := false
    cacheData := fun _ => 0
    log := [] }

/-- A freshly opened empty regular file, open for reading and writing, whose
directory entry is slot 3 of sector 50. -/
def emptyFile : FatFile :=
  { kind := FileKind.file
    readOnly := false
    flags := { read := true, write := true, append := false, sync := false, dirDirty := false }
    error := { readError := false, writeError := false }
    curCluster := 0
    curPosition := 0
    dirCluster := 0
    dirSector := 50
    dirIndex := 3
    fileSize := 0
    firstCluster := 0
    lfnOrd := 0 }

/-- A buffer of the caller with a recognisable pattern. -/
def testBuf : Nat → Nat := fun i => i % 251 + 1

/-- The empty file `emptyFile`, opened with O_APPEND. -/
def appendFile : FatFile :=
  { emptyFile with flags := { emptyFile.flags with append := true } }

/-- The blank partition with one-sector clusters in which the clusters 2, 3, 4
form the chain `2 -> 3 -> 4 -> end of chain`. -/
def chainPartition : FatPartition :=
  { blankPartition 0 9 with
    fat := fun c =>
      if c = 2 then FatEntry.continues 3
      else if c = 3 then FatEntry.continues 4
      else if c = 4 then FatEntry.endOfChain
      else FatEntry.continues 0 }

/-- A file of 1025 bytes on `chainPartition` (clusters 2, 3, 4), positioned at
byte 600, which lies in its second cluster. -/
def chainFile : FatFile :=
  { emptyFile with firstCluster := 2, fileSize := 1025, curPosition := 600, curCluster := 3 }

/-- The result of writing 1025 bytes of `testBuf` to `emptyFile` on the blank
partition with one-sector clusters. -/
def wrote1025 : FatFile.WriteOut :=
  (FatFile.write 10 emptyFile (blankPartition 0 9) testBuf 1025).getD
    (FatFile.writeFail emptyFile (blankPartition 0 9))

/-- The blank partition with 128 sectors (64 KiB) per cluster in which the
clusters 2, 3, 4 form the chain `2 -> 3 -> 4 -> end of chain`. -/
def bigPartition : FatPartition :=
  { blankPartition 7 9 with
    fat := fun c =>
      if c = 2 then FatEntry.continues 3
      else if c = 3 then FatEntry.continues 4
      else if c = 4 then FatEntry.endOfChain
      else FatEntry.continues 0 }

/-- A file of 196608 bytes (three clusters of 64 KiB) on `bigPartition`,
positioned at its start. -/
def bigFile : FatFile :=
  { emptyFile with firstCluster := 2, fileSize := 196608 }

/-- The file `bigFile` positioned at byte 512, the second sector of its first cluster. -/
def bigFileAt512 : FatFile :=
  { bigFile with curPosition := 512, curCluster := 2 }

/-- The file `bigFile` positioned at byte 65536, the end of its first cluster. -/
def bigFileAt64k : FatFile :=
  { bigFile with curPosition := 65536, curCluster := 2 }

/-- The blank partition with one-sector clusters in which cluster 2 alone is a
chain (`2 -> end of chain`). -/
def oneClusterPartition : FatPartition :=
  { blankPartition 0 9 with
    fat := fun c => if c = 2 then FatEntry.endOfChain else FatEntry.continues 0 }

/-- A file of 512 bytes (the one cluster 2) on `oneClusterPartition`, opened
with O_APPEND and positioned at its start. -/
def appendFile512 : FatFile :=
  { appendFile with firstCluster := 2, fileSize := 512 }

/-- A blank partition with sectors of 4 bytes and two sectors per cluster. -/
def tinyPartition : FatPartition :=
  { blankPartition 1 9 with bytesPerSectorShift := 2 }

/-- A byte sequence of 11 bytes: two full sectors of `tinyPartition` and a
part of a third. -/
def tripBytes : List Nat := [3, 1, 4, 1, 5, 9, 2, 6, 5, 3, 5]

/-- The result of writing `tripBytes` to `emptyFile` on `tinyPartition`. -/
def tripWrote : FatFile.WriteOut :=
  (FatFile.write 4 emptyFile tinyPartition (fun i => tripBytes.getD i 0) tripBytes.length).getD
    (FatFile.writeFail emptyFile tinyPartition)

/-- The handle of `tripWrote` after `seekSet(0)`. -/
def tripSeek : FatFile := (tripWrote.file.seekSet tripWrote.part 0).2

/-- A regular file of 100 bytes without a cluster (`firstCluster = 0`),
positioned at byte 50: a state that violates invariant 4 of the spec. -/
def skewFile : FatFile :=
  { emptyFile with fileSize := 100, curPosition := 50 }

/-- An empty regular file without a cluster whose position is 5 and whose
current cluster is 7: a state that violates invariant 2 of the spec. -/
def strayFile : FatFile :=
  { emptyFile with curPosition := 5, curCluster := 7 }

/-- The 512 bytes of a directory sector whose slot 3 (bytes 96..127) holds the
short entry of the file `A.TXT`: attributes ARCHIVE, dates 1980-01-01, first
cluster 2, file size 1025; slot 4 (bytes 128..159) holds the short entry of
the empty file `B.TXT` (first cluster 0, file size 0); all other slots are
zero (never used). -/
def dirSectorData : Nat → Nat := fun i =>
  if 96 ≤ i ∧ i < 128 then
    [65, 32, 32, 32, 32, 32, 32, 32, 84, 88, 84, 32, 0, 0, 0, 0,
     33, 0, 33, 0, 0, 0, 0, 0, 33, 0, 2, 0, 1, 4, 0, 0].getD (i - 96) 0
  else if 128 ≤ i ∧ i < 160 then
    [66, 32, 32, 32, 32, 32, 32, 32, 84, 88, 84, 32, 0, 0, 0, 0,
     33, 0, 33, 0, 0, 0, 0, 0, 33, 0, 0, 0, 0, 0, 0, 0].getD (i - 128) 0
  else 0

/-- The partition `chainPartition` with the directory sector 50 resident in the
cache (clean) and holding `dirSectorData`, on the device too. -/
def dirPartition : FatPartition :=
  { chainPartition with
    dev := fun s => if s = 50 then dirSectorData else fun _ => 0
    cacheSector := 50
    cacheData := dirSectorData }

/-- A FAT32 root directory whose first cluster is 5: the parent of `A.TXT`. -/
def parentDir : FatFile := { zeroFile with kind := FileKind.root32, firstCluster := 5 }

/-- The open flags O_READ alone. -/
def oRead : OFlag :=
  { read := true, write := false, append := false, sync := false, trunc := false,
    atEnd := false, creat := false, excl := false }

/-- The open flags O_RDWR | O_AT_END. -/
def oRdwrAtEnd : OFlag := { oRead with write := true, atEnd := true }

/-- The open flags O_RDWR | O_TRUNC. -/
def oRdwrTrunc : OFlag := { oRead with write := true, trunc := true }

/-- The result of writing one byte of `testBuf` at position 600 of `chainFile`
on `dirPartition`. -/
def wroteOne : FatFile.WriteOut :=
  (FatFile.write 4 chainFile dirPartition testBuf 1).getD
    (FatFile.writeFail chainFile dirPartition)

/-- The handle and the partition left by `openCachedEntry` with O_RDWR |
O_TRUNC on slot 4 of the cached directory sector of `dirPartition`, the entry
of the empty file `B.TXT`. -/
def truncOpened : Bool × FatFile × FatPartition :=
  FatFile.openCachedEntry parentDir dirPartition 4 oRdwrTrunc 0

/-- The 32 bytes of the short entry that `demoCollab.openNew` makes: the file
`C.TXT`, attributes ARCHIVE, NT byte 0x18 (name and extension in lower case),
no cluster, size 0. -/
def newEntryBytes : List Nat :=
  [67, 32, 32, 32, 32, 32, 32, 32, 84, 88, 84, 32, 24, 0, 0, 0,
   33, 0, 33, 0, 0, 0, 0, 0, 33, 0, 0, 0, 0, 0, 0, 0]

/-- The bytes of sector `s` as the file layer sees them: the cache line when
the sector is resident, else the device. -/
def sectorView (p : FatPartition) (s : Nat) : Nat → Nat :=
  if p.cacheSector = s then p.cacheData else p.dev s

/-- Stand-ins for the functions `open`, `mkdir` and `remove`, which are not
among the sources, in the simplest case (short names, directory sector 50):
`openNew` and `mkdirNew` write the entry `newEntryBytes` into slot 5 of sector
50 and return a handle for it; `remove` puts the deleted mark 0xE5 in byte 0 of
the entry of its handle and closes the handle; all leave the sector written
back and resident. -/
def demoCollab : Collab :=
  let create : FatFile → FatPartition → Bool × FatFile × FatPartition := fun dirFile p =>
    let line : Nat → Nat := memcpyAt (sectorView p 50) 160 32 (fun k => newEntryBytes.getD k 0)
    (true,
     { zeroFile with kind := FileKind.file, dirSector := 50, dirIndex := 5,
                     dirCluster := dirFile.firstCluster,
                     flags := { zeroFile.flags with write := true } },
     { p with dev := upd p.dev 50 line, cacheSector := 50, cacheDirty := false,
              cacheData := line })
  { openNew := create
    mkdirNew := create
    remove := fun f p =>
      let line : Nat → Nat := setByte (sectorView p f.dirSector) f.dirOffset 229
      (true, { f with kind := FileKind.closed },
       { p with dev := upd p.dev f.dirSector line, cacheSector := f.dirSector,
                cacheDirty := false, cacheData := line }) }

/-- The result of renaming `chainFile` (the entry `A.TXT` in slot 3 of sector
50 of `dirPartition`) with the collaborators `demoCollab`. -/
def renamed : Bool × FatFile × FatPartition :=
  FatFile.rename demoCollab chainFile parentDir true dirPartition

/-- The 512 bytes of the one sector of an empty subdirectory: the entries `.`
(slot 0) and `..` (slot 1), attributes DIRECTORY, and free slots behind them. -/
def emptyDirData : Nat → Nat := fun i =>
  if i < 32 then
    [46, 32, 32, 32, 32, 32, 32, 32, 32, 32, 32, 16, 0, 0, 0, 0,
     33, 0, 33, 0, 0, 0, 0, 0, 33, 0, 2, 0, 0, 0, 0, 0].getD i 0
  else if i < 64 then
    [46, 46, 32, 32, 32, 32, 32, 32, 32, 32, 32, 16, 0, 0, 0, 0,
     33, 0, 33, 0, 0, 0, 0, 0, 33, 0, 0, 0, 0, 0, 0, 0].getD (i - 32) 0
  else 0

/-- The sector `emptyDirData` with the entry of a deleted file in slot 2 and
the entry of the file `A.TXT` in slot 3. -/
def fullDirData : Nat → Nat := fun i =>
  if 64 ≤ i ∧ i < 96 then
    [229, 32, 32, 32, 32, 32, 32, 32, 84, 88, 84, 32, 0, 0, 0, 0,
     33, 0, 33, 0, 0, 0, 0, 0, 33, 0, 0, 0, 0, 0, 0, 0].getD (i - 64) 0
  else if 96 ≤ i ∧ i < 128 then dirSectorData i
  else emptyDirData i

/-- The partition `oneClusterPartition` (cluster 2 is a chain of its own, in
sector 100) with the bytes `data` in sector 100 and the cache empty. -/
def dirVolume (data : Nat → Nat) : FatPartition :=
  { oneClusterPartition with dev := fun s => if s = 100 then data else fun _ => 0 }

/-- The partition `dirVolume emptyDirData` on which sector 100 cannot be read. -/
def badDirVolume : FatPartition :=
  { dirVolume emptyDirData with badSector := fun s => decide (s = 100) }

/-- An open subdirectory with the READ flag whose chain is cluster 2, at
position 0; its entry is slot 3 of sector 50. -/
def subdirHandle : FatFile :=
  { emptyFile with kind := FileKind.subdir, firstCluster := 2,
                   flags := { emptyFile.flags with write := false } }

/-- The blank partition with one-sector clusters whose cache line is the
dirty copy of sector 300 with the content `testBuf`, not yet on the device. -/
def dirtyLinePartition : FatPartition :=
  { blankPartition 0 9 with cacheSector := 300, cacheDirty := true, cacheData := testBuf }

/-- The partition of a step that moved bytes, `none` for `stop` and `fail`. -/
def stepPart : FatFile.Step → Option FatPartition
  | FatFile.Step.next _ q _ _ => some q
  | _ => none

/-- A file of 1025 bytes on `chainPartition` (clusters 2, 3, 4 in the sectors
100, 101, 102), at position 0. -/
def threeSectorFile : FatFile :=
  { emptyFile with firstCluster := 2, fileSize := 1025 }

/-- `threeSectorFile` after `seekSet(1024)` and a write of the one byte 77,
which stays in the dirty cache line of sector 102. -/
def lossStep1 : Option FatFile.WriteOut :=
  FatFile.write 3 (threeSectorFile.seekSet chainPartition 1024).2 chainPartition (fun _ => 77) 1

/-- After `lossStep1`: `seekSet(0)` and a write of 1024 bytes of `testBuf`
(sectors 100 and 101). -/
def lossStep2 : Option FatFile.WriteOut :=
  lossStep1.bind (fun w => FatFile.write 4 (w.file.seekSet w.part 0).2 w.part testBuf 1024)

/-- The byte that `seekSet(1024)` and `read(buf, 1)` deliver after the writes
`out`. -/
def readBack (out : Option FatFile.WriteOut) : Option (Int × List Nat) :=
  out.bind (fun w => (FatFile.read 3 (w.file.seekSet w.part 1024).2 w.part 1).map
    (fun r => (r.ret, r.data)))

/-- An open fixed root directory (FAT12/FAT16) with the READ flag, at position 0. -/
def fixedRootHandle : FatFile :=
  { emptyFile with kind := FileKind.rootFixed, flags := { emptyFile.flags with write := false } }

/-- The blank partition with a fixed root directory of `count` entries. -/
def fixedRootPartition (count : Nat) : FatPartition :=
  { blankPartition 0 9 with rootDirEntryCount := count }

/-- The subdirectory `subdirHandle` before slot 1 of its sector. -/
def atSlotOne : FatFile := { subdirHandle with curPosition := 32, curCluster := 2 }

/-- A regular file of 512 bytes whose chain is cluster 2 (sector 100 of
`dirVolume`), open for reading, at position 96. -/
def peekFile : FatFile :=
  { emptyFile with firstCluster := 2, fileSize := 512, curPosition := 96, curCluster := 2 }

/-- A partition with 512-byte sectors, two sectors per cluster (clusters of
1024 bytes), clusters `2 .. 5000` all free, and the allocation policy "the
cluster after `current`, cluster 2 for a new chain". -/
def growPartition : FatPartition :=
  { blankPartition 1 5000 with
    allocSearch := fun _ current => some (if current = 0 then 2 else current + 1) }

/-- A new subdirectory without clusters, at position 0. -/
def growHandle : FatFile := { subdirHandle with firstCluster := 0 }

/-- The five bytes `H i \r \n X` of a text file, at the start of a sector. -/
def textData : Nat → Nat := fun i => [72, 105, 13, 10, 88].getD i 0

/-- A regular file of 5 bytes whose chain is cluster 2 (sector 100 of
`dirVolume`), open for reading, at position 0. -/
def textFile : FatFile := { emptyFile with firstCluster := 2, fileSize := 5 }

/-- The partition `dirPartition` (entry `A.TXT` with first cluster 2 and size
1025 in slot 3 of the resident directory sector 50) on which `fatGet(3)`
reports an error, so that `freeChain(2)` fails behind cluster 2. -/
def brokenFatPartition : FatPartition :=
  { dirPartition with
    fat := fun c =>
      if c = 2 then FatEntry.continues 3
      else if c = 3 then FatEntry.error
      else FatEntry.continues 0 }

/-- The result of `truncate()` on `threeSectorFile` (position 0, first cluster
2, size 1025, entry in slot 3 of sector 50) on `brokenFatPartition`. -/
def failedTruncate : Bool × FatFile × FatPartition :=
  threeSectorFile.truncate brokenFatPartition

/-- The FAT links `first -> first+1 -> ... -> first+k` are contiguous and
`first+k` is the end of the chain: `fatGet` answers "continues with `c+1`" for
each of the first `k` clusters and "end of chain" for cluster `first+k`. -/
def ContigChain (p : FatPartition) (first k : Nat) : Prop :=
  (∀ i, i < k → p.fatGet (first + i) = FatEntry.continues (first + i + 1))
    ∧ p.fatGet (first + k) = FatEntry.endOfChain

/-- The run of contiguous links from `first` is broken at `first+j`: the first
`j` links are contiguous and `fatGet (first+j)` is an error or a link to a
cluster other than `first+j+1`. -/
def ContigBroken (p : FatPartition) (first j : Nat) : Prop :=
  (∀ i, i < j → p.fatGet (first + i) = FatEntry.continues (first + i + 1))
    ∧ (p.fatGet (first + j) = FatEntry.error
        ∨ ∃ n, p.fatGet (first + j) = FatEntry.continues n ∧ n ≠ first + j + 1)

/-- The cluster reached from `start` by `k` steps of `fatGet`, every one of
which answers "continues"; `none` if a step answers "end of chain" or "error". -/
def clusterAt (p : FatPartition) (start : Nat) : Nat → Option Nat
  | 0 => some start
  | k + 1 =>
    match clusterAt p start k with
    | none => none
    | some c =>
      match p.fatGet c with
      | FatEntry.continues next => some next
      | _ => none

/-- The position/cluster invariant (invariant 3 of the spec): `curCluster = 0`
when `curPosition = 0`; otherwise `curCluster` is the cluster reached from the
first cluster of the chain by `floor((curPosition - 1) / bytesPerCluster)`
steps of `fatGet`, the cluster that holds byte `curPosition - 1`. -/
def PosInv (f : FatFile) (p : FatPartition) : Prop :=
  (f.curPosition = 0 → f.curCluster = 0)
    ∧ (f.curPosition ≠ 0 →
        clusterAt p (f.chainStart p) ((f.curPosition - 1) / p.bytesPerCluster)
          = some f.curCluster)

/-- The position at which `write` starts to transfer: the old `fileSize` when
O_APPEND is set (the write first seeks there), the old `curPosition` otherwise. -/
def writeStart (f : FatFile) : Nat :=
  if f.flags.append = true then f.fileSize else f.curPosition

/-- The relation between the partition before and after a data-path service
(cache and raw sector calls): mount parameters, FAT table and the number of
`allocateCluster` calls are the same. -/
def DataStep (p q : FatPartition) : Prop :=
  q.toMount = p.toMount ∧ q.fat = p.fat ∧ q.allocCalls = p.allocCalls

/-- The geometry bound the `uint8_t` arithmetic of the transfer loops relies
on: at most 128 sectors per cluster. -/
def GeometryOk (p : FatPartition) : Prop := p.sectorsPerClusterShift ≤ 7

/-- The FAT chain that starts at `first` has exactly `L` clusters: `L = 0`
and `first = 0`, or `L - 1` steps of `fatGet` from `first` lead to a cluster
for which `fatGet` answers "end of chain". -/
def ChainLen (p : FatPartition) (first L : Nat) : Prop :=
  (L = 0 ∧ first = 0)
    ∨ (0 < L ∧ ∃ last, clusterAt p first (L - 1) = some last
          ∧ p.fatGet last = FatEntry.endOfChain)

/-- The device sector that holds byte `i` of a file whose cluster with index
`i / bytesPerCluster` is `c` (invariant 9 of the spec):
`clusterStartSector(c) + (i / bytesPerSector) mod sectorsPerCluster`. -/
def dataSector (p : FatPartition) (c i : Nat) : Nat :=
  p.clusterStartSector c + p.sectorOfCluster i

/-- Byte `j` of sector `s` has the value `v` for the file layer: if the sector
is the resident cache line, the line holds `v` there; and unless the line is the
resident, dirty copy of the sector, the device holds `v` there. -/
def Stored (p : FatPartition) (s j v : Nat) : Prop :=
  (p.cacheSector = s → p.cacheData j = v)
    ∧ ((p.cacheSector = s ∧ p.cacheDirty = true) ∨ p.dev s j = v)

/-- Byte `j` of sector `s` is `v` on the device and the sector is not the
resident cache line. -/
def OnDevice (p : FatPartition) (s j v : Nat) : Prop :=
  p.cacheSector ≠ s ∧ p.dev s j = v

/-- The first `n` bytes of the file whose chain starts at `first` are
`B 0 .. B (n-1)`, each stored at the place that invariant 9 of the spec gives. -/
def FileHolds (p : FatPartition) (first : Nat) (B : Nat → Nat) (n : Nat) : Prop :=
  ∀ i, i < n → ∃ c, clusterAt p first (i / p.bytesPerCluster) = some c
    ∧ Stored p (dataSector p c i) (i % p.bytesPerSector) (B i)

/-- The first `n` bytes of the file whose chain starts at `first` are
`B 0 .. B (n-1)` on the device, none of their sectors being the cache line. -/
def FileOnDevice (p : FatPartition) (first : Nat) (B : Nat → Nat) (n : Nat) : Prop :=
  ∀ i, i < n → ∃ c, clusterAt p first (i / p.bytesPerCluster) = some c
    ∧ OnDevice p (dataSector p c i) (i % p.bytesPerSector) (B i)

/-- A partition on which sector transfers succeed and whose data area is laid
out properly: at most 128 sectors per cluster and sectors of at most 2^15 bytes
(the sizes the `uint8_t` and `uint16_t` variables of the file layer can hold),
no unreadable sector, the sectors of every cluster `2 .. lastCluster` at least
`2 * sectorsPerCluster` below the sentinel `0xFFFFFFFF`, and no sector shared
by two clusters. -/
def LayoutOk (p : FatPartition) : Prop :=
  GeometryOk p ∧ p.bytesPerSectorShift ≤ 15
    ∧ (∀ s, p.badSector s = false)
    ∧ (∀ c, 2 ≤ c → c ≤ p.lastCluster →
          p.clusterStartSector c + 2 * p.sectorsPerCluster ≤ 4294967295)
    ∧ (∀ c d, 2 ≤ c → c ≤ p.lastCluster → 2 ≤ d → d ≤ p.lastCluster → c ≠ d →
          ∀ i j, i < p.sectorsPerCluster → j < p.sectorsPerCluster →
            p.clusterStartSector c + i ≠ p.clusterStartSector d + j)

/-- Cluster `c` is free, or it is one of the `L` clusters of the chain that
starts at `first`: the clusters a write to the file can store data in. -/
def Usable (p : FatPartition) (first L c : Nat) : Prop :=
  p.fatGet c = FatEntry.continues 0 ∨ ∃ k, k < L ∧ clusterAt p first k = some c

/-- Sector `d` is not a sector of a cluster that is free or a cluster of the
chain of `L` clusters that starts at `first`. -/
def Apart (p : FatPartition) (first L d : Nat) : Prop :=
  ∀ c, Usable p first L c → ∀ i, i < p.sectorsPerCluster → p.clusterStartSector c + i ≠ d

/-- The walk of `seekSet(pos)` (lines 1026-1042), when the call gets as far
as that: the number of `fatGet` steps and the cluster the walk starts from. -/
def seekPlan (f : FatFile) (p : FatPartition) (pos : Nat) : Nat × Nat :=
  let nCur := sub32 f.curPosition 1 >>> p.bytesPerClusterShift
  let nNew := (pos - 1) >>> p.bytesPerClusterShift
  if nNew < nCur ∨ f.curPosition = 0 then (nNew, f.chainStart p) else (nNew - nCur, f.curCluster)

/-- No `fatGet` step of the walk that `seekSet(pos)` performs returns a status
`<= 0`: there is no walk when `pos` is the current position or 0; otherwise
every step of the walk finds a cluster for which `fatGet` answers "continues". -/
def SeekWalkOk (f : FatFile) (p : FatPartition) (pos : Nat) : Prop :=
  pos = f.curPosition ∨ pos = 0
    ∨ ∀ k, k < (seekPlan f p pos).1 →
        ∃ c n, clusterAt p (seekPlan f p pos).2 k = some c ∧ p.fatGet c = FatEntry.continues n

/-- Byte `j` of sector `s` is `v` on the device, and in the cache line too
when the sector is the resident one. -/
def Settled (p : FatPartition) (s j v : Nat) : Prop :=
  p.dev s j = v ∧ (p.cacheSector = s → p.cacheData j = v)

/-- The short directory entry at `(dirSector, dirIndex)` holds the first
cluster (split into high and low half) and the size of the handle: the entry
on the device has `firstClusterHigh = firstCluster >> 16`, `firstClusterLow =
firstCluster & 0xFFFF` and `fileSize = m_fileSize`, and the cache line, when it
is the sector of the entry, is a copy of the sector on the device. -/
def EntryCoherent (f : FatFile) (p : FatPartition) : Prop :=
  (∀ j, Settled p f.dirSector j (p.dev f.dirSector j))
    ∧ getLe16 (p.dev f.dirSector) (f.dirOffset + 20) = f.firstCluster >>> 16
    ∧ getLe16 (p.dev f.dirSector) (f.dirOffset + 26) = f.firstCluster &&& 65535
    ∧ getLe32 (p.dev f.dirSector) (f.dirOffset + 28) = f.fileSize

/-- The snapshot `entry` that `rename` takes of the source entry (line 803):
byte `k` of the entry of the handle in the cache line, after the `sync()` and
the fetch of lines 797-799. -/
def renameSnapshot (f : FatFile) (p : FatPartition) : Nat → Nat :=
  fun k =>
    ((f.sync p).2.1.cacheDirEntry (f.sync p).2.2 CacheMode.forRead).2.cacheData
      ((f.sync p).2.1.dirOffset + k)

/-- The partition in which `rename` makes the directory entry for the new
path (lines 805-817). -/
def renameSource (f : FatFile) (p : FatPartition) : FatPartition :=
  ((f.sync p).2.1.cacheDirEntry (f.sync p).2.2 CacheMode.forRead).2

/-- The destination entry as `open` made it for a renamed regular file: byte
`k` of the entry of the new handle `file` in the cache line, after the fetch
of lines 828-829 and before the copy of lines 835-837. -/
def renameCreated (c : Collab) (f dirFile : FatFile) (p : FatPartition) : Nat → Nat :=
  fun k =>
    let made := c.openNew dirFile (renameSource f p)
    (made.2.2.cacheFetchData made.2.1.dirSector CacheMode.forWrite).2.cacheData
      (32 * (made.2.1.dirIndex &&& 15) + k)

/-- The handle `oldFile` on which `rename` calls `remove()` (lines 866-870). -/
def renameOld (f : FatFile) (p : FatPartition) : FatFile :=
  { (f.sync p).2.1 with
    firstCluster := 0, kind := FileKind.file, readOnly := false,
    flags := { read := false, write := true, append := false, sync := false,
               dirDirty := false } }

/-- The outcome of the scan of `rmdir` over the slots `k, k+1, ...` of a
directory of which `m` slots remain before the end of its chain, in terms of
the bytes `E` of the directory: `true` (empty) at the first slot whose
`name[0]` is 0x00 and at the end of the chain, `false` at the first entry
before that with `name[0]` not 0xE5 or `'.'` that is a file or subdirectory. -/
def dirEmptyFrom (E : Nat → Nat) : Nat → Nat → Bool
  | 0, _ => true
  | m + 1, k =>
    if E (32 * k) = 0 then true
    else if E (32 * k) = 229 ∨ E (32 * k) = 46 then dirEmptyFrom E m (k + 1)
    else if isFileOrSubdir E (32 * k) = true then false
    else dirEmptyFrom E m (k + 1)

/-- A directory of `n` slots with the bytes `E` is not empty: scanning from
slot 0 meets, before the first slot whose `name[0]` is 0x00 and before the end
of the chain, an entry with `name[0]` not in {0xE5, '.'} that is a file or
subdirectory. -/
def DirNotEmpty (E : Nat → Nat) (n : Nat) : Prop :=
  ∃ k, k < n ∧ (∀ j, j < k → E (32 * j) ≠ 0)
    ∧ E (32 * k) ≠ 229 ∧ E (32 * k) ≠ 46 ∧ isFileOrSubdir E (32 * k) = true

/-- The state of the scan of `rmdir` before slot `k` of the directory whose
chain starts at `first` on the partition `p`: the handle `g` is the directory,
readable, at position `32 * k` with its position/cluster invariant; the
partition `q` differs from `p` in the cache and the log only and delivers the
same bytes; and the cache line holds the sector of slot `k` unless that slot is
the first of its sector. -/
def DirScanInv (p : FatPartition) (first k : Nat) (g : FatFile) (q : FatPartition) : Prop :=
  g.kind = FileKind.subdir ∧ g.flags.read = true ∧ g.firstCluster = first
    ∧ g.curPosition = 32 * k ∧ PosInv g q
    ∧ q.toMount = p.toMount ∧ q.fat = p.fat
    ∧ (∀ s j v, Stored p s j v → Stored q s j v)
    ∧ (k % 16 ≠ 0 → ∃ c, clusterAt p first (32 * k / p.bytesPerCluster) = some c
          ∧ q.cacheSector = dataSector p c (32 * k))

/-- A directory grown only by successful `addDirCluster` calls: the state after
`k` calls in a row that all returned true, `none` if one of them fails. -/
def growDir : Nat → FatFile → FatPartition → Option (FatFile × FatPartition)
  | 0, f, p => some (f, p)
  | k + 1, f, p =>
    match f.addDirCluster p with
    | (true, f1, p1) => growDir k f1 p1
    | (false, _, _) => none

/-- The state of the directory `growHandle` on `growPartition` after `k`
successful `addDirCluster` calls: position `1024 * k`, the last cluster is
`k + 1`, the clusters behind it are free. -/
def GrowInv (k : Nat) (f : FatFile) (p : FatPartition) : Prop :=
  f.kind = FileKind.subdir ∧ f.curPosition = 1024 * k
    ∧ f.curCluster = (if k = 0 then 0 else k + 1)
    ∧ p.toMount = growPartition.toMount
    ∧ (∀ c, k + 2 ≤ c → p.fat c = FatEntry.continues 0)

/-- The clusters of the `freeChain` calls received so far, newest first. -/
def freeChainCalls (p : FatPartition) : List Nat :=
  p.log.filterMap (fun c => match c with | Call.freeChain n => some n | _ => none)

/-- The clusters of the `fatPutEOC` calls received so far, newest first. -/
def putEOCCalls (p : FatPartition) : List Nat :=
  p.log.filterMap (fun c => match c with | Call.fatPutEOC n => some n | _ => none)

/-- The bytes consumed from the file by `k` calls `read(&ch, 1)` in a row that
all return 1, oldest first, and the state they leave; `none` when one of the
calls does not return 1. -/
def readBytes (fuel : Nat) :
    Nat → FatFile → FatPartition → Option (List Nat × FatFile × FatPartition)
  | 0, f, p => some ([], f, p)
  | k + 1, f, p =>
    match f.read fuel p 1 with
    | none => none
    | some r =>
      if r.ret = 1 then
        match readBytes fuel k r.file r.part with
        | none => none
        | some (bs, g, q) => some (r.data.headD 0 :: bs, g, q)
      else none

/-- A list of bytes with every `'\r'` removed. -/
def dropCR (bs : List Nat) : List Nat := bs.filter (fun b => decide (b ≠ 13))

/-! ## Theorems -/

section ContiguousRange

theorem contigChain_succ {p : FatPartition} {c k : Nat}
    (h0 : p.fatGet c = FatEntry.continues (c + 1)) :
    ContigChain p c (k + 1) ↔ ContigChain p (c + 1) k := by
  unfold ContigChain
  constructor
  · rintro ⟨h1, h2⟩
    refine ⟨fun i hi => ?_, ?_⟩
    · have := h1 (i + 1) (by omega)
      rw [show c + 1 + i = c + (i + 1) by omega]; exact this
    · rw [show c + 1 + k = c + (k + 1) by omega]; exact h2
  · rintro ⟨h1, h2⟩
    refine ⟨fun i hi => ?_, ?_⟩
    · rcases i with _ | i
      · simpa using h0
      · have := h1 i (by omega)
        rw [show c + (i + 1) = c + 1 + i by omega]; exact this
    · rw [show c + (k + 1) = c + 1 + k by omega]; exact h2

theorem contigBroken_succ {p : FatPartition} {c j : Nat}
    (h0 : p.fatGet c = FatEntry.continues (c + 1)) :
    ContigBroken p c (j + 1) ↔ ContigBroken p (c + 1) j := by
  unfold ContigBroken
  have e1 : c + (j + 1) = c + 1 + j := by omega
  constructor
  · rintro ⟨h1, h2⟩
    refine ⟨fun i hi => ?_, ?_⟩
    · have := h1 (i + 1) (by omega)
      rw [show c + 1 + i = c + (i + 1) by omega]; exact this
    · rw [e1] at h2; exact h2
  · rintro ⟨h1, h2⟩
    refine ⟨fun i hi => ?_, ?_⟩
    · rcases i with _ | i
      · simpa using h0
      · have := h1 i (by omega)
        rw [show c + (i + 1) = c + 1 + i by omega]; exact this
    · rw [e1]; exact h2

/-- The loop of `contiguousRange`, started at cluster `c`, ends within
`lastCluster + 1 - c + 1` iterations and decides whether the chain from `c` is
contiguous. -/
theorem contiguousLoop_spec (f : FatFile) (p : FatPartition) :
    ∀ (fuel c : Nat), p.lastCluster + 1 - c < fuel →
      ∃ r, FatFile.contiguousLoop f p fuel c = some r
        ∧ (r.ok = true ↔ ∃ k, ContigChain p c k)
        ∧ (∀ k, ContigChain p c k →
            r.bgnSector = some (p.clusterStartSector f.firstCluster)
            ∧ r.endSector = some (p.clusterStartSector (c + k) + p.sectorsPerCluster - 1))
        ∧ (r.ok = false → r.bgnSector = none ∧ r.endSector = none)
        ∧ (∀ j, ContigBroken p c j → r.ok = false) := by
  intro fuel
  induction fuel with
  | zero => intro c h; omega
  | succ fuel ih =>
    intro c hc
    unfold FatFile.contiguousLoop
    cases hg : p.fatGet c with
    | error =>
      refine ⟨_, rfl, ?_, ?_, ?_, ?_⟩
      · simp only [Bool.false_eq_true, false_iff, not_exists]
        rintro k ⟨h1, h2⟩
        rcases k with _ | k
        · simp [hg] at h2
        · have := h1 0 (by omega); simp [hg] at this
      · rintro k ⟨h1, h2⟩
        rcases k with _ | k
        · simp [hg] at h2
        · have := h1 0 (by omega); simp [hg] at this
      · intro _; exact ⟨rfl, rfl⟩
      · intro _ _; rfl
    | endOfChain =>
      refine ⟨_, rfl, ?_, ?_, ?_, ?_⟩
      · simp only [true_iff]
        exact ⟨0, by simp [ContigChain, hg]⟩
      · rintro k ⟨h1, h2⟩
        rcases k with _ | k
        · simp
        · have := h1 0 (by omega); simp [hg] at this
      · intro h; simp at h
      · rintro j ⟨h1, h2⟩
        rcases j with _ | j
        · simp [hg] at h2
        · have := h1 0 (by omega); simp [hg] at this
    | continues next =>
      by_cases hn : next = c + 1
      · subst hn
        have hrange : c ≤ p.lastCluster := by
          unfold FatPartition.fatGet at hg
          split at hg
          · cases hg
          · omega
        obtain ⟨r, hr, h1, h2, h3, h4⟩ := ih (c + 1) (by omega)
        refine ⟨r, by simpa using hr, ?_, ?_, h3, ?_⟩
        · rw [h1]
          constructor
          · rintro ⟨k, hk⟩
            exact ⟨k + 1, (contigChain_succ hg).2 hk⟩
          · rintro ⟨k, hk⟩
            rcases k with _ | k
            · have := hk.2; simp [hg] at this
            · exact ⟨k, (contigChain_succ hg).1 hk⟩
        · intro k hk
          rcases k with _ | k
          · have := hk.2; simp [hg] at this
          · have := h2 k ((contigChain_succ hg).1 hk)
            rw [show c + (k + 1) = c + 1 + k by omega]; exact this
        · intro j hj
          rcases j with _ | j
          · rcases hj.2 with h | ⟨n, h, hne⟩
            · simp [hg] at h
            · simp [hg] at h; omega
          · exact h4 j ((contigBroken_succ hg).1 hj)
      · refine ⟨{ ok := false, bgnSector := none, endSector := none }, by simp [hn],
          ?_, ?_, ?_, ?_⟩
        · simp only [Bool.false_eq_true, false_iff, not_exists]
          rintro k ⟨h1, h2⟩
          rcases k with _ | k
          · simp [hg] at h2
          · have := h1 0 (by omega); simp [hg] at this; exact hn this
        · rintro k ⟨h1, h2⟩
          rcases k with _ | k
          · simp [hg] at h2
          · have := h1 0 (by omega); simp [hg] at this; exact absurd this hn
        · intro _; exact ⟨rfl, rfl⟩
        · intro _ _; rfl

/-- C10. `contiguousRange` ends within `lastCluster + 1` iterations of its loop
and returns true exactly when `firstCluster != 0` and, for some `k`, `fatGet`
answers "continues with c+1" for the clusters `firstCluster .. firstCluster+k-1`
and "end of chain" for `firstCluster+k`.  In that case it outputs
`bgnSector = clusterStartSector(firstCluster)` and
`endSector = clusterStartSector(firstCluster+k) + sectorsPerCluster - 1`.  It
returns false, writing neither output, when `firstCluster = 0` and when the
run of contiguous links is broken by a `fatGet` error or by a link to a cluster
other than `c+1`. -/
theorem contiguousRange_correct (f : FatFile) (p : FatPartition) (fuel : Nat)
    (hfuel : p.lastCluster < fuel) :
    ∃ r, FatFile.contiguousRange fuel f p = some r
      ∧ (r.ok = true ↔ f.firstCluster ≠ 0 ∧ ∃ k, ContigChain p f.firstCluster k)
      ∧ (∀ k, f.firstCluster ≠ 0 → ContigChain p f.firstCluster k →
          r.bgnSector = some (p.clusterStartSector f.firstCluster)
          ∧ r.endSector
              = some (p.clusterStartSector (f.firstCluster + k) + p.sectorsPerCluster - 1))
      ∧ (r.ok = false → r.bgnSector = none ∧ r.endSector = none)
      ∧ (f.firstCluster = 0 → r.ok = false)
      ∧ (∀ j, ContigBroken p f.firstCluster j → r.ok = false) := by
  unfold FatFile.contiguousRange
  by_cases h0 : f.firstCluster = 0
  · refine ⟨{ ok := false, bgnSector := none, endSector := none }, by simp [h0],
      ?_, ?_, ?_, ?_, ?_⟩
    · simp [h0]
    · intro k h; exact absurd h0 h
    · intro _; exact ⟨rfl, rfl⟩
    · intro _; rfl
    · intro _ _; rfl
  · obtain ⟨r, hr, h1, h2, h3, h4⟩ := contiguousLoop_spec f p fuel f.firstCluster (by omega)
    refine ⟨r, by simp [h0, hr], ?_, ?_, h3, ?_, h4⟩
    · rw [h1]; simp [h0]
    · intro k _ hk; exact h2 k hk
    · intro h; exact absurd h h0

end ContiguousRange

section SeekSet

theorem clusterAt_succ_left (p : FatPartition) (c n : Nat) :
    ∀ k, p.fatGet c = FatEntry.continues n → clusterAt p c (k + 1) = clusterAt p n k := by
  intro k h
  induction k with
  | zero => simp [clusterAt, h]
  | succ k ih =>
    rw [clusterAt, ih]
    rfl

theorem clusterAt_succ_none (p : FatPartition) (c : Nat)
    (h : ∀ n, p.fatGet c ≠ FatEntry.continues n) :
    ∀ k, clusterAt p c (k + 1) = none := by
  intro k
  induction k with
  | zero =>
    cases hg : p.fatGet c with
    | error => simp [clusterAt, hg]
    | endOfChain => simp [clusterAt, hg]
    | continues n => exact absurd hg (h n)
  | succ k ih => rw [clusterAt, ih]

/-- The loop of `seekSet` computes the cluster reached by `n` steps of `fatGet`. -/
theorem seekWalk_eq_clusterAt (p : FatPartition) :
    ∀ n c, FatFile.seekWalk p n c = clusterAt p c n := by
  intro n
  induction n with
  | zero => intro c; rfl
  | succ n ih =>
    intro c
    cases hg : p.fatGet c with
    | error =>
      rw [clusterAt_succ_none p c (by simp [hg])]
      simp [FatFile.seekWalk, hg]
    | endOfChain =>
      rw [clusterAt_succ_none p c (by simp [hg])]
      simp [FatFile.seekWalk, hg]
    | continues next =>
      rw [clusterAt_succ_left p c next n hg]
      simp [FatFile.seekWalk, hg, ih]

/-- A walk of `a + b` steps is a walk of `a` steps followed by one of `b` steps. -/
theorem clusterAt_add (p : FatPartition) (start a : Nat) :
    ∀ b, clusterAt p start (a + b) = (clusterAt p start a).bind (fun c => clusterAt p c b) := by
  intro b
  induction b with
  | zero =>
    cases h : clusterAt p start a <;> simp [clusterAt, h]
  | succ b ih =>
    rw [← Nat.add_assoc, clusterAt, ih]
    cases h : clusterAt p start a with
    | none => simp
    | some c => simp [clusterAt]

theorem sub32_one {x : Nat} (h0 : x ≠ 0) (h : x < U32) : sub32 x 1 = x - 1 := by
  unfold sub32 U32 at *
  omega

/-- The successful exits of `seekSet` on an open handle that is not the fixed root. -/
theorem seekSet_true_cases (f : FatFile) (p : FatPartition) (pos : Nat) (g : FatFile)
    (hopen : f.isOpen = true) (hnf : f.isRootFixed = false)
    (h : f.seekSet p pos = (true, g)) :
    (pos = f.curPosition ∧ g = f)
    ∨ (pos ≠ f.curPosition ∧ pos = 0 ∧ g = { f with curCluster := 0, curPosition := 0 })
    ∨ (pos ≠ f.curPosition ∧ pos ≠ 0 ∧ (f.isFile = true → pos ≤ f.fileSize)
        ∧ ∃ c,
          FatFile.seekWalk p
            (if (pos - 1) >>> p.bytesPerClusterShift
                  < sub32 f.curPosition 1 >>> p.bytesPerClusterShift ∨ f.curPosition = 0
              then (pos - 1) >>> p.bytesPerClusterShift
              else (pos - 1) >>> p.bytesPerClusterShift
                    - sub32 f.curPosition 1 >>> p.bytesPerClusterShift)
            (if (pos - 1) >>> p.bytesPerClusterShift
                  < sub32 f.curPosition 1 >>> p.bytesPerClusterShift ∨ f.curPosition = 0
              then f.chainStart p else f.curCluster) = some c
          ∧ g = { f with curCluster := c, curPosition := pos }) := by
  unfold FatFile.seekSet at h
  rw [if_neg (by simp [hopen])] at h
  by_cases h1 : pos = f.curPosition
  · rw [if_pos h1] at h
    left; exact ⟨h1, (Prod.mk.inj h).2.symm⟩
  · rw [if_neg h1] at h
    right
    by_cases h2 : pos = 0
    · rw [if_pos h2] at h
      left; refine ⟨h1, h2, ?_⟩
      rw [← (Prod.mk.inj h).2, h2]
    · rw [if_neg h2] at h
      right
      by_cases h3 : f.isFile = true ∧ pos > f.fileSize
      · rw [if_pos h3] at h
        exact absurd (Prod.mk.inj h).1 (by simp)
      · rw [if_neg h3, if_neg (by simp [hnf])] at h
        refine ⟨h1, h2, fun hf => by_contra fun hc => h3 ⟨hf, by omega⟩, ?_⟩
        simp only at h
        split at h
        · rename_i c hc
          refine ⟨c, ?_, (Prod.mk.inj h).2.symm⟩
          rw [← hc]
          by_cases hr : (pos - 1) >>> p.bytesPerClusterShift
                  < sub32 f.curPosition 1 >>> p.bytesPerClusterShift ∨ f.curPosition = 0
          · simp [hr]
          · simp [hr]
        · exact absurd (Prod.mk.inj h).1 (by simp)

/-- A successful `seekSet` moves the position to `pos`, keeps the start of the
chain and establishes the position/cluster invariant. -/
theorem seekSet_posInv (f : FatFile) (p : FatPartition) (pos : Nat) (g : FatFile)
    (hkind : f.kind = FileKind.file ∨ f.kind = FileKind.subdir ∨ f.kind = FileKind.root32)
    (hu32 : f.curPosition < U32)
    (hinv : PosInv f p)
    (hseek : f.seekSet p pos = (true, g)) :
    g.curPosition = pos ∧ g.chainStart p = f.chainStart p ∧ PosInv g p := by
  have hopen : f.isOpen = true := by
    rcases hkind with h | h | h <;> simp [FatFile.isOpen, h]
  have hnotfixed : f.isRootFixed = false := by
    rcases hkind with h | h | h <;> simp [FatFile.isRootFixed, h]
  rcases seekSet_true_cases f p pos g hopen hnotfixed hseek with
    ⟨h1, rfl⟩ | ⟨h1, h2, rfl⟩ | ⟨h1, h2, _, c, hwalk, rfl⟩
  · exact ⟨h1.symm, rfl, hinv⟩
  · exact ⟨h2.symm, rfl, by simp [PosInv]⟩
  · refine ⟨rfl, rfl, fun h => absurd h h2, fun _ => ?_⟩
    show clusterAt p (f.chainStart p) ((pos - 1) / p.bytesPerCluster) = some c
    rw [seekWalk_eq_clusterAt] at hwalk
    rw [FatPartition.bytesPerCluster, ← Nat.shiftRight_eq_div_pow]
    by_cases hr : (pos - 1) >>> p.bytesPerClusterShift
        < sub32 f.curPosition 1 >>> p.bytesPerClusterShift ∨ f.curPosition = 0
    · rw [if_pos hr, if_pos hr] at hwalk
      exact hwalk
    · rw [if_neg hr, if_neg hr] at hwalk
      have hcur0 : f.curPosition ≠ 0 := fun h => hr (Or.inr h)
      have hle : sub32 f.curPosition 1 >>> p.bytesPerClusterShift
          ≤ (pos - 1) >>> p.bytesPerClusterShift := by
        by_contra hlt
        exact hr (Or.inl (by omega))
      have hold := hinv.2 hcur0
      rw [FatPartition.bytesPerCluster, ← Nat.shiftRight_eq_div_pow,
        ← sub32_one hcur0 hu32] at hold
      have hsplit : (pos - 1) >>> p.bytesPerClusterShift
          = sub32 f.curPosition 1 >>> p.bytesPerClusterShift
            + ((pos - 1) >>> p.bytesPerClusterShift
                - sub32 f.curPosition 1 >>> p.bytesPerClusterShift) := by omega
      rw [hsplit, clusterAt_add, hold]
      exact hwalk

/-- C2. `seekSet` establishes the position/cluster invariant: for an open
regular file, subdirectory or FAT32 root whose state satisfies the invariant,
whenever `seekSet(pos)` returns true, `curPosition = pos` and `curCluster` is 0
if `pos = 0` and otherwise the cluster reached from the first cluster of the
chain by `floor((pos-1)/bytesPerCluster)` steps of `fatGet`; the forward walk
of `nNew - nCur` steps from the old `curCluster` ends where the walk from the
start of the chain ends. -/
theorem seekSet_establishes_posInv (f : FatFile) (p : FatPartition) (pos : Nat) (g : FatFile)
    (hkind : f.kind = FileKind.file ∨ f.kind = FileKind.subdir ∨ f.kind = FileKind.root32)
    (hu32 : f.curPosition < U32)
    (hinv : PosInv f p)
    (hseek : f.seekSet p pos = (true, g)) :
    g.curPosition = pos
      ∧ (pos = 0 → g.curCluster = 0)
      ∧ (pos ≠ 0 → clusterAt p (f.chainStart p) ((pos - 1) / p.bytesPerCluster)
                      = some g.curCluster)
      ∧ g.chainStart p = f.chainStart p
      ∧ PosInv g p := by
  obtain ⟨k1, k2, k3⟩ := seekSet_posInv f p pos g hkind hu32 hinv hseek
  refine ⟨k1, ?_, ?_, k2, k3⟩
  · intro h0
    exact k3.1 (by rw [k1]; exact h0)
  · intro hne
    have := k3.2 (by rw [k1]; exact hne)
    rw [k1, k2] at this
    exact this

end SeekSet

section Sync

/-- `sync` changes the handle at most in `F_FILE_DIR_DIRTY` and in WRITE_ERROR. -/
theorem sync_file (f : FatFile) (p : FatPartition) :
    ∃ d e, (f.sync p).2.1
      = { f with flags := { f.flags with dirDirty := d },
                 error := { f.error with writeError := e } } := by
  unfold FatFile.sync FatFile.syncTail
  split
  · exact ⟨f.flags.dirDirty, f.error.writeError, rfl⟩
  · split
    · split
      · exact ⟨f.flags.dirDirty, true, rfl⟩
      · split
        · exact ⟨f.flags.dirDirty, true, rfl⟩
        · dsimp only
          split
          · exact ⟨false, f.error.writeError, rfl⟩
          · exact ⟨false, true, rfl⟩
    · split
      · exact ⟨f.flags.dirDirty, f.error.writeError, rfl⟩
      · exact ⟨f.flags.dirDirty, true, rfl⟩

/-- A successful `sync` of an open handle leaves `F_FILE_DIR_DIRTY` clear. -/
theorem sync_ok_clean (f g : FatFile) (p q : FatPartition) (hopen : f.isOpen = true)
    (h : f.sync p = (true, g, q)) : g.flags.dirDirty = false := by
  unfold FatFile.sync FatFile.syncTail at h
  rw [if_neg (by simp [hopen])] at h
  split at h
  · split at h
    · cases h
    · split at h
      · cases h
      · dsimp only at h
        split at h
        · cases h; rfl
        · cases h
  · rename_i hd
    split at h
    · cases h; simpa using hd
    · cases h

end Sync

section Logs

@[simp] theorem logCall_log (p : FatPartition) (c : Call) : (p.logCall c).log = c :: p.log := rfl

@[simp] theorem flushLine_log (p : FatPartition) : p.flushLine.2.log = p.log := by
  unfold FatPartition.flushLine
  split
  · split <;> rfl
  · rfl

@[simp] theorem cacheSync_log (p : FatPartition) : p.cacheSync.2.log = Call.cacheSync :: p.log := by
  simp [FatPartition.cacheSync]

@[simp] theorem cacheSyncData_log (p : FatPartition) :
    p.cacheSyncData.2.log = Call.cacheSyncData :: p.log := by
  simp [FatPartition.cacheSyncData]

@[simp] theorem cacheFetchData_log (p : FatPartition) (s : Nat) (m : CacheMode) :
    (p.cacheFetchData s m).2.log = Call.cacheFetchData s m :: p.log := by
  unfold FatPartition.cacheFetchData
  dsimp only
  split
  · rfl
  · have := flushLine_log (p.logCall (Call.cacheFetchData s m))
    split
    · rename_i h; rw [h] at this; simpa using this
    · rename_i h; rw [h] at this
      split
      · simpa using this
      · split <;> simpa using this

/-- The calls `sync` makes are cache calls, put in front of the log. -/
theorem sync_log (f : FatFile) (p : FatPartition) :
    ∃ l : List Call, (f.sync p).2.2.log = l ++ p.log
      ∧ ∀ c ∈ l, c = Call.cacheSync ∨ c = Call.cacheFetchData f.dirSector CacheMode.forWrite := by
  unfold FatFile.sync FatFile.syncTail FatFile.cacheDirEntry
  split
  · exact ⟨[], rfl, by simp⟩
  · split
    · have hf := cacheFetchData_log p f.dirSector CacheMode.forWrite
      split
      · rename_i h; rw [h] at hf
        exact ⟨[Call.cacheFetchData f.dirSector CacheMode.forWrite], by simpa using hf, by simp⟩
      · rename_i p1 h; rw [h] at hf
        simp only at hf
        split
        · exact ⟨[Call.cacheFetchData f.dirSector CacheMode.forWrite], by simpa using hf, by simp⟩
        · dsimp only
          have hs := cacheSync_log { p1 with cacheData := f.syncEntry p1 p1.cacheData }
          split
          · rename_i h2; rw [h2] at hs
            refine ⟨[Call.cacheSync, Call.cacheFetchData f.dirSector CacheMode.forWrite], ?_, by simp⟩
            simp only at hs; rw [hs, hf]; rfl
          · rename_i h2; rw [h2] at hs
            refine ⟨[Call.cacheSync, Call.cacheFetchData f.dirSector CacheMode.forWrite], ?_, by simp⟩
            simp only at hs; rw [hs, hf]; rfl
    · have hs := cacheSync_log p
      split
      · rename_i h2; rw [h2] at hs
        exact ⟨[Call.cacheSync], by simpa using hs, by simp⟩
      · rename_i h2; rw [h2] at hs
        exact ⟨[Call.cacheSync], by simpa using hs, by simp⟩

end Logs

section TruncatePreAllocate

/-- C7. `truncate` sets the size to the position: for a file state with
`curPosition <= fileSize` and `fileSize > 0 -> firstCluster != 0`, whenever
`truncate()` returns true the resulting `fileSize` equals `curPosition`, which
`truncate` does not change; this covers the early return for
`firstCluster = 0`, where `fileSize` is not assigned. -/
theorem truncate_sets_size (f g : FatFile) (p q : FatPartition)
    (hpos : f.curPosition ≤ f.fileSize)
    (hfirst : 0 < f.fileSize → f.firstCluster ≠ 0)
    (h : f.truncate p = (true, g, q)) :
    g.fileSize = f.curPosition ∧ g.curPosition = f.curPosition := by
  unfold FatFile.truncate at h
  split at h
  · cases h
  · split at h
    · rename_i h0
      cases h
      have : f.fileSize = 0 := by
        by_contra hne
        exact hfirst (by omega) h0
      omega
    · split at h
      · cases h
      · rename_i f1 p1 toFree hcut
        have hf1 : f1.curPosition = f.curPosition := by
          unfold FatFile.truncateCut at hcut
          split at hcut
          · split at hcut
            · cases hcut
            · cases hcut; rfl
            · split at hcut
              cases hcut; rfl
          · cases hcut; rfl
        dsimp only at h
        split at h
        · cases h
        · rename_i p2 _
          obtain ⟨d, e, hs⟩ := sync_file ({ f1 with fileSize := f1.curPosition }.setDirDirty) p2
          rw [h] at hs
          simp only at hs
          rw [hs]
          simp [FatFile.setDirDirty, hf1]

end TruncatePreAllocate

section WriteLoop

/-- What `addCluster` does to the handle. -/
theorem addCluster_file (f : FatFile) (p : FatPartition) :
    (f.addCluster p).2.1
      = { f with curCluster := (p.allocateCluster f.curCluster).2.2,
                 flags := { f.flags with dirDirty := true } } := by
  unfold FatFile.addCluster FatFile.setDirDirty
  rfl

/-- The handle after the cluster acquisition of `write`: only `curCluster`,
`firstCluster` and `F_FILE_DIR_DIRTY` can differ, and the flag is never cleared. -/
theorem writeAcquire_file (f g : FatFile) (p q : FatPartition) (b : Bool) (soc off : Nat)
    (h : FatFile.writeAcquire f p soc off = (b, g, q)) :
    ∃ cc fc d, g = { f with curCluster := cc, firstCluster := fc,
                            flags := { f.flags with dirDirty := d } }
      ∧ (f.flags.dirDirty = true → d = true) := by
  unfold FatFile.writeAcquire at h
  split at h
  · split at h
    · split at h
      · cases h; exact ⟨f.curCluster, f.firstCluster, f.flags.dirDirty, rfl, id⟩
      · have := addCluster_file f p
        rw [h] at this
        exact ⟨_, f.firstCluster, true, this, fun _ => rfl⟩
      · cases h; exact ⟨_, f.firstCluster, f.flags.dirDirty, rfl, id⟩
    · split at h
      · have := addCluster_file f p
        split at h
        · rename_i h1; rw [h1] at this; cases h
          exact ⟨_, f.firstCluster, true, this, fun _ => rfl⟩
        · rename_i f1 p1 h1; rw [h1] at this; cases h
          simp only at this
          exact ⟨_, f1.curCluster, true, by rw [this], fun _ => rfl⟩
      · cases h; exact ⟨_, f.firstCluster, f.flags.dirDirty, rfl, id⟩
  · cases h; exact ⟨f.curCluster, f.firstCluster, f.flags.dirDirty, rfl, id⟩

theorem partCount_le (p : FatPartition) (off rest : Nat) : FatFile.partCount p off rest ≤ rest := by
  unfold FatFile.partCount
  dsimp only
  split <;> omega

theorem writeSectorCount_le (p : FatPartition) (rest soc : Nat) :
    FatFile.writeSectorCount p rest soc <<< p.bytesPerSectorShift ≤ rest := by
  unfold FatFile.writeSectorCount
  dsimp only
  rw [Nat.shiftLeft_eq]
  have h1 : (rest >>> p.bytesPerSectorShift) % 256 ≤ rest >>> p.bytesPerSectorShift :=
    Nat.mod_le _ _
  have h2 : (if (rest >>> p.bytesPerSectorShift) % 256 > (p.sectorsPerCluster - soc) % 256
              then (p.sectorsPerCluster - soc) % 256
              else (rest >>> p.bytesPerSectorShift) % 256)
      ≤ rest >>> p.bytesPerSectorShift := by
    split <;> omega
  calc _ ≤ (rest >>> p.bytesPerSectorShift) * 2 ^ p.bytesPerSectorShift :=
        Nat.mul_le_mul_right _ h2
    _ ≤ rest := by
        rw [Nat.shiftRight_eq_div_pow]; exact Nat.div_mul_le_self _ _

theorem writeCached_next (f g : FatFile) (p q : FatPartition) (rest sector off n : Nat)
    (src chunk : Nat → Nat)
    (h : FatFile.writeCached f p rest sector off src = FatFile.Step.next g q n chunk) :
    g = f ∧ n = FatFile.partCount p off rest := by
  unfold FatFile.writeCached at h
  dsimp only at h
  split at h
  · cases h
  · split at h
    · split at h
      · cases h
      · cases h; exact ⟨rfl, rfl⟩
    · cases h; exact ⟨rfl, rfl⟩

theorem writeMulti_next (f g : FatFile) (p q : FatPartition) (rest sector soc n : Nat)
    (src chunk : Nat → Nat)
    (h : FatFile.writeMulti f p rest sector soc src = FatFile.Step.next g q n chunk) :
    g = f ∧ n = FatFile.writeSectorCount p rest soc <<< p.bytesPerSectorShift := by
  unfold FatFile.writeMulti at h
  dsimp only at h
  split at h
  · cases h
  · cases h; exact ⟨rfl, rfl⟩

theorem writeSingle_next (f g : FatFile) (p q : FatPartition) (sector n : Nat)
    (src chunk : Nat → Nat)
    (h : FatFile.writeSingle f p sector src = FatFile.Step.next g q n chunk) :
    g = f ∧ n = p.bytesPerSector := by
  unfold FatFile.writeSingle at h
  dsimp only at h
  split at h
  · cases h
  · cases h; exact ⟨rfl, rfl⟩

/-- The transfer of `write` does not touch the handle and moves at most
`nToWrite` bytes. -/
theorem writeTransfer_next (f g : FatFile) (p q : FatPartition) (nToWrite soc off n : Nat)
    (src chunk : Nat → Nat)
    (h : FatFile.writeTransfer f p nToWrite soc off src = FatFile.Step.next g q n chunk) :
    g = f ∧ n ≤ nToWrite := by
  unfold FatFile.writeTransfer at h
  dsimp only at h
  split at h
  · obtain ⟨h1, h2⟩ := writeCached_next _ _ _ _ _ _ _ _ _ _ h
    exact ⟨h1, h2 ▸ partCount_le _ _ _⟩
  · rename_i hpart
    split at h
    · obtain ⟨h1, h2⟩ := writeMulti_next _ _ _ _ _ _ _ _ _ _ h
      exact ⟨h1, h2 ▸ writeSectorCount_le _ _ _⟩
    · obtain ⟨h1, h2⟩ := writeSingle_next _ _ _ _ _ _ _ _ h
      refine ⟨h1, ?_⟩
      have : ¬ nToWrite < p.bytesPerSector := fun hc => hpart (Or.inr hc)
      omega

/-- One iteration of the loop of `write`: only `curCluster`, `firstCluster`
and `F_FILE_DIR_DIRTY` of the handle can change, and `n <= nToWrite`. -/
theorem writeStep_next (f g : FatFile) (p q : FatPartition) (nToWrite n : Nat)
    (src chunk : Nat → Nat)
    (h : FatFile.writeStep f p nToWrite src = FatFile.Step.next g q n chunk) :
    (∃ cc fc d, g = { f with curCluster := cc, firstCluster := fc,
                             flags := { f.flags with dirDirty := d } }
      ∧ (f.flags.dirDirty = true → d = true))
    ∧ n ≤ nToWrite := by
  unfold FatFile.writeStep at h
  dsimp only at h
  split at h
  · cases h
  · rename_i f1 p1 hacq
    obtain ⟨h1, hn⟩ := writeTransfer_next _ _ _ _ _ _ _ _ _ _ h
    subst h1
    exact ⟨writeAcquire_file _ _ _ _ _ _ _ hacq, hn⟩

/-- The loop of `write`, when it ends without failure, has moved the position
by exactly the number of bytes asked for; of the other fields of the handle
only `curCluster`, `firstCluster` and `F_FILE_DIR_DIRTY` can have changed. -/
theorem writeLoop_ok (fuel : Nat) :
    ∀ (f g : FatFile) (p q : FatPartition) (n rest : Nat) (src : Nat → Nat) (out : List Nat),
      FatFile.writeLoop fuel f p n src = some (FatFile.LoopEnd.ok g q rest out) →
      (n = 0 ∨ f.curPosition + n ≤ 4294967295) →
      rest = 0 ∧ ∃ cc fc d,
        g = { f with curCluster := cc, firstCluster := fc, curPosition := f.curPosition + n,
                     flags := { f.flags with dirDirty := d } }
        ∧ (f.flags.dirDirty = true → d = true) := by
  induction fuel with
  | zero =>
    intro f g p q n rest src out h _
    unfold FatFile.writeLoop at h
    split at h
    · rename_i h0; cases h; subst h0
      exact ⟨rfl, f.curCluster, f.firstCluster, f.flags.dirDirty, rfl, id⟩
    · cases h
  | succ fuel ih =>
    intro f g p q n rest src out h hb
    unfold FatFile.writeLoop at h
    split at h
    · rename_i h0; cases h; subst h0
      exact ⟨rfl, f.curCluster, f.firstCluster, f.flags.dirDirty, rfl, id⟩
    · rename_i hn0
      split at h
      · cases h
      · cases h
      · rename_i f1 p1 n1 chunk hstep
        obtain ⟨⟨cc, fc, d, rfl, hd⟩, hle⟩ := writeStep_next _ _ _ _ _ _ _ _ hstep
        have hb' : f.curPosition + n ≤ 4294967295 := by
          rcases hb with hb | hb
          · exact absurd hb hn0
          · exact hb
        have hmod : (f.curPosition + n1) % U32 = f.curPosition + n1 := by
          unfold U32; omega
        obtain ⟨hr, cc2, fc2, d2, hg, hd2⟩ := ih _ g p1 q (n - n1) rest _ out h (by
          right; simp only [hmod]; omega)
        refine ⟨hr, cc2, fc2, d2, ?_, fun hx => hd2 (hd hx)⟩
        rw [hg]
        simp only [hmod]
        have : f.curPosition + n1 + (n - n1) = f.curPosition + n := by omega
        rw [this]

end WriteLoop

section WritePost

/-- The seek of an O_APPEND write: a successful `seekSet(fileSize)` on a
regular file moves only `curCluster` and `curPosition`. -/
theorem seekSet_append (f g : FatFile) (p : FatPartition) (hfile : f.isFile = true)
    (h : f.seekSet p f.fileSize = (true, g)) :
    ∃ cc, g = { f with curCluster := cc, curPosition := f.fileSize } := by
  have hopen : f.isOpen = true := by
    simp only [FatFile.isFile, decide_eq_true_eq] at hfile
    simp [FatFile.isOpen, hfile]
  have hnf : f.isRootFixed = false := by
    simp only [FatFile.isFile, decide_eq_true_eq] at hfile
    simp [FatFile.isRootFixed, hfile]
  rcases seekSet_true_cases f p f.fileSize g hopen hnf h with
    ⟨h1, h2⟩ | ⟨_, h2, h3⟩ | ⟨_, _, _, c, _, h3⟩
  · refine ⟨f.curCluster, ?_⟩
    subst h2
    cases g
    simp only at h1
    subst h1
    rfl
  · exact ⟨0, by rw [h3, h2]⟩
  · exact ⟨c, h3⟩

/-- Lines 1317-1324 of `write` set the size to the larger of the old size and
the position, and never clear `F_FILE_DIR_DIRTY`; they set it when the size grew. -/
theorem writeMark_eq (f : FatFile) (p : FatPartition) :
    ∃ d, FatFile.writeMark f p
        = { f with fileSize := max f.fileSize f.curPosition,
                   flags := { f.flags with dirDirty := d } }
      ∧ (f.flags.dirDirty = true → d = true)
      ∧ (f.fileSize < f.curPosition → d = true) := by
  unfold FatFile.writeMark
  by_cases hgrow : f.curPosition > f.fileSize
  · rw [if_pos hgrow]
    refine ⟨true, ?_, fun _ => rfl, fun _ => rfl⟩
    have : max f.fileSize f.curPosition = f.curPosition := by omega
    rw [this]; rfl
  · rw [if_neg hgrow]
    have hmax : max f.fileSize f.curPosition = f.fileSize := by omega
    rw [hmax]
    by_cases hcb : p.dateTime.isSome = true
    · rw [if_pos hcb]
      exact ⟨true, rfl, fun _ => rfl, fun _ => rfl⟩
    · rw [if_neg hcb]
      exact ⟨f.flags.dirDirty, rfl, id, fun h => absurd h hgrow⟩

/-- Lines 1326-1332 of `write`, when they do not fail: the handle changes at
most in `F_FILE_DIR_DIRTY` (cleared by the `sync` of an O_SYNC handle) and in
WRITE_ERROR. -/
theorem writeSync_ok (f : FatFile) (p : FatPartition) (nbyte : Nat)
    (hopen : f.isOpen = true)
    (hok : (FatFile.writeSync f p nbyte).ret ≠ SIZE_MAX) :
    (FatFile.writeSync f p nbyte).ret = nbyte
    ∧ ∃ d e, (FatFile.writeSync f p nbyte).file
        = { f with flags := { f.flags with dirDirty := d },
                   error := { f.error with writeError := e } }
      ∧ (f.flags.sync = true → d = false)
      ∧ (f.flags.sync = false → d = f.flags.dirDirty) := by
  unfold FatFile.writeSync at hok ⊢
  by_cases hs : f.flags.sync = true
  · rw [if_pos hs] at hok ⊢
    obtain ⟨d, e, hsf⟩ := sync_file f p
    match hsy : f.sync p with
    | (false, f2, p2) =>
      rw [hsy] at hok
      exact absurd rfl hok
    | (true, f2, p2) =>
      have hclean := sync_ok_clean _ _ _ _ hopen hsy
      rw [hsy] at hsf
      simp only at hsf
      refine ⟨rfl, false, e, ?_, fun _ => rfl, fun h => ?_⟩
      · show f2 = _
        rw [hsf] at hclean ⊢
        simp only at hclean
        rw [hclean]
      · rw [hs] at h; cases h
  · rw [if_neg hs] at hok ⊢
    exact ⟨rfl, f.flags.dirDirty, f.error.writeError, rfl, fun h => absurd h hs, fun _ => rfl⟩


end WritePost

section Witnesses

theorem contiguousRange_correct_witness :
    chainPartition.lastCluster < 10
    ∧ ∃ r, FatFile.contiguousRange 10 chainFile chainPartition = some r
      ∧ r.ok = true ∧ r.bgnSector = some 100 ∧ r.endSector = some 102 := by
  obtain ⟨r, hr, h1, h2, _⟩ := contiguousRange_correct chainFile chainPartition 10 (by decide)
  have hc : ContigChain chainPartition chainFile.firstCluster 2 := by
    refine ⟨fun i hi => ?_, by decide⟩
    interval_cases i <;> decide
  have hne : chainFile.firstCluster ≠ 0 := by decide
  exact ⟨by decide, r, hr, h1.2 ⟨hne, 2, hc⟩, (h2 2 hne hc).1, (h2 2 hne hc).2⟩

theorem seekSet_establishes_posInv_witness :
    (chainFile.kind = FileKind.file ∨ chainFile.kind = FileKind.subdir
      ∨ chainFile.kind = FileKind.root32)
    ∧ chainFile.curPosition < U32
    ∧ PosInv chainFile chainPartition
    ∧ chainFile.seekSet chainPartition 1025
        = (true, { chainFile with curCluster := 4, curPosition := 1025 })
    ∧ clusterAt chainPartition 2 2 = some 4 := by
  have hinv : PosInv chainFile chainPartition := ⟨by decide, fun _ => by decide⟩
  have h := seekSet_establishes_posInv chainFile chainPartition 1025
    { chainFile with curCluster := 4, curPosition := 1025 }
    (Or.inl rfl) (by decide) hinv (by decide)
  exact ⟨Or.inl rfl, by decide, hinv, by decide, h.2.2.1 (by decide)⟩

theorem truncate_sets_size_witness :
    chainFile.curPosition ≤ chainFile.fileSize
    ∧ (0 < chainFile.fileSize → chainFile.firstCluster ≠ 0)
    ∧ (chainFile.truncate chainPartition).1 = true
    ∧ (chainFile.truncate chainPartition).2.1.fileSize = 600
    ∧ (chainFile.truncate chainPartition).2.1.curPosition = 600 := by
  have h := truncate_sets_size chainFile (chainFile.truncate chainPartition).2.1
    chainPartition (chainFile.truncate chainPartition).2.2 (by decide) (by decide) (by rfl)
  exact ⟨by decide, by decide, by decide, h.1, h.2⟩

end Witnesses

section Truncation

/-- The loop body of `read` is the transfer from the sector that was located. -/
theorem readStep_of_found (f f1 : FatFile) (p : FatPartition) (n sector soc : Nat)
    (h : FatFile.readLocate f p (f.curPosition &&& p.sectorMask)
          = FatFile.Locate.found f1 sector soc) :
    FatFile.readStep f p n
      = FatFile.readTransfer f1 p n (f.curPosition &&& p.sectorMask) sector soc := by
  unfold FatFile.readStep
  simp only [h]

/-- A loop of `read` whose iterations move no byte never ends: if every state
that satisfies `inv` makes an iteration with `n = 0` into a state that
satisfies `inv` again, then no iteration budget is enough. -/
theorem readLoop_never_ends (inv : FatFile → FatPartition → Prop) (n : Nat) (hn : n ≠ 0)
    (hstep : ∀ f p, inv f p → ∃ f1 p1 chunk,
      FatFile.readStep f p n = FatFile.Step.next f1 p1 0 chunk
        ∧ inv { f1 with curPosition := (f1.curPosition + 0) % U32 } p1) :
    ∀ (fuel : Nat) (f : FatFile) (p : FatPartition) (out : List Nat),
      inv f p → FatFile.readLoop fuel f p n out = none := by
  intro fuel
  induction fuel with
  | zero =>
    intro f p out _
    unfold FatFile.readLoop
    rw [if_neg hn]
  | succ fuel ih =>
    intro f p out hinv
    obtain ⟨f1, p1, chunk, hs, hinv1⟩ := hstep f p hinv
    unfold FatFile.readLoop
    rw [if_neg hn, hs]
    exact ih _ _ _ hinv1

theorem big_offset0 (l : List Call) (c : Nat) :
    ({ bigFile with curCluster := c } : FatFile).curPosition
      &&& ({ bigPartition with log := l } : FatPartition).sectorMask = 0 := by
  show (0 : Nat) &&& (2 ^ 9 - 1) = 0
  decide

theorem big_locate0 (l : List Call) (c : Nat) :
    FatFile.readLocate { bigFile with curCluster := c } { bigPartition with log := l } 0
      = FatFile.Locate.found { bigFile with curCluster := 2 } 100 0 := by
  simp [FatFile.readLocate, bigFile, bigPartition, emptyFile, blankPartition,
    FatFile.isRootFixed, FatFile.isRoot32, FatPartition.sectorOfCluster,
    FatPartition.bytesPerSector, FatPartition.sectorsPerCluster]

theorem big_transfer0 (l : List Call) :
    FatFile.readTransfer { bigFile with curCluster := 2 } { bigPartition with log := l }
        131072 0 100 0
      = FatFile.Step.next { bigFile with curCluster := 2 }
          { bigPartition with log := Call.readSectors 100 0 :: Call.cacheSyncData :: l } 0
          (fun i => bigPartition.dev (100 + i / 512) (i % 512)) := by
  simp [FatFile.readTransfer, FatFile.readMulti, FatFile.readSectorCount, bigFile,
    bigPartition, emptyFile, blankPartition, FatFile.isRootFixed,
    FatPartition.bytesPerSector, FatPartition.sectorsPerCluster,
    FatPartition.cacheSectorNumber, FatPartition.cacheSyncData, FatPartition.flushLine,
    FatPartition.readSectors, FatPartition.logCall, U32]

/-- One iteration of `read` at position 0 of `bigFile` with 131072 bytes left,
whatever the call log holds and wherever `curCluster` points: `ns` is 0, the
iteration moves `n = 0` bytes and leaves position and cache as they were. -/
theorem readStep_big_stuck (l : List Call) (c : Nat) :
    FatFile.readStep { bigFile with curCluster := c } { bigPartition with log := l } 131072
      = FatFile.Step.next { bigFile with curCluster := 2 }
          { bigPartition with log := Call.readSectors 100 0 :: Call.cacheSyncData :: l } 0
          (fun i => bigPartition.dev (100 + i / 512) (i % 512)) := by
  have hloc : FatFile.readLocate { bigFile with curCluster := c }
      { bigPartition with log := l }
      (({ bigFile with curCluster := c } : FatFile).curPosition
        &&& ({ bigPartition with log := l } : FatPartition).sectorMask)
      = FatFile.Locate.found { bigFile with curCluster := 2 } 100 0 := by
    rw [big_offset0 l c]; exact big_locate0 l c
  rw [readStep_of_found _ _ _ _ _ _ hloc, big_offset0 l c]
  exact big_transfer0 l

theorem readLoop_big_stuck (fuel : Nat) (out : List Nat) :
    FatFile.readLoop fuel bigFile bigPartition 131072 out = none := by
  refine readLoop_never_ends
    (fun f p => (∃ c, f = { bigFile with curCluster := c })
      ∧ ∃ l, p = { bigPartition with log := l }) 131072 (by decide) ?_ fuel _ _ out
    ⟨⟨0, rfl⟩, ⟨[], rfl⟩⟩
  rintro f p ⟨⟨c, rfl⟩, ⟨l, rfl⟩⟩
  exact ⟨_, _, _, readStep_big_stuck l c, ⟨2, by decide⟩, ⟨_, rfl⟩⟩

/-- C5, the code at the failing input.  With 512-byte sectors and 131072 bytes
to transfer at a sector boundary, the `uint8_t` sector counts of `read` and of
`write` are `256 mod 256 = 0`; the iteration of either loop moves `n = 0`
bytes; and `read(buf, 131072)` at position 0 of a 196608-byte file does not
return, whatever the number of iterations allowed. -/
theorem read_write_128k_no_progress :
    FatFile.readSectorCount bigFile bigPartition 131072 0 = 0
    ∧ FatFile.writeSectorCount (blankPartition 7 9) 131072 0 = 0
    ∧ (∃ g q chunk, FatFile.readStep bigFile bigPartition 131072 = FatFile.Step.next g q 0 chunk)
    ∧ (∃ g q chunk, FatFile.writeStep emptyFile (blankPartition 7 9) 131072 testBuf
          = FatFile.Step.next g q 0 chunk)
    ∧ ∀ fuel, FatFile.read fuel bigFile bigPartition 131072 = none := by
  have e1 : ({ bigFile with curCluster := 0 } : FatFile) = bigFile := rfl
  have e2 : ({ bigPartition with log := [] } : FatPartition) = bigPartition := rfl
  have hstep := readStep_big_stuck [] 0
  rw [e1, e2] at hstep
  refine ⟨by decide, by decide, ⟨_, _, _, hstep⟩, ⟨_, _, _, rfl⟩, ?_⟩
  intro fuel
  have h := readLoop_big_stuck fuel []
  have hclamp : FatFile.readClamp bigFile bigPartition 131072 = 131072 := by decide
  have hopen : ¬(bigFile.isOpen = false ∨ bigFile.flags.read = false) := by decide
  unfold FatFile.read
  rw [if_neg hopen]
  simp only [hclamp]
  rw [h]

theorem big_offset512 (l : List Call) :
    bigFileAt512.curPosition &&& ({ bigPartition with log := l } : FatPartition).sectorMask
      = 0 := by
  show (512 : Nat) &&& (2 ^ 9 - 1) = 0
  decide

theorem big_locate512 (l : List Call) :
    FatFile.readLocate bigFileAt512 { bigPartition with log := l } 0
      = FatFile.Locate.found bigFileAt512 101 1 := by
  simp [FatFile.readLocate, bigFileAt512, bigFile, bigPartition, emptyFile, blankPartition,
    FatFile.isRootFixed, FatPartition.sectorOfCluster, FatPartition.bytesPerSector,
    FatPartition.sectorsPerCluster]

theorem big_transfer512 (l : List Call) :
    FatFile.readTransfer bigFileAt512 { bigPartition with log := l } 131072 0 101 1
      = FatFile.Step.next bigFileAt512
          { bigPartition with log := Call.readSectors 101 0 :: Call.cacheSyncData :: l } 0
          (fun i => bigPartition.dev (101 + i / 512) (i % 512)) := by
  simp [FatFile.readTransfer, FatFile.readMulti, FatFile.readSectorCount, bigFileAt512,
    bigFile, bigPartition, emptyFile, blankPartition, FatFile.isRootFixed,
    FatPartition.bytesPerSector, FatPartition.sectorsPerCluster,
    FatPartition.cacheSectorNumber, FatPartition.cacheSyncData, FatPartition.flushLine,
    FatPartition.readSectors, FatPartition.logCall, U32]

/-- One iteration of `read` at position 512 of `bigFile` with 131072 bytes
left: again `n = 0`, and no `fatGet` is involved. -/
theorem readStep_big512_stuck (l : List Call) :
    FatFile.readStep bigFileAt512 { bigPartition with log := l } 131072
      = FatFile.Step.next bigFileAt512
          { bigPartition with log := Call.readSectors 101 0 :: Call.cacheSyncData :: l } 0
          (fun i => bigPartition.dev (101 + i / 512) (i % 512)) := by
  have hloc : FatFile.readLocate bigFileAt512 { bigPartition with log := l }
      (bigFileAt512.curPosition &&& ({ bigPartition with log := l } : FatPartition).sectorMask)
      = FatFile.Locate.found bigFileAt512 101 1 := by
    rw [big_offset512 l]; exact big_locate512 l
  rw [readStep_of_found _ _ _ _ _ _ hloc, big_offset512 l]
  exact big_transfer512 l

theorem readLoop_big512_stuck (fuel : Nat) (out : List Nat) :
    FatFile.readLoop fuel bigFileAt512 bigPartition 131072 out = none := by
  refine readLoop_never_ends
    (fun f p => f = bigFileAt512 ∧ ∃ l, p = { bigPartition with log := l }) 131072
    (by decide) ?_ fuel _ _ out ⟨rfl, ⟨[], rfl⟩⟩
  rintro f p ⟨rfl, ⟨l, rfl⟩⟩
  exact ⟨_, _, _, readStep_big512_stuck l, by decide, ⟨_, rfl⟩⟩

/-- C3, the code at two failing inputs, a 196608-byte file with the READ flag
that satisfies the position/cluster invariant.  The claim promises the result
`min(131072, fileSize - curPosition) = 131072` in both.  Positioned at byte
65536, `read(buf, 131072)` returns -1 with READ_ERROR set and the position
unmoved, although no device, cache or `fatGet` call reports an error (the
loop, its sector count being 0, walks the chain to its end without reading).
Positioned at byte 512, `read(buf, 131072)` does not return at all. -/
theorem read_clamp_fails_128k :
    bigFileAt64k.kind = FileKind.file ∧ bigFileAt64k.flags.read = true
    ∧ bigFileAt64k.curPosition ≤ bigFileAt64k.fileSize
    ∧ PosInv bigFileAt64k bigPartition
    ∧ min 131072 (bigFileAt64k.fileSize - bigFileAt64k.curPosition) = 131072
    ∧ (FatFile.read 5 bigFileAt64k bigPartition 131072).map
        (fun r => (r.ret, r.file.error.readError, r.file.curPosition, r.data))
        = some (-1, true, 65536, [])
    ∧ PosInv bigFileAt512 bigPartition
    ∧ min 131072 (bigFileAt512.fileSize - bigFileAt512.curPosition) = 131072
    ∧ ∀ fuel, FatFile.read fuel bigFileAt512 bigPartition 131072 = none := by
  refine ⟨rfl, rfl, by decide, ⟨by decide, fun _ => by decide⟩, by decide, by decide,
    ⟨by decide, fun _ => by decide⟩, by decide, ?_⟩
  intro fuel
  have h := readLoop_big512_stuck fuel []
  have hclamp : FatFile.readClamp bigFileAt512 bigPartition 131072 = 131072 := by decide
  have hopen : ¬(bigFileAt512.isOpen = false ∨ bigFileAt512.flags.read = false) := by decide
  unfold FatFile.read
  rw [if_neg hopen]
  simp only [hclamp]
  rw [h]

/-- C9, the code at the failing input `L = 131072` (64 KiB clusters, clusters
2, 3, 4 free): `preAllocate(131072)` succeeds without a call of
`allocateCluster` and links the clusters 2 and 3; the following
`write(buf, 131072)` from position 0 calls `allocateCluster` twice (the second
call finds the partition full) and returns `(size_t)-1`. -/
theorem preAllocate_write_128k_allocates :
    (emptyFile.preAllocate (blankPartition 7 4) 131072).1 = true
    ∧ (emptyFile.preAllocate (blankPartition 7 4) 131072).2.1.fileSize = 131072
    ∧ (emptyFile.preAllocate (blankPartition 7 4) 131072).2.1.curPosition = 0
    ∧ (emptyFile.preAllocate (blankPartition 7 4) 131072).2.2.allocCalls = 0
    ∧ ContigChain (emptyFile.preAllocate (blankPartition 7 4) 131072).2.2 2 1
    ∧ (FatFile.write 10 (emptyFile.preAllocate (blankPartition 7 4) 131072).2.1
          (emptyFile.preAllocate (blankPartition 7 4) 131072).2.2 testBuf 131072).map
        (fun w => (w.ret, w.part.allocCalls, w.file.error.writeError))
        = some (4294967295, 2, true) := by
  refine ⟨by decide, by decide, by decide, by decide, ⟨fun i hi => ?_, by decide⟩, by decide⟩
  interval_cases i
  decide

end Truncation

section PartitionOps

theorem DataStep.refl (p : FatPartition) : DataStep p p := ⟨rfl, rfl, rfl⟩

theorem DataStep.trans {p q r : FatPartition} (h1 : DataStep p q) (h2 : DataStep q r) :
    DataStep p r :=
  ⟨h2.1.trans h1.1, h2.2.1.trans h1.2.1, h2.2.2.trans h1.2.2⟩

theorem dataStep_of_log (p q : FatPartition) (c : Call)
    (hc : ∀ n, c ≠ Call.allocateCluster n)
    (hm : q.toMount = p.toMount) (hf : q.fat = p.fat) (hl : q.log = c :: p.log) :
    DataStep p q := by
  refine ⟨hm, hf, ?_⟩
  unfold FatPartition.allocCalls
  rw [hl, List.countP_cons]
  cases c <;> simp_all

theorem flushLine_dataStep (p : FatPartition) : DataStep p p.flushLine.2 := by
  unfold FatPartition.flushLine
  split
  · split
    · exact DataStep.refl p
    · exact ⟨rfl, rfl, rfl⟩
  · exact DataStep.refl p

theorem cacheSyncData_dataStep (p : FatPartition) : DataStep p p.cacheSyncData.2 := by
  unfold FatPartition.cacheSyncData
  exact (dataStep_of_log p (p.logCall Call.cacheSyncData) Call.cacheSyncData (by simp)
    rfl rfl rfl).trans (flushLine_dataStep _)

theorem cacheSync_dataStep (p : FatPartition) : DataStep p p.cacheSync.2 := by
  unfold FatPartition.cacheSync
  exact (dataStep_of_log p (p.logCall Call.cacheSync) Call.cacheSync (by simp)
    rfl rfl rfl).trans (flushLine_dataStep _)

theorem cacheInvalidate_dataStep (p : FatPartition) : DataStep p p.cacheInvalidate :=
  dataStep_of_log p _ Call.cacheInvalidate (by simp) rfl rfl rfl

theorem cacheFetchData_dataStep (p : FatPartition) (s : Nat) (m : CacheMode) :
    DataStep p (p.cacheFetchData s m).2 := by
  have h0 : DataStep p (p.logCall (Call.cacheFetchData s m)) :=
    dataStep_of_log p _ _ (by simp) rfl rfl rfl
  have h1 := flushLine_dataStep (p.logCall (Call.cacheFetchData s m))
  unfold FatPartition.cacheFetchData
  dsimp only
  split
  · exact h0.trans ⟨rfl, rfl, rfl⟩
  · split
    · rename_i h; rw [h] at h1; exact h0.trans h1
    · rename_i h; rw [h] at h1
      split
      · exact (h0.trans h1).trans ⟨rfl, rfl, rfl⟩
      · split
        · exact h0.trans h1
        · exact (h0.trans h1).trans ⟨rfl, rfl, rfl⟩

theorem readSector_dataStep (p : FatPartition) (s : Nat) : DataStep p (p.readSector s).2 :=
  dataStep_of_log p _ (Call.readSector s) (by simp) rfl rfl rfl

theorem readSectors_dataStep (p : FatPartition) (s n : Nat) :
    DataStep p (p.readSectors s n).2 :=
  dataStep_of_log p _ (Call.readSectors s n) (by simp) rfl rfl rfl

theorem writeSector_dataStep (p : FatPartition) (s : Nat) (src : Nat → Nat) :
    DataStep p (p.writeSector s src).2 := by
  unfold FatPartition.writeSector
  dsimp only
  split
  · exact dataStep_of_log p _ (Call.writeSector s) (by simp) rfl rfl rfl
  · exact dataStep_of_log p _ (Call.writeSector s) (by simp) rfl rfl rfl

theorem writeSectors_dataStep (p : FatPartition) (s n : Nat) (src : Nat → Nat) :
    DataStep p (p.writeSectors s n src).2 := by
  unfold FatPartition.writeSectors
  dsimp only
  split
  · exact dataStep_of_log p _ (Call.writeSectors s n) (by simp) rfl rfl rfl
  · exact dataStep_of_log p _ (Call.writeSectors s n) (by simp) rfl rfl rfl

/-- `sync` is a data-path operation. -/
theorem sync_dataStep (f : FatFile) (p : FatPartition) : DataStep p (f.sync p).2.2 := by
  unfold FatFile.sync FatFile.syncTail FatFile.cacheDirEntry
  split
  · exact DataStep.refl p
  · split
    · have hf := cacheFetchData_dataStep p f.dirSector CacheMode.forWrite
      split
      · rename_i h; rw [h] at hf; exact hf
      · rename_i p1 h; rw [h] at hf
        split
        · exact hf
        · dsimp only
          have hs := cacheSync_dataStep { p1 with cacheData := f.syncEntry p1 p1.cacheData }
          have hm : DataStep p1 { p1 with cacheData := f.syncEntry p1 p1.cacheData } :=
            ⟨rfl, rfl, rfl⟩
          split
          · rename_i h2; rw [h2] at hs; exact (hf.trans hm).trans hs
          · rename_i h2; rw [h2] at hs; exact (hf.trans hm).trans hs
    · have hs := cacheSync_dataStep p
      split
      · rename_i h2; rw [h2] at hs; exact hs
      · rename_i h2; rw [h2] at hs; exact hs

end PartitionOps

section Geometry

theorem bytesPerSector_pos (p : FatPartition) : 0 < p.bytesPerSector :=
  Nat.two_pow_pos _

theorem sectorsPerCluster_pos (p : FatPartition) : 0 < p.sectorsPerCluster :=
  Nat.two_pow_pos _

theorem bytesPerCluster_eq (p : FatPartition) :
    p.bytesPerCluster = p.bytesPerSector * p.sectorsPerCluster := by
  unfold FatPartition.bytesPerCluster FatPartition.bytesPerClusterShift
    FatPartition.bytesPerSector FatPartition.sectorsPerCluster
  exact Nat.pow_add 2 _ _

theorem bytesPerCluster_pos (p : FatPartition) : 0 < p.bytesPerCluster :=
  Nat.two_pow_pos _

/-- The mask `m_curPosition & sectorMask()` is the byte offset in the sector. -/
theorem land_sectorMask (p : FatPartition) (q : Nat) :
    q &&& p.sectorMask = q % p.bytesPerSector := by
  unfold FatPartition.sectorMask FatPartition.bytesPerSector
  exact Nat.and_pow_two_sub_one_eq_mod q _

theorem sectorOfCluster_lt (p : FatPartition) (q : Nat) :
    p.sectorOfCluster q < p.sectorsPerCluster :=
  Nat.mod_lt _ (sectorsPerCluster_pos p)

/-- The offset of a position in its cluster, split in sector index and byte offset. -/
theorem mod_bytesPerCluster (p : FatPartition) (q : Nat) :
    q % p.bytesPerCluster = q % p.bytesPerSector + p.bytesPerSector * p.sectorOfCluster q := by
  rw [bytesPerCluster_eq]
  unfold FatPartition.sectorOfCluster
  exact Nat.mod_mul

/-- The test "start of a new cluster" of `read` and `write`. -/
theorem cluster_start_iff (p : FatPartition) (q : Nat) :
    (p.sectorOfCluster q = 0 ∧ q &&& p.sectorMask = 0) ↔ q % p.bytesPerCluster = 0 := by
  rw [land_sectorMask, mod_bytesPerCluster]
  have hS := bytesPerSector_pos p
  constructor
  · rintro ⟨h1, h2⟩
    rw [h1, h2]; simp
  · intro h
    have h2 : q % p.bytesPerSector = 0 := by omega
    have h3 : p.bytesPerSector * p.sectorOfCluster q = 0 := by omega
    rcases Nat.mul_eq_zero.mp h3 with h4 | h4
    · omega
    · exact ⟨h4, h2⟩

theorem sectorsPerCluster_le (p : FatPartition) (hg : GeometryOk p) :
    p.sectorsPerCluster ≤ 128 := by
  unfold FatPartition.sectorsPerCluster
  calc 2 ^ p.sectorsPerClusterShift ≤ 2 ^ 7 := Nat.pow_le_pow_right (by norm_num) hg
    _ = 128 := by norm_num

/-- The rest of the cluster behind position `q`, in bytes. -/
theorem cluster_rest (p : FatPartition) (q : Nat) :
    q % p.bytesPerCluster + (p.sectorsPerCluster - p.sectorOfCluster q) * p.bytesPerSector
      = p.bytesPerCluster + q % p.bytesPerSector := by
  rw [mod_bytesPerCluster, bytesPerCluster_eq]
  have h := sectorOfCluster_lt p q
  have : (p.sectorsPerCluster - p.sectorOfCluster q) * p.bytesPerSector
      + p.bytesPerSector * p.sectorOfCluster q = p.bytesPerSector * p.sectorsPerCluster := by
    rw [Nat.mul_comm _ p.bytesPerSector, ← Nat.mul_add]
    congr 1; omega
  omega

end Geometry

section WriteTransfer

theorem writeCached_dataStep (f g : FatFile) (p q : FatPartition) (rest sector off n : Nat)
    (src chunk : Nat → Nat)
    (h : FatFile.writeCached f p rest sector off src = FatFile.Step.next g q n chunk) :
    DataStep p q := by
  unfold FatFile.writeCached at h
  dsimp only at h
  split at h
  · cases h
  · rename_i p1 hfetch
    have h1 := cacheFetchData_dataStep p sector
      (if off = 0 ∧ f.curPosition ≥ f.fileSize then CacheMode.reserveForWrite
        else CacheMode.forWrite)
    rw [hfetch] at h1
    have h2 : DataStep p1
        { p1 with cacheData := memcpyAt p1.cacheData off (FatFile.partCount p off rest) src } :=
      ⟨rfl, rfl, rfl⟩
    split at h
    · have h3 := cacheSyncData_dataStep
        { p1 with cacheData := memcpyAt p1.cacheData off (FatFile.partCount p off rest) src }
      split at h
      · cases h
      · rename_i p3 hs
        rw [hs] at h3
        cases h
        exact (h1.trans h2).trans h3
    · cases h
      exact h1.trans h2

theorem writeMulti_dataStep (f g : FatFile) (p q : FatPartition) (rest sector soc n : Nat)
    (src chunk : Nat → Nat)
    (h : FatFile.writeMulti f p rest sector soc src = FatFile.Step.next g q n chunk) :
    DataStep p q := by
  unfold FatFile.writeMulti at h
  dsimp only at h
  split at h
  · cases h
  · rename_i p2 hw
    cases h
    have h2 := writeSectors_dataStep
      (if sector ≤ p.cacheSectorNumber
          ∧ sector < (p.cacheSectorNumber + FatFile.writeSectorCount p rest soc) % U32
        then p.cacheInvalidate else p) sector (FatFile.writeSectorCount p rest soc) src
    rw [hw] at h2
    refine DataStep.trans ?_ h2
    split
    · exact cacheInvalidate_dataStep p
    · exact DataStep.refl p

theorem writeSingle_dataStep (f g : FatFile) (p q : FatPartition) (sector n : Nat)
    (src chunk : Nat → Nat)
    (h : FatFile.writeSingle f p sector src = FatFile.Step.next g q n chunk) :
    DataStep p q := by
  unfold FatFile.writeSingle at h
  dsimp only at h
  split at h
  · cases h
  · rename_i p2 hw
    cases h
    have h2 := writeSector_dataStep
      (if p.cacheSectorNumber = sector then p.cacheInvalidate else p) sector src
    rw [hw] at h2
    refine DataStep.trans ?_ h2
    split
    · exact cacheInvalidate_dataStep p
    · exact DataStep.refl p

theorem partCount_pos (p : FatPartition) (off rest : Nat) (hoff : off < p.bytesPerSector)
    (hrest : 0 < rest) : 1 ≤ FatFile.partCount p off rest := by
  unfold FatFile.partCount
  dsimp only
  split <;> omega

theorem partCount_le_sector (p : FatPartition) (off rest : Nat) :
    FatFile.partCount p off rest ≤ p.bytesPerSector - off := by
  unfold FatFile.partCount
  dsimp only
  split <;> omega

/-- The sector count of the multi-sector write: at most the rest of the
cluster and at most `(nToWrite / bytesPerSector) mod 256`, and zero only if the
latter is zero. -/
theorem writeSectorCount_spec (p : FatPartition) (hg : GeometryOk p) (rest pos : Nat) :
    FatFile.writeSectorCount p rest (p.sectorOfCluster pos)
        ≤ p.sectorsPerCluster - p.sectorOfCluster pos
    ∧ FatFile.writeSectorCount p rest (p.sectorOfCluster pos) ≤ (rest / p.bytesPerSector) % 256
    ∧ (FatFile.writeSectorCount p rest (p.sectorOfCluster pos) = 0 →
        (rest / p.bytesPerSector) % 256 = 0) := by
  unfold FatFile.writeSectorCount
  dsimp only
  rw [Nat.shiftRight_eq_div_pow]
  have h1 := sectorOfCluster_lt p pos
  have h2 := sectorsPerCluster_le p hg
  have h3 : (p.sectorsPerCluster - p.sectorOfCluster pos) % 256
      = p.sectorsPerCluster - p.sectorOfCluster pos := Nat.mod_eq_of_lt (by omega)
  have hS : 2 ^ p.bytesPerSectorShift = p.bytesPerSector := rfl
  rw [h3, hS]
  have hm : 1 ≤ p.sectorsPerCluster - p.sectorOfCluster pos := by omega
  generalize (rest / p.bytesPerSector) % 256 = r
  generalize p.sectorsPerCluster - p.sectorOfCluster pos = m at hm ⊢
  split <;> refine ⟨by omega, by omega, fun h => by omega⟩

/-- What a successful transfer step of `write` at position `pos` does: the
handle is untouched, the partition changes only in device, cache and log, and
the byte count `n` is at most `nToWrite`, stays within the current cluster and
is described by the path taken. -/
theorem writeTransfer_spec (f g : FatFile) (p q : FatPartition) (N pos n : Nat)
    (src chunk : Nat → Nat) (hg : GeometryOk p) (hN : 0 < N)
    (h : FatFile.writeTransfer f p N (p.sectorOfCluster pos) (pos &&& p.sectorMask) src
          = FatFile.Step.next g q n chunk) :
    g = f ∧ DataStep p q ∧ n ≤ N ∧ pos % p.bytesPerCluster + n ≤ p.bytesPerCluster
    ∧ (((pos % p.bytesPerSector ≠ 0 ∨ N < p.bytesPerSector) ∧ 1 ≤ n
          ∧ n ≤ p.bytesPerSector - pos % p.bytesPerSector)
      ∨ (pos % p.bytesPerSector = 0 ∧ 2 * p.bytesPerSector ≤ N
          ∧ ∃ k, n = k * p.bytesPerSector ∧ k ≤ (N / p.bytesPerSector) % 256
              ∧ (k = 0 → (N / p.bytesPerSector) % 256 = 0))
      ∨ (pos % p.bytesPerSector = 0 ∧ p.bytesPerSector ≤ N ∧ N < 2 * p.bytesPerSector
          ∧ n = p.bytesPerSector)) := by
  have hS := bytesPerSector_pos p
  have hoff : pos % p.bytesPerSector < p.bytesPerSector := Nat.mod_lt _ hS
  have hrest := cluster_rest p pos
  have hsoc := sectorOfCluster_lt p pos
  have hone : p.bytesPerSector ≤ (p.sectorsPerCluster - p.sectorOfCluster pos) * p.bytesPerSector :=
    Nat.le_mul_of_pos_left _ (by omega)
  unfold FatFile.writeTransfer at h
  rw [land_sectorMask] at h
  dsimp only at h
  split at h
  · rename_i hc
    obtain ⟨h1, h2⟩ := writeCached_next _ _ _ _ _ _ _ _ _ _ h
    have h3 := writeCached_dataStep _ _ _ _ _ _ _ _ _ _ h
    have h4 := partCount_pos p _ N hoff hN
    have h5 := partCount_le_sector p (pos % p.bytesPerSector) N
    have h6 := partCount_le p (pos % p.bytesPerSector) N
    subst h2
    refine ⟨h1, h3, h6, by omega, Or.inl ⟨hc, h4, h5⟩⟩
  · rename_i hc
    have hc1 : pos % p.bytesPerSector = 0 := by
      by_contra hne; exact hc (Or.inl hne)
    have hc2 : p.bytesPerSector ≤ N := by
      by_contra hne; exact hc (Or.inr (by omega))
    split at h
    · rename_i hbig
      obtain ⟨h1, h2⟩ := writeMulti_next _ _ _ _ _ _ _ _ _ _ h
      have h3 := writeMulti_dataStep _ _ _ _ _ _ _ _ _ _ h
      obtain ⟨k1, k2, k3⟩ := writeSectorCount_spec p hg N pos
      rw [Nat.shiftLeft_eq] at h2
      have hk : FatFile.writeSectorCount p N (p.sectorOfCluster pos) * p.bytesPerSector
          ≤ (p.sectorsPerCluster - p.sectorOfCluster pos) * p.bytesPerSector :=
        Nat.mul_le_mul_right _ k1
      have hle := writeSectorCount_le p N (p.sectorOfCluster pos)
      rw [Nat.shiftLeft_eq] at hle
      have hS' : 2 ^ p.bytesPerSectorShift = p.bytesPerSector := rfl
      rw [hS'] at h2 hle
      subst h2
      refine ⟨h1, h3, hle, by omega, Or.inr (Or.inl ⟨hc1, hbig, _, rfl, k2, k3⟩)⟩
    · rename_i hsmall
      obtain ⟨h1, h2⟩ := writeSingle_next _ _ _ _ _ _ _ _ h
      have h3 := writeSingle_dataStep _ _ _ _ _ _ _ _ h
      subst h2
      refine ⟨h1, h3, hc2, by omega, Or.inr (Or.inr ⟨hc1, hc2, by omega, rfl⟩)⟩

end WriteTransfer

section Chains

theorem fatGet_valid (p : FatPartition) (c : Nat) (h : p.fatGet c ≠ FatEntry.error) :
    2 ≤ c ∧ c ≤ p.lastCluster ∧ p.fat c = p.fatGet c := by
  unfold FatPartition.fatGet at h ⊢
  split at h
  · exact absurd rfl h
  · rename_i hr
    rw [if_neg hr]
    exact ⟨by omega, by omega, rfl⟩

theorem fatGet_congr (p q : FatPartition) (hm : q.toMount = p.toMount) (hf : q.fat = p.fat)
    (c : Nat) : q.fatGet c = p.fatGet c := by
  unfold FatPartition.fatGet
  have : q.lastCluster = p.lastCluster := congrArg Mount.lastCluster hm
  rw [this, hf]

theorem clusterAt_succ (p : FatPartition) (a k c : Nat)
    (h : clusterAt p a (k + 1) = some c) :
    ∃ b, clusterAt p a k = some b ∧ p.fatGet b = FatEntry.continues c := by
  rw [clusterAt] at h
  cases hb : clusterAt p a k with
  | none => rw [hb] at h; cases h
  | some b =>
    rw [hb] at h
    refine ⟨b, rfl, ?_⟩
    simp only at h
    cases hg : p.fatGet b with
    | error => simp [hg] at h
    | endOfChain => simp [hg] at h
    | continues n => simp [hg] at h; rw [h]

theorem clusterAt_succ_of (p : FatPartition) (a k b c : Nat)
    (h1 : clusterAt p a k = some b) (h2 : p.fatGet b = FatEntry.continues c) :
    clusterAt p a (k + 1) = some c := by
  rw [clusterAt, h1]
  simp only [h2]

theorem clusterAt_le (p : FatPartition) (a : Nat) :
    ∀ K c, clusterAt p a K = some c → ∀ k, k ≤ K → ∃ b, clusterAt p a k = some b := by
  intro K
  induction K with
  | zero =>
    intro c h k hk
    have : k = 0 := by omega
    subst this
    exact ⟨c, h⟩
  | succ K ih =>
    intro c h k hk
    obtain ⟨b, hb, _⟩ := clusterAt_succ p a K c h
    by_cases hk' : k = K + 1
    · subst hk'; exact ⟨c, h⟩
    · exact ih b hb k (by omega)

/-- If two partitions agree on `fatGet` along the first `K` clusters of a
chain, the walks of up to `K` steps agree. -/
theorem clusterAt_congr (p q : FatPartition) (a : Nat) :
    ∀ K, (∀ k x, k < K → clusterAt p a k = some x → q.fatGet x = p.fatGet x) →
      clusterAt q a K = clusterAt p a K := by
  intro K
  induction K with
  | zero => intro _; rfl
  | succ K ih =>
    intro h
    have h1 := ih (fun k x hk hx => h k x (by omega) hx)
    rw [clusterAt, clusterAt, h1]
    cases hb : clusterAt p a K with
    | none => rfl
    | some b => simp only [h K b (by omega) hb]

/-- The clusters of a chain of length `L`: the cluster at index `k < L` exists;
it is the end of the chain if `k = L - 1` and is linked to the cluster at index
`k + 1` otherwise. -/
theorem chainLen_member (p : FatPartition) (first L : Nat) (h : ChainLen p first L)
    (k : Nat) (hk : k < L) :
    ∃ c, clusterAt p first k = some c
      ∧ (k + 1 = L → p.fatGet c = FatEntry.endOfChain)
      ∧ (k + 1 < L → ∃ n, p.fatGet c = FatEntry.continues n
            ∧ clusterAt p first (k + 1) = some n) := by
  rcases h with ⟨h0, _⟩ | ⟨_, last, hlast, heoc⟩
  · omega
  · obtain ⟨c, hc⟩ := clusterAt_le p first (L - 1) last hlast k (by omega)
    refine ⟨c, hc, ?_, ?_⟩
    · intro hkL
      have : k = L - 1 := by omega
      subst this
      rw [hlast] at hc; cases hc; exact heoc
    · intro hkL
      obtain ⟨n, hn⟩ := clusterAt_le p first (L - 1) last hlast (k + 1) (by omega)
      obtain ⟨b, hb, hbn⟩ := clusterAt_succ p first k n hn
      rw [hc] at hb; cases hb
      exact ⟨n, hbn, hn⟩

/-- A cluster of a chain is a valid, allocated cluster. -/
theorem chainLen_member_valid (p : FatPartition) (first L : Nat) (h : ChainLen p first L)
    (k c : Nat) (hk : k < L) (hc : clusterAt p first k = some c) :
    p.fatGet c ≠ FatEntry.error ∧ 2 ≤ c ∧ c ≤ p.lastCluster
      ∧ p.fat c ≠ FatEntry.continues 0 := by
  obtain ⟨c', hc', h1, h2⟩ := chainLen_member p first L h k hk
  rw [hc] at hc'; cases hc'
  by_cases hkL : k + 1 = L
  · have he := h1 hkL
    have hv := fatGet_valid p c (by rw [he]; simp)
    exact ⟨by rw [he]; simp, hv.1, hv.2.1, by rw [hv.2.2, he]; simp⟩
  · obtain ⟨n, hn, hn'⟩ := h2 (by omega)
    have hv := fatGet_valid p c (by rw [hn]; simp)
    refine ⟨by rw [hn]; simp, hv.1, hv.2.1, ?_⟩
    rw [hv.2.2, hn]
    -- the successor is a cluster of the chain, hence not cluster 0
    obtain ⟨n', hn1, h3, h4⟩ := chainLen_member p first L h (k + 1) (by omega)
    rw [hn'] at hn1; cases hn1
    have hnv : p.fatGet n ≠ FatEntry.error := by
      by_cases hkL2 : k + 1 + 1 = L
      · rw [h3 hkL2]; simp
      · obtain ⟨m, hm, _⟩ := h4 (by omega); rw [hm]; simp
    have := (fatGet_valid p n hnv).1
    intro hc0
    cases hc0
    omega

/-- A chain of positive length does not start at cluster 0. -/
theorem chainLen_first_ne_zero (p : FatPartition) (first L : Nat) (h : ChainLen p first L)
    (hL : 0 < L) : first ≠ 0 := by
  have := chainLen_member_valid p first L h 0 first hL rfl
  omega

theorem chainLen_zero_iff (p : FatPartition) (first L : Nat) (h : ChainLen p first L) :
    L = 0 ↔ first = 0 := by
  constructor
  · intro hL
    rcases h with ⟨_, h0⟩ | ⟨hpos, _⟩
    · exact h0
    · omega
  · intro h0
    by_contra hL
    exact chainLen_first_ne_zero p first L h (by omega) h0

end Chains

section Allocation

theorem allocCalls_logCall_alloc (p : FatPartition) (cur : Nat) :
    (p.logCall (Call.allocateCluster cur)).allocCalls = p.allocCalls + 1 := by
  unfold FatPartition.allocCalls FatPartition.logCall
  simp [List.countP_cons]

/-- Every call of `allocateCluster`, successful or not, is counted once and
leaves mount parameters, device and cache alone. -/
theorem allocateCluster_frame (p : FatPartition) (cur : Nat) :
    (p.allocateCluster cur).2.1.toMount = p.toMount
    ∧ (p.allocateCluster cur).2.1.allocCalls = p.allocCalls + 1
    ∧ (p.allocateCluster cur).2.1.dev = p.dev
    ∧ (p.allocateCluster cur).2.1.cacheSector = p.cacheSector
    ∧ (p.allocateCluster cur).2.1.cacheDirty = p.cacheDirty
    ∧ (p.allocateCluster cur).2.1.cacheData = p.cacheData := by
  have h := allocCalls_logCall_alloc p cur
  unfold FatPartition.allocateCluster
  dsimp only
  split
  · exact ⟨rfl, h, rfl, rfl, rfl, rfl⟩
  · split
    · exact ⟨rfl, h, rfl, rfl, rfl, rfl⟩
    · exact ⟨rfl, h, rfl, rfl, rfl, rfl⟩

/-- A successful `allocateCluster(current)` delivers a cluster `c` that was
free and in range, marks it end of chain, links `current` to it when `current`
is not 0, and changes no other FAT entry. -/
theorem allocateCluster_ok (p q : FatPartition) (cur c : Nat)
    (h : p.allocateCluster cur = (true, q, c)) :
    2 ≤ c ∧ c ≤ p.lastCluster ∧ p.fat c = FatEntry.continues 0
    ∧ (cur ≠ c → q.fatGet c = FatEntry.endOfChain)
    ∧ (cur ≠ 0 → q.fatGet cur = FatEntry.continues c)
    ∧ (∀ x, x ≠ c → x ≠ cur → q.fatGet x = p.fatGet x)
    ∧ (cur = 0 → ∀ x, x ≠ c → q.fatGet x = p.fatGet x) := by
  unfold FatPartition.allocateCluster at h
  dsimp only at h
  split at h
  · cases h
  · rename_i c' hsearch
    split at h
    · rename_i hcond
      obtain ⟨hc2, hcl, hfree, hcur⟩ := hcond
      simp only [Prod.mk.injEq, true_and] at h
      obtain ⟨hq, hcc⟩ := h
      subst hcc
      have hlast : q.lastCluster = p.lastCluster := by rw [← hq]; rfl
      have hfat : q.fat = (if cur = 0 then upd p.fat c' FatEntry.endOfChain
          else upd (upd p.fat c' FatEntry.endOfChain) cur (FatEntry.continues c')) := by
        rw [← hq]; rfl
      have hl0 : (p.logCall (Call.allocateCluster cur)).lastCluster = p.lastCluster := rfl
      rw [hl0] at hcl hcur
      refine ⟨hc2, hcl, hfree, ?_, ?_, ?_, ?_⟩
      · intro hne
        unfold FatPartition.fatGet
        rw [hlast, if_neg (by omega), hfat]
        split
        · simp [upd]
        · simp [upd, Ne.symm hne]
      · intro hne
        have hr : 2 ≤ cur ∧ cur ≤ p.lastCluster := by
          rcases hcur with h0 | h0
          · exact absurd h0 hne
          · exact h0
        unfold FatPartition.fatGet
        rw [hlast, if_neg (by omega), hfat, if_neg hne]
        simp [upd]
      · intro x hx1 hx2
        unfold FatPartition.fatGet
        rw [hlast, hfat]
        split
        · rfl
        · split
          · simp [upd, hx1]
          · simp [upd, hx1, hx2]
      · intro h0 x hx1
        unfold FatPartition.fatGet
        rw [hlast, hfat, if_pos h0]
        split
        · rfl
        · simp [upd, hx1]
    · cases h

/-- Appending a cluster to a chain: after a successful `allocateCluster(last)`
at the last cluster of a chain of length `L`, the chain has length `L + 1`,
its first `L` clusters are the old ones and the new cluster is at index `L`. -/
theorem chainLen_append (p q : FatPartition) (first L last c : Nat)
    (hchain : ChainLen p first L) (hL : 0 < L)
    (hlast : clusterAt p first (L - 1) = some last)
    (h : p.allocateCluster last = (true, q, c)) :
    ChainLen q first (L + 1) ∧ clusterAt q first L = some c
      ∧ ∀ k, k < L → clusterAt q first k = clusterAt p first k := by
  obtain ⟨hc2, hcl, hfree, h1, h2, h3, _⟩ := allocateCluster_ok p q last c h
  have hlv := chainLen_member_valid p first L hchain (L - 1) last (by omega) hlast
  have hlast_eoc : p.fatGet last = FatEntry.endOfChain := by
    obtain ⟨x, hx, he, _⟩ := chainLen_member p first L hchain (L - 1) (by omega)
    rw [hlast] at hx; cases hx
    exact he (by omega)
  have hne : last ≠ c := by
    intro he; rw [he] at hlv; exact hlv.2.2.2 hfree
  -- members below index L - 1 differ from `c` and from `last`
  have hstable : ∀ k x, k < L - 1 → clusterAt p first k = some x → q.fatGet x = p.fatGet x := by
    intro k x hk hx
    have hv := chainLen_member_valid p first L hchain k x (by omega) hx
    apply h3
    · intro he; rw [he] at hv; exact hv.2.2.2 hfree
    · intro he
      obtain ⟨x', hx', _, hcont⟩ := chainLen_member p first L hchain k (by omega)
      rw [hx] at hx'; cases hx'
      obtain ⟨n, hn, _⟩ := hcont (by omega)
      rw [he, hlast_eoc] at hn; cases hn
  have hsame : ∀ k, k < L → clusterAt q first k = clusterAt p first k := by
    intro k hk
    exact clusterAt_congr p q first k (fun j x hj hx => hstable j x (by omega) hx)
  have hqlast : clusterAt q first (L - 1) = some last := by rw [hsame (L - 1) (by omega)]; exact hlast
  have hqL : clusterAt q first L = some c := by
    have := clusterAt_succ_of q first (L - 1) last c hqlast (h2 (by omega))
    rwa [show L - 1 + 1 = L by omega] at this
  refine ⟨Or.inr ⟨by omega, c, hqL, h1 hne⟩, hqL, hsame⟩

/-- The first cluster of a file: after a successful `allocateCluster(0)` the
new cluster is a chain of length 1. -/
theorem chainLen_first (p q : FatPartition) (c : Nat)
    (h : p.allocateCluster 0 = (true, q, c)) : ChainLen q c 1 := by
  obtain ⟨hc2, _, _, h1, _⟩ := allocateCluster_ok p q 0 c h
  exact Or.inr ⟨by omega, c, rfl, h1 (by omega)⟩

end Allocation

section WriteAcquire

theorem chainStart_file (f : FatFile) (p : FatPartition) (h : f.kind = FileKind.file) :
    f.chainStart p = f.firstCluster := by
  simp [FatFile.chainStart, FatFile.isRoot32, h]

theorem div_pred_of_not_dvd (q B : Nat) (hB : 0 < B) (h : q % B ≠ 0) :
    (q - 1) / B = q / B := by
  have h1 : q / B * B + q % B = q := Nat.div_add_mod' q B
  have h2 := Nat.mod_lt q hB
  apply Nat.div_eq_of_lt_le
  · omega
  · rw [Nat.succ_mul]; omega

theorem div_pred_of_dvd (q B : Nat) (hB : 0 < B) (hq : 0 < q) (h : q % B = 0) :
    (q - 1) / B + 1 = q / B := by
  have h1 : q / B * B + q % B = q := Nat.div_add_mod' q B
  have hk : 0 < q / B := by
    rcases Nat.eq_zero_or_pos (q / B) with h0 | h0
    · rw [h0] at h1; simp at h1; omega
    · exact h0
  have h3 : (q / B - 1) * B + B = q / B * B := by
    rw [← Nat.succ_mul]; congr 1; omega
  have : (q - 1) / B = q / B - 1 := by
    apply Nat.div_eq_of_lt_le
    · omega
    · rw [Nat.succ_mul]; omega
  omega

theorem div_le_of_le_mul_right (q B L : Nat) (hB : 0 < B) (h : q ≤ L * B) : q / B ≤ L :=
  (Nat.div_le_div_right h).trans (by rw [Nat.mul_div_cancel _ hB])

/-- `addCluster` in terms of `allocateCluster`. -/
theorem addCluster_eq (f : FatFile) (p : FatPartition) :
    f.addCluster p
      = ((p.allocateCluster f.curCluster).1,
         { f.setDirDirty with curCluster := (p.allocateCluster f.curCluster).2.2 },
         (p.allocateCluster f.curCluster).2.1) := by
  unfold FatFile.addCluster
  rfl

/-- The clusters usable after a cluster was appended to the chain were usable
before: no cluster is freed, and the new cluster was free. -/
theorem usable_append (p q : FatPartition) (first L last c : Nat)
    (hchain : ChainLen p first L) (hL : 0 < L)
    (hlast : clusterAt p first (L - 1) = some last)
    (h : p.allocateCluster last = (true, q, c))
    (hcL : clusterAt q first L = some c)
    (hsame : ∀ k, k < L → clusterAt q first k = clusterAt p first k) :
    ∀ x, Usable q first (L + 1) x → Usable p first L x := by
  obtain ⟨hc2, hc3, hfree, heoc, hlink, hother, _⟩ := allocateCluster_ok p q last c h
  obtain ⟨_, hl2, hl3, hlfat⟩ := chainLen_member_valid p first L hchain (L - 1) last
    (by omega) hlast
  have hne : last ≠ c := fun hx => hlfat (by rw [hx]; exact hfree)
  have hcfree : p.fatGet c = FatEntry.continues 0 := by
    unfold FatPartition.fatGet
    rw [if_neg (by omega)]; exact hfree
  intro x hx
  rcases hx with hx | ⟨k, hk, hx⟩
  · left
    by_cases hxc : x = c
    · rw [hxc, heoc hne] at hx; cases hx
    · by_cases hxl : x = last
      · rw [hxl, hlink (by omega)] at hx
        cases hx
        omega
      · rw [← hother x hxc hxl]; exact hx
  · by_cases hkL : k < L
    · right; exact ⟨k, hkL, by rw [← hsame k hkL]; exact hx⟩
    · have : k = L := by omega
      rw [this, hcL] at hx
      cases hx
      left; exact hcfree

/-- The clusters free after the first cluster of a file was allocated were
free before, and so was the new cluster. -/
theorem usable_first (p q : FatPartition) (c : Nat)
    (h : p.allocateCluster 0 = (true, q, c)) :
    ∀ x, Usable q c 1 x → p.fatGet x = FatEntry.continues 0 := by
  obtain ⟨hc2, hc3, hfree, heoc, _, _, hother⟩ := allocateCluster_ok p q 0 c h
  have hcfree : p.fatGet c = FatEntry.continues 0 := by
    unfold FatPartition.fatGet
    rw [if_neg (by omega)]; exact hfree
  intro x hx
  rcases hx with hx | ⟨k, hk, hx⟩
  · by_cases hxc : x = c
    · rw [hxc, heoc (by omega)] at hx; cases hx
    · rw [← hother rfl x hxc]; exact hx
  · have : k = 0 := by omega
    rw [this] at hx
    simp only [clusterAt, Option.some.injEq] at hx
    rw [← hx]; exact hcfree

/-- The cluster acquisition of `write` at position `pos` of a regular file
whose chain has `L` clusters and whose position satisfies the invariant: it
allocates exactly when `pos` is the end of the last cluster (`pos = L *
bytesPerCluster`), then the chain has one cluster more; afterwards
`curCluster` is the cluster with index `pos / bytesPerCluster`.  Device and
cache are untouched and the old clusters of the chain stay where they were. -/
theorem writeAcquire_spec (f f1 : FatFile) (p p1 : FatPartition) (L : Nat)
    (hkind : f.kind = FileKind.file)
    (hchain : ChainLen p f.firstCluster L) (hinv : PosInv f p)
    (hpos : f.curPosition ≤ L * p.bytesPerCluster)
    (h : FatFile.writeAcquire f p (p.sectorOfCluster f.curPosition)
          (f.curPosition &&& p.sectorMask) = (true, f1, p1)) :
    ∃ L1, ChainLen p1 f1.firstCluster L1
      ∧ (L1 = L ∨ (L1 = L + 1 ∧ f.curPosition = L * p.bytesPerCluster))
      ∧ p1.allocCalls + L = p.allocCalls + L1
      ∧ f.curPosition / p.bytesPerCluster < L1
      ∧ clusterAt p1 f1.firstCluster (f.curPosition / p.bytesPerCluster) = some f1.curCluster
      ∧ p1.toMount = p.toMount ∧ p1.dev = p.dev ∧ p1.cacheSector = p.cacheSector
      ∧ p1.cacheDirty = p.cacheDirty ∧ p1.cacheData = p.cacheData
      ∧ (∀ k, k < L → clusterAt p1 f1.firstCluster k = clusterAt p f.firstCluster k)
      ∧ (∀ c, Usable p1 f1.firstCluster L1 c → Usable p f.firstCluster L c) := by
  have hB := bytesPerCluster_pos p
  have hcs := chainStart_file f p hkind
  have hinv2 : f.curPosition ≠ 0 →
      clusterAt p f.firstCluster ((f.curPosition - 1) / p.bytesPerCluster)
        = some f.curCluster := by
    intro h0; have := hinv.2 h0; rwa [hcs] at this
  unfold FatFile.writeAcquire at h
  by_cases hstart : p.sectorOfCluster f.curPosition = 0 ∧ f.curPosition &&& p.sectorMask = 0
  · rw [if_pos hstart] at h
    have hmod : f.curPosition % p.bytesPerCluster = 0 := (cluster_start_iff p _).1 hstart
    by_cases hcc : f.curCluster ≠ 0
    · rw [if_pos hcc] at h
      have hp0 : f.curPosition ≠ 0 := fun h0 => hcc (hinv.1 h0)
      have hk := div_pred_of_dvd f.curPosition p.bytesPerCluster hB (by omega) hmod
      have hcur := hinv2 hp0
      have hkL : f.curPosition / p.bytesPerCluster ≤ L :=
        div_le_of_le_mul_right _ _ _ hB hpos
      generalize (f.curPosition - 1) / p.bytesPerCluster = km at hk hcur
      generalize hkq : f.curPosition / p.bytesPerCluster = kq at hk hkL ⊢
      obtain ⟨c0, hc0, heoc, hcont⟩ := chainLen_member p f.firstCluster L hchain
        km (by omega)
      rw [hcur] at hc0; cases hc0
      cases hg : p.fatGet f.curCluster with
      | error => rw [hg] at h; cases h
      | continues next =>
        rw [hg] at h
        cases h
        have hlt : km + 1 < L := by
          by_contra hc
          have := heoc (by omega)
          rw [hg] at this; cases this
        have hnext := clusterAt_succ_of p f.firstCluster _ _ next hcur hg
        rw [hk] at hnext
        exact ⟨L, hchain, Or.inl rfl, rfl, by omega, hnext, rfl, rfl, rfl, rfl, rfl,
          fun _ _ => rfl, fun _ hu => hu⟩
      | endOfChain =>
        rw [hg] at h
        have hkeq : km + 1 = L := by
          by_contra hc
          obtain ⟨n, hn, _⟩ := hcont (by omega)
          rw [hg] at hn; cases hn
        have hfr := allocateCluster_frame p f.curCluster
        have hadd : f.addCluster p = (true, f1, p1) := h
        rw [addCluster_eq] at hadd
        rcases hal : p.allocateCluster f.curCluster with ⟨ok, p2, c⟩
        rw [hal] at hadd hfr
        simp only [Prod.mk.injEq] at hadd
        obtain ⟨hok, hf1, hp1⟩ := hadd
        subst hok hp1
        have hal' : p.allocateCluster f.curCluster = (true, p2, c) := hal
        have hlast : clusterAt p f.firstCluster (L - 1) = some f.curCluster := by
          rw [← hcur]; congr 1; omega
        obtain ⟨hch, hcL, hsame⟩ := chainLen_append p p2 f.firstCluster L f.curCluster c
          hchain (by omega) hlast hal'
        have hfirst : f1.firstCluster = f.firstCluster := by rw [← hf1]; rfl
        have hcurc : f1.curCluster = c := by rw [← hf1]
        have hposL : f.curPosition = L * p.bytesPerCluster := by
          have := Nat.div_add_mod f.curPosition p.bytesPerCluster
          rw [hmod, Nat.add_zero, hkq, ← hk, hkeq] at this
          rw [← this, Nat.mul_comm]
        refine ⟨L + 1, by rw [hfirst]; exact hch, Or.inr ⟨rfl, hposL⟩, ?_, by omega, ?_,
          hfr.1, hfr.2.2.1, hfr.2.2.2.1, hfr.2.2.2.2.1, hfr.2.2.2.2.2, ?_, ?_⟩
        · have := hfr.2.1; simp only at this; omega
        · rw [hfirst, hcurc, ← hk, hkeq]; exact hcL
        · intro k hk'; rw [hfirst]; exact hsame k hk'
        · rw [hfirst]
          exact usable_append p p2 f.firstCluster L f.curCluster c hchain (by omega) hlast hal'
            hcL hsame
    · rw [if_neg hcc] at h
      have hcc0 : f.curCluster = 0 := by omega
      -- the position is 0: cluster 0 is not a cluster of the chain
      have hp0 : f.curPosition = 0 := by
        by_contra hne
        have hcur := hinv2 hne
        have hk := div_pred_of_dvd f.curPosition p.bytesPerCluster hB (by omega) hmod
        have hkL : f.curPosition / p.bytesPerCluster ≤ L :=
          div_le_of_le_mul_right _ _ _ hB hpos
        generalize (f.curPosition - 1) / p.bytesPerCluster = km at hk hcur
        generalize f.curPosition / p.bytesPerCluster = kq at hk hkL
        have := chainLen_member_valid p f.firstCluster L hchain _ _ (by omega) hcur
        omega
      by_cases hfc : f.firstCluster = 0
      · rw [if_pos hfc] at h
        have hL0 : L = 0 := (chainLen_zero_iff p _ L hchain).2 hfc
        have hfr := allocateCluster_frame p f.curCluster
        rw [addCluster_eq] at h
        rcases hal : p.allocateCluster f.curCluster with ⟨ok, p2, c⟩
        rw [hal] at h hfr
        have hal' : p.allocateCluster f.curCluster = (ok, p2, c) := hal
        cases ok
        · cases h
        · simp only [Prod.mk.injEq, true_and] at h
          obtain ⟨hf1, hp1⟩ := h
          subst hp1
          rw [hcc0] at hal'
          have hch := chainLen_first p p2 c hal'
          have hfirst : f1.firstCluster = c := by rw [← hf1]
          have hcurc : f1.curCluster = c := by rw [← hf1]
          refine ⟨1, by rw [hfirst]; exact hch, Or.inr ⟨by omega, by rw [hp0, hL0]; simp⟩, ?_,
            by rw [hp0]; simp, ?_, hfr.1, hfr.2.2.1, hfr.2.2.2.1, hfr.2.2.2.2.1,
            hfr.2.2.2.2.2, fun k hk => by omega, ?_⟩
          · have := hfr.2.1; simp only at this; omega
          · rw [hp0, hfirst, hcurc]; simp [clusterAt]
          · rw [hfirst]
            exact fun x hx => Or.inl (usable_first p p2 c hal' x hx)
      · rw [if_neg hfc] at h
        cases h
        have hL : 0 < L := by
          by_contra hc
          exact hfc ((chainLen_zero_iff p _ L hchain).1 (by omega))
        refine ⟨L, hchain, Or.inl rfl, rfl, by rw [hp0]; simpa using hL, ?_, rfl, rfl, rfl,
          rfl, rfl, fun _ _ => rfl, fun _ hu => hu⟩
        rw [hp0]; simp [clusterAt]
  · rw [if_neg hstart] at h
    cases h
    have hmod : f.curPosition % p.bytesPerCluster ≠ 0 :=
      fun hc => hstart ((cluster_start_iff p _).2 hc)
    have hp0 : f.curPosition ≠ 0 := by
      intro h0; rw [h0] at hmod; simp at hmod
    have hcur := hinv2 hp0
    rw [div_pred_of_not_dvd _ _ hB hmod] at hcur
    have hlt : f.curPosition / p.bytesPerCluster < L := by
      rw [Nat.div_lt_iff_lt_mul hB]
      have := Nat.div_add_mod f.curPosition p.bytesPerCluster
      by_contra hc
      have hq : f.curPosition = L * p.bytesPerCluster := by omega
      rw [hq] at hmod; simp at hmod
    exact ⟨L, hchain, Or.inl rfl, rfl, hlt, hcur, rfl, rfl, rfl, rfl, rfl, fun _ _ => rfl,
      fun _ hu => hu⟩

end WriteAcquire

section WriteProgress

theorem writeAcquire_mount (f : FatFile) (p : FatPartition) (soc off : Nat) :
    (FatFile.writeAcquire f p soc off).2.2.toMount = p.toMount := by
  have hfr := (allocateCluster_frame p f.curCluster).1
  unfold FatFile.writeAcquire
  split
  · split
    · split
      · rfl
      · rw [addCluster_eq]; exact hfr
      · rfl
    · split
      · rw [addCluster_eq]
        split
        · rename_i h; rw [← hfr]
          have := congrArg (fun x => x.2.2) h
          simp only at this
          rw [this]
        · rename_i h; rw [← hfr]
          have := congrArg (fun x => x.2.2) h
          simp only at this
          rw [this]
      · rfl
  · rfl

theorem geometryOk_congr (p q : FatPartition) (h : q.toMount = p.toMount)
    (hg : GeometryOk p) : GeometryOk q := by
  unfold GeometryOk at hg ⊢
  have : q.sectorsPerClusterShift = p.sectorsPerClusterShift :=
    congrArg Mount.sectorsPerClusterShift h
  omega

theorem bytesPerSector_congr (p q : FatPartition) (h : q.toMount = p.toMount) :
    q.bytesPerSector = p.bytesPerSector := by
  unfold FatPartition.bytesPerSector
  rw [show q.bytesPerSectorShift = p.bytesPerSectorShift from
    congrArg Mount.bytesPerSectorShift h]

theorem sectorsPerCluster_congr (p q : FatPartition) (h : q.toMount = p.toMount) :
    q.sectorsPerCluster = p.sectorsPerCluster := by
  unfold FatPartition.sectorsPerCluster
  rw [show q.sectorsPerClusterShift = p.sectorsPerClusterShift from
    congrArg Mount.sectorsPerClusterShift h]

theorem bytesPerCluster_congr (p q : FatPartition) (h : q.toMount = p.toMount) :
    q.bytesPerCluster = p.bytesPerCluster := by
  rw [bytesPerCluster_eq, bytesPerCluster_eq, bytesPerSector_congr p q h,
    sectorsPerCluster_congr p q h]

theorem sectorOfCluster_congr (p q : FatPartition) (h : q.toMount = p.toMount) (pos : Nat) :
    q.sectorOfCluster pos = p.sectorOfCluster pos := by
  unfold FatPartition.sectorOfCluster
  rw [bytesPerSector_congr p q h, sectorsPerCluster_congr p q h]

theorem sectorMask_congr (p q : FatPartition) (h : q.toMount = p.toMount) :
    q.sectorMask = p.sectorMask := by
  unfold FatPartition.sectorMask
  rw [bytesPerSector_congr p q h]

/-- One successful iteration of the loop of `write` at position `pos`: the
handle keeps kind and position, the mount parameters are unchanged, and the
byte count is described by `writeTransfer_spec`. -/
theorem writeStep_transfer (f g : FatFile) (p q : FatPartition) (N n : Nat)
    (src chunk : Nat → Nat)
    (h : FatFile.writeStep f p N src = FatFile.Step.next g q n chunk) :
    ∃ f1 p1, FatFile.writeAcquire f p (p.sectorOfCluster f.curPosition)
        (f.curPosition &&& p.sectorMask) = (true, f1, p1)
      ∧ FatFile.writeTransfer f1 p1 N (p1.sectorOfCluster f.curPosition)
          (f.curPosition &&& p1.sectorMask) src = FatFile.Step.next g q n chunk
      ∧ p1.toMount = p.toMount := by
  unfold FatFile.writeStep at h
  dsimp only at h
  split at h
  · cases h
  · rename_i f1 p1 hacq
    have hm := writeAcquire_mount f p (p.sectorOfCluster f.curPosition)
      (f.curPosition &&& p.sectorMask)
    rw [hacq] at hm
    refine ⟨f1, p1, hacq, ?_, hm⟩
    rw [sectorOfCluster_congr p p1 hm, sectorMask_congr p p1 hm]
    exact h

/-- A write that starts at a sector boundary and succeeds is shorter than 256
sectors: a longer one arrives at a sector count that is a multiple of 256, is
truncated to 0 in the `uint8_t`, and makes no progress from there on. -/
theorem writeLoop_ok_small (fuel : Nat) :
    ∀ (f g : FatFile) (p q : FatPartition) (N rest : Nat) (src : Nat → Nat) (out : List Nat),
      GeometryOk p →
      f.curPosition % p.bytesPerSector = 0 →
      f.curPosition + N ≤ 4294967295 →
      FatFile.writeLoop fuel f p N src = some (FatFile.LoopEnd.ok g q rest out) →
      N < 256 * p.bytesPerSector := by
  induction fuel with
  | zero =>
    intro f g p q N rest src out _ _ _ h
    unfold FatFile.writeLoop at h
    split at h
    · rename_i h0; rw [h0]; have := bytesPerSector_pos p; omega
    · cases h
  | succ fuel ih =>
    intro f g p q N rest src out hg hal hb h
    have hS := bytesPerSector_pos p
    unfold FatFile.writeLoop at h
    split at h
    · rename_i h0; rw [h0]; omega
    · rename_i hN
      split at h
      · cases h
      · cases h
      · rename_i f2 p2 n chunk hstep
        obtain ⟨f1, p1, hacq, htr, hm1⟩ := writeStep_transfer _ _ _ _ _ _ _ _ hstep
        have hpos1 : f2.curPosition = f.curPosition := by
          obtain ⟨⟨cc, fc, d, hf2, _⟩, _⟩ := writeStep_next _ _ _ _ _ _ _ _ hstep
          rw [hf2]
        have hg1 := geometryOk_congr p p1 hm1 hg
        obtain ⟨_, hds, hnN, _, hpath⟩ :=
          writeTransfer_spec f1 f2 p1 p2 N f.curPosition n src chunk hg1 (by omega) htr
        have hS1 := bytesPerSector_congr p p1 hm1
        have hS2 : p2.bytesPerSector = p.bytesPerSector :=
          (bytesPerSector_congr p1 p2 hds.1).trans hS1
        rw [hS1] at hpath
        have hg2 := geometryOk_congr p1 p2 hds.1 hg1
        rcases hpath with ⟨hc, _, _⟩ | ⟨_, hbig, k, hk, hkr, _⟩ | ⟨_, _, hlt, _⟩
        · rcases hc with hc | hc
          · exact absurd hal hc
          · omega
        · have hmod : (f2.curPosition + n) % U32 = f.curPosition + n := by
            rw [hpos1]; unfold U32; omega
          have hrec := ih _ g p2 q (N - n) rest _ out hg2 (by
              show ((f2.curPosition + n) % U32) % p2.bytesPerSector = 0
              rw [hmod, hS2, hk, Nat.add_mul_mod_self_right]; exact hal)
            (by show (f2.curPosition + n) % U32 + (N - n) ≤ 4294967295
                rw [hmod]; omega) h
          rw [hS2] at hrec
          -- N / S = 256 a + r, k ≤ r, (N - k S) / S < 256
          have h1 : (N - k * p.bytesPerSector) / p.bytesPerSector
              = N / p.bytesPerSector - k := by
            rw [Nat.mul_comm k, Nat.sub_mul_div _ _ _ (by
              rw [hk] at hnN; rw [Nat.mul_comm]; exact hnN)]
          have h2 : (N - n) / p.bytesPerSector < 256 := by
            rw [Nat.div_lt_iff_lt_mul hS]; exact hrec
          rw [hk, h1] at h2
          have h3 : N / p.bytesPerSector < 256 := by
            have := Nat.mod_add_div (N / p.bytesPerSector) 256
            omega
          have := (Nat.div_lt_iff_lt_mul hS).1 h3
          exact this
        · omega

end WriteProgress

section WriteAllocCount

theorem clusterAt_dataStep (p q : FatPartition) (h : DataStep p q) (a k : Nat) :
    clusterAt q a k = clusterAt p a k :=
  clusterAt_congr p q a k (fun _ x _ _ => fatGet_congr p q h.1 h.2.1 x)

theorem chainLen_dataStep (p q : FatPartition) (h : DataStep p q) (first L : Nat)
    (hc : ChainLen p first L) : ChainLen q first L := by
  rcases hc with h0 | ⟨hL, last, hlast, heoc⟩
  · exact Or.inl h0
  · refine Or.inr ⟨hL, last, ?_, ?_⟩
    · rw [clusterAt_dataStep p q h]; exact hlast
    · rw [fatGet_congr p q h.1 h.2.1]; exact heoc

/-- One successful iteration of the loop of `write` on a regular file whose
chain has `L` clusters: a cluster is allocated exactly when the position is the
end of the last cluster; `curCluster` becomes the cluster that holds the
position; the bytes moved stay within that cluster. -/
theorem writeStep_chain (f g : FatFile) (p q : FatPartition) (N n L : Nat)
    (src chunk : Nat → Nat)
    (hkind : f.kind = FileKind.file) (hg : GeometryOk p) (hN : 0 < N)
    (hchain : ChainLen p f.firstCluster L) (hinv : PosInv f p)
    (hpos : f.curPosition ≤ L * p.bytesPerCluster)
    (h : FatFile.writeStep f p N src = FatFile.Step.next g q n chunk) :
    ∃ L1, ChainLen q g.firstCluster L1
      ∧ (L1 = L ∨ (L1 = L + 1 ∧ f.curPosition = L * p.bytesPerCluster))
      ∧ q.allocCalls + L = p.allocCalls + L1
      ∧ f.curPosition / p.bytesPerCluster < L1
      ∧ clusterAt q g.firstCluster (f.curPosition / p.bytesPerCluster) = some g.curCluster
      ∧ q.toMount = p.toMount ∧ g.kind = f.kind ∧ g.curPosition = f.curPosition
      ∧ n ≤ N ∧ f.curPosition % p.bytesPerCluster + n ≤ p.bytesPerCluster
      ∧ (n = 0 → f.curPosition % p.bytesPerSector = 0 ∧ 2 * p.bytesPerSector ≤ N
            ∧ (N / p.bytesPerSector) % 256 = 0) := by
  obtain ⟨f1, p1, hacq, htr, hm1⟩ := writeStep_transfer _ _ _ _ _ _ _ _ h
  obtain ⟨⟨cc, fc, d, hf2, _⟩, _⟩ := writeStep_next _ _ _ _ _ _ _ _ h
  obtain ⟨L1, hch1, hL1, hcnt, hlt, hcl, _, _, _, _, _, _⟩ :=
    writeAcquire_spec f f1 p p1 L hkind hchain hinv hpos hacq
  have hg1 := geometryOk_congr p p1 hm1 hg
  obtain ⟨hgf, hds, hnN, hwithin, hpath⟩ :=
    writeTransfer_spec f1 g p1 q N f.curPosition n src chunk hg1 hN htr
  have hS1 := bytesPerSector_congr p p1 hm1
  have hB1 := bytesPerCluster_congr p p1 hm1
  rw [hS1] at hpath
  rw [hB1] at hwithin
  subst hgf
  refine ⟨L1, chainLen_dataStep p1 q hds _ _ hch1, hL1, ?_, hlt, ?_, hds.1.trans hm1,
    by rw [hf2], by rw [hf2], hnN, hwithin, ?_⟩
  · rw [hds.2.2]; exact hcnt
  · rw [clusterAt_dataStep p1 q hds]; exact hcl
  · intro hn0
    rcases hpath with ⟨_, h1, _⟩ | ⟨ha, hbig, k, hk, _, hk0⟩ | ⟨_, _, _, hS⟩
    · omega
    · refine ⟨ha, hbig, hk0 ?_⟩
      have hSpos := bytesPerSector_pos p
      rw [hn0] at hk
      rcases Nat.mul_eq_zero.mp hk.symm with h0 | h0
      · exact h0
      · omega
    · have hSpos := bytesPerSector_pos p
      omega

theorem div_of_within (q n B : Nat) (_hB : 0 < B) (hn : 1 ≤ n) (h : q % B + n ≤ B) :
    (q + n - 1) / B = q / B := by
  have h1 : q / B * B + q % B = q := Nat.div_add_mod' q B
  apply Nat.div_eq_of_lt_le
  · omega
  · rw [Nat.succ_mul]; omega

theorem ceil_ge_succ (L B N : Nat) (hB : 0 < B) (hN : 0 < N) :
    L + 1 ≤ (L * B + N + B - 1) / B := by
  rw [Nat.le_div_iff_mul_le hB, Nat.succ_mul]
  omega

theorem ceil_le_of_le (q L B : Nat) (hB : 0 < B) (h : q ≤ L * B) : (q + B - 1) / B ≤ L := by
  have : (q + B - 1) / B < L + 1 := by
    rw [Nat.div_lt_iff_lt_mul hB, Nat.succ_mul]; omega
  omega

/-- The loop of `write` on a regular file whose chain has `L` clusters and
whose position satisfies the invariant: when the loop ends without failure,
the number of `allocateCluster` calls has grown by the number of clusters that
the end position `pos + N` needs beyond `L`. -/
theorem writeLoop_alloc_count (fuel : Nat) :
    ∀ (f g : FatFile) (p q : FatPartition) (N rest L : Nat) (src : Nat → Nat) (out : List Nat),
      f.kind = FileKind.file → GeometryOk p →
      f.curPosition + N ≤ 4294967295 →
      ChainLen p f.firstCluster L → PosInv f p →
      f.curPosition ≤ L * p.bytesPerCluster →
      FatFile.writeLoop fuel f p N src = some (FatFile.LoopEnd.ok g q rest out) →
      q.allocCalls + L
        = p.allocCalls + max L ((f.curPosition + N + p.bytesPerCluster - 1) / p.bytesPerCluster)
      := by
  induction fuel with
  | zero =>
    intro f g p q N rest L src out _ _ _ _ _ hpos h
    unfold FatFile.writeLoop at h
    split at h
    · rename_i h0; cases h; subst h0
      have := ceil_le_of_le _ _ _ (bytesPerCluster_pos p) hpos
      rw [Nat.add_zero, Nat.max_eq_left this]
    · cases h
  | succ fuel ih =>
    intro f g p q N rest L src out hkind hg hb hchain hinv hpos h
    have hB := bytesPerCluster_pos p
    have hS := bytesPerSector_pos p
    unfold FatFile.writeLoop at h
    split at h
    · rename_i h0; cases h; subst h0
      have := ceil_le_of_le _ _ _ hB hpos
      rw [Nat.add_zero, Nat.max_eq_left this]
    · rename_i hN
      split at h
      · cases h
      · cases h
      · rename_i f2 p2 n chunk hstep
        obtain ⟨L1, hch1, hL1, hcnt, hlt, hcl, hm, hk2, hp2, hnN, hwithin, hzero⟩ :=
          writeStep_chain f f2 p p2 N n L src chunk hkind hg (by omega) hchain hinv hpos hstep
        have hg2 := geometryOk_congr p p2 hm hg
        have hB2 := bytesPerCluster_congr p p2 hm
        have hS2 := bytesPerSector_congr p p2 hm
        have hmod : (f2.curPosition + n) % U32 = f.curPosition + n := by
          rw [hp2]; unfold U32; omega
        -- the iteration made progress
        have hn1 : 1 ≤ n := by
          by_contra hc
          have hn0 : n = 0 := by omega
          obtain ⟨ha, hbig, hr⟩ := hzero hn0
          have hsmall := writeLoop_ok_small fuel _ g p2 q (N - n) rest _ out hg2 (by
              show ((f2.curPosition + n) % U32) % p2.bytesPerSector = 0
              rw [hmod, hS2, hn0, Nat.add_zero]; exact ha)
            (by show (f2.curPosition + n) % U32 + (N - n) ≤ 4294967295
                rw [hmod]; omega) h
          rw [hS2, hn0, Nat.sub_zero] at hsmall
          have h3 : N / p.bytesPerSector < 256 := by
            rw [Nat.div_lt_iff_lt_mul hS]; exact hsmall
          have h4 : 2 ≤ N / p.bytesPerSector := by
            rw [Nat.le_div_iff_mul_le hS]; exact hbig
          omega
        have hkq : f.curPosition / p.bytesPerCluster * p.bytesPerCluster
            + f.curPosition % p.bytesPerCluster = f.curPosition := Nat.div_add_mod' _ _
        have hle : (f.curPosition / p.bytesPerCluster + 1) * p.bytesPerCluster
            ≤ L1 * p.bytesPerCluster := Nat.mul_le_mul_right _ hlt
        rw [Nat.succ_mul] at hle
        have hinv3 : PosInv { f2 with curPosition := (f2.curPosition + n) % U32 } p2 := by
          refine ⟨fun h0 => ?_, fun _ => ?_⟩
          · have : (f2.curPosition + n) % U32 = 0 := h0
            rw [hmod] at this; omega
          · show clusterAt p2 (FatFile.chainStart _ p2) (((f2.curPosition + n) % U32 - 1)
                / p2.bytesPerCluster) = some f2.curCluster
            rw [chainStart_file _ _ (by show f2.kind = FileKind.file; rw [hk2]; exact hkind),
              hmod, hB2, div_of_within _ _ _ hB hn1 hwithin]
            exact hcl
        have hrec := ih { f2 with curPosition := (f2.curPosition + n) % U32 } g p2 q (N - n)
          rest L1 _ out (by show f2.kind = FileKind.file; rw [hk2]; exact hkind) hg2
          (by show (f2.curPosition + n) % U32 + (N - n) ≤ 4294967295
              rw [hmod]; omega)
          hch1 hinv3
          (by show (f2.curPosition + n) % U32 ≤ L1 * p2.bytesPerCluster
              rw [hmod, hB2]; omega) h
        have hsum : (f2.curPosition + n) % U32 + (N - n) = f.curPosition + N := by
          rw [hmod]; omega
        simp only [hsum, hB2] at hrec
        rcases hL1 with hL1 | ⟨hL1, hposL⟩
        · subst hL1; omega
        · have hM := ceil_ge_succ L p.bytesPerCluster N hB (by omega)
          rw [← hposL] at hM
          subst hL1
          rw [Nat.max_eq_right (by omega)] at hrec
          rw [Nat.max_eq_right (by omega)]
          omega


theorem writeFinish_dataStep (f : FatFile) (p : FatPartition) (n : Nat) :
    DataStep p (FatFile.writeFinish f p n).part := by
  unfold FatFile.writeFinish FatFile.writeSync
  split
  · have h := sync_dataStep (FatFile.writeMark f p) p
    split
    · rename_i h1; rw [h1] at h; exact h
    · rename_i h1; rw [h1] at h; exact h
  · exact DataStep.refl p

/-- C6 (amended). Cluster allocation count of `write`: for a file whose FAT
chain from `firstCluster` has exactly `L` clusters, whose position satisfies
the position/cluster invariant and `curPosition <= fileSize <= L *
bytesPerCluster`, a successful write of `n > 0` bytes calls `allocateCluster`
exactly `max(0, ceil((p + n) / bytesPerCluster) - L)` times, where `p` is the
position the write starts at: `curPosition`, or `fileSize` when O_APPEND is
set. -/
theorem write_alloc_count (fuel : Nat) (f : FatFile) (p : FatPartition) (buf : Nat → Nat)
    (n L : Nat) (w : FatFile.WriteOut)
    (hg : GeometryOk p) (hu : f.curPosition < U32)
    (hchain : ChainLen p f.firstCluster L) (hinv : PosInv f p)
    (hpos : f.curPosition ≤ f.fileSize) (hsize : f.fileSize ≤ L * p.bytesPerCluster)
    (hn : 0 < n)
    (hw : FatFile.write fuel f p buf n = some w) (hok : w.ret ≠ SIZE_MAX) :
    w.part.allocCalls
      = p.allocCalls
        + ((writeStart f + n + p.bytesPerCluster - 1) / p.bytesPerCluster - L) := by
  unfold FatFile.write at hw
  split at hw
  · cases hw; exact absurd rfl hok
  · rename_i hcond
    have hfile : f.isFile = true := by
      by_contra hc; exact hcond (Or.inl (by simpa using hc))
    have hkind : f.kind = FileKind.file := by
      simpa [FatFile.isFile] using hfile
    -- the handle after the O_APPEND seek
    have hseek : ∀ f1, (if f.flags.append = true then f.seekSet p f.fileSize else (true, f))
        = (true, f1) →
        f1.kind = FileKind.file ∧ f1.firstCluster = f.firstCluster
          ∧ f1.curPosition = writeStart f ∧ PosInv f1 p := by
      intro f1 h1
      unfold writeStart
      by_cases ha : f.flags.append = true
      · rw [if_pos ha] at h1 ⊢
        obtain ⟨cc, hf1⟩ := seekSet_append f f1 p hfile h1
        obtain ⟨_, _, hp⟩ := seekSet_posInv f p f.fileSize f1
          (Or.inl hkind) hu hinv h1
        exact ⟨by rw [hf1]; exact hkind, by rw [hf1], by rw [hf1], hp⟩
      · rw [if_neg ha] at h1 ⊢
        cases h1
        exact ⟨hkind, rfl, rfl, hinv⟩
    have hstart : writeStart f ≤ L * p.bytesPerCluster := by
      unfold writeStart; split <;> omega
    split at hw
    · cases hw; exact absurd rfl hok
    · rename_i f1 hf1
      obtain ⟨hk1, hfc1, hp1, hinv1⟩ := hseek f1 hf1
      split at hw
      · cases hw; exact absurd rfl hok
      · rename_i hguard
        split at hw
        · cases hw
        · cases hw; exact absurd rfl hok
        · rename_i f2 p2 rest out hloop
          cases hw
          have hcount := writeLoop_alloc_count fuel f1 f2 p p2 n rest L buf out hk1 hg
            (by omega) (by rw [hfc1]; exact hchain) hinv1 (by rw [hp1]; exact hstart) hloop
          have hds := writeFinish_dataStep f2 p2 n
          rw [hds.2.2, hp1] at *
          omega

end WriteAllocCount


section WriteAllocWitnesses

theorem write_alloc_count_witness :
    FatFile.write 10 emptyFile (blankPartition 0 9) testBuf 1025 = some wrote1025
    ∧ wrote1025.ret ≠ SIZE_MAX
    ∧ ChainLen (blankPartition 0 9) emptyFile.firstCluster 0
    ∧ wrote1025.part.allocCalls
        = (blankPartition 0 9).allocCalls
          + ((writeStart emptyFile + 1025 + (blankPartition 0 9).bytesPerCluster - 1)
              / (blankPartition 0 9).bytesPerCluster - 0)
    ∧ (blankPartition 0 9).allocCalls
          + ((writeStart emptyFile + 1025 + (blankPartition 0 9).bytesPerCluster - 1)
              / (blankPartition 0 9).bytesPerCluster - 0) = 3 := by
  have hw : FatFile.write 10 emptyFile (blankPartition 0 9) testBuf 1025 = some wrote1025 := by
    rfl
  have hok : wrote1025.ret ≠ SIZE_MAX := by decide
  have hch : ChainLen (blankPartition 0 9) emptyFile.firstCluster 0 := Or.inl ⟨rfl, rfl⟩
  have hinv : PosInv emptyFile (blankPartition 0 9) :=
    ⟨fun _ => rfl, fun h => absurd rfl h⟩
  exact ⟨hw, hok, hch,
    write_alloc_count 10 emptyFile (blankPartition 0 9) testBuf 1025 0 wrote1025
      (by unfold GeometryOk; decide) (by decide) hch hinv (by decide) (by decide)
      (by decide) hw hok,
    by decide⟩

/-- C6, counterexample to the claim as stated (with `p` the `curPosition`
before the call): the handle has O_APPEND set and stands at position 0 of a
file of 512 bytes whose chain is the one 512-byte cluster 2.  A write of one
byte succeeds and calls `allocateCluster` once, although
`ceil((0 + 1) / 512) - 1 = 0`: the write starts at `fileSize`, not at
`curPosition`. -/
theorem write_alloc_count_counterexample :
    ChainLen oneClusterPartition appendFile512.firstCluster 1
    ∧ PosInv appendFile512 oneClusterPartition
    ∧ appendFile512.curPosition = 0
    ∧ appendFile512.fileSize = 1 * oneClusterPartition.bytesPerCluster
    ∧ oneClusterPartition.allocCalls = 0
    ∧ (FatFile.write 4 appendFile512 oneClusterPartition testBuf 1).map
        (fun w => (w.ret, w.part.allocCalls)) = some (1, 1)
    ∧ (appendFile512.curPosition + 1 + oneClusterPartition.bytesPerCluster - 1)
        / oneClusterPartition.bytesPerCluster - 1 = 0 := by
  refine ⟨Or.inr ⟨by decide, 2, by decide, by decide⟩,
    ⟨fun _ => rfl, fun h => absurd rfl h⟩, rfl, by decide, by decide, by decide, by decide⟩

end WriteAllocWitnesses


section StoredBytes

theorem OnDevice.stored {p : FatPartition} {s j v : Nat} (h : OnDevice p s j v) :
    Stored p s j v :=
  ⟨fun hc => absurd hc h.1, Or.inr h.2⟩

theorem flushLine_stored (p q : FatPartition) (h : p.flushLine = (true, q)) :
    q.toMount = p.toMount ∧ q.fat = p.fat ∧ q.cacheSector = p.cacheSector
      ∧ q.cacheDirty = false ∧ q.cacheData = p.cacheData
      ∧ (∀ s, s ≠ p.cacheSector → q.dev s = p.dev s)
      ∧ (∀ s j v, Stored p s j v → Stored q s j v) := by
  unfold FatPartition.flushLine at h
  by_cases hd : p.cacheDirty = true
  · rw [if_pos hd] at h
    split at h
    · cases h
    · cases h
      refine ⟨rfl, rfl, rfl, rfl, rfl, fun s hs => by simp [upd, hs], ?_⟩
      intro s j v hst
      refine ⟨hst.1, Or.inr ?_⟩
      show upd p.dev p.cacheSector p.cacheData s j = v
      by_cases hs : s = p.cacheSector
      · simp only [upd, hs, if_true]
        exact hst.1 hs.symm
      · simp only [upd, hs, if_false]
        rcases hst.2 with ⟨h1, _⟩ | h1
        · exact absurd h1.symm hs
        · exact h1
  · rw [if_neg hd] at h
    cases h
    have hd2 : p.cacheDirty = false := by simpa using hd
    refine ⟨rfl, rfl, rfl, hd2, rfl, fun _ _ => rfl, fun _ _ _ hst => hst⟩

theorem flushLine_ok (p : FatPartition) (hbad : ∀ s, p.badSector s = false) :
    ∃ q, p.flushLine = (true, q) := by
  unfold FatPartition.flushLine
  split
  · rw [hbad]; exact ⟨_, rfl⟩
  · exact ⟨_, rfl⟩

end StoredBytes

section CacheOps

theorem cacheSyncData_stored (p q : FatPartition) (h : p.cacheSyncData = (true, q)) :
    q.toMount = p.toMount ∧ q.fat = p.fat ∧ q.cacheSector = p.cacheSector
      ∧ q.cacheDirty = false ∧ q.cacheData = p.cacheData
      ∧ (∀ s, s ≠ p.cacheSector → q.dev s = p.dev s)
      ∧ (∀ s j v, Stored p s j v → Stored q s j v) :=
  flushLine_stored (p.logCall Call.cacheSyncData) q h

theorem cacheSync_stored (p q : FatPartition) (h : p.cacheSync = (true, q)) :
    q.toMount = p.toMount ∧ q.fat = p.fat ∧ q.cacheSector = p.cacheSector
      ∧ q.cacheDirty = false ∧ q.cacheData = p.cacheData
      ∧ (∀ s, s ≠ p.cacheSector → q.dev s = p.dev s)
      ∧ (∀ s j v, Stored p s j v → Stored q s j v) :=
  flushLine_stored (p.logCall Call.cacheSync) q h

theorem cacheSyncData_ok (p : FatPartition) (hbad : ∀ s, p.badSector s = false) :
    ∃ q, p.cacheSyncData = (true, q) :=
  flushLine_ok (p.logCall Call.cacheSyncData) hbad

/-- A fetch that succeeds makes the sector resident and keeps every stored
byte; in the two write modes the line is dirty afterwards. -/
theorem cacheFetchData_stored (p q : FatPartition) (sector : Nat) (mode : CacheMode)
    (h : p.cacheFetchData sector mode = (true, q)) :
    q.toMount = p.toMount ∧ q.fat = p.fat ∧ q.cacheSector = sector
      ∧ (mode ≠ CacheMode.forRead → q.cacheDirty = true)
      ∧ (p.cacheSector = sector → q.cacheData = p.cacheData)
      ∧ (∀ s, s ≠ p.cacheSector → q.dev s = p.dev s)
      ∧ (∀ s j v, Stored p s j v → (mode = CacheMode.forRead ∨ s ≠ sector) →
            Stored q s j v) := by
  unfold FatPartition.cacheFetchData at h
  dsimp only at h
  by_cases hres : (p.logCall (Call.cacheFetchData sector mode)).cacheSector = sector
  · rw [if_pos hres] at h
    cases h
    have hres2 : p.cacheSector = sector := hres
    refine ⟨rfl, rfl, hres, fun hm => by simp [hm], fun _ => rfl, fun _ _ => rfl, ?_⟩
    intro s j v hst hor
    refine ⟨hst.1, ?_⟩
    rcases hst.2 with ⟨h1, h2⟩ | h1
    · left; exact ⟨h1, by show (p.cacheDirty || _) = true; rw [h2]; rfl⟩
    · right; exact h1
  · rw [if_neg hres] at h
    have hres2 : p.cacheSector ≠ sector := hres
    split at h
    · cases h
    · rename_i p1 hfl
      obtain ⟨hm, hfat, hcs, hcd, hdata, hdev, hst1⟩ :=
        flushLine_stored (p.logCall (Call.cacheFetchData sector mode)) p1 hfl
      have hcs1 : p1.cacheSector ≠ sector := by rw [hcs]; exact hres2
      split at h
      · cases h
        refine ⟨hm, hfat, rfl, fun _ => rfl, fun hc => absurd hc hres2, hdev, ?_⟩
        intro s j v hst hor
        have h1 := hst1 s j v hst
        rename_i hmode
        rcases hor with hor | hor
        · rw [hmode] at hor; cases hor
        · refine ⟨fun hc => absurd hc.symm hor, Or.inr ?_⟩
          rcases h1.2 with ⟨_, h3⟩ | h3
          · rw [hcd] at h3; cases h3
          · exact h3
      · split at h
        · cases h
        · cases h
          refine ⟨hm, hfat, rfl, fun hmd => by simp [hmd], fun hc => absurd hc hres2, hdev, ?_⟩
          intro s j v hst _
          have h1 := hst1 s j v hst
          have hdv : p1.cacheSector = s ∧ p1.cacheDirty = true ∨ p1.dev s j = v := h1.2
          have hdv2 : p1.dev s j = v := by
            rcases hdv with ⟨_, h3⟩ | h3
            · rw [hcd] at h3; cases h3
            · exact h3
          refine ⟨fun hc => ?_, Or.inr hdv2⟩
          have hc2 : sector = s := hc
          show p1.dev sector j = v
          rw [hc2]; exact hdv2

theorem cacheFetchData_ok (p : FatPartition) (hbad : ∀ s, p.badSector s = false)
    (sector : Nat) (mode : CacheMode) :
    ∃ q, p.cacheFetchData sector mode = (true, q) := by
  unfold FatPartition.cacheFetchData
  dsimp only
  split
  · exact ⟨_, rfl⟩
  · obtain ⟨p1, hp1⟩ := flushLine_ok (p.logCall (Call.cacheFetchData sector mode)) hbad
    rw [hp1]
    dsimp only
    have hm := (flushLine_stored _ p1 hp1).1
    have hb : p1.badSector sector = false := by
      have : p1.badSector = p.badSector := congrArg Mount.badSector hm
      rw [this]; exact hbad sector
    split
    · exact ⟨_, rfl⟩
    · rw [hb]; exact ⟨_, rfl⟩

end CacheOps


section Positions

theorem split_aux (C a t : Nat) (hC : 0 < C) (h : a % C + t < C) :
    (a + t) % C = a % C + t ∧ (a + t) / C = a / C := by
  have ha := Nat.div_add_mod a C
  generalize a / C = k at ha
  generalize a % C = r at ha h
  subst ha
  constructor
  · rw [Nat.add_assoc, Nat.mul_add_mod, Nat.mod_eq_of_lt h]
  · rw [Nat.add_assoc, Nat.mul_add_div hC, Nat.div_eq_of_lt h, Nat.add_zero]

theorem div_bytesPerCluster (p : FatPartition) (q : Nat) :
    q / p.bytesPerCluster = q / p.bytesPerSector / p.sectorsPerCluster := by
  rw [bytesPerCluster_eq, Nat.div_div_eq_div_mul]

/-- The bytes behind a sector boundary `pos` that lie in the rest of the
cluster of `pos`: byte `pos + m` is in the same cluster, `m / bytesPerSector`
sectors further, at offset `m mod bytesPerSector`. -/
theorem pos_split (p : FatPartition) (pos m : Nat) (hal : pos % p.bytesPerSector = 0)
    (hm : m < (p.sectorsPerCluster - p.sectorOfCluster pos) * p.bytesPerSector) :
    (pos + m) / p.bytesPerCluster = pos / p.bytesPerCluster
      ∧ p.sectorOfCluster (pos + m) = p.sectorOfCluster pos + m / p.bytesPerSector
      ∧ (pos + m) % p.bytesPerSector = m % p.bytesPerSector := by
  have hS := bytesPerSector_pos p
  have hC := sectorsPerCluster_pos p
  have hdiv : (pos + m) / p.bytesPerSector = pos / p.bytesPerSector + m / p.bytesPerSector :=
    Nat.add_div_of_dvd_right (Nat.dvd_of_mod_eq_zero hal)
  have ht : m / p.bytesPerSector < p.sectorsPerCluster - p.sectorOfCluster pos :=
    Nat.div_lt_of_lt_mul (by rw [Nat.mul_comm]; exact hm)
  have hlt : (pos / p.bytesPerSector) % p.sectorsPerCluster + m / p.bytesPerSector
      < p.sectorsPerCluster := by
    have ht2 : m / p.bytesPerSector
        < p.sectorsPerCluster - (pos / p.bytesPerSector) % p.sectorsPerCluster := ht
    generalize m / p.bytesPerSector = t at ht2 ⊢
    generalize (pos / p.bytesPerSector) % p.sectorsPerCluster = r at ht2 ⊢
    omega
  obtain ⟨h1, h2⟩ := split_aux _ _ _ hC hlt
  refine ⟨?_, ?_, ?_⟩
  · rw [div_bytesPerCluster, div_bytesPerCluster, hdiv, h2]
  · show ((pos + m) / p.bytesPerSector) % p.sectorsPerCluster = _
    rw [hdiv, h1]; rfl
  · rw [Nat.add_mod, hal, Nat.zero_add, Nat.mod_mod]

theorem sector_index (p : FatPartition) (q : Nat) :
    q / p.bytesPerSector = q / p.bytesPerCluster * p.sectorsPerCluster + p.sectorOfCluster q := by
  rw [div_bytesPerCluster]
  exact (Nat.div_add_mod' _ _).symm

theorem chainLen_inj (p : FatPartition) (first L : Nat) (h : ChainLen p first L)
    (i j c : Nat) (hij : i < j) (hj : j < L)
    (hi : clusterAt p first i = some c) (hj2 : clusterAt p first j = some c) : False := by
  rcases h with ⟨h0, _⟩ | ⟨_, last, hlast, heoc⟩
  · omega
  · have e1 : L - 1 = j + (L - 1 - j) := by omega
    have e2 : L - 1 = i + ((L - 1 - j) + ((j - i - 1) + 1)) := by omega
    have h1 := hlast
    rw [e1, clusterAt_add, hj2] at h1
    have h2 := hlast
    rw [e2, clusterAt_add, hi] at h2
    simp only [Option.some_bind] at h1 h2
    rw [clusterAt_add, h1] at h2
    simp only [Option.some_bind] at h2
    rw [clusterAt_succ_none p last (fun n hn => by rw [heoc] at hn; cases hn)] at h2
    cases h2

/-- Bytes of a file that lie in different sectors of the file lie in different
sectors of the device. -/
theorem dataSector_ne (p : FatPartition) (first L : Nat) (hlay : LayoutOk p)
    (hchain : ChainLen p first L) (i j c d : Nat)
    (hi : i / p.bytesPerCluster < L) (hj : j / p.bytesPerCluster < L)
    (hc : clusterAt p first (i / p.bytesPerCluster) = some c)
    (hd : clusterAt p first (j / p.bytesPerCluster) = some d)
    (hne : i / p.bytesPerSector ≠ j / p.bytesPerSector) :
    dataSector p c i ≠ dataSector p d j := by
  unfold dataSector
  have hsi := sectorOfCluster_lt p i
  have hsj := sectorOfCluster_lt p j
  by_cases hk : i / p.bytesPerCluster = j / p.bytesPerCluster
  · rw [hk, hd] at hc
    cases hc
    have e1 := sector_index p i
    have e2 := sector_index p j
    rw [hk] at e1
    intro heq
    apply hne
    omega
  · have hcd : c ≠ d := by
      intro hcd
      subst hcd
      rcases Nat.lt_or_gt_of_ne hk with hlt | hlt
      · exact chainLen_inj p first L hchain _ _ c hlt hj hc hd
      · exact chainLen_inj p first L hchain _ _ c hlt hi hd hc
    obtain ⟨_, hc2, hc3, _⟩ := chainLen_member_valid p first L hchain _ _ hi hc
    obtain ⟨_, hd2, hd3, _⟩ := chainLen_member_valid p first L hchain _ _ hj hd
    exact hlay.2.2.2.2 c d hc2 hc3 hd2 hd3 hcd _ _ hsi hsj

end Positions


section WriteStore

theorem cacheInvalidate_onDevice (p : FatPartition) (s j v : Nat) (h : OnDevice p s j v)
    (hs : s ≠ 4294967295) : OnDevice p.cacheInvalidate s j v :=
  ⟨fun hc => hs hc.symm, h.2⟩

theorem writeSector_true (p q : FatPartition) (sector : Nat) (src : Nat → Nat)
    (h : p.writeSector sector src = (true, q)) :
    q.cacheSector = p.cacheSector ∧ q.dev = upd p.dev sector src := by
  unfold FatPartition.writeSector at h
  dsimp only at h
  split at h
  · cases h
  · cases h; exact ⟨rfl, rfl⟩

theorem writeSectors_true (p q : FatPartition) (sector count : Nat) (src : Nat → Nat)
    (h : p.writeSectors sector count src = (true, q)) :
    q.cacheSector = p.cacheSector
    ∧ q.dev = fun t =>
        if sector ≤ t ∧ t < sector + count then
          fun j => src ((t - sector) * p.bytesPerSector + j)
        else p.dev t := by
  unfold FatPartition.writeSectors at h
  dsimp only at h
  split at h
  · cases h; exact ⟨rfl, rfl⟩
  · cases h

theorem writeSingle_store (f g : FatFile) (p q : FatPartition) (sector n : Nat)
    (src chunk : Nat → Nat) (hs : sector < 4294967295)
    (h : FatFile.writeSingle f p sector src = FatFile.Step.next g q n chunk) :
    n = p.bytesPerSector
    ∧ (∀ j, OnDevice q sector j (src j))
    ∧ (∀ s j v, OnDevice p s j v → s ≠ sector → s ≠ 4294967295 → OnDevice q s j v) := by
  unfold FatFile.writeSingle at h
  dsimp only at h
  split at h
  · cases h
  · rename_i q2 hq
    cases h
    obtain ⟨hcs, hdev⟩ := writeSector_true _ _ _ _ hq
    by_cases hc : p.cacheSectorNumber = sector
    · rw [if_pos hc] at hcs hdev
      have hcs2 : q.cacheSector = 4294967295 := hcs
      have hdev2 : q.dev = upd p.dev sector src := hdev
      refine ⟨rfl, fun j => ⟨?_, by rw [hdev2]; simp [upd]⟩,
        fun s j v hst hne hne2 => ⟨?_, ?_⟩⟩
      · rw [hcs2]; omega
      · rw [hcs2]; exact fun hx => hne2 hx.symm
      · rw [hdev2]; simp only [upd, hne, if_false]; exact hst.2
    · rw [if_neg hc] at hcs hdev
      refine ⟨rfl, fun j => ⟨by rw [hcs]; exact hc, by rw [hdev]; simp [upd]⟩,
        fun s j v hst hne hne2 => ⟨by rw [hcs]; exact hst.1, ?_⟩⟩
      rw [hdev]; simp only [upd, hne, if_false]; exact hst.2

theorem writeMulti_store (f g : FatFile) (p q : FatPartition) (N sector soc n : Nat)
    (src chunk : Nat → Nat)
    (hs : sector + 2 * FatFile.writeSectorCount p N soc ≤ 4294967295)
    (h : FatFile.writeMulti f p N sector soc src = FatFile.Step.next g q n chunk) :
    n = FatFile.writeSectorCount p N soc * p.bytesPerSector
    ∧ (∀ t j, t < FatFile.writeSectorCount p N soc →
          OnDevice q (sector + t) j (src (t * p.bytesPerSector + j)))
    ∧ (∀ s j v, OnDevice p s j v →
          (s < sector ∨ sector + FatFile.writeSectorCount p N soc ≤ s) →
          s ≠ 4294967295 → OnDevice q s j v) := by
  unfold FatFile.writeMulti at h
  dsimp only at h
  generalize FatFile.writeSectorCount p N soc = k at h hs ⊢
  split at h
  · cases h
  · rename_i q2 hq
    cases h
    obtain ⟨hcs, hdev⟩ := writeSectors_true _ _ _ _ _ hq
    have hn : k <<< p.bytesPerSectorShift = k * p.bytesPerSector := by
      rw [Nat.shiftLeft_eq]; rfl
    by_cases hc : sector ≤ p.cacheSectorNumber ∧ sector < (p.cacheSectorNumber + k) % U32
    · rw [if_pos hc] at hcs hdev
      have hcs2 : q.cacheSector = 4294967295 := hcs
      have hdev2 : q.dev = fun t =>
          if sector ≤ t ∧ t < sector + k then
            fun j => src ((t - sector) * p.bytesPerSector + j)
          else p.dev t := hdev
      refine ⟨hn, fun t j ht => ⟨?_, ?_⟩, fun s j v hst hor hne2 => ⟨?_, ?_⟩⟩
      · rw [hcs2]; omega
      · rw [hdev2]; dsimp only
        rw [if_pos ⟨by omega, by omega⟩, Nat.add_sub_cancel_left]
      · rw [hcs2]; exact fun hx => hne2 hx.symm
      · rw [hdev2]; dsimp only
        rw [if_neg (by omega)]; exact hst.2
    · rw [if_neg hc] at hcs hdev
      refine ⟨hn, fun t j ht => ⟨?_, ?_⟩, fun s j v hst hor hne2 => ⟨?_, ?_⟩⟩
      · rw [hcs]
        intro hx
        apply hc
        have h1 : p.cacheSectorNumber = sector + t := hx
        have h2 : (p.cacheSectorNumber + k) % U32 = sector + t + k := by
          rw [h1]; unfold U32; omega
        rw [h2]; omega
      · rw [hdev]; dsimp only
        rw [if_pos ⟨by omega, by omega⟩, Nat.add_sub_cancel_left]
      · rw [hcs]; exact hst.1
      · rw [hdev]; dsimp only
        rw [if_neg (by omega)]; exact hst.2

theorem writeCached_store (f g : FatFile) (p q : FatPartition) (N sector n : Nat)
    (src chunk : Nat → Nat) (hN : N < p.bytesPerSector)
    (h : FatFile.writeCached f p N sector 0 src = FatFile.Step.next g q n chunk) :
    n = N
    ∧ (∀ j, j < N → Stored q sector j (src j))
    ∧ (∀ s j v, OnDevice p s j v → s ≠ sector → Stored q s j v) := by
  have hpc : FatFile.partCount p 0 N = N := by
    unfold FatFile.partCount
    dsimp only
    rw [if_pos (by omega)]
  unfold FatFile.writeCached at h
  dsimp only at h
  rw [hpc] at h
  split at h
  · cases h
  · rename_i p1 hfetch
    obtain ⟨hm, _, hcs, hdirty, _, hdev, _⟩ := cacheFetchData_stored p p1 sector _ hfetch
    have hd : p1.cacheDirty = true := hdirty (by split <;> simp)
    have hbs : ({ p1 with cacheData := memcpyAt p1.cacheData 0 N src } : FatPartition).bytesPerSector
        = p.bytesPerSector := bytesPerSector_congr p _ hm
    rw [hbs, if_neg (by omega)] at h
    cases h
    refine ⟨rfl, fun j hj => ⟨fun _ => ?_, Or.inl ⟨hcs, hd⟩⟩, fun s j v hst hne => ⟨?_, Or.inr ?_⟩⟩
    · show memcpyAt p1.cacheData 0 N src j = src j
      unfold memcpyAt
      rw [if_pos ⟨by omega, by omega⟩, Nat.sub_zero]
    · intro hx
      have : p1.cacheSector = s := hx
      rw [hcs] at this
      exact absurd this.symm hne
    · show p1.dev s j = v
      rw [hdev s (fun hx => hst.1 hx.symm)]
      exact hst.2

end WriteStore


section WriteStep

/-- The transfer of `write` at a sector boundary `pos`: with at least a sector
to write, whole sectors go to the device, none of them being the cache line
afterwards; the last part of the buffer, shorter than a sector, stays in the
cache line. -/
theorem writeTransfer_store (f g : FatFile) (p q : FatPartition) (N pos n : Nat)
    (src chunk : Nat → Nat) (hg : GeometryOk p)
    (hal : pos % p.bytesPerSector = 0)
    (hsec : p.clusterStartSector f.curCluster + 2 * p.sectorsPerCluster ≤ 4294967295)
    (hsmall : N < 256 * p.bytesPerSector)
    (h : FatFile.writeTransfer f p N (p.sectorOfCluster pos) (pos &&& p.sectorMask) src
          = FatFile.Step.next g q n chunk) :
    (p.bytesPerSector ≤ N →
        1 ≤ n ∧ n % p.bytesPerSector = 0
        ∧ n ≤ (p.sectorsPerCluster - p.sectorOfCluster pos) * p.bytesPerSector
        ∧ (∀ m, m < n → OnDevice q (dataSector p f.curCluster pos + m / p.bytesPerSector)
              (m % p.bytesPerSector) (src m))
        ∧ (∀ s j v, OnDevice p s j v →
              (s < dataSector p f.curCluster pos
                ∨ dataSector p f.curCluster pos + n / p.bytesPerSector ≤ s) →
              s ≠ 4294967295 → OnDevice q s j v))
    ∧ (N < p.bytesPerSector →
        n = N
        ∧ (∀ m, m < n → Stored q (dataSector p f.curCluster pos) m (src m))
        ∧ (∀ s j v, OnDevice p s j v → s ≠ dataSector p f.curCluster pos → Stored q s j v)) := by
  have hS := bytesPerSector_pos p
  have hsoc := sectorOfCluster_lt p pos
  unfold FatFile.writeTransfer at h
  dsimp only at h
  rw [land_sectorMask, hal] at h
  by_cases hpart : N < p.bytesPerSector
  · rw [if_pos (Or.inr hpart)] at h
    obtain ⟨h1, h2, h3⟩ := writeCached_store f g p q N _ n src chunk hpart h
    refine ⟨fun hc => by omega, fun _ => ⟨h1, ?_, h3⟩⟩
    intro m hm
    exact h2 m (by omega)
  · rw [if_neg (by intro hc; rcases hc with hc | hc; exact hc rfl; exact hpart hc)] at h
    refine ⟨fun _ => ?_, fun hc => absurd hc hpart⟩
    by_cases hbig : N ≥ 2 * p.bytesPerSector
    · rw [if_pos hbig] at h
      obtain ⟨hk1, hk2, hk3⟩ := writeSectorCount_spec p hg N pos
      have hk0 : FatFile.writeSectorCount p N (p.sectorOfCluster pos) ≠ 0 := by
        intro h0
        have h3 : N / p.bytesPerSector < 256 := by
          rw [Nat.div_lt_iff_lt_mul hS]; exact hsmall
        have h4 : 2 ≤ N / p.bytesPerSector := by
          rw [Nat.le_div_iff_mul_le hS]; exact hbig
        have := hk3 h0
        omega
      obtain ⟨hn, hnew, hold⟩ := writeMulti_store f g p q N _ _ n src chunk (by omega) h
      generalize FatFile.writeSectorCount p N (p.sectorOfCluster pos) = k at *
      subst hn
      refine ⟨?_, Nat.mul_mod_left _ _, Nat.mul_le_mul_right _ hk1, ?_, ?_⟩
      · exact Nat.mul_pos (by omega) hS
      · intro m hm
        have ht : m / p.bytesPerSector < k :=
          Nat.div_lt_of_lt_mul (by rw [Nat.mul_comm]; exact hm)
        have := hnew (m / p.bytesPerSector) (m % p.bytesPerSector) ht
        rw [Nat.div_add_mod'] at this
        exact this
      · intro s j v hst hor hne
        rw [Nat.mul_div_cancel _ hS] at hor
        exact hold s j v hst hor hne
    · rw [if_neg hbig] at h
      obtain ⟨hn, hnew, hold⟩ := writeSingle_store f g p q _ n src chunk (by omega) h
      subst hn
      refine ⟨hS, Nat.mod_self _, ?_, ?_, ?_⟩
      · calc p.bytesPerSector = 1 * p.bytesPerSector := (Nat.one_mul _).symm
          _ ≤ _ := Nat.mul_le_mul_right _ (by omega)
      · intro m hm
        rw [Nat.div_eq_of_lt hm, Nat.mod_eq_of_lt hm, Nat.add_zero]
        exact hnew m
      · intro s j v hst hor hne
        rw [Nat.div_self hS] at hor
        exact hold s j v hst (by unfold dataSector at *; omega) hne

theorem dataSector_congr (p q : FatPartition) (h : q.toMount = p.toMount) (c i : Nat) :
    dataSector q c i = dataSector p c i := by
  unfold dataSector
  rw [sectorOfCluster_congr p q h]
  show q.toMount.clusterStartSector c + _ = _
  rw [h]

theorem layoutOk_congr (p q : FatPartition) (h : q.toMount = p.toMount) (hl : LayoutOk p) :
    LayoutOk q := by
  have hspc := sectorsPerCluster_congr p q h
  have e1 : q.clusterStartSector = p.clusterStartSector :=
    congrArg Mount.clusterStartSector h
  have e2 : q.lastCluster = p.lastCluster := congrArg Mount.lastCluster h
  have e3 : q.badSector = p.badSector := congrArg Mount.badSector h
  have e4 : q.bytesPerSectorShift = p.bytesPerSectorShift :=
    congrArg Mount.bytesPerSectorShift h
  unfold LayoutOk at *
  rw [hspc, e1, e2, e3, e4]
  exact ⟨geometryOk_congr p q h hl.1, hl.2⟩

theorem dataSector_lt (p : FatPartition) (hlay : LayoutOk p) (c i : Nat)
    (hc2 : 2 ≤ c) (hc3 : c ≤ p.lastCluster) : dataSector p c i < 4294967295 := by
  have h1 := hlay.2.2.2.1 c hc2 hc3
  have h2 := sectorOfCluster_lt p i
  have h3 := sectorsPerCluster_pos p
  unfold dataSector
  omega

theorem div_lt_of_lt_aligned (i pos S : Nat) (hS : 0 < S) (hal : pos % S = 0) (h : i < pos) :
    i / S < pos / S := by
  rw [Nat.div_lt_iff_lt_mul hS]
  have := Nat.div_add_mod' pos S
  omega

/-- A byte before the sector boundary `pos` is stored in another device sector
than the sectors of the rest of the cluster of `pos`. -/
theorem old_sector_ne (p : FatPartition) (first L : Nat) (hlay : LayoutOk p)
    (hchain : ChainLen p first L) (pos i c d t : Nat)
    (hal : pos % p.bytesPerSector = 0) (hlt : pos / p.bytesPerCluster < L)
    (hc : clusterAt p first (pos / p.bytesPerCluster) = some c)
    (hi : i < pos) (hd : clusterAt p first (i / p.bytesPerCluster) = some d)
    (ht : t < p.sectorsPerCluster - p.sectorOfCluster pos) :
    dataSector p d i ≠ dataSector p c pos + t ∧ dataSector p d i < 4294967295 := by
  have hS := bytesPerSector_pos p
  have hB := bytesPerCluster_pos p
  have hm : t * p.bytesPerSector
      < (p.sectorsPerCluster - p.sectorOfCluster pos) * p.bytesPerSector :=
    Nat.mul_lt_mul_of_pos_right ht hS
  obtain ⟨h1, h2, _⟩ := pos_split p pos (t * p.bytesPerSector) hal hm
  have hiL : i / p.bytesPerCluster < L :=
    lt_of_le_of_lt (Nat.div_le_div_right (Nat.le_of_lt hi)) hlt
  have hne := dataSector_ne p first L hlay hchain i (pos + t * p.bytesPerSector) d c hiL
    (by rw [h1]; exact hlt) hd (by rw [h1]; exact hc) (by
      have ha := div_lt_of_lt_aligned i pos _ hS hal hi
      have hb : pos / p.bytesPerSector ≤ (pos + t * p.bytesPerSector) / p.bytesPerSector :=
        Nat.div_le_div_right (Nat.le_add_right _ _)
      omega)
  obtain ⟨_, hd2, hd3, _⟩ := chainLen_member_valid p first L hchain _ _ hiL hd
  refine ⟨?_, dataSector_lt p hlay d i hd2 hd3⟩
  have e : dataSector p c (pos + t * p.bytesPerSector) = dataSector p c pos + t := by
    unfold dataSector
    rw [h2, Nat.mul_div_cancel _ hS, Nat.add_assoc]
  rw [← e]; exact hne

end WriteStep


section WriteFile

/-- The transfer of `write` at a sector boundary `pos` of a file whose bytes
before `pos` are on the device: afterwards the bytes before `pos + n` are on
the device, or, after the last, partial sector, on the device or in the cache
line. -/
theorem writeTransfer_file (f g : FatFile) (p q : FatPartition) (N pos n L : Nat)
    (B src chunk : Nat → Nat) (hlay : LayoutOk p)
    (hchain : ChainLen p f.firstCluster L)
    (hlt : pos / p.bytesPerCluster < L)
    (hcl : clusterAt p f.firstCluster (pos / p.bytesPerCluster) = some f.curCluster)
    (hal : pos % p.bytesPerSector = 0)
    (hN : 0 < N) (hsmall : N < 256 * p.bytesPerSector)
    (hdev : FileOnDevice p f.firstCluster B pos)
    (hsrc : ∀ i, src i = B (pos + i))
    (h : FatFile.writeTransfer f p N (p.sectorOfCluster pos) (pos &&& p.sectorMask) src
          = FatFile.Step.next g q n chunk) :
    1 ≤ n
    ∧ (p.bytesPerSector ≤ N → n % p.bytesPerSector = 0
        ∧ FileOnDevice q f.firstCluster B (pos + n))
    ∧ (N < p.bytesPerSector → n = N ∧ FileHolds q f.firstCluster B (pos + n)) := by
  have hg := hlay.1
  have hSpos := bytesPerSector_pos p
  obtain ⟨_, hds, hnN, hwithin, _⟩ := writeTransfer_spec f g p q N pos n src chunk hg hN h
  obtain ⟨_, hc2, hc3, _⟩ := chainLen_member_valid p _ L hchain _ _ hlt hcl
  have hsec := hlay.2.2.2.1 f.curCluster hc2 hc3
  obtain ⟨hfull, hpart⟩ := writeTransfer_store f g p q N pos n src chunk hg hal hsec hsmall h
  have hm : q.toMount = p.toMount := hds.1
  have hS := bytesPerSector_congr p q hm
  have hBc := bytesPerCluster_congr p q hm
  have hrest : n ≤ (p.sectorsPerCluster - p.sectorOfCluster pos) * p.bytesPerSector := by
    have := cluster_rest p pos
    omega
  have hsoc := sectorOfCluster_lt p pos
  have hnew_place : ∀ i, pos ≤ i → i < pos + n →
      clusterAt q f.firstCluster (i / q.bytesPerCluster) = some f.curCluster
      ∧ dataSector q f.curCluster i
          = dataSector p f.curCluster pos + (i - pos) / p.bytesPerSector
      ∧ i % q.bytesPerSector = (i - pos) % p.bytesPerSector
      ∧ src (i - pos) = B i := by
    intro i h1 h2
    obtain ⟨e1, e2, e3⟩ := pos_split p pos (i - pos) hal (by omega)
    have e : pos + (i - pos) = i := by omega
    rw [e] at e1 e2 e3
    refine ⟨by rw [clusterAt_dataStep p q hds, hBc, e1]; exact hcl, ?_, by rw [hS, e3],
      by rw [hsrc, e]⟩
    rw [dataSector_congr p q hm]
    unfold dataSector
    rw [e2, Nat.add_assoc]
  have hold_place : ∀ i, i < pos → ∃ c,
      clusterAt q f.firstCluster (i / q.bytesPerCluster) = some c
      ∧ dataSector q c i < 4294967295
      ∧ (∀ t, t < p.sectorsPerCluster - p.sectorOfCluster pos →
            dataSector q c i ≠ dataSector p f.curCluster pos + t)
      ∧ OnDevice p (dataSector q c i) (i % q.bytesPerSector) (B i) := by
    intro i hi
    obtain ⟨c, hc, hon⟩ := hdev i hi
    refine ⟨c, by rw [clusterAt_dataStep p q hds, hBc]; exact hc, ?_, ?_, ?_⟩
    · rw [dataSector_congr p q hm]
      exact (old_sector_ne p _ L hlay hchain pos i f.curCluster c 0 hal hlt hcl hi hc
        (by omega)).2
    · intro t ht
      rw [dataSector_congr p q hm]
      exact (old_sector_ne p _ L hlay hchain pos i f.curCluster c t hal hlt hcl hi hc ht).1
    · rw [dataSector_congr p q hm, hS]; exact hon
  refine ⟨?_, ?_, ?_⟩
  · by_cases hbig : p.bytesPerSector ≤ N
    · exact (hfull hbig).1
    · have := (hpart (by omega)).1
      omega
  · intro hbig
    obtain ⟨_, hnmod, _, hnew, hold⟩ := hfull hbig
    refine ⟨hnmod, ?_⟩
    intro i hi
    by_cases hio : i < pos
    · obtain ⟨c, hc, hlt2, hne, hon⟩ := hold_place i hio
      refine ⟨c, hc, hold _ _ _ hon ?_ (Nat.ne_of_lt hlt2)⟩
      have hk : n / p.bytesPerSector ≤ p.sectorsPerCluster - p.sectorOfCluster pos :=
        (Nat.div_le_div_right hrest).trans (by rw [Nat.mul_div_cancel _ hSpos])
      by_contra hcon
      have h3 := hne (dataSector q c i - dataSector p f.curCluster pos) (by omega)
      omega
    · obtain ⟨e1, e2, e3, e4⟩ := hnew_place i (by omega) hi
      refine ⟨f.curCluster, e1, ?_⟩
      rw [e2, e3, ← e4]
      exact hnew (i - pos) (by omega)
  · intro hsm
    obtain ⟨hnN2, hnew, hold⟩ := hpart hsm
    refine ⟨hnN2, ?_⟩
    intro i hi
    by_cases hio : i < pos
    · obtain ⟨c, hc, _, hne, hon⟩ := hold_place i hio
      refine ⟨c, hc, hold _ _ _ hon ?_⟩
      have := hne 0 (by omega)
      rwa [Nat.add_zero] at this
    · obtain ⟨e1, e2, e3, e4⟩ := hnew_place i (by omega) hi
      refine ⟨f.curCluster, e1, ?_⟩
      have hlt3 : i - pos < p.bytesPerSector := by omega
      rw [e2, e3, ← e4, Nat.div_eq_of_lt hlt3, Nat.mod_eq_of_lt hlt3, Nat.add_zero]
      exact hnew (i - pos) (by omega)

/-- One iteration of the loop of `write` at a sector boundary of a file whose
bytes before the position are on the device. -/
theorem writeStep_store (f g : FatFile) (p q : FatPartition) (N n L d : Nat)
    (B src chunk : Nat → Nat)
    (hkind : f.kind = FileKind.file) (hlay : LayoutOk p)
    (hN : 0 < N) (hsmall : N < 256 * p.bytesPerSector)
    (hchain : ChainLen p f.firstCluster L) (hinv : PosInv f p)
    (hpos : f.curPosition ≤ L * p.bytesPerCluster)
    (hal : f.curPosition % p.bytesPerSector = 0)
    (hdev : FileOnDevice p f.firstCluster B f.curPosition)
    (hsrc : ∀ i, src i = B (f.curPosition + i))
    (hap : Apart p f.firstCluster L d)
    (h : FatFile.writeStep f p N src = FatFile.Step.next g q n chunk) :
    ∃ L1, ChainLen q g.firstCluster L1
      ∧ f.curPosition + n ≤ L1 * p.bytesPerCluster
      ∧ q.toMount = p.toMount
      ∧ Apart q g.firstCluster L1 d
      ∧ 1 ≤ n ∧ n ≤ N
      ∧ clusterAt q g.firstCluster ((f.curPosition + n - 1) / p.bytesPerCluster)
          = some g.curCluster
      ∧ (p.bytesPerSector ≤ N → n % p.bytesPerSector = 0
            ∧ FileOnDevice q g.firstCluster B (f.curPosition + n))
      ∧ (N < p.bytesPerSector → n = N ∧ FileHolds q g.firstCluster B (f.curPosition + n)) := by
  have hB := bytesPerCluster_pos p
  obtain ⟨f1, p1, hacq, htr, hm1⟩ := writeStep_transfer _ _ _ _ _ _ _ _ h
  obtain ⟨L1, hch1, _, _, hlt, hcl, _, hdev1, hcs1, _, _, hsame, huse⟩ :=
    writeAcquire_spec f f1 p p1 L hkind hchain hinv hpos hacq
  have hlay1 := layoutOk_congr p p1 hm1 hlay
  have hS1 := bytesPerSector_congr p p1 hm1
  have hB1 := bytesPerCluster_congr p p1 hm1
  obtain ⟨hgf, hds, hnN, hwithin, _⟩ :=
    writeTransfer_spec f1 g p1 q N f.curPosition n src chunk hlay1.1 hN htr
  subst hgf
  have hdevp1 : FileOnDevice p1 g.firstCluster B f.curPosition := by
    intro i hi
    obtain ⟨c, hc, hon⟩ := hdev i hi
    have hiL : i / p.bytesPerCluster < L :=
      (Nat.div_lt_iff_lt_mul hB).2 (lt_of_lt_of_le hi hpos)
    refine ⟨c, by rw [hB1, hsame _ hiL]; exact hc, ?_⟩
    rw [dataSector_congr p p1 hm1, hS1]
    exact ⟨by rw [hcs1]; exact hon.1, by rw [hdev1]; exact hon.2⟩
  obtain ⟨hn1, hfull, hpart⟩ := writeTransfer_file g g p1 q N f.curPosition n L1 B src chunk
    hlay1 hch1 (by rw [hB1]; exact hlt) (by rw [hB1]; exact hcl) (by rw [hS1]; exact hal)
    hN (by rw [hS1]; exact hsmall) hdevp1 hsrc htr
  rw [hS1] at hfull hpart
  rw [hB1] at hwithin
  have hm : q.toMount = p.toMount := hds.1.trans hm1
  refine ⟨L1, chainLen_dataStep p1 q hds _ _ hch1, ?_, hm, ?_, hn1, hnN, ?_, hfull, hpart⟩
  · have hkq : f.curPosition / p.bytesPerCluster * p.bytesPerCluster
        + f.curPosition % p.bytesPerCluster = f.curPosition := Nat.div_add_mod' _ _
    have hle : (f.curPosition / p.bytesPerCluster + 1) * p.bytesPerCluster
        ≤ L1 * p.bytesPerCluster := Nat.mul_le_mul_right _ hlt
    rw [Nat.succ_mul] at hle
    omega
  · intro c hu i hi
    have hu1 : Usable p1 g.firstCluster L1 c := by
      rcases hu with hu | ⟨k, hk, hu⟩
      · left; rw [← fatGet_congr p1 q hds.1 hds.2.1]; exact hu
      · right; exact ⟨k, hk, by rw [← clusterAt_dataStep p1 q hds]; exact hu⟩
    have h3 := hap c (huse c hu1) i (by rw [← sectorsPerCluster_congr p q hm]; exact hi)
    have e1 : q.clusterStartSector = p.clusterStartSector :=
      congrArg Mount.clusterStartSector hm
    rw [e1]; exact h3
  · rw [div_of_within _ _ _ hB hn1 hwithin, clusterAt_dataStep p1 q hds]
    exact hcl

theorem writeLoop_zero (fuel : Nat) (f : FatFile) (p : FatPartition) (src : Nat → Nat) :
    FatFile.writeLoop fuel f p 0 src = some (FatFile.LoopEnd.ok f p 0 []) := by
  cases fuel <;> simp [FatFile.writeLoop]

end WriteFile


section WriteLoopStore

/-- The loop of `write`, started at a sector boundary of a file whose bytes
before the position are on the device, leaves the bytes up to the new position
stored, when it ends without failure. -/
theorem writeLoop_store (B : Nat → Nat) (d : Nat) (fuel : Nat) :
    ∀ (f g : FatFile) (p q : FatPartition) (N rest L : Nat) (src : Nat → Nat) (out : List Nat),
      f.kind = FileKind.file → LayoutOk p →
      N < 256 * p.bytesPerSector →
      f.curPosition + N ≤ 4294967295 →
      ChainLen p f.firstCluster L → PosInv f p →
      f.curPosition ≤ L * p.bytesPerCluster →
      f.curPosition % p.bytesPerSector = 0 →
      FileOnDevice p f.firstCluster B f.curPosition →
      (∀ i, src i = B (f.curPosition + i)) →
      Apart p f.firstCluster L d →
      FatFile.writeLoop fuel f p N src = some (FatFile.LoopEnd.ok g q rest out) →
      ∃ L1, ChainLen q g.firstCluster L1
        ∧ f.curPosition + N ≤ L1 * p.bytesPerCluster
        ∧ q.toMount = p.toMount
        ∧ Apart q g.firstCluster L1 d
        ∧ FileHolds q g.firstCluster B (f.curPosition + N) := by
  induction fuel with
  | zero =>
    intro f g p q N rest L src out _ _ _ _ hchain _ hpos _ hdev _ hap h
    unfold FatFile.writeLoop at h
    split at h
    · rename_i h0; cases h; subst h0
      exact ⟨L, hchain, hpos, rfl, hap, fun i hi => by
        obtain ⟨c, hc, hon⟩ := hdev i hi
        exact ⟨c, hc, hon.stored⟩⟩
    · cases h
  | succ fuel ih =>
    intro f g p q N rest L src out hkind hlay hsmall hb hchain hinv hpos hal hdev hsrc hap h
    have hB := bytesPerCluster_pos p
    have hS := bytesPerSector_pos p
    unfold FatFile.writeLoop at h
    split at h
    · rename_i h0; cases h; subst h0
      exact ⟨L, hchain, hpos, rfl, hap, fun i hi => by
        obtain ⟨c, hc, hon⟩ := hdev i hi
        exact ⟨c, hc, hon.stored⟩⟩
    · rename_i hN
      split at h
      · cases h
      · cases h
      · rename_i f2 p2 n chunk hstep
        obtain ⟨⟨cc, fc, dd, hf2, _⟩, _⟩ := writeStep_next _ _ _ _ _ _ _ _ hstep
        have hk2 : f2.kind = FileKind.file := by rw [hf2]; exact hkind
        have hp2 : f2.curPosition = f.curPosition := by rw [hf2]
        obtain ⟨L1, hch1, hle1, hm, hap1, hn1, hnN, hcl1, hfull, hpart⟩ :=
          writeStep_store f f2 p p2 N n L d B src chunk hkind hlay (by omega) hsmall hchain
            hinv hpos hal hdev hsrc hap hstep
        have hlay2 := layoutOk_congr p p2 hm hlay
        have hB2 := bytesPerCluster_congr p p2 hm
        have hS2 := bytesPerSector_congr p p2 hm
        have hmod : (f2.curPosition + n) % U32 = f.curPosition + n := by
          rw [hp2]; unfold U32; omega
        by_cases hbig : p.bytesPerSector ≤ N
        · obtain ⟨hnmod, hdev2⟩ := hfull hbig
          have hinv3 : PosInv { f2 with curPosition := (f2.curPosition + n) % U32 } p2 := by
            refine ⟨fun h0 => ?_, fun _ => ?_⟩
            · have : (f2.curPosition + n) % U32 = 0 := h0
              rw [hmod] at this; omega
            · show clusterAt p2 (FatFile.chainStart _ p2) (((f2.curPosition + n) % U32 - 1)
                  / p2.bytesPerCluster) = some f2.curCluster
              rw [chainStart_file _ _ (by show f2.kind = FileKind.file; exact hk2), hmod, hB2]
              exact hcl1
          obtain ⟨L2, hch2, hle2, hm2, hap2, hfin⟩ :=
            ih { f2 with curPosition := (f2.curPosition + n) % U32 } g p2 q (N - n) rest L1
              (fun i => src (n + i)) out hk2 hlay2 (by rw [hS2]; omega)
              (by show (f2.curPosition + n) % U32 + (N - n) ≤ 4294967295
                  rw [hmod]; omega)
              hch1 hinv3
              (by show (f2.curPosition + n) % U32 ≤ L1 * p2.bytesPerCluster
                  rw [hmod, hB2]; exact hle1)
              (by show (f2.curPosition + n) % U32 % p2.bytesPerSector = 0
                  rw [hmod, hS2, Nat.add_mod, hal, hnmod]; simp)
              (by show FileOnDevice p2 f2.firstCluster B ((f2.curPosition + n) % U32)
                  rw [hmod]; exact hdev2)
              (by intro i
                  show src (n + i) = B ((f2.curPosition + n) % U32 + i)
                  rw [hmod, hsrc, Nat.add_assoc])
              hap1 h
          have hsum : (f2.curPosition + n) % U32 + (N - n) = f.curPosition + N := by
            rw [hmod]; omega
          simp only [hsum, hB2] at hle2 hfin
          exact ⟨L2, hch2, hle2, hm2.trans hm, hap2, hfin⟩
        · obtain ⟨hnN2, hfin⟩ := hpart (by omega)
          subst hnN2
          rw [Nat.sub_self, writeLoop_zero] at h
          cases h
          exact ⟨L1, hch1, hle1, hm, hap1, hfin⟩

end WriteLoopStore


section SyncStore

theorem syncTail_stored (f g : FatFile) (p q : FatPartition)
    (h : FatFile.syncTail f p = (true, g, q)) :
    ∀ s j v, Stored p s j v → Stored q s j v := by
  unfold FatFile.syncTail at h
  split at h
  · rename_i p1 hs
    cases h
    exact (cacheSync_stored p _ hs).2.2.2.2.2.2
  · cases h

/-- A successful `sync` keeps every stored byte of the sectors other than the
sector of the directory entry. -/
theorem sync_stored (f g : FatFile) (p q : FatPartition) (h : f.sync p = (true, g, q)) :
    ∀ s j v, Stored p s j v → s ≠ f.dirSector → Stored q s j v := by
  intro s j v hst hne
  unfold FatFile.sync at h
  split at h
  · cases h; exact hst
  · split at h
    · split at h
      · cases h
      · rename_i p1 hfetch
        obtain ⟨_, _, hcs, _, _, _, hkeep⟩ :=
          cacheFetchData_stored p p1 f.dirSector CacheMode.forWrite hfetch
        have h1 := hkeep s j v hst (Or.inr hne)
        split at h
        · cases h
        · refine syncTail_stored _ _ _ _ h s j v ⟨fun hc => ?_, ?_⟩
          · have : p1.cacheSector = s := hc
            rw [hcs] at this
            exact absurd this.symm hne
          · rcases h1.2 with ⟨h2, _⟩ | h2
            · rw [hcs] at h2
              exact absurd h2.symm hne
            · exact Or.inr h2
    · exact syncTail_stored _ _ _ _ h s j v hst

theorem writeSync_stored (f : FatFile) (p : FatPartition) (n : Nat)
    (hok : (FatFile.writeSync f p n).ret ≠ SIZE_MAX) :
    ∀ s j v, Stored p s j v → s ≠ f.dirSector → Stored (FatFile.writeSync f p n).part s j v := by
  intro s j v hst hne
  unfold FatFile.writeSync at hok ⊢
  split
  · rename_i hs
    rw [if_pos hs] at hok
    split
    · rename_i f2 p2 hsy
      rw [hsy] at hok
      exact absurd rfl hok
    · rename_i f2 p2 hsy
      exact sync_stored f f2 p p2 hsy s j v hst hne
  · exact hst

end SyncStore


section ReadTransfer

theorem readSectorCount_spec (f : FatFile) (p : FatPartition) (hg : GeometryOk p)
    (toRead pos : Nat) (hbig : 2 * p.bytesPerSector ≤ toRead)
    (hsmall : toRead < 256 * p.bytesPerSector) :
    1 ≤ FatFile.readSectorCount f p toRead (p.sectorOfCluster pos)
    ∧ (f.isRootFixed = false → FatFile.readSectorCount f p toRead (p.sectorOfCluster pos)
        ≤ p.sectorsPerCluster - p.sectorOfCluster pos)
    ∧ FatFile.readSectorCount f p toRead (p.sectorOfCluster pos) * p.bytesPerSector ≤ toRead := by
  have hS := bytesPerSector_pos p
  have hspc := sectorsPerCluster_le p hg
  have hsoc := sectorOfCluster_lt p pos
  have h3 : toRead / p.bytesPerSector < 256 := by
    rw [Nat.div_lt_iff_lt_mul hS]; exact hsmall
  have h4 : 2 ≤ toRead / p.bytesPerSector := by
    rw [Nat.le_div_iff_mul_le hS]; exact hbig
  have h5 : toRead / p.bytesPerSector * p.bytesPerSector ≤ toRead := Nat.div_mul_le_self _ _
  unfold FatFile.readSectorCount
  dsimp only
  rw [Nat.shiftRight_eq_div_pow]
  change 1 ≤ (if f.isRootFixed = false ∧ (p.sectorsPerCluster - p.sectorOfCluster pos) % 256
        < toRead / p.bytesPerSector % 256
      then (p.sectorsPerCluster - p.sectorOfCluster pos) % 256
      else toRead / p.bytesPerSector % 256)
    ∧ (f.isRootFixed = false → (if f.isRootFixed = false
          ∧ (p.sectorsPerCluster - p.sectorOfCluster pos) % 256
            < toRead / p.bytesPerSector % 256
      then (p.sectorsPerCluster - p.sectorOfCluster pos) % 256
      else toRead / p.bytesPerSector % 256) ≤ p.sectorsPerCluster - p.sectorOfCluster pos)
    ∧ (if f.isRootFixed = false ∧ (p.sectorsPerCluster - p.sectorOfCluster pos) % 256
        < toRead / p.bytesPerSector % 256
      then (p.sectorsPerCluster - p.sectorOfCluster pos) % 256
      else toRead / p.bytesPerSector % 256) * p.bytesPerSector ≤ toRead
  rw [Nat.mod_eq_of_lt h3, Nat.mod_eq_of_lt (by omega : p.sectorsPerCluster
    - p.sectorOfCluster pos < 256)]
  by_cases hc : f.isRootFixed = false
      ∧ p.sectorsPerCluster - p.sectorOfCluster pos < toRead / p.bytesPerSector
  · rw [if_pos hc]
    refine ⟨by omega, fun _ => le_refl _, ?_⟩
    exact (Nat.mul_le_mul_right _ (Nat.le_of_lt hc.2)).trans h5
  · rw [if_neg hc]
    refine ⟨by omega, fun hr => ?_, h5⟩
    by_contra hx
    exact hc ⟨hr, by omega⟩

theorem readSectors_ok (p : FatPartition) (hbad : ∀ s, p.badSector s = false)
    (sector count : Nat) :
    p.readSectors sector count = (true, p.logCall (Call.readSectors sector count)) := by
  unfold FatPartition.readSectors
  congr 1
  rw [List.all_eq_true]
  intro i _
  rw [hbad]; rfl

theorem readSector_ok (p : FatPartition) (hbad : ∀ s, p.badSector s = false) (sector : Nat) :
    p.readSector sector = (true, p.logCall (Call.readSector sector)) := by
  unfold FatPartition.readSector
  rw [hbad]; rfl

/-- The read of a sector through the cache delivers the stored bytes. -/
theorem readCached_spec (f : FatFile) (p : FatPartition) (toRead sector : Nat)
    (val : Nat → Nat) (hbad : ∀ s, p.badSector s = false)
    (hst : ∀ m, m < FatFile.partCount p 0 toRead → Stored p sector m (val m)) :
    ∃ q chunk, FatFile.readCached f p toRead 0 sector
        = FatFile.Step.next f q (FatFile.partCount p 0 toRead) chunk
      ∧ (∀ m, m < FatFile.partCount p 0 toRead → chunk m = val m)
      ∧ q.toMount = p.toMount ∧ q.fat = p.fat
      ∧ (∀ s j v, Stored p s j v → Stored q s j v) := by
  obtain ⟨q, hq⟩ := cacheFetchData_ok p hbad sector CacheMode.forRead
  obtain ⟨hm, hfat, hcs, _, _, _, hkeep⟩ := cacheFetchData_stored p q sector _ hq
  unfold FatFile.readCached
  dsimp only
  rw [hq]
  refine ⟨q, _, rfl, ?_, hm, hfat, fun s j v h => hkeep s j v h (Or.inl rfl)⟩
  intro m hmn
  have := (hkeep sector m (val m) (hst m hmn) (Or.inl rfl)).1 hcs
  rw [Nat.zero_add]; exact this

/-- The multi-sector read delivers the stored bytes: a dirty cache line that
holds one of the sectors is written out first. -/
theorem readMulti_spec (f : FatFile) (p : FatPartition) (toRead sector soc : Nat)
    (val : Nat → Nat) (hbad : ∀ s, p.badSector s = false)
    (hsec : sector + 2 * FatFile.readSectorCount f p toRead soc ≤ 4294967295)
    (hst : ∀ m, m < FatFile.readSectorCount f p toRead soc * p.bytesPerSector →
        Stored p (sector + m / p.bytesPerSector) (m % p.bytesPerSector) (val m)) :
    ∃ q chunk, FatFile.readMulti f p toRead sector soc
        = FatFile.Step.next f q (FatFile.readSectorCount f p toRead soc * p.bytesPerSector) chunk
      ∧ (∀ m, m < FatFile.readSectorCount f p toRead soc * p.bytesPerSector → chunk m = val m)
      ∧ q.toMount = p.toMount ∧ q.fat = p.fat
      ∧ (∀ s j v, Stored p s j v → Stored q s j v) := by
  have hS := bytesPerSector_pos p
  unfold FatFile.readMulti
  dsimp only
  generalize FatFile.readSectorCount f p toRead soc = ns at hsec hst ⊢
  have hn : ns <<< p.bytesPerSectorShift = ns * p.bytesPerSector := by
    rw [Nat.shiftLeft_eq]; rfl
  rw [hn]
  -- the partition after the optional flush
  have hfl : ∃ p1, (if sector ≤ p.cacheSectorNumber ∧ sector < (p.cacheSectorNumber + ns) % U32
        then p.cacheSyncData else (true, p)) = (true, p1)
      ∧ p1.toMount = p.toMount ∧ p1.fat = p.fat
      ∧ (∀ s j v, Stored p s j v → Stored p1 s j v)
      ∧ (∀ t, t < ns → ¬ (p1.cacheSector = sector + t ∧ p1.cacheDirty = true)) := by
    by_cases hc : sector ≤ p.cacheSectorNumber ∧ sector < (p.cacheSectorNumber + ns) % U32
    · rw [if_pos hc]
      obtain ⟨p1, hp1⟩ := cacheSyncData_ok p hbad
      obtain ⟨hm, hfat, _, hcd, _, _, hkeep⟩ := cacheSyncData_stored p p1 hp1
      exact ⟨p1, hp1, hm, hfat, hkeep, fun t _ hx => by rw [hcd] at hx; cases hx.2⟩
    · rw [if_neg hc]
      refine ⟨p, rfl, rfl, rfl, fun _ _ _ h => h, fun t ht hx => hc ?_⟩
      have h1 : p.cacheSectorNumber = sector + t := hx.1
      have h2 : (p.cacheSectorNumber + ns) % U32 = sector + t + ns := by
        rw [h1]; unfold U32; omega
      rw [h2]; omega
  obtain ⟨p1, hp1, hm, hfat, hkeep, hclean⟩ := hfl
  rw [hp1]
  dsimp only
  have hbad1 : ∀ s, p1.badSector s = false := by
    have : p1.badSector = p.badSector := congrArg Mount.badSector hm
    rw [this]; exact hbad
  rw [readSectors_ok p1 hbad1]
  dsimp only
  refine ⟨_, _, rfl, ?_, hm, hfat, fun s j v h => ?_⟩
  · intro m hmn
    have ht : m / p.bytesPerSector < ns :=
      Nat.div_lt_of_lt_mul (by rw [Nat.mul_comm]; exact hmn)
    have h1 := hkeep _ _ _ (hst m hmn)
    have hbs : (p1.logCall (Call.readSectors sector ns)).bytesPerSector = p.bytesPerSector :=
      bytesPerSector_congr p _ hm
    rw [hbs]
    rcases h1.2 with h2 | h2
    · exact absurd h2 (hclean _ ht)
    · exact h2
  · exact hkeep s j v h

theorem readSingle_spec (f : FatFile) (p : FatPartition) (sector : Nat)
    (val : Nat → Nat) (hbad : ∀ s, p.badSector s = false)
    (hne : sector ≠ p.cacheSectorNumber)
    (hst : ∀ m, m < p.bytesPerSector → Stored p sector m (val m)) :
    ∃ q chunk, FatFile.readSingle f p sector = FatFile.Step.next f q p.bytesPerSector chunk
      ∧ (∀ m, m < p.bytesPerSector → chunk m = val m)
      ∧ q.toMount = p.toMount ∧ q.fat = p.fat
      ∧ (∀ s j v, Stored p s j v → Stored q s j v) := by
  unfold FatFile.readSingle
  rw [readSector_ok p hbad]
  dsimp only
  refine ⟨_, _, rfl, ?_, rfl, rfl, fun s j v h => h⟩
  intro m hm
  rcases (hst m hm).2 with h2 | h2
  · exact absurd h2.1.symm hne
  · exact h2

end ReadTransfer


section ReadStep

/-- The transfer of `read` at a sector boundary `pos` delivers the stored
bytes of the sectors it reads, whichever of the three paths it takes. -/
theorem readTransfer_spec (f : FatFile) (p : FatPartition) (toRead pos c : Nat)
    (val : Nat → Nat)
    (hkind : f.kind = FileKind.file) (hlay : LayoutOk p)
    (hc2 : 2 ≤ c) (hc3 : c ≤ p.lastCluster)
    (hal : pos % p.bytesPerSector = 0)
    (hN : 0 < toRead) (hsmall : toRead < 256 * p.bytesPerSector)
    (hst : ∀ m, m < toRead →
        m < (p.sectorsPerCluster - p.sectorOfCluster pos) * p.bytesPerSector →
        Stored p (dataSector p c pos + m / p.bytesPerSector) (m % p.bytesPerSector) (val m)) :
    ∃ q n chunk,
      FatFile.readTransfer f p toRead (pos &&& p.sectorMask) (dataSector p c pos)
          (p.sectorOfCluster pos) = FatFile.Step.next f q n chunk
      ∧ 1 ≤ n ∧ n ≤ toRead
      ∧ n ≤ (p.sectorsPerCluster - p.sectorOfCluster pos) * p.bytesPerSector
      ∧ (n % p.bytesPerSector = 0 ∨ n = toRead)
      ∧ (∀ m, m < n → chunk m = val m)
      ∧ q.toMount = p.toMount ∧ q.fat = p.fat
      ∧ (∀ s j v, Stored p s j v → Stored q s j v) := by
  have hS := bytesPerSector_pos p
  have hsoc := sectorOfCluster_lt p pos
  have hbad := hlay.2.2.1
  have hsecc := hlay.2.2.2.1 c hc2 hc3
  have hone : p.bytesPerSector
      ≤ (p.sectorsPerCluster - p.sectorOfCluster pos) * p.bytesPerSector := by
    calc p.bytesPerSector = 1 * p.bytesPerSector := (Nat.one_mul _).symm
      _ ≤ _ := Nat.mul_le_mul_right _ (by omega)
  have hnf : f.isRootFixed = false := by simp [FatFile.isRootFixed, hkind]
  unfold FatFile.readTransfer
  rw [land_sectorMask, hal]
  by_cases hcache : toRead < p.bytesPerSector ∨ dataSector p c pos = p.cacheSectorNumber
  · rw [if_pos (Or.inr hcache)]
    have h1 := partCount_pos p 0 toRead hS hN
    have h2 := partCount_le p 0 toRead
    have h3 := partCount_le_sector p 0 toRead
    have h4 : FatFile.partCount p 0 toRead % p.bytesPerSector = 0
        ∨ FatFile.partCount p 0 toRead = toRead := by
      unfold FatFile.partCount
      dsimp only
      split
      · right; rfl
      · left; rw [Nat.sub_zero, Nat.mod_self]
    obtain ⟨q, chunk, hq, hch, hm, hfat, hkeep⟩ :=
      readCached_spec f p toRead (dataSector p c pos) val hbad (by
        intro m hmn
        have hlt : m < p.bytesPerSector := by omega
        have := hst m (by omega) (by omega)
        rwa [Nat.div_eq_of_lt hlt, Nat.mod_eq_of_lt hlt, Nat.add_zero] at this)
    exact ⟨q, _, chunk, hq, h1, h2, by omega, h4, hch, hm, hfat, hkeep⟩
  · rw [if_neg (by
      intro hx
      rcases hx with hx | hx | hx
      · exact hx rfl
      · exact hcache (Or.inl hx)
      · exact hcache (Or.inr hx))]
    by_cases hbig : toRead ≥ 2 * p.bytesPerSector
    · rw [if_pos hbig]
      obtain ⟨hk1, hk2, hk3⟩ := readSectorCount_spec f p hlay.1 toRead pos hbig hsmall
      have hk2' := hk2 hnf
      obtain ⟨q, chunk, hq, hch, hm, hfat, hkeep⟩ :=
        readMulti_spec f p toRead (dataSector p c pos) (p.sectorOfCluster pos) val hbad
          (by unfold dataSector; omega)
          (fun m hmn => hst m (by omega)
            (lt_of_lt_of_le hmn (Nat.mul_le_mul_right _ hk2')))
      refine ⟨q, _, chunk, hq, ?_, hk3, Nat.mul_le_mul_right _ hk2',
        Or.inl (Nat.mul_mod_left _ _), hch, hm, hfat, hkeep⟩
      exact Nat.mul_pos (by omega) hS
    · rw [if_neg hbig]
      obtain ⟨q, chunk, hq, hch, hm, hfat, hkeep⟩ :=
        readSingle_spec f p (dataSector p c pos) val hbad (fun hx => hcache (Or.inr hx)) (by
          intro m hmn
          have := hst m (by omega) (by omega)
          rwa [Nat.div_eq_of_lt hmn, Nat.mod_eq_of_lt hmn, Nat.add_zero] at this)
      exact ⟨q, _, chunk, hq, hS, by omega, hone, Or.inl (Nat.mod_self _), hch, hm, hfat, hkeep⟩

/-- The sector search of `read` in a regular file: the cluster is the one
with index `curPosition / bytesPerCluster` of the chain. -/
theorem readLocate_spec (f : FatFile) (p : FatPartition) (L : Nat)
    (hkind : f.kind = FileKind.file)
    (hchain : ChainLen p f.firstCluster L)
    (hcur : f.curPosition ≠ 0 →
        clusterAt p f.firstCluster ((f.curPosition - 1) / p.bytesPerCluster)
          = some f.curCluster)
    (hlt : f.curPosition / p.bytesPerCluster < L) :
    ∃ c, clusterAt p f.firstCluster (f.curPosition / p.bytesPerCluster) = some c
      ∧ FatFile.readLocate f p (f.curPosition &&& p.sectorMask)
          = FatFile.Locate.found { f with curCluster := c } (dataSector p c f.curPosition)
              (p.sectorOfCluster f.curPosition) := by
  have hB := bytesPerCluster_pos p
  have hnf : f.isRootFixed = false := by simp [FatFile.isRootFixed, hkind]
  have hn32 : f.isRoot32 = false := by simp [FatFile.isRoot32, hkind]
  unfold FatFile.readLocate
  rw [if_neg (by simp [hnf])]
  dsimp only
  by_cases hstart : f.curPosition &&& p.sectorMask = 0 ∧ p.sectorOfCluster f.curPosition = 0
  · rw [if_pos hstart]
    have hmod : f.curPosition % p.bytesPerCluster = 0 :=
      (cluster_start_iff p _).1 ⟨hstart.2, hstart.1⟩
    by_cases h0 : f.curPosition = 0
    · rw [if_pos h0]
      refine ⟨f.firstCluster, by rw [h0]; simp [clusterAt], ?_⟩
      simp [hn32, dataSector]
    · rw [if_neg h0]
      have hk := div_pred_of_dvd f.curPosition p.bytesPerCluster hB (by omega) hmod
      have hc := hcur h0
      generalize (f.curPosition - 1) / p.bytesPerCluster = km at hk hc
      obtain ⟨c0, hc0, _, hcont⟩ := chainLen_member p f.firstCluster L hchain km (by omega)
      rw [hc] at hc0
      cases hc0
      obtain ⟨n, hn, hnext⟩ := hcont (by omega)
      rw [hk] at hnext
      refine ⟨n, hnext, ?_⟩
      rw [hn]
      rfl
  · rw [if_neg hstart]
    have hmod : f.curPosition % p.bytesPerCluster ≠ 0 :=
      fun hc => hstart ((cluster_start_iff p _).2 hc).symm
    have hp0 : f.curPosition ≠ 0 := by
      intro h0; rw [h0] at hmod; simp at hmod
    have hc := hcur hp0
    rw [div_pred_of_not_dvd _ _ hB hmod] at hc
    exact ⟨f.curCluster, hc, rfl⟩

end ReadStep


section ReadLoop

theorem clusterAt_fat (p q : FatPartition) (hm : q.toMount = p.toMount) (hfat : q.fat = p.fat)
    (a k : Nat) : clusterAt q a k = clusterAt p a k :=
  clusterAt_congr p q a k (fun _ x _ _ => fatGet_congr p q hm hfat x)

theorem chainLen_fat (p q : FatPartition) (hm : q.toMount = p.toMount) (hfat : q.fat = p.fat)
    (first L : Nat) (h : ChainLen p first L) : ChainLen q first L := by
  rcases h with h | ⟨hL, last, h1, h2⟩
  · exact Or.inl h
  · exact Or.inr ⟨hL, last, by rw [clusterAt_fat p q hm hfat]; exact h1,
      by rw [fatGet_congr p q hm hfat]; exact h2⟩

theorem fileHolds_keep (p q : FatPartition) (hm : q.toMount = p.toMount) (hfat : q.fat = p.fat)
    (hkeep : ∀ s j v, Stored p s j v → Stored q s j v) (first n : Nat) (B : Nat → Nat)
    (h : FileHolds p first B n) : FileHolds q first B n := by
  intro i hi
  obtain ⟨c, hc, hst⟩ := h i hi
  refine ⟨c, ?_, ?_⟩
  · rw [clusterAt_fat p q hm hfat, bytesPerCluster_congr p q hm]; exact hc
  · rw [dataSector_congr p q hm, bytesPerSector_congr p q hm]
    exact hkeep _ _ _ hst

/-- One iteration of the loop of `read` at a sector boundary of a regular file
whose first `Ntot` bytes are stored: the iteration delivers the next `n`
bytes of the file. -/
theorem readStep_spec (f : FatFile) (p : FatPartition) (toRead L Ntot : Nat) (B : Nat → Nat)
    (hkind : f.kind = FileKind.file) (hlay : LayoutOk p)
    (hchain : ChainLen p f.firstCluster L) (hfit : Ntot ≤ L * p.bytesPerCluster)
    (hcur : f.curPosition ≠ 0 →
        clusterAt p f.firstCluster ((f.curPosition - 1) / p.bytesPerCluster)
          = some f.curCluster)
    (hsum : f.curPosition + toRead = Ntot)
    (hal : f.curPosition % p.bytesPerSector = 0)
    (hN : 0 < toRead) (hsmall : toRead < 256 * p.bytesPerSector)
    (hfile : FileHolds p f.firstCluster B Ntot) :
    ∃ c q n chunk,
      FatFile.readStep f p toRead = FatFile.Step.next { f with curCluster := c } q n chunk
      ∧ clusterAt p f.firstCluster ((f.curPosition + n - 1) / p.bytesPerCluster) = some c
      ∧ 1 ≤ n ∧ n ≤ toRead
      ∧ (n % p.bytesPerSector = 0 ∨ n = toRead)
      ∧ (∀ m, m < n → chunk m = B (f.curPosition + m))
      ∧ q.toMount = p.toMount ∧ q.fat = p.fat
      ∧ (∀ s j v, Stored p s j v → Stored q s j v) := by
  have hB := bytesPerCluster_pos p
  have hlt : f.curPosition / p.bytesPerCluster < L :=
    (Nat.div_lt_iff_lt_mul hB).2 (by omega)
  obtain ⟨c, hc, hloc⟩ := readLocate_spec f p L hkind hchain hcur hlt
  obtain ⟨_, hc2, hc3, _⟩ := chainLen_member_valid p _ L hchain _ _ hlt hc
  obtain ⟨q, n, chunk, htr, hn1, hn2, hn3, hn4, hch, hm, hfat, hkeep⟩ :=
    readTransfer_spec { f with curCluster := c } p toRead f.curPosition c
      (fun m => B (f.curPosition + m)) hkind hlay hc2 hc3 hal hN hsmall (by
        intro m hm1 hm2
        obtain ⟨e1, e2, e3⟩ := pos_split p f.curPosition m hal hm2
        obtain ⟨c', hc', hst⟩ := hfile (f.curPosition + m) (by omega)
        rw [e1, hc] at hc'
        cases hc'
        unfold dataSector at hst ⊢
        rw [e2, e3, ← Nat.add_assoc] at hst
        exact hst)
  refine ⟨c, q, n, chunk, ?_, ?_, hn1, hn2, hn4, hch, hm, hfat, hkeep⟩
  · unfold FatFile.readStep
    dsimp only
    rw [hloc]
    exact htr
  · have hwithin : f.curPosition % p.bytesPerCluster + n ≤ p.bytesPerCluster := by
      have := cluster_rest p f.curPosition
      omega
    rw [div_of_within _ _ _ hB hn1 hwithin]
    exact hc

theorem range_map_split (B : Nat → Nat) (chunk : Nat → Nat) (pos n k : Nat)
    (hch : ∀ m, m < n → chunk m = B (pos + m)) :
    (List.range n).map chunk ++ (List.range k).map (fun m => B (pos + n + m))
      = (List.range (n + k)).map (fun m => B (pos + m)) := by
  rw [List.range_add, List.map_append, List.map_map]
  congr 1
  · apply List.map_congr_left
    intro m hm
    exact hch m (List.mem_range.1 hm)
  · apply List.map_congr_left
    intro m _
    simp [Nat.add_assoc]

/-- The loop of `read` on a regular file whose first `Ntot` bytes are stored,
started at a sector boundary with `toRead` bytes to go up to `Ntot`: within
`toRead` iterations it ends and has appended the bytes of the file to the
output. -/
theorem readLoop_spec (B : Nat → Nat) (Ntot : Nat) (fuel : Nat) :
    ∀ (f : FatFile) (p : FatPartition) (toRead L : Nat) (out : List Nat),
      f.kind = FileKind.file → LayoutOk p →
      ChainLen p f.firstCluster L → Ntot ≤ L * p.bytesPerCluster →
      (f.curPosition ≠ 0 →
        clusterAt p f.firstCluster ((f.curPosition - 1) / p.bytesPerCluster)
          = some f.curCluster) →
      f.curPosition + toRead = Ntot → Ntot ≤ 4294967295 →
      (toRead ≠ 0 → f.curPosition % p.bytesPerSector = 0) →
      toRead < 256 * p.bytesPerSector →
      FileHolds p f.firstCluster B Ntot →
      toRead ≤ fuel →
      ∃ g q, FatFile.readLoop fuel f p toRead out
        = some (FatFile.LoopEnd.ok g q 0
            (out ++ (List.range toRead).map (fun m => B (f.curPosition + m)))) := by
  induction fuel with
  | zero =>
    intro f p toRead L out _ _ _ _ _ _ _ _ _ _ hfuel
    have h0 : toRead = 0 := by omega
    subst h0
    exact ⟨f, p, by simp [FatFile.readLoop]⟩
  | succ fuel ih =>
    intro f p toRead L out hkind hlay hchain hfit hcur hsum hmax hal hsmall hfile hfuel
    by_cases h0 : toRead = 0
    · subst h0
      exact ⟨f, p, by simp [FatFile.readLoop]⟩
    · obtain ⟨c, q, n, chunk, hstep, hcl, hn1, hn2, hn4, hch, hm, hfat, hkeep⟩ :=
        readStep_spec f p toRead L Ntot B hkind hlay hchain hfit hcur hsum (hal h0)
          (by omega) hsmall hfile
      have hS := bytesPerSector_congr p q hm
      have hBc := bytesPerCluster_congr p q hm
      have hmod : (f.curPosition + n) % U32 = f.curPosition + n := by
        unfold U32; omega
      obtain ⟨g, q2, hrec⟩ :=
        ih { f with curCluster := c, curPosition := (f.curPosition + n) % U32 } q
          (toRead - n) L (out ++ (List.range n).map chunk) hkind
          (layoutOk_congr p q hm hlay)
          (chainLen_fat p q hm hfat _ _ hchain)
          (by rw [hBc]; exact hfit)
          (by intro _
              show clusterAt q f.firstCluster (((f.curPosition + n) % U32 - 1)
                / q.bytesPerCluster) = some c
              rw [hmod, hBc, clusterAt_fat p q hm hfat]; exact hcl)
          (by show (f.curPosition + n) % U32 + (toRead - n) = Ntot
              rw [hmod]; omega)
          hmax
          (by intro hne
              show (f.curPosition + n) % U32 % q.bytesPerSector = 0
              rw [hmod, hS]
              rcases hn4 with h4 | h4
              · rw [Nat.add_mod, hal h0, h4]; simp
              · omega)
          (by rw [hS]; omega)
          (fileHolds_keep p q hm hfat hkeep _ _ _ hfile)
          (by omega)
      refine ⟨g, q2, ?_⟩
      unfold FatFile.readLoop
      rw [if_neg h0, hstep]
      dsimp only
      rw [hrec]
      congr 2
      rw [List.append_assoc]
      congr 1
      have hsplit := range_map_split B chunk f.curPosition n (toRead - n) hch
      have e : n + (toRead - n) = toRead := by omega
      rw [e] at hsplit
      rw [← hsplit]
      simp only [hmod]

end ReadLoop


section RoundTrip

/-- A call of `write` that does not return the error value has passed the
checks, run the loop to its end without failure and finished with lines
1317-1332. -/
theorem write_ok_loop (fuel : Nat) (f : FatFile) (p : FatPartition) (buf : Nat → Nat)
    (n : Nat) (w : FatFile.WriteOut)
    (hw : FatFile.write fuel f p buf n = some w) (hok : w.ret ≠ SIZE_MAX) :
    ∃ f1 f2 p2 rest out, f.isFile = true
      ∧ (if f.flags.append = true then f.seekSet p f.fileSize else (true, f)) = (true, f1)
      ∧ n ≤ 4294967295 - f1.curPosition
      ∧ FatFile.writeLoop fuel f1 p n buf = some (FatFile.LoopEnd.ok f2 p2 rest out)
      ∧ w = FatFile.writeFinish f2 p2 n := by
  unfold FatFile.write at hw
  split at hw
  · cases hw; exact absurd rfl hok
  · rename_i hcond
    have hfile : f.isFile = true := by
      by_contra hc; exact hcond (Or.inl (by simpa using hc))
    split at hw
    · cases hw; exact absurd rfl hok
    · rename_i f1 hf1
      split at hw
      · cases hw; exact absurd rfl hok
      · rename_i hguard
        split at hw
        · cases hw
        · cases hw; exact absurd rfl hok
        · rename_i f2 p2 rest out hloop
          cases hw
          exact ⟨f1, f2, p2, rest, out, hfile, hf1, by omega, hloop, rfl⟩

theorem range_map_getD (B : List Nat) :
    (List.range B.length).map (fun m => B.getD m 0) = B := by
  apply List.ext_getElem
  · simp
  · intro i h1 h2
    simp [List.getD, h2]

theorem toInt32_small (n : Nat) (h : n < 2147483648) : toInt32 n = (n : Int) := by
  unfold toInt32 U32
  have : n % 4294967296 = n := Nat.mod_eq_of_lt (by omega)
  rw [this, if_pos h]

/-- C1. Write/seek/read round trip.  Let `f` be an empty regular file opened
for reading (and writing) at position 0 on a partition with a proper layout
and without unreadable sectors, whose directory entry is not in a sector that
a write to the file can use for data.  For every byte sequence `B` (not as
long as the error value `(size_t)-1`): if `write(B, |B|)` returns `|B|` and
`seekSet(0)` then succeeds, `read(buf, |B|)` returns within `|B|` iterations,
its result is `|B|` and the buffer holds `B` byte for byte. -/
theorem write_seek_read_roundtrip (B : List Nat) (f : FatFile) (p : FatPartition)
    (fuelW fuelR L : Nat) (w : FatFile.WriteOut) (s : FatFile)
    (hread : f.flags.read = true)
    (hsize : f.fileSize = 0) (hpos0 : f.curPosition = 0) (hinv : PosInv f p)
    (hchain : ChainLen p f.firstCluster L)
    (hlay : LayoutOk p)
    (hdir : Apart p f.firstCluster L f.dirSector)
    (hlen : B.length ≠ SIZE_MAX)
    (hw : FatFile.write fuelW f p (fun i => B.getD i 0) B.length = some w)
    (hret : w.ret = B.length)
    (hseek : w.file.seekSet w.part 0 = (true, s))
    (hfuel : B.length ≤ fuelR) :
    ∃ r, FatFile.read fuelR s w.part B.length = some r
      ∧ r.ret = (B.length : Int) ∧ r.data = B := by
  have hok : w.ret ≠ SIZE_MAX := by rw [hret]; exact hlen
  obtain ⟨f1, f2, p2, rest, out, hfile, hf1, hguard, hloop, hwfin⟩ :=
    write_ok_loop fuelW f p _ _ w hw hok
  have hkind : f.kind = FileKind.file := by simpa [FatFile.isFile] using hfile
  have hopen : f.isOpen = true := by simp [FatFile.isOpen, hkind]
  -- the seek of an O_APPEND handle does not move: the file is empty
  have hf1e : f1 = f := by
    by_cases ha : f.flags.append = true
    · rw [if_pos ha] at hf1
      unfold FatFile.seekSet at hf1
      rw [if_neg (by simp [hopen]), if_pos (by rw [hsize, hpos0])] at hf1
      exact (Prod.mk.inj hf1).2.symm
    · rw [if_neg ha] at hf1; exact (Prod.mk.inj hf1).2.symm
  subst hf1e
  have hS := bytesPerSector_pos p
  have hal0 : f1.curPosition % p.bytesPerSector = 0 := by rw [hpos0]; simp
  -- the write phase
  have hsmall := writeLoop_ok_small fuelW f1 f2 p p2 B.length rest _ out hlay.1 hal0
    (by omega) hloop
  obtain ⟨L1, hch1, hle1, hm, hap1, hfin⟩ :=
    writeLoop_store (fun i => B.getD i 0) f1.dirSector fuelW f1 f2 p p2 B.length rest L _ out
      hkind hlay hsmall (by omega) hchain hinv (by rw [hpos0]; omega) hal0
      (by intro i hi; rw [hpos0] at hi; omega)
      (by intro i; rw [hpos0, Nat.zero_add]) hdir hloop
  rw [hpos0, Nat.zero_add] at hle1 hfin
  obtain ⟨_, cc, fc, dd, hf2, _⟩ :=
    writeLoop_ok fuelW f1 f2 p p2 B.length rest _ out hloop (Or.inr (by omega))
  obtain ⟨d1, hmark, _, _⟩ := writeMark_eq f2 p2
  have hopen2 : (FatFile.writeMark f2 p2).isOpen = true := by
    rw [hmark, hf2]; simp [FatFile.isOpen, hkind]
  have hwfin2 : w = FatFile.writeSync (FatFile.writeMark f2 p2) p2 B.length := hwfin
  have hok2 : (FatFile.writeSync (FatFile.writeMark f2 p2) p2 B.length).ret ≠ SIZE_MAX := by
    rw [← hwfin2]; exact hok
  obtain ⟨_, d2, e2, hwf, _, _⟩ := writeSync_ok _ p2 B.length hopen2 hok2
  rw [← hwfin2] at hwf
  have hwk : w.file.kind = FileKind.file := by rw [hwf, hmark, hf2]; exact hkind
  have hwr : w.file.flags.read = true := by rw [hwf, hmark, hf2]; exact hread
  have hwfc : w.file.firstCluster = f2.firstCluster := by rw [hwf, hmark]
  have hwsz : w.file.fileSize = B.length := by
    rw [hwf, hmark, hf2]
    show max f1.fileSize (f1.curPosition + B.length) = B.length
    rw [hsize, hpos0]; simp
  have hmd : (FatFile.writeMark f2 p2).dirSector = f1.dirSector := by rw [hmark, hf2]
  -- the partition after the write
  have hds : DataStep p2 w.part := by
    rw [hwfin]; exact writeFinish_dataStep f2 p2 B.length
  have hmw : w.part.toMount = p.toMount := hds.1.trans hm
  have hstore := writeSync_stored (FatFile.writeMark f2 p2) p2 B.length hok2
  rw [← hwfin2, hmd] at hstore
  have hB := bytesPerCluster_pos p
  have hB2 := bytesPerCluster_congr p p2 hm
  have hfilew : FileHolds w.part f2.firstCluster (fun i => B.getD i 0) B.length := by
    intro i hi
    obtain ⟨c, hc, hst⟩ := hfin i hi
    refine ⟨c, ?_, ?_⟩
    · rw [clusterAt_dataStep p2 w.part hds, bytesPerCluster_congr p2 w.part hds.1]; exact hc
    · rw [dataSector_congr p2 w.part hds.1, bytesPerSector_congr p2 w.part hds.1]
      apply hstore _ _ _ hst
      have hiL : i / p2.bytesPerCluster < L1 := by
        rw [hB2]; exact (Nat.div_lt_iff_lt_mul hB).2 (lt_of_lt_of_le hi hle1)
      exact hap1 c (Or.inr ⟨_, hiL, hc⟩) _ (sectorOfCluster_lt p2 i)
  -- the handle after the seek
  have hopenw : w.file.isOpen = true := by simp [FatFile.isOpen, hwk]
  have hs : s.kind = FileKind.file ∧ s.flags.read = true ∧ s.firstCluster = f2.firstCluster
      ∧ s.fileSize = B.length ∧ s.curPosition = 0 := by
    unfold FatFile.seekSet at hseek
    rw [if_neg (by simp [hopenw])] at hseek
    by_cases h0 : 0 = w.file.curPosition
    · rw [if_pos h0] at hseek
      have : s = w.file := (Prod.mk.inj hseek).2.symm
      rw [this]
      exact ⟨hwk, hwr, hwfc, hwsz, h0.symm⟩
    · rw [if_neg h0, if_pos rfl] at hseek
      have : s = { w.file with curCluster := 0, curPosition := 0 } :=
        (Prod.mk.inj hseek).2.symm
      rw [this]
      exact ⟨hwk, hwr, hwfc, hwsz, rfl⟩
  obtain ⟨hsk, hsr, hsfc, hssz, hs0⟩ := hs
  -- the read phase
  have hSw := bytesPerSector_congr p w.part hmw
  have hBw := bytesPerCluster_congr p w.part hmw
  obtain ⟨g, q, hrl⟩ := readLoop_spec (fun i => B.getD i 0) B.length fuelR s w.part B.length L1 []
    hsk (layoutOk_congr p w.part hmw hlay)
    (by rw [hsfc]; exact chainLen_dataStep p2 w.part hds _ _ hch1)
    (by rw [hBw]; exact hle1)
    (fun hne => absurd hs0 hne)
    (by rw [hs0, Nat.zero_add]) (by omega)
    (fun _ => by rw [hs0]; simp)
    (by rw [hSw]; exact hsmall)
    (by rw [hsfc]; exact hfilew)
    hfuel
  have hclamp : FatFile.readClamp s w.part B.length = B.length := by
    unfold FatFile.readClamp
    rw [if_pos (by simp [FatFile.isFile, hsk])]
    have : sub32 s.fileSize s.curPosition = B.length := by
      unfold sub32 U32
      rw [hssz, hs0]
      omega
    dsimp only
    rw [this, if_pos (le_refl _)]
  have hlt31 : B.length < 2147483648 := by
    have h15 := hlay.2.1
    have : p.bytesPerSector ≤ 2 ^ 15 := Nat.pow_le_pow_right (by norm_num) h15
    omega
  unfold FatFile.read
  rw [if_neg (by simp [FatFile.isOpen, hsk, hsr])]
  dsimp only
  rw [hclamp, hrl]
  refine ⟨_, rfl, ?_, ?_⟩
  · show toInt32 (B.length - 0) = _
    rw [Nat.sub_zero]; exact toInt32_small _ hlt31
  · show [] ++ (List.range B.length).map (fun m => B.getD (s.curPosition + m) 0) = B
    rw [hs0, List.nil_append]
    simp only [Nat.zero_add]
    exact range_map_getD B

end RoundTrip


section RoundTripWitness

theorem tiny_layoutOk : LayoutOk tinyPartition := by
  refine ⟨by unfold GeometryOk; decide, by decide, fun _ => rfl, ?_, ?_⟩
  · intro c h2 h3
    show 100 + (c - 2) * 2 ^ 1 + 2 * 2 ^ 1 ≤ 4294967295
    have : c ≤ 9 := h3
    omega
  · intro c d hc2 _ hd2 _ hne i j hi hj
    show 100 + (c - 2) * 2 ^ 1 + i ≠ 100 + (d - 2) * 2 ^ 1 + j
    have hi2 : i < 2 := hi
    have hj2 : j < 2 := hj
    omega

theorem write_seek_read_roundtrip_witness :
    FatFile.write 4 emptyFile tinyPartition (fun i => tripBytes.getD i 0)
        tripBytes.length = some tripWrote
    ∧ tripWrote.ret = tripBytes.length
    ∧ tripWrote.file.seekSet tripWrote.part 0 = (true, tripSeek)
    ∧ ∃ r, FatFile.read 11 tripSeek tripWrote.part tripBytes.length = some r
        ∧ r.ret = (tripBytes.length : Int) ∧ r.data = tripBytes := by
  have hw : FatFile.write 4 emptyFile tinyPartition (fun i => tripBytes.getD i 0)
      tripBytes.length = some tripWrote := by rfl
  have hret : tripWrote.ret = tripBytes.length := by rfl
  have hseek : tripWrote.file.seekSet tripWrote.part 0 = (true, tripSeek) := by rfl
  exact ⟨hw, hret, hseek,
    write_seek_read_roundtrip tripBytes emptyFile tinyPartition 4 11 0 tripWrote
      tripSeek rfl rfl rfl ⟨fun _ => rfl, fun h => absurd rfl h⟩ (Or.inl ⟨rfl, rfl⟩)
      tiny_layoutOk
      (by intro c _ i _
          show 100 + (c - 2) * 2 ^ 1 + i ≠ 50
          omega)
      (by decide) hw hret hseek (by decide)⟩

/-- The calls that the write and the read of `tripBytes` make: two sectors by
`writeSectors` and `readSectors`, the rest through the cache. -/
theorem roundtrip_paths :
    tripWrote.part.log
      = [Call.cacheFetchData 102 CacheMode.reserveForWrite, Call.allocateCluster 2,
         Call.writeSectors 100 2, Call.allocateCluster 0]
    ∧ (FatFile.read 11 tripSeek tripWrote.part 11).map
          (fun r => (r.ret, r.data, r.part.log.take 2))
        = some (11, tripBytes,
            [Call.cacheFetchData 102 CacheMode.forRead, Call.readSectors 100 2]) := by
  decide

end RoundTripWitness


section ReadPosition

theorem readSectorCount_le (f : FatFile) (p : FatPartition) (toRead soc : Nat) :
    FatFile.readSectorCount f p toRead soc <<< p.bytesPerSectorShift ≤ toRead := by
  unfold FatFile.readSectorCount
  dsimp only
  rw [Nat.shiftLeft_eq]
  have h1 : (toRead >>> p.bytesPerSectorShift) % 256 ≤ toRead >>> p.bytesPerSectorShift :=
    Nat.mod_le _ _
  have h2 : (if f.isRootFixed = false ∧ (p.sectorsPerCluster - soc) % 256
                < (toRead >>> p.bytesPerSectorShift) % 256
              then (p.sectorsPerCluster - soc) % 256
              else (toRead >>> p.bytesPerSectorShift) % 256)
      ≤ toRead >>> p.bytesPerSectorShift := by
    split
    · rename_i h; omega
    · exact h1
  calc _ ≤ (toRead >>> p.bytesPerSectorShift) * 2 ^ p.bytesPerSectorShift :=
        Nat.mul_le_mul_right _ h2
    _ ≤ toRead := by
        rw [Nat.shiftRight_eq_div_pow]; exact Nat.div_mul_le_self _ _

/-- The transfer of `read` does not touch the handle and moves at most
`toRead` bytes. -/
theorem readTransfer_next (f g : FatFile) (p q : FatPartition) (toRead off sector soc n : Nat)
    (chunk : Nat → Nat)
    (h : FatFile.readTransfer f p toRead off sector soc = FatFile.Step.next g q n chunk) :
    g = f ∧ n ≤ toRead := by
  unfold FatFile.readTransfer at h
  split at h
  · unfold FatFile.readCached at h
    dsimp only at h
    split at h
    · cases h
    · cases h; exact ⟨rfl, partCount_le _ _ _⟩
  · rename_i hc
    split at h
    · unfold FatFile.readMulti at h
      dsimp only at h
      split at h
      · cases h
      · split at h
        · cases h
        · cases h; exact ⟨rfl, readSectorCount_le _ _ _ _⟩
    · unfold FatFile.readSingle at h
      split at h
      · cases h
      · rename_i p1 hp1
        have hb : p1.bytesPerSector = p.bytesPerSector := by
          have h2 : (p.readSector sector).2.bytesPerSector = p.bytesPerSector := rfl
          rw [hp1] at h2; exact h2
        cases h
        refine ⟨rfl, ?_⟩
        have : ¬ toRead < p.bytesPerSector := fun hx => hc (Or.inr (Or.inl hx))
        omega

/-- One iteration of the loop of `read`: only `curCluster` of the handle can
change, and `n <= toRead`. -/
theorem readStep_next (f g : FatFile) (p q : FatPartition) (toRead n : Nat) (chunk : Nat → Nat)
    (h : FatFile.readStep f p toRead = FatFile.Step.next g q n chunk) :
    (∃ cc, g = { f with curCluster := cc }) ∧ n ≤ toRead := by
  unfold FatFile.readStep at h
  dsimp only at h
  split at h
  · cases h
  · cases h
  · rename_i f1 sector soc hloc
    obtain ⟨h1, h2⟩ := readTransfer_next _ _ _ _ _ _ _ _ _ _ h
    subst h1
    refine ⟨?_, h2⟩
    unfold FatFile.readLocate at hloc
    split at hloc
    · cases hloc; exact ⟨f.curCluster, rfl⟩
    · dsimp only at hloc
      split at hloc
      · split at hloc
        · cases hloc; exact ⟨_, rfl⟩
        · split at hloc
          · cases hloc
          · split at hloc <;> cases hloc
          · cases hloc; exact ⟨_, rfl⟩
      · cases hloc; exact ⟨f.curCluster, rfl⟩

theorem readStep_stop (f g : FatFile) (p q : FatPartition) (toRead : Nat)
    (h : FatFile.readStep f p toRead = FatFile.Step.stop g q) : g = f := by
  unfold FatFile.readStep at h
  dsimp only at h
  split at h
  · cases h
  · cases h; rfl
  · rename_i f1 sector soc hloc
    unfold FatFile.readTransfer at h
    split at h
    · unfold FatFile.readCached at h
      dsimp only at h
      split at h <;> cases h
    · split at h
      · unfold FatFile.readMulti at h
        dsimp only at h
        split at h
        · cases h
        · split at h <;> cases h
      · unfold FatFile.readSingle at h
        split at h <;> cases h

/-- The loop of `read`, when it ends without failure, has moved the position by
the number of bytes it transferred, which is at most the number asked for; of
the other fields of the handle only `curCluster` can have changed. -/
theorem readLoop_ok (fuel : Nat) :
    ∀ (f g : FatFile) (p q : FatPartition) (toRead rest : Nat) (out out2 : List Nat),
      FatFile.readLoop fuel f p toRead out = some (FatFile.LoopEnd.ok g q rest out2) →
      f.curPosition + toRead < U32 →
      rest ≤ toRead
        ∧ ∃ cc, g = { f with curCluster := cc, curPosition := f.curPosition + (toRead - rest) } := by
  induction fuel with
  | zero =>
    intro f g p q toRead rest out out2 h _
    unfold FatFile.readLoop at h
    split at h
    · cases h
      exact ⟨le_refl _, f.curCluster, by simp⟩
    · cases h
  | succ fuel ih =>
    intro f g p q toRead rest out out2 h hb
    unfold FatFile.readLoop at h
    split at h
    · cases h
      exact ⟨le_refl _, f.curCluster, by simp⟩
    · split at h
      · cases h
      · rename_i f1 p1 hstep
        cases h
        have := readStep_stop _ _ _ _ _ hstep
        subst this
        exact ⟨le_refl _, g.curCluster, by simp⟩
      · rename_i f1 p1 n chunk hstep
        obtain ⟨⟨cc, rfl⟩, hle⟩ := readStep_next _ _ _ _ _ _ _ hstep
        have hmod : (f.curPosition + n) % U32 = f.curPosition + n :=
          Nat.mod_eq_of_lt (by omega)
        obtain ⟨hr, cc2, hg⟩ := ih _ g p1 q (toRead - n) rest _ out2 h (by
          show (f.curPosition + n) % U32 + (toRead - n) < U32
          rw [hmod]; omega)
        refine ⟨by omega, cc2, ?_⟩
        rw [hg]
        simp only [hmod]
        have : f.curPosition + n + (toRead - n - rest) = f.curPosition + (toRead - rest) := by
          omega
        rw [this]

end ReadPosition


section SuccessStates

theorem write_ok_flag (fuel : Nat) (f : FatFile) (p : FatPartition) (buf : Nat → Nat)
    (n : Nat) (w : FatFile.WriteOut)
    (hw : FatFile.write fuel f p buf n = some w) (hok : w.ret ≠ SIZE_MAX) :
    f.flags.write = true := by
  unfold FatFile.write at hw
  split at hw
  · cases hw; exact absurd rfl hok
  · rename_i hcond
    by_contra hc
    exact hcond (Or.inr (by simpa using hc))

/-- The handle after the seek of an O_APPEND write: it stands at `writeStart`. -/
theorem write_seek_file (f f1 : FatFile) (p : FatPartition) (hfile : f.isFile = true)
    (h : (if f.flags.append = true then f.seekSet p f.fileSize else (true, f)) = (true, f1)) :
    ∃ cc, f1 = { f with curCluster := cc, curPosition := writeStart f } := by
  unfold writeStart
  by_cases ha : f.flags.append = true
  · rw [if_pos ha] at h ⊢
    exact seekSet_append f f1 p hfile h
  · rw [if_neg ha] at h ⊢
    cases h
    exact ⟨f.curCluster, rfl⟩

/-- The handle that a successful `write` leaves. -/
theorem write_ok_file (fuel : Nat) (f : FatFile) (p : FatPartition) (buf : Nat → Nat)
    (n : Nat) (w : FatFile.WriteOut)
    (hw : FatFile.write fuel f p buf n = some w) (hok : w.ret ≠ SIZE_MAX) :
    f.kind = FileKind.file ∧ (n = 0 ∨ writeStart f + n ≤ 4294967295)
    ∧ ∃ cc fc d e, w.file
        = { f with curCluster := cc, firstCluster := fc, curPosition := writeStart f + n,
                   fileSize := max f.fileSize (writeStart f + n),
                   flags := { f.flags with dirDirty := d },
                   error := { f.error with writeError := e } } := by
  obtain ⟨f1, f2, p2, rest, out, hfile, hf1, hguard, hloop, hwfin⟩ :=
    write_ok_loop fuel f p buf n w hw hok
  have hkind : f.kind = FileKind.file := by simpa [FatFile.isFile] using hfile
  obtain ⟨cc, hf1eq⟩ := write_seek_file f f1 p hfile hf1
  have hp1 : f1.curPosition = writeStart f := by rw [hf1eq]
  obtain ⟨_, cc2, fc2, d2, hf2, _⟩ :=
    writeLoop_ok fuel f1 f2 p p2 n rest buf out hloop (by omega)
  obtain ⟨d0, hm, _, _⟩ := writeMark_eq f2 p2
  have hopen2 : (FatFile.writeMark f2 p2).isOpen = true := by
    rw [hm, hf2, hf1eq]; simp [FatFile.isOpen, hkind]
  have hwfin2 : w = FatFile.writeSync (FatFile.writeMark f2 p2) p2 n := hwfin
  have hok2 : (FatFile.writeSync (FatFile.writeMark f2 p2) p2 n).ret ≠ SIZE_MAX := by
    rw [← hwfin2]; exact hok
  obtain ⟨_, d, e, hwf, _, _⟩ := writeSync_ok _ p2 n hopen2 hok2
  rw [← hwfin2] at hwf
  refine ⟨hkind, by omega, cc2, fc2, d, e, ?_⟩
  rw [hwf, hm, hf2, hf1eq]

theorem truncateCut_file (f f1 : FatFile) (p p1 : FatPartition) (toFree : Nat)
    (h : FatFile.truncateCut f p = (true, f1, p1, toFree)) :
    f1 = { f with firstCluster := if f.curCluster ≠ 0 then f.firstCluster else 0 } := by
  unfold FatFile.truncateCut at h
  by_cases hc : f.curCluster ≠ 0
  · rw [if_pos hc] at h ⊢
    split at h
    · cases h
    · cases h; rfl
    · split at h
      cases h; rfl
  · rw [if_neg hc] at h ⊢
    cases h; rfl

/-- A successful `truncate` either returns at once (`firstCluster = 0`), or
ends with a successful `sync()` of the handle with the new size and
`F_FILE_DIR_DIRTY` set. -/
theorem truncate_ok_cases (f g : FatFile) (p q : FatPartition)
    (h : f.truncate p = (true, g, q)) :
    (f.firstCluster = 0 ∧ g = f ∧ q = p)
    ∨ (f.firstCluster ≠ 0 ∧ ∃ p2,
        ({ f with firstCluster := if f.curCluster ≠ 0 then f.firstCluster else 0,
                  fileSize := f.curPosition }.setDirDirty).sync p2 = (true, g, q)) := by
  unfold FatFile.truncate at h
  split at h
  · cases h
  · split at h
    · rename_i h0
      cases h
      exact Or.inl ⟨h0, rfl, rfl⟩
    · rename_i h0
      split at h
      · cases h
      · rename_i f1 p1 toFree hcut
        have hf1 := truncateCut_file f f1 p p1 toFree hcut
        dsimp only at h
        split at h
        · cases h
        · rename_i p2 _
          refine Or.inr ⟨h0, p2, ?_⟩
          rw [hf1] at h
          exact h

theorem allocContiguous_ok (p q : FatPartition) (count old c : Nat)
    (h : p.allocContiguous count old = (true, q, c)) : 2 ≤ c := by
  unfold FatPartition.allocContiguous at h
  dsimp only at h
  split at h
  · cases h
  · split at h
    · rename_i hc
      cases h
      exact hc.2.1
    · cases h

/-- A successful `preAllocate` has allocated the clusters and ends with a
successful `sync()` of the handle with the new size and first cluster. -/
theorem preAllocate_ok_cases (f g : FatFile) (p q : FatPartition) (length : Nat)
    (h : f.preAllocate p length = (true, g, q)) :
    length ≠ 0 ∧ f.kind = FileKind.file ∧ f.firstCluster = 0
    ∧ ∃ p1 c, 2 ≤ c
        ∧ ({ f with firstCluster := c, fileSize := length }.setDirDirty).sync p1 = (true, g, q) := by
  unfold FatFile.preAllocate at h
  split at h
  · cases h
  · rename_i hcond
    dsimp only at h
    split at h
    · cases h
    · rename_i p1 c h1
      have hfile : f.kind = FileKind.file := by
        by_contra hc
        exact hcond (Or.inr (Or.inl (by simp [FatFile.isFile, hc])))
      refine ⟨fun h0 => hcond (Or.inl h0), hfile, ?_, p1, c,
        allocContiguous_ok _ _ _ _ _ h1, h⟩
      by_contra hc
      exact hcond (Or.inr (Or.inr (Or.inr hc)))

/-- What a successful `sync` does to the handle. -/
theorem sync_ok_file (f g : FatFile) (p q : FatPartition) (h : f.sync p = (true, g, q)) :
    ∃ d e, g = { f with flags := { f.flags with dirDirty := d },
                        error := { f.error with writeError := e } } := by
  obtain ⟨d, e, hs⟩ := sync_file f p
  rw [h] at hs
  exact ⟨d, e, hs⟩

end SuccessStates


section PositionWithinFile

theorem readClamp_file (f : FatFile) (p : FatPartition) (nbyte : Nat)
    (hkind : f.kind = FileKind.file) (hle : f.curPosition ≤ f.fileSize) (hu : f.fileSize < U32) :
    f.curPosition + FatFile.readClamp f p nbyte ≤ f.fileSize := by
  unfold FatFile.readClamp
  rw [if_pos (by simp [FatFile.isFile, hkind])]
  have : sub32 f.fileSize f.curPosition = f.fileSize - f.curPosition := by
    unfold sub32
    unfold U32 at hu ⊢
    omega
  dsimp only
  rw [this]
  split <;> omega

/-- C11 (amended). The position never passes the end of the file after a
successful operation: for an open regular file with `curPosition <= fileSize`,
after each of `seekSet`, `read`, `write` and `truncate` returns successfully
`curPosition <= fileSize` holds again; after a successful `preAllocate` it
holds if the file also satisfies invariant 4 (`fileSize > 0` implies
`firstCluster != 0`). -/
theorem position_within_file (f : FatFile) (p : FatPartition)
    (hkind : f.kind = FileKind.file) (hle : f.curPosition ≤ f.fileSize)
    (hu : f.fileSize < U32) :
    (∀ pos g, f.seekSet p pos = (true, g) → g.curPosition ≤ g.fileSize)
    ∧ (∀ fuel nbyte r, FatFile.read fuel f p nbyte = some r → r.ret ≠ -1 →
          r.file.curPosition ≤ r.file.fileSize)
    ∧ (∀ fuel buf nbyte w, FatFile.write fuel f p buf nbyte = some w → w.ret ≠ SIZE_MAX →
          w.file.curPosition ≤ w.file.fileSize)
    ∧ (∀ g q, f.truncate p = (true, g, q) → g.curPosition ≤ g.fileSize)
    ∧ (∀ length g q, (0 < f.fileSize → f.firstCluster ≠ 0) →
          f.preAllocate p length = (true, g, q) → g.curPosition ≤ g.fileSize) := by
  have hopen : f.isOpen = true := by simp [FatFile.isOpen, hkind]
  have hnf : f.isRootFixed = false := by simp [FatFile.isRootFixed, hkind]
  have hfile : f.isFile = true := by simp [FatFile.isFile, hkind]
  refine ⟨?_, ?_, ?_, ?_, ?_⟩
  · intro pos g h
    rcases seekSet_true_cases f p pos g hopen hnf h with
      ⟨_, rfl⟩ | ⟨_, _, rfl⟩ | ⟨_, _, hsz, c, _, rfl⟩
    · exact hle
    · exact Nat.zero_le _
    · exact hsz hfile
  · intro fuel nbyte r h hret
    have hclamp := readClamp_file f p nbyte hkind hle hu
    unfold FatFile.read at h
    split at h
    · cases h; exact absurd rfl hret
    · dsimp only at h
      split at h
      · cases h
      · cases h; exact absurd rfl hret
      · rename_i f1 p1 rest out hloop
        cases h
        obtain ⟨_, cc, hg⟩ := readLoop_ok fuel f f1 p p1 _ rest [] out hloop (by omega)
        show f1.curPosition ≤ f1.fileSize
        rw [hg]
        show f.curPosition + (FatFile.readClamp f p nbyte - rest) ≤ f.fileSize
        omega
  · intro fuel buf nbyte w h hok
    obtain ⟨_, _, cc, fc, d, e, hw⟩ := write_ok_file fuel f p buf nbyte w h hok
    rw [hw]
    exact Nat.le_max_right _ _
  · intro g q h
    rcases truncate_ok_cases f g p q h with ⟨_, rfl, _⟩ | ⟨_, p2, hs⟩
    · exact hle
    · obtain ⟨d, e, hg⟩ := sync_ok_file _ g p2 q hs
      rw [hg]
      exact le_refl _
  · intro length g q hinv h
    obtain ⟨_, _, hfc, p1, c, _, hs⟩ := preAllocate_ok_cases f g p q length h
    obtain ⟨d, e, hg⟩ := sync_ok_file _ g p1 q hs
    have h0 : f.fileSize = 0 := by
      by_contra hne
      exact hinv (by omega) hfc
    rw [hg]
    show f.curPosition ≤ length
    omega

theorem position_within_file_witness :
    chainFile.curPosition ≤ chainFile.fileSize
    ∧ (chainFile.truncate chainPartition).1 = true
    ∧ (chainFile.truncate chainPartition).2.1.curPosition
        ≤ (chainFile.truncate chainPartition).2.1.fileSize :=
  ⟨by decide, by decide,
    (position_within_file chainFile chainPartition rfl (by decide) (by decide)).2.2.2.1
      (chainFile.truncate chainPartition).2.1 (chainFile.truncate chainPartition).2.2 (by rfl)⟩

/-- C11, counterexample to the claim as stated: a regular file with
`curPosition = 50 <= fileSize = 100` and no cluster; `preAllocate(10)` succeeds
and leaves `fileSize = 10` below `curPosition = 50`. -/
theorem position_past_size_counterexample :
    skewFile.kind = FileKind.file
    ∧ skewFile.curPosition ≤ skewFile.fileSize
    ∧ (skewFile.preAllocate (blankPartition 0 9) 10).1 = true
    ∧ (skewFile.preAllocate (blankPartition 0 9) 10).2.1.curPosition = 50
    ∧ (skewFile.preAllocate (blankPartition 0 9) 10).2.1.fileSize = 10 := by
  decide

end PositionWithinFile


section EmptyIffNoClusters

theorem writeAcquire_first (f f1 : FatFile) (p p1 : FatPartition) (soc off : Nat)
    (h : FatFile.writeAcquire f p soc off = (true, f1, p1)) :
    (f.firstCluster ≠ 0 → f1.firstCluster = f.firstCluster)
    ∧ (f.firstCluster = 0 → f.curCluster = 0 → soc = 0 → off = 0 → f1.firstCluster ≠ 0) := by
  unfold FatFile.writeAcquire at h
  by_cases hs : soc = 0 ∧ off = 0
  · rw [if_pos hs] at h
    by_cases hc : f.curCluster ≠ 0
    · rw [if_pos hc] at h
      refine ⟨fun _ => ?_, fun _ h0 => absurd h0 hc⟩
      split at h
      · cases h
      · rw [addCluster_eq] at h
        simp only [Prod.mk.injEq] at h
        rw [← h.2.1]; rfl
      · cases h; rfl
    · rw [if_neg hc] at h
      by_cases hf : f.firstCluster = 0
      · rw [if_pos hf] at h
        refine ⟨fun hx => absurd hf hx, fun _ _ _ _ => ?_⟩
        rw [addCluster_eq] at h
        rcases hal : p.allocateCluster f.curCluster with ⟨ok, p2, c⟩
        rw [hal] at h
        cases ok
        · cases h
        · have hc2 := (allocateCluster_ok p p2 f.curCluster c hal).1
          simp only [Prod.mk.injEq, true_and] at h
          rw [← h.1]
          show c ≠ 0
          omega
      · rw [if_neg hf] at h
        cases h
        exact ⟨fun _ => rfl, fun hx => absurd hx hf⟩
  · rw [if_neg hs] at h
    cases h
    exact ⟨fun _ => rfl, fun _ _ h1 h2 => absurd ⟨h1, h2⟩ hs⟩

theorem writeStep_first (f g : FatFile) (p q : FatPartition) (N n : Nat)
    (src chunk : Nat → Nat)
    (h : FatFile.writeStep f p N src = FatFile.Step.next g q n chunk) :
    (f.firstCluster ≠ 0 → g.firstCluster = f.firstCluster)
    ∧ (f.firstCluster = 0 → f.curCluster = 0 → f.curPosition = 0 → g.firstCluster ≠ 0) := by
  obtain ⟨f1, p1, hacq, htr, _⟩ := writeStep_transfer _ _ _ _ _ _ _ _ h
  obtain ⟨hgf, _⟩ := writeTransfer_next _ _ _ _ _ _ _ _ _ _ htr
  subst hgf
  obtain ⟨h1, h2⟩ := writeAcquire_first _ _ _ _ _ _ hacq
  refine ⟨h1, fun hf hc hp => h2 hf hc ?_ ?_⟩
  · rw [hp]; simp [FatPartition.sectorOfCluster]
  · rw [hp]; simp

/-- The loop of `write` keeps a first cluster that is not 0, and gives an
empty file at position 0 a first cluster as soon as it transfers a byte. -/
theorem writeLoop_first (fuel : Nat) :
    ∀ (f g : FatFile) (p q : FatPartition) (N rest : Nat) (src : Nat → Nat) (out : List Nat),
      FatFile.writeLoop fuel f p N src = some (FatFile.LoopEnd.ok g q rest out) →
      (f.firstCluster ≠ 0 → g.firstCluster = f.firstCluster)
      ∧ (f.firstCluster = 0 → f.curCluster = 0 → f.curPosition = 0 → 0 < N →
            g.firstCluster ≠ 0) := by
  induction fuel with
  | zero =>
    intro f g p q N rest src out h
    unfold FatFile.writeLoop at h
    split at h
    · rename_i h0; cases h
      exact ⟨fun _ => rfl, fun _ _ _ hN => by omega⟩
    · cases h
  | succ fuel ih =>
    intro f g p q N rest src out h
    unfold FatFile.writeLoop at h
    split at h
    · rename_i h0; cases h
      exact ⟨fun _ => rfl, fun _ _ _ hN => by omega⟩
    · split at h
      · cases h
      · cases h
      · rename_i f2 p2 n chunk hstep
        obtain ⟨h1, h2⟩ := writeStep_first _ _ _ _ _ _ _ _ hstep
        obtain ⟨i1, _⟩ := ih _ g p2 q (N - n) rest _ out h
        refine ⟨fun hf => ?_, fun hf hc hp _ => ?_⟩
        · have := i1 (by show f2.firstCluster ≠ 0; rw [h1 hf]; exact hf)
          rw [this]; exact h1 hf
        · have h3 := h2 hf hc hp
          have := i1 h3
          rw [this]; exact h3

/-- C12 (amended). Empty file iff no clusters: for a regular file state with
`firstCluster = 0 <-> fileSize = 0` and `curPosition = 0 <-> curCluster = 0`,
the equivalence `firstCluster = 0 <-> fileSize = 0` holds again after every
successful `truncate` and `preAllocate`, and after every successful `write`
that starts from a state with `curPosition <= fileSize`. -/
theorem empty_iff_no_clusters (f : FatFile) (p : FatPartition)
    (hemp : f.firstCluster = 0 ↔ f.fileSize = 0)
    (hposc : f.curPosition = 0 ↔ f.curCluster = 0) :
    (∀ fuel buf nbyte w, f.curPosition ≤ f.fileSize →
        FatFile.write fuel f p buf nbyte = some w → w.ret ≠ SIZE_MAX →
        (w.file.firstCluster = 0 ↔ w.file.fileSize = 0))
    ∧ (∀ g q, f.truncate p = (true, g, q) → (g.firstCluster = 0 ↔ g.fileSize = 0))
    ∧ (∀ length g q, f.preAllocate p length = (true, g, q) →
        (g.firstCluster = 0 ↔ g.fileSize = 0)) := by
  refine ⟨?_, ?_, ?_⟩
  · intro fuel buf nbyte w hle hw hok
    obtain ⟨f1, f2, p2, rest, out, hfile, hf1, _, hloop, hwfin⟩ :=
      write_ok_loop fuel f p buf nbyte w hw hok
    obtain ⟨_, _, cc, fc, d, e, hwf⟩ := write_ok_file fuel f p buf nbyte w hw hok
    obtain ⟨cc1, hf1eq⟩ := write_seek_file f f1 p hfile hf1
    obtain ⟨k1, k2⟩ := writeLoop_first fuel f1 f2 p p2 nbyte rest buf out hloop
    -- the first cluster of the result is that of the handle after the loop
    have hfc : w.file.firstCluster = f2.firstCluster := by
      obtain ⟨d0, hm, _, _⟩ := writeMark_eq f2 p2
      have hkind : f.kind = FileKind.file := by simpa [FatFile.isFile] using hfile
      obtain ⟨_, cc2, fc2, d2, hf2, _⟩ : rest = 0 ∧ ∃ cc fc d,
          f2 = { f1 with curCluster := cc, firstCluster := fc,
                         curPosition := f1.curPosition + nbyte,
                         flags := { f1.flags with dirDirty := d } }
            ∧ (f1.flags.dirDirty = true → d = true) := by
        apply writeLoop_ok fuel f1 f2 p p2 nbyte rest buf out hloop
        rcases (write_ok_file fuel f p buf nbyte w hw hok).2.1 with h0 | h0
        · exact Or.inl h0
        · right; rw [hf1eq]; exact h0
      have hopen2 : (FatFile.writeMark f2 p2).isOpen = true := by
        rw [hm, hf2, hf1eq]; simp [FatFile.isOpen, hkind]
      have hwfin2 : w = FatFile.writeSync (FatFile.writeMark f2 p2) p2 nbyte := hwfin
      have hok2 : (FatFile.writeSync (FatFile.writeMark f2 p2) p2 nbyte).ret ≠ SIZE_MAX := by
        rw [← hwfin2]; exact hok
      obtain ⟨_, d3, e3, hwf3, _, _⟩ := writeSync_ok _ p2 nbyte hopen2 hok2
      rw [← hwfin2] at hwf3
      rw [hwf3, hm]
    have hsz : w.file.fileSize = max f.fileSize (writeStart f + nbyte) := by rw [hwf]
    have hf1fc : f1.firstCluster = f.firstCluster := by rw [hf1eq]
    rw [hfc, hsz]
    by_cases h0 : f.firstCluster = 0
    · have hs0 : f.fileSize = 0 := hemp.1 h0
      have hp0 : f.curPosition = 0 := by omega
      have hc0 : f.curCluster = 0 := hposc.1 hp0
      have hstart : writeStart f = 0 := by unfold writeStart; split <;> assumption
      have hf1e : f1 = f := by
        by_cases ha : f.flags.append = true
        · rw [if_pos ha] at hf1
          unfold FatFile.seekSet at hf1
          have hkind : f.kind = FileKind.file := by simpa [FatFile.isFile] using hfile
          rw [if_neg (by simp [FatFile.isOpen, hkind]), if_pos (by rw [hs0, hp0])] at hf1
          exact (Prod.mk.inj hf1).2.symm
        · rw [if_neg ha] at hf1; exact (Prod.mk.inj hf1).2.symm
      subst hf1e
      by_cases hn : nbyte = 0
      · subst hn
        rw [writeLoop_zero] at hloop
        cases hloop
        rw [h0, hs0, hstart]; simp
      · have := k2 h0 hc0 hp0 (by omega)
        rw [hs0, hstart]
        constructor
        · intro hx; exact absurd hx this
        · intro hx
          have : max 0 (0 + nbyte) = nbyte := by simp
          omega
    · have hs : f.fileSize ≠ 0 := fun hx => h0 (hemp.2 hx)
      have := k1 (by rw [hf1fc]; exact h0)
      rw [this, hf1fc]
      constructor
      · intro hx; exact absurd hx h0
      · intro hx
        have : f.fileSize ≤ max f.fileSize (writeStart f + nbyte) := Nat.le_max_left _ _
        omega
  · intro g q h
    rcases truncate_ok_cases f g p q h with ⟨_, rfl, _⟩ | ⟨hfc, p2, hs⟩
    · exact hemp
    · obtain ⟨d, e, hg⟩ := sync_ok_file _ g p2 q hs
      rw [hg]
      show (if f.curCluster ≠ 0 then f.firstCluster else 0) = 0 ↔ f.curPosition = 0
      by_cases hc : f.curCluster ≠ 0
      · rw [if_pos hc]
        constructor
        · intro hx; exact absurd hx hfc
        · intro hx; exact absurd (hposc.1 hx) hc
      · rw [if_neg hc]
        have : f.curCluster = 0 := by omega
        exact ⟨fun _ => hposc.2 this, fun _ => rfl⟩
  · intro length g q h
    obtain ⟨hlen, _, _, p1, c, hc2, hs⟩ := preAllocate_ok_cases f g p q length h
    obtain ⟨d, e, hg⟩ := sync_ok_file _ g p1 q hs
    rw [hg]
    show c = 0 ↔ length = 0
    constructor
    · intro hx; omega
    · intro hx; exact absurd hx hlen

theorem empty_iff_no_clusters_witness :
    (wrote1025.file.firstCluster = 0 ↔ wrote1025.file.fileSize = 0)
    ∧ wrote1025.file.firstCluster = 2 ∧ wrote1025.file.fileSize = 1025 :=
  ⟨(empty_iff_no_clusters emptyFile (blankPartition 0 9) (by decide) (by decide)).1
      10 testBuf 1025 wrote1025 (by decide) (by rfl) (by decide),
    by decide, by decide⟩

/-- C12, counterexample to the claim as stated: an empty regular file without
a cluster (`firstCluster = 0`, `fileSize = 0`) whose position 5 and current
cluster 7 are both not 0; a write of one byte succeeds and leaves
`firstCluster = 0` with `fileSize = 6`. -/
theorem empty_iff_no_clusters_counterexample :
    strayFile.kind = FileKind.file
    ∧ (strayFile.firstCluster = 0 ↔ strayFile.fileSize = 0)
    ∧ (strayFile.curPosition = 0 ↔ strayFile.curCluster = 0)
    ∧ (FatFile.write 4 strayFile (blankPartition 0 9) testBuf 1).map
        (fun w => (w.ret, w.file.firstCluster, w.file.fileSize)) = some (1, 0, 6) := by
  decide

end EmptyIffNoClusters


section SeekFailure

theorem walk_steps_iff (p : FatPartition) (a : Nat) :
    ∀ n, (∀ k, k < n → ∃ c m, clusterAt p a k = some c ∧ p.fatGet c = FatEntry.continues m)
      ↔ ∃ c, clusterAt p a n = some c := by
  intro n
  induction n with
  | zero => exact ⟨fun _ => ⟨a, rfl⟩, fun _ k hk => by omega⟩
  | succ n ih =>
    constructor
    · intro h
      obtain ⟨c, m, hc, hm⟩ := h n (by omega)
      exact ⟨m, clusterAt_succ_of p a n c m hc hm⟩
    · rintro ⟨c, hc⟩ k hk
      obtain ⟨b, hb, hfat⟩ := clusterAt_succ p a n c hc
      by_cases hkn : k = n
      · subst hkn; exact ⟨b, c, hb, hfat⟩
      · exact (ih.2 ⟨b, hb⟩) k (by omega)

theorem seekSet_walk_iff (f : FatFile) (p : FatPartition) (pos : Nat) :
    (∀ k, k < (seekPlan f p pos).1 →
        ∃ c n, clusterAt p (seekPlan f p pos).2 k = some c ∧ p.fatGet c = FatEntry.continues n)
    ↔ ∃ c, FatFile.seekWalk p (seekPlan f p pos).1 (seekPlan f p pos).2 = some c := by
  rw [walk_steps_iff]
  simp only [seekWalk_eq_clusterAt]

/-- The outcome of `seekSet` once the early exits are passed. -/
theorem seekSet_walk (f : FatFile) (p : FatPartition) (pos : Nat)
    (hopen : f.isOpen = true) (h1 : pos ≠ f.curPosition) (h2 : pos ≠ 0)
    (h3 : ¬ (f.isFile = true ∧ pos > f.fileSize))
    (h4 : ¬ (f.isFile = false ∧ f.isRootFixed = true)) :
    f.seekSet p pos
      = match FatFile.seekWalk p (seekPlan f p pos).1 (seekPlan f p pos).2 with
        | some c => (true, { f with curCluster := c, curPosition := pos })
        | none => (false, { f with curCluster := f.curCluster }) := by
  unfold FatFile.seekSet seekPlan
  rw [if_neg (by simp [hopen]), if_neg h1, if_neg h2, if_neg h3, if_neg h4]
  dsimp only
  by_cases hr : (pos - 1) >>> p.bytesPerClusterShift
      < sub32 f.curPosition 1 >>> p.bytesPerClusterShift ∨ f.curPosition = 0
  · simp only [hr, decide_True, if_true]
  · simp only [hr, decide_False, if_false]
    rfl

/-- C14. `seekSet` failure conditions and atomicity: `seekSet(pos)` returns
false on a closed file; on an open regular file with `curPosition <= fileSize`
it returns true iff `pos <= fileSize` and no `fatGet` step of the walk it
performs returns a status `<= 0`; on an open fixed root with
`curPosition <= 32 * rootDirEntryCount` it returns true iff
`pos <= 32 * rootDirEntryCount`; and whenever it returns false, `curPosition`
and `curCluster` have the values they had before the call. -/
theorem seekSet_failure_atomic (f : FatFile) (p : FatPartition) (pos : Nat) :
    (f.isOpen = false → (f.seekSet p pos).1 = false)
    ∧ (f.kind = FileKind.file → f.curPosition ≤ f.fileSize →
        ((f.seekSet p pos).1 = true ↔ pos ≤ f.fileSize ∧ SeekWalkOk f p pos))
    ∧ (f.kind = FileKind.rootFixed → f.curPosition ≤ 32 * p.rootDirEntryCount →
        ((f.seekSet p pos).1 = true ↔ pos ≤ 32 * p.rootDirEntryCount))
    ∧ ((f.seekSet p pos).1 = false →
        (f.seekSet p pos).2.curPosition = f.curPosition
        ∧ (f.seekSet p pos).2.curCluster = f.curCluster) := by
  refine ⟨?_, ?_, ?_, ?_⟩
  · intro hclosed
    unfold FatFile.seekSet
    rw [if_pos hclosed]
  · intro hkind hle
    have hopen : f.isOpen = true := by simp [FatFile.isOpen, hkind]
    have hfile : f.isFile = true := by simp [FatFile.isFile, hkind]
    by_cases h1 : pos = f.curPosition
    · have : f.seekSet p pos = (true, f) := by
        unfold FatFile.seekSet
        rw [if_neg (by simp [hopen]), if_pos h1]
      rw [this]
      exact ⟨fun _ => ⟨by omega, Or.inl h1⟩, fun _ => rfl⟩
    · by_cases h2 : pos = 0
      · have : f.seekSet p pos = (true, { f with curCluster := 0, curPosition := pos }) := by
          unfold FatFile.seekSet
          rw [if_neg (by simp [hopen]), if_neg h1, if_pos h2]
        rw [this]
        exact ⟨fun _ => ⟨by omega, Or.inr (Or.inl h2)⟩, fun _ => rfl⟩
      · by_cases h3 : pos > f.fileSize
        · have : f.seekSet p pos = (false, { f with curCluster := f.curCluster }) := by
            unfold FatFile.seekSet
            rw [if_neg (by simp [hopen]), if_neg h1, if_neg h2, if_pos ⟨hfile, h3⟩]
          rw [this]
          exact ⟨fun hx => (by cases hx), fun hx => by omega⟩
        · rw [seekSet_walk f p pos hopen h1 h2 (fun hx => h3 hx.2)
            (fun hx => by rw [hfile] at hx; cases hx.1)]
          constructor
          · intro hx
            refine ⟨by omega, Or.inr (Or.inr ?_)⟩
            rw [seekSet_walk_iff]
            split at hx
            · rename_i c hc; exact ⟨c, hc⟩
            · cases hx
          · rintro ⟨_, hw⟩
            rcases hw with hw | hw | hw
            · exact absurd hw h1
            · exact absurd hw h2
            · rw [seekSet_walk_iff] at hw
              obtain ⟨c, hc⟩ := hw
              rw [hc]
  · intro hkind hle
    have hopen : f.isOpen = true := by simp [FatFile.isOpen, hkind]
    have hfile : f.isFile = false := by simp [FatFile.isFile, hkind]
    have hrf : f.isRootFixed = true := by simp [FatFile.isRootFixed, hkind]
    unfold FatFile.seekSet
    rw [if_neg (by simp [hopen])]
    by_cases h1 : pos = f.curPosition
    · rw [if_pos h1]
      exact ⟨fun _ => by omega, fun _ => rfl⟩
    · rw [if_neg h1]
      by_cases h2 : pos = 0
      · rw [if_pos h2]
        exact ⟨fun _ => by omega, fun _ => rfl⟩
      · rw [if_neg h2, if_neg (by rw [hfile]; simp), if_pos ⟨hfile, hrf⟩]
        by_cases h3 : pos ≤ 32 * p.rootDirEntryCount
        · rw [if_pos h3]
          exact ⟨fun _ => h3, fun _ => rfl⟩
        · rw [if_neg h3]
          exact ⟨fun hx => (by cases hx), fun hx => absurd hx h3⟩
  · intro hfalse
    unfold FatFile.seekSet at hfalse ⊢
    dsimp only at hfalse ⊢
    split
    · exact ⟨rfl, rfl⟩
    · rename_i h0
      rw [if_neg h0] at hfalse
      split
      · rename_i h1; rw [if_pos h1] at hfalse; cases hfalse
      · rename_i h1
        rw [if_neg h1] at hfalse
        split
        · rename_i h2; rw [if_pos h2] at hfalse; cases hfalse
        · rename_i h2
          rw [if_neg h2] at hfalse
          split
          · exact ⟨rfl, rfl⟩
          · rename_i h3
            rw [if_neg h3] at hfalse
            split
            · rename_i h4
              rw [if_pos h4] at hfalse
              split
              · rename_i h5; rw [if_pos h5] at hfalse; cases hfalse
              · exact ⟨rfl, rfl⟩
            · rename_i h4
              rw [if_neg h4] at hfalse
              split
              · rename_i c hc; rw [hc] at hfalse; cases hfalse
              · exact ⟨rfl, rfl⟩

theorem seekSet_failure_atomic_witness :
    chainFile.kind = FileKind.file ∧ chainFile.curPosition ≤ chainFile.fileSize
    ∧ ((chainFile.seekSet chainPartition 1025).1 = true
        ↔ 1025 ≤ chainFile.fileSize ∧ SeekWalkOk chainFile chainPartition 1025)
    ∧ (chainFile.seekSet chainPartition 1025).1 = true
    ∧ (chainFile.seekSet chainPartition 1026).1 = false
    ∧ (chainFile.seekSet chainPartition 1026).2.curPosition = chainFile.curPosition
    ∧ (chainFile.seekSet chainPartition 1026).2.curCluster = chainFile.curCluster :=
  ⟨rfl, by decide,
    (seekSet_failure_atomic chainFile chainPartition 1025).2.1 rfl (by decide),
    by decide, by decide,
    (seekSet_failure_atomic chainFile chainPartition 1026).2.2.2 (by decide)⟩

end SeekFailure


section OpenCachedEntry

/-- Whatever `seekSet` answers, it changes at most `curCluster` and
`curPosition`, and on success the position is `pos`. -/
theorem seekSet_shape (f : FatFile) (p : FatPartition) (pos : Nat) :
    ∃ cc, (f.seekSet p pos).2
      = { f with curCluster := cc,
                 curPosition := if (f.seekSet p pos).1 = true then pos else f.curPosition } := by
  unfold FatFile.seekSet
  dsimp only
  split
  · exact ⟨f.curCluster, rfl⟩
  · split
    · rename_i h1; exact ⟨f.curCluster, by simp [h1]⟩
    · split
      · exact ⟨0, rfl⟩
      · split
        · exact ⟨f.curCluster, rfl⟩
        · split
          · split
            · exact ⟨f.curCluster, rfl⟩
            · exact ⟨f.curCluster, rfl⟩
          · split
            · rename_i c _; exact ⟨c, rfl⟩
            · exact ⟨f.curCluster, rfl⟩

theorem openFail_closed (f : FatFile) (p : FatPartition) :
    (FatFile.openFail f p).1 = false ∧ (FatFile.openFail f p).2.1.isOpen = false :=
  ⟨rfl, by simp [FatFile.openFail, FatFile.isOpen]⟩

theorem openFinish_false (f : FatFile) (p : FatPartition) (oflag : OFlag) (first size : Nat)
    (h : (f.openFinish p oflag first size).1 = false) :
    (f.openFinish p oflag first size).2.1.isOpen = false := by
  unfold FatFile.openFinish at h ⊢
  dsimp only at h ⊢
  split
  · exact (openFail_closed _ _).2
  · rename_i f1 p1 hstep
    rw [hstep] at h
    dsimp only at h
    split
    · rename_i hat
      rw [if_pos hat] at h
      split
      · exact (openFail_closed _ _).2
      · rename_i f2 hs
        rw [hs] at h
        cases h
    · rename_i hat
      rw [if_neg hat] at h
      cases h

theorem openFinish_trunc_read (f : FatFile) (p : FatPartition) (oflag : OFlag)
    (first size : Nat) (ht : oflag.trunc = true) (hw : oflag.write = false) :
    (f.openFinish p oflag first size).1 = false := by
  unfold FatFile.openFinish
  rw [if_pos ht, if_pos hw]
  rfl

/-- The handle that `openCachedEntry` passes to its last part (lines 473-492)
when the entry is accepted. -/
theorem openCachedEntry_pass (dirFile : FatFile) (p : FatPartition) (dirIndex : Nat)
    (oflag : OFlag) (lfnOrd : Nat)
    (h0 : isFileOrSubdir p.cacheData (32 * (dirIndex &&& 15)) ≠ false)
    (h1 : ¬ ((oflag.write = true ∨ oflag.trunc = true ∨ oflag.atEnd = true)
          ∧ (isFileDir p.cacheData (32 * (dirIndex &&& 15)) = false
              ∨ p.cacheData (32 * (dirIndex &&& 15) + 11) &&& 1 ≠ 0))) :
    FatFile.openCachedEntry dirFile p dirIndex oflag lfnOrd
      = FatFile.openFinish
          { zeroFile with
            dirIndex := dirIndex, dirCluster := dirFile.firstCluster,
            kind := if isFileDir p.cacheData (32 * (dirIndex &&& 15)) = true
                    then FileKind.file else FileKind.subdir,
            readOnly := decide (p.cacheData (32 * (dirIndex &&& 15) + 11) &&& 1 ≠ 0),
            lfnOrd := lfnOrd,
            flags := { read := oflag.read, write := oflag.write, append := oflag.append,
                       sync := oflag.sync, dirDirty := false },
            dirSector := p.cacheSectorNumber }
          p oflag
          ((getLe16 p.cacheData (32 * (dirIndex &&& 15) + 20) <<< 16)
            ||| getLe16 p.cacheData (32 * (dirIndex &&& 15) + 26))
          (getLe32 p.cacheData (32 * (dirIndex &&& 15) + 28)) := by
  unfold FatFile.openCachedEntry
  dsimp only
  rw [if_neg h0]
  by_cases hfd : isFileDir p.cacheData (32 * (dirIndex &&& 15)) = true
  · simp only [hfd, if_true] at h1 ⊢
    rw [if_neg]
    intro hc
    apply h1
    refine ⟨hc.1, ?_⟩
    rcases hc.2 with hc2 | hc2
    · simp [FatFile.isSubDir] at hc2
    · right
      simpa [FatFile.isReadOnly] using hc2
  · have hfd2 : isFileDir p.cacheData (32 * (dirIndex &&& 15)) = false := by
      simpa using hfd
    simp only [hfd2, Bool.false_eq_true, if_false] at h1 ⊢
    rw [if_neg]
    intro hc
    exact h1 ⟨hc.1, Or.inl trivial⟩

/-- The rejections of `openCachedEntry` before its last part. -/
theorem openCachedEntry_stop (dirFile : FatFile) (p : FatPartition) (dirIndex : Nat)
    (oflag : OFlag) (lfnOrd : Nat)
    (h : isFileOrSubdir p.cacheData (32 * (dirIndex &&& 15)) = false
      ∨ ((oflag.write = true ∨ oflag.trunc = true ∨ oflag.atEnd = true)
          ∧ (isFileDir p.cacheData (32 * (dirIndex &&& 15)) = false
              ∨ p.cacheData (32 * (dirIndex &&& 15) + 11) &&& 1 ≠ 0))) :
    ∃ g, FatFile.openCachedEntry dirFile p dirIndex oflag lfnOrd = FatFile.openFail g p := by
  unfold FatFile.openCachedEntry
  dsimp only
  by_cases h0 : isFileOrSubdir p.cacheData (32 * (dirIndex &&& 15)) = false
  · rw [if_pos h0]
    exact ⟨_, rfl⟩
  · rw [if_neg h0]
    rcases h with h | h
    · exact absurd h h0
    · rw [if_pos]
      · exact ⟨_, rfl⟩
      · refine ⟨h.1, ?_⟩
        rcases h.2 with he | he
        · left
          simp [FatFile.isSubDir, he]
        · right
          simpa [FatFile.isReadOnly] using he

/-- C16. `openCachedEntry` rejection leaves the handle closed: it returns false
if the cached slot is not a file or subdirectory; if `oflag` contains WRITE,
TRUNC or AT_END and the entry is a subdirectory (not `isFileDir`) or has the
read-only attribute (bit 0 of the attributes byte); if `oflag` contains TRUNC
without WRITE; and whenever it returns false, `isOpen()` is false for the
handle. -/
theorem openCachedEntry_reject (dirFile : FatFile) (p : FatPartition) (dirIndex : Nat)
    (oflag : OFlag) (lfnOrd : Nat) :
    (isFileOrSubdir p.cacheData (32 * (dirIndex &&& 15)) = false →
        (FatFile.openCachedEntry dirFile p dirIndex oflag lfnOrd).1 = false)
    ∧ ((oflag.write = true ∨ oflag.trunc = true ∨ oflag.atEnd = true) →
        (isFileDir p.cacheData (32 * (dirIndex &&& 15)) = false
          ∨ p.cacheData (32 * (dirIndex &&& 15) + 11) &&& 1 ≠ 0) →
        (FatFile.openCachedEntry dirFile p dirIndex oflag lfnOrd).1 = false)
    ∧ (oflag.trunc = true → oflag.write = false →
        (FatFile.openCachedEntry dirFile p dirIndex oflag lfnOrd).1 = false)
    ∧ ((FatFile.openCachedEntry dirFile p dirIndex oflag lfnOrd).1 = false →
        (FatFile.openCachedEntry dirFile p dirIndex oflag lfnOrd).2.1.isOpen = false) := by
  have hcases : (isFileOrSubdir p.cacheData (32 * (dirIndex &&& 15)) = false
      ∨ ((oflag.write = true ∨ oflag.trunc = true ∨ oflag.atEnd = true)
          ∧ (isFileDir p.cacheData (32 * (dirIndex &&& 15)) = false
              ∨ p.cacheData (32 * (dirIndex &&& 15) + 11) &&& 1 ≠ 0)))
      ∨ (isFileOrSubdir p.cacheData (32 * (dirIndex &&& 15)) ≠ false
          ∧ ¬ ((oflag.write = true ∨ oflag.trunc = true ∨ oflag.atEnd = true)
          ∧ (isFileDir p.cacheData (32 * (dirIndex &&& 15)) = false
              ∨ p.cacheData (32 * (dirIndex &&& 15) + 11) &&& 1 ≠ 0))) := by
    by_cases h0 : isFileOrSubdir p.cacheData (32 * (dirIndex &&& 15)) = false
    · exact Or.inl (Or.inl h0)
    · by_cases h1 : ((oflag.write = true ∨ oflag.trunc = true ∨ oflag.atEnd = true)
          ∧ (isFileDir p.cacheData (32 * (dirIndex &&& 15)) = false
              ∨ p.cacheData (32 * (dirIndex &&& 15) + 11) &&& 1 ≠ 0))
      · exact Or.inl (Or.inr h1)
      · exact Or.inr ⟨h0, h1⟩
  refine ⟨?_, ?_, ?_, ?_⟩
  · intro h
    obtain ⟨g, hg⟩ := openCachedEntry_stop dirFile p dirIndex oflag lfnOrd (Or.inl h)
    rw [hg]
    rfl
  · intro ho he
    obtain ⟨g, hg⟩ := openCachedEntry_stop dirFile p dirIndex oflag lfnOrd (Or.inr ⟨ho, he⟩)
    rw [hg]
    rfl
  · intro ht hw
    rcases hcases with hc | hc
    · obtain ⟨g, hg⟩ := openCachedEntry_stop dirFile p dirIndex oflag lfnOrd hc
      rw [hg]
      rfl
    · rw [openCachedEntry_pass dirFile p dirIndex oflag lfnOrd hc.1 hc.2]
      exact openFinish_trunc_read _ _ _ _ _ ht hw
  · intro h
    rcases hcases with hc | hc
    · obtain ⟨g, hg⟩ := openCachedEntry_stop dirFile p dirIndex oflag lfnOrd hc
      rw [hg]
      exact (openFail_closed _ _).2
    · rw [openCachedEntry_pass dirFile p dirIndex oflag lfnOrd hc.1 hc.2] at h ⊢
      exact openFinish_false _ _ _ _ _ h

theorem openCachedEntry_reject_witness :
    oRdwrTrunc.trunc = true ∧ { oRdwrTrunc with write := false }.write = false
    ∧ (FatFile.openCachedEntry parentDir dirPartition 3 { oRdwrTrunc with write := false } 0).1
        = false
    ∧ (FatFile.openCachedEntry parentDir dirPartition 3
        { oRdwrTrunc with write := false } 0).2.1.isOpen = false :=
  ⟨rfl, rfl,
    (openCachedEntry_reject parentDir dirPartition 3 { oRdwrTrunc with write := false } 0).2.2.1
      rfl rfl,
    (openCachedEntry_reject parentDir dirPartition 3 { oRdwrTrunc with write := false } 0).2.2.2
      ((openCachedEntry_reject parentDir dirPartition 3
        { oRdwrTrunc with write := false } 0).2.2.1 rfl rfl)⟩

end OpenCachedEntry


section OpenCachedEntrySuccess

theorem freeChain_log (p : FatPartition) (c : Nat) :
    (p.freeChain c).2.log = Call.freeChain c :: p.log := by
  unfold FatPartition.freeChain
  rfl

theorem seekSet_true_shape (f g : FatFile) (p : FatPartition) (pos : Nat)
    (h : f.seekSet p pos = (true, g)) :
    ∃ cc, g = { f with curCluster := cc, curPosition := pos } := by
  obtain ⟨cc, hcc⟩ := seekSet_shape f p pos
  rw [h] at hcc
  exact ⟨cc, by simpa using hcc⟩

/-- The successful ends of the last part of `openCachedEntry`. -/
theorem openFinish_true (f g : FatFile) (p q : FatPartition) (oflag : OFlag)
    (first size : Nat) (h : f.openFinish p oflag first size = (true, g, q)) :
    ∃ cc,
      (oflag.trunc = false ∧ q = p
        ∧ g = { f with firstCluster := first, fileSize := size, curCluster := cc,
                       curPosition := if oflag.atEnd = true then size else f.curPosition })
      ∨ (oflag.trunc = true ∧ oflag.write = true
          ∧ (if first ≠ 0 then p.freeChain first else (true, p)) = (true, q)
          ∧ g = { f.setDirDirty with
                    curCluster := cc,
                    curPosition := if oflag.atEnd = true then f.fileSize else f.curPosition }) := by
  have hend : ∀ (f1 : FatFile) (p1 : FatPartition),
      (if oflag.atEnd = true then
          match f1.seekSet p1 f1.fileSize with
          | (false, f2) => FatFile.openFail f2 p1
          | (true, f2) => (true, f2, p1)
        else (true, f1, p1)) = (true, g, q) →
      q = p1 ∧ ∃ cc, g =
        { f1 with curCluster := cc,
                  curPosition := if oflag.atEnd = true then f1.fileSize else f1.curPosition } := by
    intro f1 p1 he
    by_cases hat : oflag.atEnd = true
    · rw [if_pos hat] at he
      rw [if_pos hat]
      split at he
      · cases he
      · rename_i f2 hs
        simp only [Prod.mk.injEq, true_and] at he
        obtain ⟨cc, hcc⟩ := seekSet_true_shape f1 f2 p1 _ hs
        exact ⟨he.2.symm, cc, by rw [← he.1]; exact hcc⟩
    · rw [if_neg hat] at he
      rw [if_neg hat]
      simp only [Prod.mk.injEq, true_and] at he
      exact ⟨he.2.symm, f1.curCluster, by rw [← he.1]⟩
  unfold FatFile.openFinish at h
  dsimp only at h
  by_cases ht : oflag.trunc = true
  · rw [if_pos ht] at h
    by_cases hw : oflag.write = false
    · rw [if_pos hw] at h
      cases h
    · rw [if_neg hw] at h
      have hw2 : oflag.write = true := by simpa using hw
      generalize hfr : (if first ≠ 0 then p.freeChain first else (true, p)) = freed at h
      rcases freed with ⟨ok, p1⟩
      cases ok
      · cases h
      · obtain ⟨hq, cc, hg⟩ := hend f.setDirDirty p1 h
        exact ⟨cc, Or.inr ⟨ht, hw2, by rw [hq], hg⟩⟩
  · rw [if_neg ht] at h
    have ht2 : oflag.trunc = false := by simpa using ht
    obtain ⟨hq, cc, hg⟩ := hend _ p h
    exact ⟨cc, Or.inl ⟨ht2, hq, hg⟩⟩

/-- C17. `openCachedEntry` success postcondition: when it succeeds without
TRUNC, `firstCluster = (firstClusterHigh << 16) | firstClusterLow`, `fileSize`
is the little-endian `fileSize` of the entry and DIR_DIRTY is clear; when it
succeeds with TRUNC, WRITE was given, `freeChain` has been called on the first
cluster of the entry (and succeeded) if that was non-zero, and
`firstCluster = 0`, `fileSize = 0` and DIR_DIRTY is set; in both cases
`curPosition = fileSize` if AT_END was given and 0 otherwise, `dirIndex` is the
given index, `dirCluster` is the first cluster of the parent and `dirSector`
is `cacheSectorNumber()`. -/
theorem openCachedEntry_success (dirFile g : FatFile) (p q : FatPartition) (dirIndex : Nat)
    (oflag : OFlag) (lfnOrd : Nat)
    (h : FatFile.openCachedEntry dirFile p dirIndex oflag lfnOrd = (true, g, q)) :
    (oflag.trunc = false →
        g.firstCluster
            = (getLe16 p.cacheData (32 * (dirIndex &&& 15) + 20) <<< 16)
                ||| getLe16 p.cacheData (32 * (dirIndex &&& 15) + 26)
        ∧ g.fileSize = getLe32 p.cacheData (32 * (dirIndex &&& 15) + 28)
        ∧ g.flags.dirDirty = false)
    ∧ (oflag.trunc = true →
        oflag.write = true
        ∧ ((getLe16 p.cacheData (32 * (dirIndex &&& 15) + 20) <<< 16)
              ||| getLe16 p.cacheData (32 * (dirIndex &&& 15) + 26) ≠ 0 →
            p.freeChain ((getLe16 p.cacheData (32 * (dirIndex &&& 15) + 20) <<< 16)
              ||| getLe16 p.cacheData (32 * (dirIndex &&& 15) + 26)) = (true, q)
            ∧ q.log = Call.freeChain ((getLe16 p.cacheData (32 * (dirIndex &&& 15) + 20) <<< 16)
              ||| getLe16 p.cacheData (32 * (dirIndex &&& 15) + 26)) :: p.log)
        ∧ g.firstCluster = 0 ∧ g.fileSize = 0 ∧ g.flags.dirDirty = true)
    ∧ g.curPosition = (if oflag.atEnd = true then g.fileSize else 0)
    ∧ g.dirIndex = dirIndex ∧ g.dirCluster = dirFile.firstCluster
    ∧ g.dirSector = p.cacheSectorNumber := by
  by_cases hstop : isFileOrSubdir p.cacheData (32 * (dirIndex &&& 15)) = false
      ∨ ((oflag.write = true ∨ oflag.trunc = true ∨ oflag.atEnd = true)
          ∧ (isFileDir p.cacheData (32 * (dirIndex &&& 15)) = false
              ∨ p.cacheData (32 * (dirIndex &&& 15) + 11) &&& 1 ≠ 0))
  · obtain ⟨g1, hg1⟩ := openCachedEntry_stop dirFile p dirIndex oflag lfnOrd hstop
    rw [hg1] at h
    cases h
  · rw [openCachedEntry_pass dirFile p dirIndex oflag lfnOrd (fun hx => hstop (Or.inl hx))
      (fun hx => hstop (Or.inr hx))] at h
    obtain ⟨cc, hc | hc⟩ := openFinish_true _ _ _ _ _ _ _ h
    · obtain ⟨ht, _, hg⟩ := hc
      subst hg
      refine ⟨fun _ => ⟨rfl, rfl, rfl⟩, fun hx => ?_, rfl, rfl, rfl, rfl⟩
      rw [ht] at hx
      cases hx
    · obtain ⟨ht, hw, hfr, hg⟩ := hc
      subst hg
      refine ⟨fun hx => ?_, fun _ => ⟨hw, fun hne => ?_, rfl, rfl, rfl⟩, rfl, rfl, rfl, rfl⟩
      · rw [ht] at hx
        cases hx
      · rw [if_pos hne] at hfr
        refine ⟨hfr, ?_⟩
        have hl := freeChain_log p ((getLe16 p.cacheData (32 * (dirIndex &&& 15) + 20) <<< 16)
              ||| getLe16 p.cacheData (32 * (dirIndex &&& 15) + 26))
        rw [hfr] at hl
        exact hl

theorem openCachedEntry_success_witness :
    FatFile.openCachedEntry parentDir dirPartition 3 oRdwrAtEnd 0
        = (true, { emptyFile with firstCluster := 2, fileSize := 1025, curPosition := 1025,
                                  curCluster := 4, dirCluster := 5 }, dirPartition)
    ∧ (2 = (getLe16 dirPartition.cacheData (32 * (3 &&& 15) + 20) <<< 16)
                ||| getLe16 dirPartition.cacheData (32 * (3 &&& 15) + 26)
        ∧ 1025 = getLe32 dirPartition.cacheData (32 * (3 &&& 15) + 28)) :=
  ⟨rfl,
    let t := openCachedEntry_success parentDir
      { emptyFile with firstCluster := 2, fileSize := 1025, curPosition := 1025,
                       curCluster := 4, dirCluster := 5 }
      dirPartition dirPartition 3 oRdwrAtEnd 0 rfl
    ⟨(t.1 rfl).1, (t.1 rfl).2.1⟩⟩

end OpenCachedEntrySuccess


section Timestamp

/-- C20. `timestamp` validation: `timestamp(flags, year, month, day, hour,
minute, second)` returns false and leaves the handle and the partition (its
call log and the cached directory entry included) as they were, so without a
call of `sync`, whenever the handle is not a regular file or `year < 1980` or
`year > 2107` or `month < 1` or `month > 12` or `day < 1` or `day > 31` or
`hour > 23` or `minute > 59` or `second > 59`; for a regular file with every
field in range it returns true whenever `sync`, the fetch of the directory
entry and `cacheSync` succeed. -/
theorem timestamp_validation (f : FatFile) (p : FatPartition) (flags : TFlag)
    (year month day hour minute second : Nat) :
    ((f.isFile = false ∨ year < 1980 ∨ year > 2107 ∨ month < 1 ∨ month > 12 ∨ day < 1
        ∨ day > 31 ∨ hour > 23 ∨ minute > 59 ∨ second > 59) →
      f.timestamp p flags year month day hour minute second = (false, f, p))
    ∧ (f.isFile = true → 1980 ≤ year → year ≤ 2107 → 1 ≤ month → month ≤ 12 → 1 ≤ day →
        day ≤ 31 → hour ≤ 23 → minute ≤ 59 → second ≤ 59 →
        ∀ (f1 : FatFile) (p1 p2 p4 : FatPartition),
          f.sync p = (true, f1, p1) →
          f1.cacheDirEntry p1 CacheMode.forWrite = (true, p2) →
          FatPartition.cacheSync
              { p2 with cacheData := FatFile.stampEntry p2.cacheData f1.dirOffset flags
                                      year month day hour minute second } = (true, p4) →
          f.timestamp p flags year month day hour minute second = (true, f1, p4)) := by
  constructor
  · intro h
    unfold FatFile.timestamp
    rw [if_pos h]
  · intro hfile h1 h2 h3 h4 h5 h6 h7 h8 h9 f1 p1 p2 p4 hs hc hw
    unfold FatFile.timestamp
    rw [if_neg (by rw [hfile]; simp; omega), hs]
    dsimp only
    rw [hc]
    dsimp only
    rw [hw]

theorem timestamp_validation_witness :
    (chainFile.timestamp dirPartition { access := true, create := true, write := true }
        2107 12 31 24 0 0 = (false, chainFile, dirPartition))
    ∧ (chainFile.timestamp dirPartition { access := true, create := true, write := true }
        2024 2 29 23 59 59).1 = true
    ∧ getLe16 (chainFile.timestamp dirPartition { access := true, create := true, write := true }
        2024 2 29 23 59 59).2.2.cacheData (96 + 24) = FS_DATE 2024 2 29 :=
  ⟨(timestamp_validation chainFile dirPartition { access := true, create := true, write := true }
      2107 12 31 24 0 0).1 (by decide),
    congrArg Prod.fst
      ((timestamp_validation chainFile dirPartition
          { access := true, create := true, write := true } 2024 2 29 23 59 59).2
        rfl (by decide) (by decide) (by decide) (by decide) (by decide) (by decide) (by decide)
        (by decide) (by decide)
        (chainFile.sync dirPartition).2.1 (chainFile.sync dirPartition).2.2
        ((chainFile.sync dirPartition).2.1.cacheDirEntry (chainFile.sync dirPartition).2.2
          CacheMode.forWrite).2
        (chainFile.timestamp dirPartition { access := true, create := true, write := true }
          2024 2 29 23 59 59).2.2
        rfl rfl rfl),
    by decide⟩

end Timestamp


section WriteGuard

theorem writeTransfer_other (f g : FatFile) (p q : FatPartition) (nToWrite soc off : Nat)
    (src : Nat → Nat)
    (h : FatFile.writeTransfer f p nToWrite soc off src = FatFile.Step.fail g q
      ∨ FatFile.writeTransfer f p nToWrite soc off src = FatFile.Step.stop g q) : g = f := by
  unfold FatFile.writeTransfer FatFile.writeCached FatFile.writeMulti FatFile.writeSingle at h
  dsimp only at h
  rcases h with h | h
  all_goals
    split at h
    · split at h
      · cases h; first | rfl | skip
      · split at h
        · split at h
          · cases h; first | rfl | skip
          · cases h
        · cases h
    · split at h
      · split at h
        · cases h; first | rfl | skip
        · cases h
      · split at h
        · cases h; first | rfl | skip
        · cases h

/-- An iteration of the loop of `write` that ends the loop leaves the position
and the size as they were. -/
theorem writeStep_other (f g : FatFile) (p q : FatPartition) (nToWrite : Nat)
    (src : Nat → Nat)
    (h : FatFile.writeStep f p nToWrite src = FatFile.Step.fail g q
      ∨ FatFile.writeStep f p nToWrite src = FatFile.Step.stop g q) :
    g.curPosition = f.curPosition ∧ g.fileSize = f.fileSize := by
  unfold FatFile.writeStep at h
  dsimp only at h
  split at h
  · rename_i f1 p1 hacq
    obtain ⟨cc, fc, d, hf1, _⟩ := writeAcquire_file _ _ _ _ _ _ _ hacq
    rcases h with h | h
    · cases h
      rw [hf1]
      exact ⟨rfl, rfl⟩
    · cases h
  · rename_i f1 p1 hacq
    obtain ⟨cc, fc, d, hf1, _⟩ := writeAcquire_file _ _ _ _ _ _ _ hacq
    have := writeTransfer_other _ _ _ _ _ _ _ _ h
    rw [this, hf1]
    exact ⟨rfl, rfl⟩

/-- A loop of `write` that fails has moved the position forward by at most the
number of bytes asked for, and has left the size as it was. -/
theorem writeLoop_failed (fuel : Nat) :
    ∀ (f g : FatFile) (p q : FatPartition) (n : Nat) (src : Nat → Nat) (out : List Nat),
      FatFile.writeLoop fuel f p n src = some (FatFile.LoopEnd.failed g q out) →
      (n = 0 ∨ f.curPosition + n ≤ 4294967295) →
      f.curPosition ≤ g.curPosition ∧ g.curPosition ≤ f.curPosition + n
        ∧ g.fileSize = f.fileSize := by
  induction fuel with
  | zero =>
    intro f g p q n src out h _
    unfold FatFile.writeLoop at h
    split at h
    · cases h
    · cases h
  | succ fuel ih =>
    intro f g p q n src out h hb
    unfold FatFile.writeLoop at h
    split at h
    · cases h
    · rename_i hn0
      split at h
      · rename_i f1 p1 hstep
        obtain ⟨h1, h2⟩ := writeStep_other _ _ _ _ _ _ (Or.inl hstep)
        simp only [Option.some.injEq, FatFile.LoopEnd.failed.injEq] at h
        rw [← h.1, h1, h2]
        exact ⟨Nat.le_refl _, by omega, rfl⟩
      · rename_i f1 p1 hstep
        obtain ⟨h1, h2⟩ := writeStep_other _ _ _ _ _ _ (Or.inr hstep)
        simp only [Option.some.injEq, FatFile.LoopEnd.failed.injEq] at h
        rw [← h.1, h1, h2]
        exact ⟨Nat.le_refl _, by omega, rfl⟩
      · rename_i f1 p1 n1 chunk hstep
        obtain ⟨⟨cc, fc, d, hf1, _⟩, hle⟩ := writeStep_next _ _ _ _ _ _ _ _ hstep
        have hb2 : f.curPosition + n ≤ 4294967295 := by
          rcases hb with hb | hb
          · exact absurd hb hn0
          · exact hb
        have hp1 : f1.curPosition = f.curPosition := by rw [hf1]
        have hs1 : f1.fileSize = f.fileSize := by rw [hf1]
        have hmod : (f1.curPosition + n1) % U32 = f.curPosition + n1 := by
          rw [hp1]; unfold U32; omega
        obtain ⟨ha, hb3, hc⟩ := ih _ g p1 q (n - n1) _ out h (by
          right
          show (f1.curPosition + n1) % U32 + (n - n1) ≤ 4294967295
          rw [hmod]; omega)
        have ha2 : (f1.curPosition + n1) % U32 ≤ g.curPosition := ha
        have hb4 : g.curPosition ≤ (f1.curPosition + n1) % U32 + (n - n1) := hb3
        have hc2 : g.fileSize = f1.fileSize := hc
        rw [hmod] at ha2 hb4
        exact ⟨by omega, by omega, by rw [hc2, hs1]⟩

theorem writeFail_fields (f : FatFile) (p : FatPartition) :
    (FatFile.writeFail f p).file.curPosition = f.curPosition
    ∧ (FatFile.writeFail f p).file.fileSize = f.fileSize :=
  ⟨rfl, rfl⟩

/-- The part of `write` after the loop leaves the position and sets the size
to the larger of the size and the position. -/
theorem writeFinish_fields (f : FatFile) (p : FatPartition) (n : Nat) :
    (FatFile.writeFinish f p n).file.curPosition = f.curPosition
    ∧ (FatFile.writeFinish f p n).file.fileSize = max f.fileSize f.curPosition := by
  obtain ⟨d, hm, _, _⟩ := writeMark_eq f p
  obtain ⟨d2, e2, hs⟩ := sync_file (FatFile.writeMark f p) p
  unfold FatFile.writeFinish FatFile.writeSync
  split
  · split
    · rename_i f2 p2 hsync
      rw [hsync] at hs
      simp only at hs
      rw [hs, hm]
      exact ⟨rfl, rfl⟩
    · rename_i f2 p2 hsync
      rw [hsync] at hs
      simp only at hs
      rw [hs, hm]
      exact ⟨rfl, rfl⟩
  · rw [hm]
    exact ⟨rfl, rfl⟩

/-- C15. `write` rejection and overflow guard: `write` returns `(size_t)-1`
with WRITE_ERROR set and the partition untouched (nothing is transferred) when
the handle is not a regular file or the WRITE flag is clear, and when
`nbyte > 0xFFFFFFFF - start`, where `start` is the start position (`fileSize`
for an O_APPEND handle, else `curPosition`); and in every write that enters
the transfer loop (regular file, WRITE set, the O_APPEND seek succeeded, the
guard passed) `start + nbyte <= 2^32 - 1`, and whatever the loop does, the
position afterwards lies between `start` and `start + nbyte` and the size is
at most the larger of the old size and `start + nbyte`: neither wraps around
32 bits. -/
theorem write_guard (fuel : Nat) (f : FatFile) (p : FatPartition) (buf : Nat → Nat)
    (nbyte : Nat) (hpos : f.curPosition ≤ 4294967295) (hsize : f.fileSize ≤ 4294967295) :
    ((f.isFile = false ∨ f.flags.write = false) →
        FatFile.write fuel f p buf nbyte = some (FatFile.writeFail f p))
    ∧ (f.isFile = true → f.flags.write = true → nbyte > 4294967295 - writeStart f →
        ∃ w, FatFile.write fuel f p buf nbyte = some w ∧ w.ret = SIZE_MAX
          ∧ w.file.error.writeError = true ∧ w.part = p ∧ w.file.fileSize = f.fileSize)
    ∧ (∀ f1, f.isFile = true → f.flags.write = true →
        (if f.flags.append = true then f.seekSet p f.fileSize else (true, f)) = (true, f1) →
        nbyte ≤ 4294967295 - f1.curPosition →
        f1.curPosition = writeStart f ∧ writeStart f + nbyte ≤ 4294967295
        ∧ ∀ w, FatFile.write fuel f p buf nbyte = some w →
            writeStart f ≤ w.file.curPosition ∧ w.file.curPosition ≤ writeStart f + nbyte
            ∧ w.file.fileSize ≤ max f.fileSize (writeStart f + nbyte)
            ∧ w.file.fileSize ≤ 4294967295) := by
  refine ⟨?_, ?_, ?_⟩
  · intro h
    unfold FatFile.write
    rw [if_pos h]
  · intro hfile hwr hbig
    unfold FatFile.write
    rw [if_neg (by rw [hfile, hwr]; simp)]
    split
    · rename_i f1 hseek
      refine ⟨_, rfl, rfl, rfl, rfl, ?_⟩
      by_cases ha : f.flags.append = true
      · rw [if_pos ha] at hseek
        obtain ⟨cc, hcc⟩ := seekSet_shape f p f.fileSize
        rw [hseek] at hcc
        simp only at hcc
        rw [hcc]
        rfl
      · rw [if_neg ha] at hseek
        cases hseek
    · rename_i f1 hseek
      obtain ⟨cc, hf1⟩ := write_seek_file f f1 p hfile hseek
      have hp1 : f1.curPosition = writeStart f := by rw [hf1]
      rw [if_pos (by rw [hp1]; exact hbig)]
      refine ⟨_, rfl, rfl, rfl, rfl, ?_⟩
      rw [hf1]
      rfl
  · intro f1 hfile hwr hseek hguard
    obtain ⟨cc, hf1⟩ := write_seek_file f f1 p hfile hseek
    have hp1 : f1.curPosition = writeStart f := by rw [hf1]
    have hs1 : f1.fileSize = f.fileSize := by rw [hf1]
    have hstart : writeStart f ≤ 4294967295 := by
      unfold writeStart
      split
      · exact hsize
      · exact hpos
    have hsum : writeStart f + nbyte ≤ 4294967295 := by
      rw [hp1] at hguard
      omega
    refine ⟨hp1, hsum, ?_⟩
    intro w hw
    unfold FatFile.write at hw
    rw [if_neg (by rw [hfile, hwr]; simp), hseek] at hw
    dsimp only at hw
    rw [if_neg (by omega)] at hw
    split at hw
    · cases hw
    · rename_i f2 p2 out hloop
      obtain ⟨ha, hb, hc⟩ := writeLoop_failed fuel f1 f2 p p2 nbyte buf out hloop
        (Or.inr (by rw [hp1]; exact hsum))
      simp only [Option.some.injEq] at hw
      obtain ⟨hx, hy⟩ := writeFail_fields f2 p2
      rw [← hw, hx, hy, hc, hs1]
      rw [hp1] at ha hb
      exact ⟨ha, hb, by omega, hsize⟩
    · rename_i f2 p2 rest out hloop
      obtain ⟨_, cc2, fc2, d2, hf2, _⟩ := writeLoop_ok fuel f1 f2 p p2 nbyte rest buf out hloop
        (Or.inr (by rw [hp1]; exact hsum))
      simp only [Option.some.injEq] at hw
      obtain ⟨hx, hy⟩ := writeFinish_fields f2 p2 nbyte
      have hp2 : f2.curPosition = writeStart f + nbyte := by rw [hf2, ← hp1]
      have hs2 : f2.fileSize = f.fileSize := by rw [hf2, ← hs1]
      rw [← hw, hx, hy, hp2, hs2]
      exact ⟨by omega, Nat.le_refl _, Nat.le_refl _, by omega⟩

theorem write_guard_witness :
    chainFile.curPosition ≤ 4294967295 ∧ chainFile.fileSize ≤ 4294967295
    ∧ (∃ w, FatFile.write 0 chainFile chainPartition testBuf 4294966696 = some w
        ∧ w.ret = SIZE_MAX ∧ w.file.error.writeError = true ∧ w.part = chainPartition
        ∧ w.file.fileSize = chainFile.fileSize)
    ∧ writeStart chainFile + 4294966695 ≤ 4294967295 :=
  ⟨by decide, by decide,
    (write_guard 0 chainFile chainPartition testBuf 4294966696 (by decide) (by decide)).2.1
      rfl rfl (by decide),
    ((write_guard 0 chainFile chainPartition testBuf 4294966695 (by decide) (by decide)).2.2
      chainFile rfl rfl rfl (by decide)).2.1⟩

end WriteGuard


section SettledBytes

theorem flushLine_settled (p q : FatPartition) (d : Nat) (h : p.flushLine = (true, q)) :
    ∀ j v, Settled p d j v → Settled q d j v := by
  intro j v hs
  unfold FatPartition.flushLine at h
  by_cases hd : p.cacheDirty = true
  · rw [if_pos hd] at h
    split at h
    · cases h
    · cases h
      refine ⟨?_, hs.2⟩
      show upd p.dev p.cacheSector p.cacheData d j = v
      by_cases hx : d = p.cacheSector
      · simp only [upd, hx, if_true]
        exact hs.2 hx.symm
      · simp only [upd, hx, if_false]
        exact hs.1
  · rw [if_neg hd] at h
    cases h
    exact hs

theorem cacheSyncData_settled (p q : FatPartition) (d : Nat) (h : p.cacheSyncData = (true, q)) :
    ∀ j v, Settled p d j v → Settled q d j v :=
  flushLine_settled (p.logCall Call.cacheSyncData) q d h

theorem cacheSync_settled (p q : FatPartition) (d : Nat) (h : p.cacheSync = (true, q)) :
    ∀ j v, Settled p d j v → Settled q d j v :=
  flushLine_settled (p.logCall Call.cacheSync) q d h

theorem cacheInvalidate_settled (p : FatPartition) (d : Nat) (hd : d ≠ 4294967295) :
    ∀ j v, Settled p d j v → Settled p.cacheInvalidate d j v := by
  intro j v hs
  refine ⟨hs.1, fun hx => ?_⟩
  have : (4294967295 : Nat) = d := hx
  exact absurd this.symm hd

/-- A successful fetch of another sector keeps the settled bytes of sector `d`. -/
theorem cacheFetchData_settled (p q : FatPartition) (sector d : Nat) (mode : CacheMode)
    (hne : sector ≠ d) (h : p.cacheFetchData sector mode = (true, q)) :
    ∀ j v, Settled p d j v → Settled q d j v := by
  intro j v hs
  unfold FatPartition.cacheFetchData at h
  dsimp only at h
  by_cases hres : (p.logCall (Call.cacheFetchData sector mode)).cacheSector = sector
  · rw [if_pos hres] at h
    cases h
    exact ⟨hs.1, fun hx => absurd (hres.symm.trans hx) hne⟩
  · rw [if_neg hres] at h
    split at h
    · cases h
    · rename_i p1 hfl
      have h1 := flushLine_settled _ p1 d hfl j v hs
      split at h
      · cases h
        exact ⟨h1.1, fun hx => absurd hx hne⟩
      · split at h
        · cases h
        · cases h
          exact ⟨h1.1, fun hx => absurd hx hne⟩

theorem writeSector_settled (p q : FatPartition) (sector d : Nat) (src : Nat → Nat)
    (hne : sector ≠ d) (h : p.writeSector sector src = (true, q)) :
    ∀ j v, Settled p d j v → Settled q d j v := by
  intro j v hs
  unfold FatPartition.writeSector at h
  dsimp only at h
  split at h
  · cases h
  · cases h
    refine ⟨?_, hs.2⟩
    show upd p.dev sector src d j = v
    simp only [upd, Ne.symm hne, if_false]
    exact hs.1

theorem writeSectors_settled (p q : FatPartition) (sector count d : Nat) (src : Nat → Nat)
    (hout : d < sector ∨ sector + count ≤ d)
    (h : p.writeSectors sector count src = (true, q)) :
    ∀ j v, Settled p d j v → Settled q d j v := by
  intro j v hs
  unfold FatPartition.writeSectors at h
  dsimp only at h
  split at h
  · cases h
    refine ⟨?_, hs.2⟩
    show (if sector ≤ d ∧ d < sector + count then
        fun j => src ((d - sector) * (p.logCall (Call.writeSectors sector count)).bytesPerSector + j)
      else p.dev d) j = v
    rw [if_neg (by omega)]
    exact hs.1
  · cases h

theorem writeSectorCount_room (p : FatPartition) (rest soc : Nat) :
    FatFile.writeSectorCount p rest soc ≤ p.sectorsPerCluster - soc := by
  unfold FatFile.writeSectorCount
  dsimp only
  have h1 : (p.sectorsPerCluster - soc) % 256 ≤ p.sectorsPerCluster - soc := Nat.mod_le _ _
  split <;> omega

/-- The transfer of `write` keeps the settled bytes of a sector `d` that is
not a sector of the current cluster. -/
theorem writeTransfer_settled (f g : FatFile) (p q : FatPartition) (N soc off n d : Nat)
    (src chunk : Nat → Nat) (hd : d ≠ 4294967295) (hsoc : soc < p.sectorsPerCluster)
    (hap : ∀ i, i < p.sectorsPerCluster → p.clusterStartSector f.curCluster + i ≠ d)
    (h : FatFile.writeTransfer f p N soc off src = FatFile.Step.next g q n chunk) :
    ∀ j v, Settled p d j v → Settled q d j v := by
  intro j v hs
  have hne := hap soc hsoc
  unfold FatFile.writeTransfer at h
  dsimp only at h
  split at h
  · unfold FatFile.writeCached at h
    dsimp only at h
    split at h
    · cases h
    · rename_i p1 hfetch
      have h1 := cacheFetchData_settled p p1 _ d _ hne hfetch j v hs
      have hcs : p1.cacheSector = p.clusterStartSector f.curCluster + soc :=
        (cacheFetchData_stored p p1 _ _ hfetch).2.2.1
      have h2 : ∀ c : Nat → Nat, Settled { p1 with cacheData := c } d j v :=
        fun _ => ⟨h1.1, fun hx => absurd (hcs.symm.trans hx) hne⟩
      split at h
      · split at h
        · cases h
        · rename_i p3 hsync
          cases h
          exact cacheSyncData_settled _ _ d hsync j v (h2 _)
      · cases h
        exact h2 _
  · split at h
    · unfold FatFile.writeMulti at h
      dsimp only at h
      split at h
      · cases h
      · rename_i p2 hw
        cases h
        have hroom := writeSectorCount_room p N soc
        have hout : d < p.clusterStartSector f.curCluster + soc
            ∨ p.clusterStartSector f.curCluster + soc + FatFile.writeSectorCount p N soc ≤ d := by
          by_contra hc
          have hlt : d - p.clusterStartSector f.curCluster < p.sectorsPerCluster := by omega
          exact hap _ hlt (by omega)
        refine writeSectors_settled _ _ _ _ d src hout hw j v ?_
        split
        · exact cacheInvalidate_settled p d hd j v hs
        · exact hs
    · unfold FatFile.writeSingle at h
      dsimp only at h
      split at h
      · cases h
      · rename_i p2 hw
        cases h
        refine writeSector_settled _ _ _ d src hne hw j v ?_
        split
        · exact cacheInvalidate_settled p d hd j v hs
        · exact hs

end SettledBytes



section WriteKeepsEntry

/-- The cluster acquisition of `write` changes `firstCluster` only together
with setting `F_FILE_DIR_DIRTY`, and then to a cluster of the partition. -/
theorem writeAcquire_mark (f f1 : FatFile) (p p1 : FatPartition) (soc off : Nat)
    (h : FatFile.writeAcquire f p soc off = (true, f1, p1)) :
    f1.firstCluster = f.firstCluster
      ∨ (f1.flags.dirDirty = true ∧ f1.firstCluster ≤ p.lastCluster) := by
  unfold FatFile.writeAcquire at h
  by_cases hs : soc = 0 ∧ off = 0
  · rw [if_pos hs] at h
    by_cases hc : f.curCluster ≠ 0
    · rw [if_pos hc] at h
      left
      split at h
      · cases h
      · rw [addCluster_eq] at h
        simp only [Prod.mk.injEq] at h
        rw [← h.2.1]; rfl
      · cases h; rfl
    · rw [if_neg hc] at h
      by_cases hf : f.firstCluster = 0
      · rw [if_pos hf] at h
        right
        rw [addCluster_eq] at h
        rcases hal : p.allocateCluster f.curCluster with ⟨ok, p2, c⟩
        rw [hal] at h
        cases ok
        · cases h
        · have hc2 := (allocateCluster_ok p p2 f.curCluster c hal).2.1
          simp only [Prod.mk.injEq, true_and] at h
          rw [← h.1]
          exact ⟨rfl, hc2⟩
      · rw [if_neg hf] at h
        cases h
        exact Or.inl rfl
  · rw [if_neg hs] at h
    cases h
    exact Or.inl rfl

/-- One successful iteration of the loop of `write` on a regular file keeps
the settled bytes of a sector `d` that is apart from the clusters the file can
store data in, and `d` stays apart from them. -/
theorem writeStep_kept (f g : FatFile) (p q : FatPartition) (N n L d : Nat)
    (src chunk : Nat → Nat)
    (hkind : f.kind = FileKind.file) (hg : GeometryOk p) (hN : 0 < N)
    (hchain : ChainLen p f.firstCluster L) (hinv : PosInv f p)
    (hpos : f.curPosition ≤ L * p.bytesPerCluster)
    (hd : d ≠ 4294967295) (hap : Apart p f.firstCluster L d)
    (h : FatFile.writeStep f p N src = FatFile.Step.next g q n chunk) :
    ∃ L1, ChainLen q g.firstCluster L1
      ∧ f.curPosition / p.bytesPerCluster < L1
      ∧ clusterAt q g.firstCluster (f.curPosition / p.bytesPerCluster) = some g.curCluster
      ∧ q.toMount = p.toMount ∧ g.kind = f.kind ∧ g.curPosition = f.curPosition
      ∧ n ≤ N ∧ f.curPosition % p.bytesPerCluster + n ≤ p.bytesPerCluster
      ∧ (n = 0 → f.curPosition % p.bytesPerSector = 0 ∧ 2 * p.bytesPerSector ≤ N
            ∧ (N / p.bytesPerSector) % 256 = 0)
      ∧ Apart q g.firstCluster L1 d
      ∧ (∀ j v, Settled p d j v → Settled q d j v)
      ∧ (g.firstCluster = f.firstCluster
          ∨ (g.flags.dirDirty = true ∧ g.firstCluster ≤ p.lastCluster)) := by
  obtain ⟨f1, p1, hacq, htr, hm1⟩ := writeStep_transfer _ _ _ _ _ _ _ _ h
  obtain ⟨⟨cc, fc, dd, hf2, _⟩, _⟩ := writeStep_next _ _ _ _ _ _ _ _ h
  obtain ⟨L1, hch1, _, _, hlt, hcl, _, hdev1, hcs1, _, hcd1, _, huse⟩ :=
    writeAcquire_spec f f1 p p1 L hkind hchain hinv hpos hacq
  have hg1 := geometryOk_congr p p1 hm1 hg
  obtain ⟨hgf, hds, hnN, hwithin, hpath⟩ :=
    writeTransfer_spec f1 g p1 q N f.curPosition n src chunk hg1 hN htr
  have hS1 := bytesPerSector_congr p p1 hm1
  have hB1 := bytesPerCluster_congr p p1 hm1
  rw [hS1] at hpath
  rw [hB1] at hwithin
  subst hgf
  have hm : q.toMount = p.toMount := hds.1.trans hm1
  have hspc1 := sectorsPerCluster_congr p p1 hm1
  have e1 : p1.clusterStartSector = p.clusterStartSector :=
    congrArg Mount.clusterStartSector hm1
  have hcur : Usable p f.firstCluster L g.curCluster :=
    huse _ (Or.inr ⟨_, hlt, hcl⟩)
  refine ⟨L1, chainLen_dataStep p1 q hds _ _ hch1, hlt, ?_, hm,
    by rw [hf2], by rw [hf2], hnN, hwithin, ?_, ?_, ?_, writeAcquire_mark _ _ _ _ _ _ hacq⟩
  · rw [clusterAt_dataStep p1 q hds]; exact hcl
  · intro hn0
    rcases hpath with ⟨_, h1, _⟩ | ⟨ha, hbig, k, hk, _, hk0⟩ | ⟨_, _, _, hS⟩
    · omega
    · refine ⟨ha, hbig, hk0 ?_⟩
      have hSpos := bytesPerSector_pos p
      rw [hn0] at hk
      rcases Nat.mul_eq_zero.mp hk.symm with h0 | h0
      · exact h0
      · omega
    · have hSpos := bytesPerSector_pos p
      omega
  · intro c hu i hi
    have hu1 : Usable p1 g.firstCluster L1 c := by
      rcases hu with hu | ⟨k, hk, hu⟩
      · left; rw [← fatGet_congr p1 q hds.1 hds.2.1]; exact hu
      · right; exact ⟨k, hk, by rw [← clusterAt_dataStep p1 q hds]; exact hu⟩
    have h3 := hap c (huse c hu1) i (by rw [← sectorsPerCluster_congr p q hm]; exact hi)
    have e2 : q.clusterStartSector = p.clusterStartSector :=
      congrArg Mount.clusterStartSector hm
    rw [e2]; exact h3
  · intro j v hs
    have hs1 : Settled p1 d j v :=
      ⟨by rw [hdev1]; exact hs.1, fun hx => by rw [hcd1]; exact hs.2 (by rw [← hcs1]; exact hx)⟩
    refine writeTransfer_settled g g p1 q N _ _ n d src chunk hd ?_ ?_ htr j v hs1
    · exact sectorOfCluster_lt p1 _
    · intro i hi
      rw [e1]
      exact hap _ hcur i (by rw [← hspc1]; exact hi)

/-- The loop of `write` on a regular file whose chain has `L` clusters and
whose position satisfies the invariant keeps, when it ends without failure,
the settled bytes of a sector that is apart from the clusters the file can
store data in. -/
theorem writeLoop_kept (d : Nat) (hd : d ≠ 4294967295) (fuel : Nat) :
    ∀ (f g : FatFile) (p q : FatPartition) (N rest L : Nat) (src : Nat → Nat) (out : List Nat),
      f.kind = FileKind.file → GeometryOk p →
      f.curPosition + N ≤ 4294967295 →
      ChainLen p f.firstCluster L → PosInv f p →
      f.curPosition ≤ L * p.bytesPerCluster →
      Apart p f.firstCluster L d →
      FatFile.writeLoop fuel f p N src = some (FatFile.LoopEnd.ok g q rest out) →
      (∀ j v, Settled p d j v → Settled q d j v)
      ∧ q.toMount = p.toMount
      ∧ (g.firstCluster = f.firstCluster
          ∨ (g.flags.dirDirty = true ∧ g.firstCluster ≤ p.lastCluster)) := by
  induction fuel with
  | zero =>
    intro f g p q N rest L src out _ _ _ _ _ _ _ h
    unfold FatFile.writeLoop at h
    split at h
    · cases h; exact ⟨fun _ _ hs => hs, rfl, Or.inl rfl⟩
    · cases h
  | succ fuel ih =>
    intro f g p q N rest L src out hkind hg hb hchain hinv hpos hap h
    have hB := bytesPerCluster_pos p
    have hS := bytesPerSector_pos p
    unfold FatFile.writeLoop at h
    split at h
    · cases h; exact ⟨fun _ _ hs => hs, rfl, Or.inl rfl⟩
    · rename_i hN
      split at h
      · cases h
      · cases h
      · rename_i f2 p2 n chunk hstep
        obtain ⟨L1, hch1, hlt, hcl, hm, hk2, hp2, hnN, hwithin, hzero, hap2, hkeep, hmark⟩ :=
          writeStep_kept f f2 p p2 N n L d src chunk hkind hg (by omega) hchain hinv hpos
            hd hap hstep
        have hg2 := geometryOk_congr p p2 hm hg
        have hB2 := bytesPerCluster_congr p p2 hm
        have hS2 := bytesPerSector_congr p p2 hm
        have hmod : (f2.curPosition + n) % U32 = f.curPosition + n := by
          rw [hp2]; unfold U32; omega
        have hn1 : 1 ≤ n := by
          by_contra hc
          have hn0 : n = 0 := by omega
          obtain ⟨ha, hbig, hr⟩ := hzero hn0
          have hsmall := writeLoop_ok_small fuel _ g p2 q (N - n) rest _ out hg2 (by
              show ((f2.curPosition + n) % U32) % p2.bytesPerSector = 0
              rw [hmod, hS2, hn0, Nat.add_zero]; exact ha)
            (by show (f2.curPosition + n) % U32 + (N - n) ≤ 4294967295
                rw [hmod]; omega) h
          rw [hS2, hn0, Nat.sub_zero] at hsmall
          have h3 : N / p.bytesPerSector < 256 := by
            rw [Nat.div_lt_iff_lt_mul hS]; exact hsmall
          have h4 : 2 ≤ N / p.bytesPerSector := by
            rw [Nat.le_div_iff_mul_le hS]; exact hbig
          omega
        have hkq : f.curPosition / p.bytesPerCluster * p.bytesPerCluster
            + f.curPosition % p.bytesPerCluster = f.curPosition := Nat.div_add_mod' _ _
        have hle : (f.curPosition / p.bytesPerCluster + 1) * p.bytesPerCluster
            ≤ L1 * p.bytesPerCluster := Nat.mul_le_mul_right _ hlt
        rw [Nat.succ_mul] at hle
        have hinv3 : PosInv { f2 with curPosition := (f2.curPosition + n) % U32 } p2 := by
          refine ⟨fun h0 => ?_, fun _ => ?_⟩
          · have : (f2.curPosition + n) % U32 = 0 := h0
            rw [hmod] at this; omega
          · show clusterAt p2 (FatFile.chainStart _ p2) (((f2.curPosition + n) % U32 - 1)
                / p2.bytesPerCluster) = some f2.curCluster
            rw [chainStart_file _ _ (by show f2.kind = FileKind.file; rw [hk2]; exact hkind),
              hmod, hB2, div_of_within _ _ _ hB hn1 hwithin]
            exact hcl
        have hrec := ih { f2 with curPosition := (f2.curPosition + n) % U32 } g p2 q (N - n)
          rest L1 _ out (by show f2.kind = FileKind.file; rw [hk2]; exact hkind) hg2
          (by show (f2.curPosition + n) % U32 + (N - n) ≤ 4294967295
              rw [hmod]; omega)
          hch1 hinv3
          (by show (f2.curPosition + n) % U32 ≤ L1 * p2.bytesPerCluster
              rw [hmod, hB2]; omega) hap2 h
        obtain ⟨hr1, hr2, hr3⟩ := hrec
        obtain ⟨_, cc, fc, dd, hgeq, hmono⟩ := writeLoop_ok fuel
          { f2 with curPosition := (f2.curPosition + n) % U32 } g p2 q (N - n) rest _ out h
          (Or.inr (by show (f2.curPosition + n) % U32 + (N - n) ≤ 4294967295
                      rw [hmod]; omega))
        have hlc : p2.lastCluster = p.lastCluster := congrArg Mount.lastCluster hm
        refine ⟨fun j v hs => hr1 j v (hkeep j v hs), hr2.trans hm, ?_⟩
        rcases hr3 with hr3 | ⟨hr3, hr4⟩
        · have hr5 : g.firstCluster = f2.firstCluster := hr3
          rcases hmark with hmark | ⟨hm1, hm2⟩
          · exact Or.inl (hr5.trans hmark)
          · right
            refine ⟨?_, by rw [hr5]; exact hm2⟩
            rw [hgeq]
            exact hmono hm1
        · exact Or.inr ⟨hr3, by rw [← hlc]; exact hr4⟩

end WriteKeepsEntry


section EntryFields

theorem shiftRight16 (x : Nat) : x >>> 16 = x / 65536 := by
  rw [Nat.shiftRight_eq_div_pow]

theorem land65535 (x : Nat) : x &&& 65535 = x % 65536 :=
  Nat.and_pow_two_sub_one_eq_mod x 16

theorem getLe16_congr (a b : Nat → Nat) (off : Nat) (h0 : a off = b off)
    (h1 : a (off + 1) = b (off + 1)) : getLe16 a off = getLe16 b off := by
  unfold getLe16
  rw [h0, h1]

theorem getLe32_congr (a b : Nat → Nat) (off : Nat) (h0 : a off = b off)
    (h1 : a (off + 1) = b (off + 1)) (h2 : a (off + 2) = b (off + 2))
    (h3 : a (off + 3) = b (off + 3)) : getLe32 a off = getLe32 b off := by
  unfold getLe32
  rw [h0, h1, h2, h3]

theorem getLe16_lt (a : Nat → Nat) (off : Nat) : getLe16 a off < 65536 := by
  unfold getLe16
  omega

/-- The entry that `sync` writes holds the first cluster, split in two
halves, and the size of a regular file. -/
theorem syncEntry_fields (f : FatFile) (p : FatPartition) (D : Nat → Nat)
    (hfile : f.isFile = true) (hfc : f.firstCluster < U32) (hfs : f.fileSize < U32) :
    getLe16 (f.syncEntry p D) (f.dirOffset + 20) = f.firstCluster >>> 16
    ∧ getLe16 (f.syncEntry p D) (f.dirOffset + 26) = f.firstCluster &&& 65535
    ∧ getLe32 (f.syncEntry p D) (f.dirOffset + 28) = f.fileSize := by
  unfold U32 at hfc hfs
  unfold FatFile.syncEntry
  simp only [shiftRight16, land65535]
  generalize f.dirOffset = off
  generalize f.firstCluster = fc at *
  generalize f.fileSize = fs at *
  cases p.dateTime with
  | none =>
    simp [getLe16, getLe32, setLe16, setLe32, setByte, upd, hfile]
    omega
  | some dt =>
    simp [getLe16, getLe32, setLe16, setLe32, setByte, upd, hfile]
    omega





theorem entryCoherent_of_kept (f g : FatFile) (p q : FatPartition)
    (hk : ∀ j v, Settled p f.dirSector j v → Settled q f.dirSector j v)
    (hc : EntryCoherent f p)
    (h1 : g.dirSector = f.dirSector) (h2 : g.dirIndex = f.dirIndex)
    (h3 : g.firstCluster = f.firstCluster) (h4 : g.fileSize = f.fileSize) :
    EntryCoherent g q := by
  obtain ⟨hs, ha, hb, hcz⟩ := hc
  have hdev : q.dev f.dirSector = p.dev f.dirSector := funext fun j => (hk j _ (hs j)).1
  have hoff : g.dirOffset = f.dirOffset := by unfold FatFile.dirOffset; rw [h2]
  unfold EntryCoherent
  rw [h1, hoff, h3, h4, hdev]
  exact ⟨fun j => hk j _ (hs j), ha, hb, hcz⟩

/-- A successful `sync` of a regular file with `F_FILE_DIR_DIRTY` set leaves
the directory entry coherent with the handle. -/
theorem sync_dirty_coherent (f g : FatFile) (p q : FatPartition)
    (hfile : f.isFile = true) (hdirty : f.flags.dirDirty = true)
    (hfc : f.firstCluster < U32) (hfs : f.fileSize < U32)
    (h : f.sync p = (true, g, q)) : EntryCoherent g q := by
  have hopen : f.isOpen = true := by
    simp only [FatFile.isFile, decide_eq_true_eq] at hfile
    simp [FatFile.isOpen, hfile]
  unfold FatFile.sync at h
  rw [if_neg (by simp [hopen]), if_pos hdirty] at h
  split at h
  · cases h
  · rename_i p1 hfetch
    split at h
    · cases h
    · dsimp only at h
      unfold FatFile.syncTail at h
      split at h
      · rename_i p3 hsync
        simp only [Prod.mk.injEq, true_and] at h
        obtain ⟨hg, hq⟩ := h
        subst hg hq
        obtain ⟨_, _, hcs, hdty, _, _, _⟩ :=
          cacheFetchData_stored p p1 f.dirSector CacheMode.forWrite hfetch
        have hd1 : p1.cacheDirty = true := hdty (by decide)
        unfold FatPartition.cacheSync FatPartition.flushLine at hsync
        rw [if_pos (by exact hd1)] at hsync
        split at hsync
        · cases hsync
        · simp only [Prod.mk.injEq, true_and] at hsync
          subst hsync
          obtain ⟨e1, e2, e3⟩ := syncEntry_fields f p1 p1.cacheData hfile hfc hfs
          have hdev : upd p1.dev p1.cacheSector (f.syncEntry p1 p1.cacheData) f.dirSector
              = f.syncEntry p1 p1.cacheData := by
            simp [upd, hcs]
          refine ⟨fun j => ⟨rfl, fun _ => ?_⟩, ?_, ?_, ?_⟩
          · show f.syncEntry p1 p1.cacheData j
              = upd p1.dev p1.cacheSector (f.syncEntry p1 p1.cacheData) f.dirSector j
            rw [hdev]
          · show getLe16 (upd p1.dev p1.cacheSector (f.syncEntry p1 p1.cacheData) f.dirSector)
              (f.dirOffset + 20) = f.firstCluster >>> 16
            rw [hdev]; exact e1
          · show getLe16 (upd p1.dev p1.cacheSector (f.syncEntry p1 p1.cacheData) f.dirSector)
              (f.dirOffset + 26) = f.firstCluster &&& 65535
            rw [hdev]; exact e2
          · show getLe32 (upd p1.dev p1.cacheSector (f.syncEntry p1 p1.cacheData) f.dirSector)
              (f.dirOffset + 28) = f.fileSize
            rw [hdev]; exact e3
      · cases h

/-- A successful `sync` of a regular file leaves the directory entry coherent
with the handle, if the entry was coherent or `F_FILE_DIR_DIRTY` was set. -/
theorem sync_coherent (f g : FatFile) (p q : FatPartition)
    (hfile : f.isFile = true) (hfc : f.firstCluster < U32) (hfs : f.fileSize < U32)
    (hpre : f.flags.dirDirty = false → EntryCoherent f p)
    (h : f.sync p = (true, g, q)) : EntryCoherent g q := by
  by_cases hdirty : f.flags.dirDirty = true
  · exact sync_dirty_coherent f g p q hfile hdirty hfc hfs h
  · have hopen : f.isOpen = true := by
      simp only [FatFile.isFile, decide_eq_true_eq] at hfile
      simp [FatFile.isOpen, hfile]
    have hclean : f.flags.dirDirty = false := by simpa using hdirty
    unfold FatFile.sync at h
    rw [if_neg (by simp [hopen]), if_neg hdirty] at h
    unfold FatFile.syncTail at h
    split at h
    · rename_i p1 hsync
      simp only [Prod.mk.injEq, true_and] at h
      obtain ⟨hg, hq⟩ := h
      subst hg hq
      exact entryCoherent_of_kept f f p p1 (cacheSync_settled p p1 _ hsync) (hpre hclean)
        rfl rfl rfl rfl
    · cases h

end EntryFields


section DirDirtyCoherence

theorem joinHalves (hi lo : Nat) (hlo : lo < 65536) :
    ((hi <<< 16) ||| lo) >>> 16 = hi ∧ ((hi <<< 16) ||| lo) &&& 65535 = lo := by
  have h1 : (hi <<< 16) ||| lo = 65536 * hi + lo := by
    rw [Nat.shiftLeft_eq, Nat.mul_comm]
    exact (Nat.mul_add_lt_is_or (show lo < 2 ^ 16 from hlo) hi).symm
  rw [h1, shiftRight16, land65535]
  omega

/-- A successful `openCachedEntry` that leaves `F_FILE_DIR_DIRTY` clear has
read `firstCluster` and `fileSize` from the entry, so the entry is coherent
when the cache line is a copy of its sector on the device. -/
theorem openCachedEntry_coherent (dirFile g : FatFile) (p q : FatPartition) (dirIndex : Nat)
    (oflag : OFlag) (lfnOrd : Nat)
    (hline : ∀ j, p.cacheData j = p.dev p.cacheSector j)
    (h : FatFile.openCachedEntry dirFile p dirIndex oflag lfnOrd = (true, g, q))
    (hclean : g.flags.dirDirty = false) : EntryCoherent g q := by
  by_cases hstop : isFileOrSubdir p.cacheData (32 * (dirIndex &&& 15)) = false
      ∨ ((oflag.write = true ∨ oflag.trunc = true ∨ oflag.atEnd = true)
          ∧ (isFileDir p.cacheData (32 * (dirIndex &&& 15)) = false
              ∨ p.cacheData (32 * (dirIndex &&& 15) + 11) &&& 1 ≠ 0))
  · obtain ⟨g1, hg1⟩ := openCachedEntry_stop dirFile p dirIndex oflag lfnOrd hstop
    rw [hg1] at h
    cases h
  · rw [openCachedEntry_pass dirFile p dirIndex oflag lfnOrd (fun hx => hstop (Or.inl hx))
      (fun hx => hstop (Or.inr hx))] at h
    obtain ⟨cc, hc | hc⟩ := openFinish_true _ _ _ _ _ _ _ h
    · obtain ⟨_, hq, hg⟩ := hc
      subst hg hq
      have hdev : q.dev q.cacheSector = q.cacheData := funext fun j => (hline j).symm
      obtain ⟨k1, k2⟩ := joinHalves (getLe16 q.cacheData (32 * (dirIndex &&& 15) + 20))
        (getLe16 q.cacheData (32 * (dirIndex &&& 15) + 26)) (getLe16_lt _ _)
      refine ⟨fun j => ⟨rfl, fun _ => ?_⟩, ?_, ?_, ?_⟩
      · exact hline j
      · show getLe16 (q.dev q.cacheSector) (32 * (dirIndex &&& 15) + 20) = _
        rw [hdev]; exact k1.symm
      · show getLe16 (q.dev q.cacheSector) (32 * (dirIndex &&& 15) + 26) = _
        rw [hdev]; exact k2.symm
      · show getLe32 (q.dev q.cacheSector) (32 * (dirIndex &&& 15) + 28) = _
        rw [hdev]
    · obtain ⟨_, _, _, hg⟩ := hc
      rw [hg] at hclean
      cases hclean

/-- A successful `preAllocate` ends with a successful `sync()` of the handle
with `F_FILE_DIR_DIRTY` set, the new size and a first cluster of the partition. -/
theorem preAllocate_ok_sync (f g : FatFile) (p q : FatPartition) (length : Nat)
    (h : f.preAllocate p length = (true, g, q)) :
    ∃ p1 c, c ≤ p.lastCluster
      ∧ ({ f with firstCluster := c, fileSize := length }.setDirDirty).sync p1 = (true, g, q) := by
  unfold FatFile.preAllocate at h
  split at h
  · cases h
  · dsimp only at h
    split at h
    · cases h
    · rename_i p1 c h1
      refine ⟨p1, c, ?_, h⟩
      unfold FatPartition.allocContiguous at h1
      dsimp only at h1
      split at h1
      · cases h1
      · split at h1
        · rename_i hc
          simp only [Prod.mk.injEq, true_and] at h1
          have h2 : c + (1 + ((length - 1) >>> p.bytesPerClusterShift)) - 1 ≤ p.lastCluster := by
            rw [← h1.2]; exact hc.2.2.1
          omega
        · cases h1

/-- A successful `write` keeps "DIR_DIRTY clear implies entry coherent". -/
theorem write_coherent (fuel : Nat) (f : FatFile) (p : FatPartition) (buf : Nat → Nat)
    (n L : Nat) (w : FatFile.WriteOut)
    (hfc : f.firstCluster < U32) (hfs : f.fileSize < U32) (hcp : f.curPosition < U32)
    (hlast : p.lastCluster < U32)
    (hpre : f.flags.dirDirty = false → EntryCoherent f p)
    (hg : GeometryOk p) (hchain : ChainLen p f.firstCluster L) (hinv : PosInv f p)
    (hpos : f.curPosition ≤ f.fileSize) (hsize : f.fileSize ≤ L * p.bytesPerCluster)
    (hd : f.dirSector ≠ 4294967295) (hap : Apart p f.firstCluster L f.dirSector)
    (hw : FatFile.write fuel f p buf n = some w) (hok : w.ret ≠ SIZE_MAX) :
    w.file.flags.dirDirty = false → EntryCoherent w.file w.part := by
  obtain ⟨f1, f2, p2, rest, out, hfile, hf1, hguard, hloop, hwfin⟩ :=
    write_ok_loop fuel f p buf n w hw hok
  have hkind : f.kind = FileKind.file := by simpa [FatFile.isFile] using hfile
  obtain ⟨cc, hf1eq⟩ := write_seek_file f f1 p hfile hf1
  have hp1 : f1.curPosition = writeStart f := by rw [hf1eq]
  have hk1 : f1.kind = FileKind.file := by rw [hf1eq]; exact hkind
  have hfc1 : f1.firstCluster = f.firstCluster := by rw [hf1eq]
  have hinv1 : PosInv f1 p := by
    by_cases ha : f.flags.append = true
    · rw [if_pos ha] at hf1
      exact (seekSet_posInv f p f.fileSize f1 (Or.inl hkind) hcp hinv hf1).2.2
    · rw [if_neg ha] at hf1
      cases hf1
      exact hinv
  have hstart : writeStart f ≤ L * p.bytesPerCluster := by
    unfold writeStart; split <;> omega
  have hstart2 : writeStart f < U32 := by
    unfold writeStart; split <;> assumption
  unfold U32 at hstart2 hfs hfc hlast
  have hsum : f1.curPosition + n ≤ 4294967295 := by rw [hp1] at hguard ⊢; omega
  obtain ⟨hkeep, hm, hmark⟩ := writeLoop_kept f.dirSector hd fuel f1 f2 p p2 n rest L buf out
    hk1 hg hsum (by rw [hfc1]; exact hchain) hinv1 (by rw [hp1]; exact hstart)
    (by rw [hfc1]; exact hap) hloop
  obtain ⟨_, cc2, fc2, d2, hf2, hmono⟩ :=
    writeLoop_ok fuel f1 f2 p p2 n rest buf out hloop (Or.inr hsum)
  obtain ⟨d0, hmk, hmono2, hgrow⟩ := writeMark_eq f2 p2
  -- the fields of the handle after the loop
  have hds2 : f2.dirSector = f.dirSector := by rw [hf2, hf1eq]
  have hdi2 : f2.dirIndex = f.dirIndex := by rw [hf2, hf1eq]
  have hfs2 : f2.fileSize = f.fileSize := by rw [hf2, hf1eq]
  have hcp2 : f2.curPosition = writeStart f + n := by rw [hf2, ← hp1]
  have hdd2 : f2.flags.dirDirty = d2 := by rw [hf2]
  have hdd1 : f1.flags.dirDirty = f.flags.dirDirty := by rw [hf1eq]
  have hk2 : f2.kind = FileKind.file := by rw [hf2]; exact hk1
  have hfcb : f2.firstCluster < 4294967296 := by
    rcases hmark with hmark | ⟨_, hmark⟩
    · rw [hmark, hfc1]; exact hfc
    · omega
  -- the handle after lines 1317-1324
  have hmfile : (FatFile.writeMark f2 p2).isFile = true := by
    rw [hmk]; simp [FatFile.isFile, hk2]
  have hmfc : (FatFile.writeMark f2 p2).firstCluster = f2.firstCluster := by rw [hmk]
  have hmfs : (FatFile.writeMark f2 p2).fileSize = max f2.fileSize f2.curPosition := by
    rw [hmk]
  have hmds : (FatFile.writeMark f2 p2).dirSector = f.dirSector := by rw [hmk]; exact hds2
  have hmdi : (FatFile.writeMark f2 p2).dirIndex = f.dirIndex := by rw [hmk]; exact hdi2
  have hmdd : (FatFile.writeMark f2 p2).flags.dirDirty = d0 := by rw [hmk]
  have hK : (FatFile.writeMark f2 p2).flags.dirDirty = false →
      EntryCoherent (FatFile.writeMark f2 p2) p2 := by
    intro hcl
    rw [hmdd] at hcl
    have hd2 : d2 = false := by
      cases hx : d2
      · rfl
      · have := hmono2 (by rw [hdd2]; exact hx)
        rw [hcl] at this
        cases this
    have hdf : f.flags.dirDirty = false := by
      cases hx : f.flags.dirDirty
      · rfl
      · have := hmono (by rw [hdd1]; exact hx)
        rw [hd2] at this
        cases this
    have hfceq : f2.firstCluster = f.firstCluster := by
      rcases hmark with hmark | ⟨hmark, _⟩
      · rw [hmark, hfc1]
      · rw [hdd2, hd2] at hmark
        cases hmark
    have hnog : ¬ f2.fileSize < f2.curPosition := by
      intro hx
      have := hgrow hx
      rw [hcl] at this
      cases this
    refine entryCoherent_of_kept f _ p p2 hkeep (hpre hdf) hmds hmdi (by rw [hmfc, hfceq]) ?_
    rw [hmfs, hfs2]
    rw [hfs2] at hnog
    omega
  have hwfin2 : w = FatFile.writeSync (FatFile.writeMark f2 p2) p2 n := hwfin
  intro hclean
  unfold FatFile.writeSync at hwfin2
  split at hwfin2
  · split at hwfin2
    · rw [hwfin2] at hok
      exact absurd rfl hok
    · rename_i f3 p3 hsync
      rw [hwfin2]
      refine sync_coherent _ f3 p2 p3 hmfile (by rw [hmfc]; exact hfcb) ?_ hK hsync
      rw [hmfs, hfs2, hcp2]
      unfold U32
      omega
  · rw [hwfin2] at hclean ⊢
    exact hK hclean

/-- DIR_DIRTY and the directory entry after successful calls, in one
direction: for every open regular file whose entry is coherent whenever
DIR_DIRTY is clear, after a successful `sync` the entry is coherent and
DIR_DIRTY is clear, and after a successful `truncate`, `preAllocate` or
`write` the entry is coherent whenever DIR_DIRTY is clear; a handle that
`openCachedEntry` has opened with DIR_DIRTY clear has a coherent entry.  The
entry is the one on the device at `(dirSector, dirIndex)`, its cache line
being a copy of the sector when resident; for `write` the chain and the
position of the file are well formed and the sector of the entry is apart from
the clusters the file can store data in. -/
theorem dirDirty_coherence (f : FatFile) (p : FatPartition)
    (hkind : f.kind = FileKind.file)
    (hfc : f.firstCluster < U32) (hfs : f.fileSize < U32) (hcp : f.curPosition < U32)
    (hlast : p.lastCluster < U32)
    (hpre : f.flags.dirDirty = false → EntryCoherent f p) :
    (∀ g q, f.sync p = (true, g, q) → g.flags.dirDirty = false ∧ EntryCoherent g q)
    ∧ (∀ g q, f.truncate p = (true, g, q) → g.flags.dirDirty = false → EntryCoherent g q)
    ∧ (∀ length g q, length < U32 → f.preAllocate p length = (true, g, q) →
          g.flags.dirDirty = false → EntryCoherent g q)
    ∧ (∀ fuel buf n L w, GeometryOk p → ChainLen p f.firstCluster L → PosInv f p →
          f.curPosition ≤ f.fileSize → f.fileSize ≤ L * p.bytesPerCluster →
          f.dirSector ≠ 4294967295 → Apart p f.firstCluster L f.dirSector →
          FatFile.write fuel f p buf n = some w → w.ret ≠ SIZE_MAX →
          w.file.flags.dirDirty = false → EntryCoherent w.file w.part)
    ∧ (∀ dirFile dirIndex oflag lfnOrd g q, (∀ j, p.cacheData j = p.dev p.cacheSector j) →
          FatFile.openCachedEntry dirFile p dirIndex oflag lfnOrd = (true, g, q) →
          g.flags.dirDirty = false → EntryCoherent g q) := by
  have hfile : f.isFile = true := by simp [FatFile.isFile, hkind]
  have hopen : f.isOpen = true := by simp [FatFile.isOpen, hkind]
  refine ⟨?_, ?_, ?_, ?_, ?_⟩
  · intro g q h
    exact ⟨sync_ok_clean f g p q hopen h, sync_coherent f g p q hfile hfc hfs hpre h⟩
  · intro g q h hclean
    rcases truncate_ok_cases f g p q h with ⟨_, hg, hq⟩ | ⟨_, p2, hs⟩
    · subst hg hq
      exact hpre hclean
    · refine sync_dirty_coherent _ g p2 q (by simp [FatFile.isFile, FatFile.setDirDirty, hkind])
        rfl ?_ hcp hs
      show (if f.curCluster ≠ 0 then f.firstCluster else 0) < U32
      split
      · exact hfc
      · unfold U32; omega
  · intro length g q hlen h _
    obtain ⟨p1, c, hc, hs⟩ := preAllocate_ok_sync f g p q length h
    refine sync_dirty_coherent _ g p1 q (by simp [FatFile.isFile, FatFile.setDirDirty, hkind])
      rfl ?_ hlen hs
    show c < U32
    omega
  · intro fuel buf n L w hg hchain hinv hpos hsize hd hap hw hok
    exact write_coherent fuel f p buf n L w hfc hfs hcp hlast hpre hg hchain hinv hpos hsize
      hd hap hw hok
  · intro dirFile dirIndex oflag lfnOrd g q hline h hclean
    exact openCachedEntry_coherent dirFile g p q dirIndex oflag lfnOrd hline h hclean

end DirDirtyCoherence


section DirDirtyWitnesses

theorem dirPartition_line (j : Nat) : dirPartition.cacheData j = dirPartition.dev 50 j := rfl

theorem chainFile_coherent : EntryCoherent chainFile dirPartition :=
  ⟨fun j => ⟨rfl, fun _ => dirPartition_line j⟩, by decide, by decide, by decide⟩

theorem dirPartition_apart : Apart dirPartition 2 3 50 := by
  intro c _ i _
  show 100 + (c - 2) * 2 ^ 0 + i ≠ 50
  omega

theorem dirDirty_coherence_witness :
    chainFile.kind = FileKind.file
    ∧ (chainFile.flags.dirDirty = false → EntryCoherent chainFile dirPartition)
    ∧ FatFile.write 4 chainFile dirPartition testBuf 1 = some wroteOne
    ∧ wroteOne.ret = 1
    ∧ wroteOne.file.flags.dirDirty = false
    ∧ EntryCoherent wroteOne.file wroteOne.part :=
  ⟨rfl, fun _ => chainFile_coherent, rfl, by decide, by decide,
    (dirDirty_coherence chainFile dirPartition rfl (by decide) (by decide) (by decide)
      (by decide) (fun _ => chainFile_coherent)).2.2.2.1
      4 testBuf 1 3 wroteOne (by unfold GeometryOk; decide)
      (Or.inr ⟨by decide, 4, by decide, by decide⟩)
      ⟨by decide, fun _ => by decide⟩ (by decide) (by decide) (by decide)
      dirPartition_apart rfl (by decide) (by decide)⟩

/-- DIR_DIRTY may be set while the entry is coherent: `openCachedEntry` with
O_RDWR | O_TRUNC on the entry of an empty file (first cluster 0, size 0) succeeds and
leaves an open regular file with `firstCluster = 0` and `fileSize = 0`, which
are the values the entry holds, yet DIR_DIRTY is set. -/
theorem dirDirty_coherence_counterexample :
    truncOpened.1 = true
    ∧ truncOpened.2.1.kind = FileKind.file
    ∧ truncOpened.2.1.flags.dirDirty = true
    ∧ EntryCoherent truncOpened.2.1 truncOpened.2.2 :=
  ⟨by decide, by decide, by decide,
    fun j => ⟨rfl, fun _ => dirPartition_line j⟩, by decide, by decide, by decide⟩

end DirDirtyWitnesses

section TruncateFailure

/-- `truncate()` at position 0 (no current cluster) of a file with a chain,
when `freeChain` fails: lines 1169-1176 have set `m_firstCluster = 0` before
the call and DIR_DIRTY is set only behind it (line 1181), so the call returns
false with the first cluster of the handle zero and every other field,
DIR_DIRTY included, as it was. -/
theorem truncate_freeChain_fails (f : FatFile) (p : FatPartition)
    (hkind : f.isFile = true) (hw : f.flags.write = true) (hfc : f.firstCluster ≠ 0)
    (hcur : f.curCluster = 0) (hfree : (p.freeChain f.firstCluster).1 = false) :
    f.truncate p = (false, { f with firstCluster := 0 }, (p.freeChain f.firstCluster).2) := by
  unfold FatFile.truncate FatFile.truncateCut
  rw [if_neg (by simp [hkind, hw]), if_neg hfc, if_neg (by simp [hcur])]
  dsimp only
  rw [if_pos hfc]
  rcases hcall : p.freeChain f.firstCluster with ⟨ok, q⟩
  rw [hcall] at hfree
  cases ok
  · rfl
  · cases hfree

/-- C13, the code at a failing input.  `threeSectorFile` is an open regular
file at position 0 with first cluster 2 and size 1025 and DIR_DIRTY clear,
whose short entry (slot 3 of sector 50) holds these values on
`brokenFatPartition`, where `freeChain(2)` fails.  `truncate()` returns false
and leaves the file open with `firstCluster = 0` and DIR_DIRTY still clear,
while the entry, on the device and in the cache line, still holds first
cluster 2 and size 1025: at this call boundary DIR_DIRTY is clear and the
entry does not hold the in-memory first cluster. -/
theorem truncate_failure_drops_first_cluster :
    threeSectorFile.kind = FileKind.file
    ∧ threeSectorFile.flags.write = true
    ∧ threeSectorFile.curPosition = 0
    ∧ threeSectorFile.firstCluster = 2
    ∧ threeSectorFile.fileSize = 1025
    ∧ threeSectorFile.flags.dirDirty = false
    ∧ EntryCoherent threeSectorFile brokenFatPartition
    ∧ (brokenFatPartition.freeChain 2).1 = false
    ∧ failedTruncate.1 = false
    ∧ failedTruncate.2.1.kind = FileKind.file
    ∧ failedTruncate.2.1.flags.dirDirty = false
    ∧ failedTruncate.2.1.firstCluster = 0
    ∧ failedTruncate.2.1.fileSize = 1025
    ∧ (failedTruncate.2.1.dirSector = 50 ∧ failedTruncate.2.1.dirOffset = 96)
    ∧ getLe16 (failedTruncate.2.2.dev 50) (96 + 20) = 0
    ∧ getLe16 (failedTruncate.2.2.dev 50) (96 + 26) = 2
    ∧ getLe32 (failedTruncate.2.2.dev 50) (96 + 28) = 1025
    ∧ getLe16 (sectorView failedTruncate.2.2 50) (96 + 26) = 2
    ∧ ¬ EntryCoherent failedTruncate.2.1 failedTruncate.2.2 := by
  refine ⟨rfl, rfl, rfl, rfl, rfl, rfl, ?_, by decide, by decide, by decide, by decide,
    by decide, by decide, ⟨by decide, by decide⟩, by decide, by decide, by decide,
    by decide, ?_⟩
  · exact ⟨fun j => ⟨rfl, fun _ => rfl⟩, by decide, by decide, by decide⟩
  · intro h
    exact absurd h.2.2.1 (by decide)

end TruncateFailure


section RenameEntry

/-- The bytes of the destination entry after the copy of lines 835-837. -/
theorem renameEntry_byte (d entry : Nat → Nat) (off k : Nat) (hk : k < 32) :
    FatFile.renameEntry d off entry (off + k)
      = if k = 11 ∨ 13 ≤ k then entry k else d (off + k) := by
  unfold FatFile.renameEntry setByte upd memcpyAt
  by_cases h11 : k = 11
  · subst h11
    simp
  · rw [if_neg (by omega)]
    by_cases h13 : 13 ≤ k
    · rw [if_pos ⟨by omega, by omega⟩, if_pos (Or.inr h13)]
      show entry (13 + (off + k - (off + 13))) = entry k
      congr 1
      omega
    · rw [if_neg (by omega), if_neg (by omega)]

theorem renameDotDot_zero (f : FatFile) (p : FatPartition) :
    FatFile.renameDotDot f p 0 = (true, p) := by
  unfold FatFile.renameDotDot
  rw [if_neg (by simp)]

/-- C19 (amended). `rename` carries the entry except the name and the NT byte
to the destination: after a successful rename of a regular file, if the
`remove()` of the old entry keeps the bytes of the destination entry, then of
the destination short entry the attributes byte 11 and the bytes 13..31
(creationTimeTenths, create/access/modify dates and times, firstClusterHigh,
firstClusterLow, fileSize) equal the corresponding bytes of the snapshot taken
from the source entry, while the name (bytes 0..10) and the NT byte 12 are
those of the entry that `open` created for the new path; the handle keeps its
first cluster and size. -/
theorem rename_carries_entry (c : Collab) (f dirFile g : FatFile) (p q : FatPartition)
    (hkind : f.kind = FileKind.file)
    (hframe : ∀ p6 r p7, c.remove (renameOld f p) p6 = (true, r, p7) →
        ∀ j v, g.dirOffset ≤ j → j < g.dirOffset + 32 →
          Stored p6 g.dirSector j v → Stored p7 g.dirSector j v)
    (h : FatFile.rename c f dirFile true p = (true, g, q)) :
    (∀ k, k < 32 →
        Stored q g.dirSector (g.dirOffset + k)
          (if k = 11 ∨ 13 ≤ k then renameSnapshot f p k else renameCreated c f dirFile p k))
    ∧ g.firstCluster = f.firstCluster ∧ g.fileSize = f.fileSize := by
  have hfile : f.isFile = true := by simp [FatFile.isFile, hkind]
  obtain ⟨d0, e0, hsf⟩ := sync_file f p
  rcases hs : f.sync p with ⟨b, f1, p1⟩
  rw [hs] at hsf
  simp only at hsf
  have hfile1 : f1.isFile = true := by rw [hsf]; simp [FatFile.isFile, hkind]
  rcases hfe : f1.cacheDirEntry p1 CacheMode.forRead with ⟨ok2, p2⟩
  have hsnap : renameSnapshot f p = fun k => p2.cacheData (f1.dirOffset + k) := by
    unfold renameSnapshot
    rw [hs]
    simp only
    rw [hfe]
  have hsrc : renameSource f p = p2 := by
    unfold renameSource
    rw [hs]
    simp only
    rw [hfe]
  have hold : renameOld f p =
      { f1 with firstCluster := 0, kind := FileKind.file, readOnly := false,
                flags := { read := false, write := true, append := false, sync := false,
                           dirDirty := false } } := by
    unfold renameOld
    rw [hs]
  unfold FatFile.rename at h
  rw [if_neg (by rw [hfile]; simp), if_neg (by simp [USE_LONG_FILE_NAMES]), if_neg (by simp),
    hs] at h
  dsimp only at h
  rw [hfe] at h
  cases ok2
  · cases h
  · dsimp only at h
    simp only [hfile1, if_true] at h
    rcases hmade : c.openNew dirFile p2 with ⟨ok3, file, p3⟩
    rw [hmade] at h
    cases ok3
    · cases h
    · dsimp only at h
      have hcre : renameCreated c f dirFile p = fun k =>
          (p3.cacheFetchData file.dirSector CacheMode.forWrite).2.cacheData
            (32 * (file.dirIndex &&& 15) + k) := by
        unfold renameCreated
        rw [hsrc, hmade]
      unfold FatFile.renameInto FatFile.cacheDirEntry at h
      dsimp only at h
      rcases hfw : p3.cacheFetchData file.dirSector CacheMode.forWrite with ⟨ok4, p4⟩
      rw [hfw] at h hcre
      cases ok4
      · cases h
      · dsimp only at h
        rw [renameDotDot_zero] at h
        dsimp only at h
        rw [← hold] at h
        obtain ⟨_, _, hcs4, hdirty4, _, _, _⟩ :=
          cacheFetchData_stored p3 p4 file.dirSector CacheMode.forWrite hfw
        have hd4 : p4.cacheDirty = true := hdirty4 (by decide)
        split at h
        · cases h
        · rename_i r p7 hrem
          rcases hsync : p7.cacheSync with ⟨ok8, p8⟩
          rw [hsync] at h
          simp only [Prod.mk.injEq] at h
          obtain ⟨hok, hg, hq⟩ := h
          subst hok hq
          have hgs : g.dirSector = file.dirSector := by rw [← hg]
          have hgo : g.dirOffset = 32 * (file.dirIndex &&& 15) := by rw [← hg]; rfl
          refine ⟨fun k hk => ?_, by rw [← hg, hsf], by rw [← hg, hsf]⟩
          refine (cacheSync_stored p7 p8 hsync).2.2.2.2.2.2 _ _ _ ?_
          refine hframe _ r p7 hrem _ _ (by omega) (by omega) ?_
          rw [hgs, hgo]
          refine ⟨fun _ => ?_, Or.inl ⟨hcs4, hd4⟩⟩
          show FatFile.renameEntry p4.cacheData (32 * (file.dirIndex &&& 15))
              (fun k => p2.cacheData (f1.dirOffset + k)) (32 * (file.dirIndex &&& 15) + k) = _
          rw [renameEntry_byte _ _ _ _ hk, hsnap, hcre]

end RenameEntry


section RenameWitnesses

/-- The stand-in `remove` keeps every byte of the sector of the removed entry
other than the first byte of that entry. -/
theorem demoCollab_remove_keeps (old : FatFile) (p6 : FatPartition) (j v : Nat)
    (hne : j ≠ old.dirOffset) (hst : Stored p6 old.dirSector j v) :
    Stored (demoCollab.remove old p6).2.2 old.dirSector j v := by
  have hview : sectorView p6 old.dirSector j = v := by
    unfold sectorView
    by_cases hres : p6.cacheSector = old.dirSector
    · rw [if_pos hres]; exact hst.1 hres
    · rw [if_neg hres]
      rcases hst.2 with ⟨h1, _⟩ | h1
      · exact absurd h1 hres
      · exact h1
  have hline : setByte (sectorView p6 old.dirSector) old.dirOffset 229 j = v := by
    unfold setByte upd
    rw [if_neg hne]; exact hview
  refine ⟨fun _ => hline, Or.inr ?_⟩
  show upd p6.dev old.dirSector (setByte (sectorView p6 old.dirSector) old.dirOffset 229)
    old.dirSector j = v
  unfold upd
  rw [if_pos rfl]
  exact hline

theorem rename_carries_entry_witness :
    chainFile.kind = FileKind.file
    ∧ FatFile.rename demoCollab chainFile parentDir true dirPartition
        = (true, renamed.2.1, renamed.2.2)
    ∧ (∀ k, k < 32 →
        Stored renamed.2.2 renamed.2.1.dirSector (renamed.2.1.dirOffset + k)
          (if k = 11 ∨ 13 ≤ k then renameSnapshot chainFile dirPartition k
            else renameCreated demoCollab chainFile parentDir dirPartition k))
    ∧ renameSnapshot chainFile dirPartition 26 = 2
    ∧ renameSnapshot chainFile dirPartition 29 = 4 :=
  ⟨rfl, rfl,
    (rename_carries_entry demoCollab chainFile parentDir renamed.2.1 dirPartition renamed.2.2 rfl
      (fun p6 r p7 hrem j v hj1 _ hst => by
        have hp7 : (demoCollab.remove (renameOld chainFile dirPartition) p6).2.2 = p7 := by
          rw [hrem]
        rw [← hp7]
        have hoff : renamed.2.1.dirOffset = 160 := by decide
        rw [hoff] at hj1
        exact demoCollab_remove_keeps (renameOld chainFile dirPartition) p6 j v
          (by show j ≠ 96; omega) hst)
      rfl).1,
    by decide, by decide⟩

/-- C19, counterexample to the claim as stated: renaming the regular file
`A.TXT`, whose entry has NT byte 0, to a new entry that `open` made with NT
byte 0x18 succeeds, and byte 12 of the destination entry is then 0x18, not the
byte 0 of the snapshot. -/
theorem rename_nt_byte_counterexample :
    chainFile.kind = FileKind.file
    ∧ renamed.1 = true
    ∧ renameSnapshot chainFile dirPartition 12 = 0
    ∧ Stored renamed.2.2 renamed.2.1.dirSector (renamed.2.1.dirOffset + 12) 24 := by
  unfold Stored
  decide

end RenameWitnesses


section DirectoryRead

theorem bytesPerSector_512 (p : FatPartition) (h : p.bytesPerSectorShift = 9) :
    p.bytesPerSector = 512 := by
  unfold FatPartition.bytesPerSector
  rw [h]
  rfl

theorem bytesPerCluster_512 (p : FatPartition) (h : p.bytesPerSectorShift = 9) :
    p.bytesPerCluster = 512 * p.sectorsPerCluster := by
  rw [bytesPerCluster_eq, bytesPerSector_512 p h]

theorem chainStart_subdir (f : FatFile) (p : FatPartition) (h : f.kind = FileKind.subdir) :
    f.chainStart p = f.firstCluster := by
  simp [FatFile.chainStart, FatFile.isRoot32, h]

theorem readLoop_zero (fuel : Nat) (f : FatFile) (p : FatPartition) (out : List Nat) :
    FatFile.readLoop fuel f p 0 out = some (FatFile.LoopEnd.ok f p 0 out) := by
  cases fuel <;> simp [FatFile.readLoop]

/-- The sector index of a position in its cluster and the cluster index, for
512-byte sectors. -/
theorem sector_split (p : FatPartition) (h : p.bytesPerSectorShift = 9) (x : Nat) :
    p.sectorOfCluster x = (x / 512) % p.sectorsPerCluster
    ∧ x / p.bytesPerCluster = x / 512 / p.sectorsPerCluster := by
  constructor
  · unfold FatPartition.sectorOfCluster
    rw [bytesPerSector_512 p h]
  · rw [bytesPerCluster_512 p h, Nat.div_div_eq_div_mul]

/-- Lines 624-651 of `read` on a subdirectory at a sector boundary within the
chain: the sector found is the one that holds the position. -/
theorem readLocate_dir (f : FatFile) (p : FatPartition) (L : Nat)
    (hS : p.bytesPerSectorShift = 9) (hkind : f.kind = FileKind.subdir)
    (hchain : ChainLen p f.firstCluster L) (hinv : PosInv f p)
    (hal : f.curPosition % 512 = 0) (hlt : f.curPosition < L * p.bytesPerCluster) :
    ∃ c, clusterAt p f.firstCluster (f.curPosition / p.bytesPerCluster) = some c
      ∧ FatFile.readLocate f p 0
          = FatFile.Locate.found { f with curCluster := c } (dataSector p c f.curPosition)
              (p.sectorOfCluster f.curPosition) := by
  have hB := bytesPerCluster_pos p
  have hspc := sectorsPerCluster_pos p
  have hBeq := bytesPerCluster_512 p hS
  have hidx : f.curPosition / p.bytesPerCluster < L := (Nat.div_lt_iff_lt_mul hB).2 hlt
  obtain ⟨hsoc, hci⟩ := sector_split p hS f.curPosition
  have hcs := chainStart_subdir f p hkind
  unfold FatFile.readLocate
  rw [if_neg (by simp [FatFile.isRootFixed, hkind])]
  dsimp only
  by_cases hstart : p.sectorOfCluster f.curPosition = 0
  · rw [if_pos ⟨rfl, hstart⟩]
    by_cases h0 : f.curPosition = 0
    · rw [if_pos h0]
      refine ⟨f.firstCluster, by rw [h0, Nat.zero_div]; rfl, ?_⟩
      simp [FatFile.isRoot32, hkind, dataSector]
    · rw [if_neg h0]
      have hmod : f.curPosition % p.bytesPerCluster = 0 := by
        rw [hsoc] at hstart
        rw [hBeq]
        rw [Nat.mod_mul, hal, hstart]
      have hprev := div_pred_of_dvd f.curPosition p.bytesPerCluster hB (by omega) hmod
      have hcur := hinv.2 h0
      rw [hcs] at hcur
      obtain ⟨c0, hc0, _, hnext⟩ := chainLen_member p f.firstCluster L hchain
        ((f.curPosition - 1) / p.bytesPerCluster) (by omega)
      rw [hcur] at hc0
      cases hc0
      obtain ⟨n, hn, hn2⟩ := hnext (by omega)
      rw [hprev] at hn2
      rw [hn]
      exact ⟨n, hn2, rfl⟩
  · rw [if_neg (fun hx => hstart hx.2)]
    have h0 : f.curPosition ≠ 0 := by
      intro hx
      apply hstart
      rw [hsoc, hx]
      simp
    have hmod : f.curPosition % p.bytesPerCluster ≠ 0 := by
      intro hx
      apply hstart
      rw [hsoc]
      rw [hBeq, Nat.mod_mul] at hx
      omega
    have hcur := hinv.2 h0
    rw [hcs, div_pred_of_not_dvd _ _ hB hmod] at hcur
    refine ⟨f.curCluster, hcur, ?_⟩
    rfl

/-- The `read` of one byte by a readable subdirectory at a sector boundary
within its chain returns 1 and leaves the sector of the position in the cache. -/
theorem read_one_dir (fuel : Nat) (f : FatFile) (p : FatPartition) (L : Nat)
    (hS : p.bytesPerSectorShift = 9) (hbad : ∀ s, p.badSector s = false)
    (hkind : f.kind = FileKind.subdir) (hread : f.flags.read = true)
    (hchain : ChainLen p f.firstCluster L) (hinv : PosInv f p)
    (hal : f.curPosition % 512 = 0) (hlt : f.curPosition < L * p.bytesPerCluster)
    (hu : L * p.bytesPerCluster < U32) :
    ∃ c r, clusterAt p f.firstCluster (f.curPosition / p.bytesPerCluster) = some c
      ∧ FatFile.read (fuel + 1) f p 1 = some r
      ∧ r.ret = 1
      ∧ r.file = { f with curCluster := c, curPosition := f.curPosition + 1 }
      ∧ r.part.cacheSector = dataSector p c f.curPosition
      ∧ r.part.toMount = p.toMount ∧ r.part.fat = p.fat
      ∧ (∀ s j v, Stored p s j v → Stored r.part s j v) := by
  obtain ⟨c, hc, hloc⟩ := readLocate_dir f p L hS hkind hchain hinv hal hlt
  have hoff : f.curPosition &&& p.sectorMask = 0 := by
    rw [land_sectorMask, bytesPerSector_512 p hS]; exact hal
  obtain ⟨q, hq⟩ := cacheFetchData_ok p hbad (dataSector p c f.curPosition) CacheMode.forRead
  obtain ⟨hm, hfat, hcs, _, _, _, hkeep⟩ := cacheFetchData_stored p q _ _ hq
  have hpc : FatFile.partCount p 0 1 = 1 := by
    unfold FatFile.partCount
    rw [bytesPerSector_512 p hS]
    rfl
  have hstep : FatFile.readStep f p 1
      = FatFile.Step.next { f with curCluster := c } q 1 (fun i => q.cacheData (0 + i)) := by
    have hl2 : FatFile.readLocate f p (f.curPosition &&& p.sectorMask)
        = FatFile.Locate.found { f with curCluster := c } (dataSector p c f.curPosition)
              (p.sectorOfCluster f.curPosition) := by
      rw [hoff]; exact hloc
    rw [readStep_of_found _ _ _ _ _ _ hl2, hoff]
    unfold FatFile.readTransfer
    rw [if_pos (Or.inr (Or.inl (by rw [bytesPerSector_512 p hS]; omega)))]
    unfold FatFile.readCached
    dsimp only
    rw [hq, hpc]
  have hmod : (f.curPosition + 1) % U32 = f.curPosition + 1 := by
    apply Nat.mod_eq_of_lt
    omega
  refine ⟨c, FatFile.ReadOut.mk { f with curCluster := c, curPosition := f.curPosition + 1 } q
      (toInt32 (1 - 0)) ([] ++ (List.range 1).map (fun i => q.cacheData (0 + i))),
    hc, ?_, ?_, rfl, hcs, hm, hfat, fun s j v h => hkeep s j v h (Or.inl rfl)⟩
  · unfold FatFile.read
    rw [if_neg (by simp [FatFile.isOpen, hkind, hread])]
    have hclamp : FatFile.readClamp f p 1 = 1 := by
      unfold FatFile.readClamp
      rw [if_neg (by simp [FatFile.isFile, hkind]),
        if_neg (by simp [FatFile.isRootFixed, hkind])]
    dsimp only
    rw [hclamp]
    unfold FatFile.readLoop
    rw [if_neg (by omega), hstep]
    dsimp only
    rw [readLoop_zero]
    dsimp only
    rw [hmod]
  · exact toInt32_small 1 (by omega)

/-- The `read` of one byte by a readable subdirectory at the end of its chain
returns 0 and changes nothing. -/
theorem read_eof_dir (fuel : Nat) (f : FatFile) (p : FatPartition) (L : Nat)
    (hS : p.bytesPerSectorShift = 9)
    (hkind : f.kind = FileKind.subdir) (hread : f.flags.read = true)
    (hchain : ChainLen p f.firstCluster L) (hL : 0 < L) (hinv : PosInv f p)
    (hpos : f.curPosition = L * p.bytesPerCluster) :
    FatFile.read (fuel + 1) f p 1 = some { file := f, part := p, ret := 0, data := [] } := by
  have hB := bytesPerCluster_pos p
  have hBeq := bytesPerCluster_512 p hS
  have h0 : f.curPosition ≠ 0 := by
    rw [hpos]
    exact Nat.pos_iff_ne_zero.mp (Nat.mul_pos hL hB)
  have hoff : f.curPosition &&& p.sectorMask = 0 := by
    rw [land_sectorMask, bytesPerSector_512 p hS, hpos, hBeq, ← Nat.mul_assoc,
      Nat.mul_comm L 512, Nat.mul_assoc]
    exact Nat.mul_mod_right _ _
  have hsoc : p.sectorOfCluster f.curPosition = 0 := by
    rw [(sector_split p hS _).1, hpos, hBeq, ← Nat.mul_assoc, Nat.mul_comm L 512,
      Nat.mul_assoc, Nat.mul_div_cancel_left _ (by omega : 0 < 512)]
    exact Nat.mul_mod_left _ _
  have hmod : f.curPosition % p.bytesPerCluster = 0 := by
    rw [hpos]; exact Nat.mul_mod_left _ _
  have hprev := div_pred_of_dvd f.curPosition p.bytesPerCluster hB (by omega) hmod
  have hdiv : f.curPosition / p.bytesPerCluster = L := by
    rw [hpos]; exact Nat.mul_div_cancel _ hB
  have hcur := hinv.2 h0
  rw [chainStart_subdir f p hkind] at hcur
  obtain ⟨c0, hc0, heoc, _⟩ := chainLen_member p f.firstCluster L hchain
    ((f.curPosition - 1) / p.bytesPerCluster) (by omega)
  rw [hcur] at hc0
  cases hc0
  have hloc : FatFile.readLocate f p (f.curPosition &&& p.sectorMask) = FatFile.Locate.stop := by
    rw [hoff]
    unfold FatFile.readLocate
    rw [if_neg (by simp [FatFile.isRootFixed, hkind])]
    dsimp only
    rw [if_pos ⟨rfl, hsoc⟩, if_neg h0, heoc (by omega)]
    simp [FatFile.isDir, hkind]
  have hstep : FatFile.readStep f p 1 = FatFile.Step.stop f p := by
    unfold FatFile.readStep
    dsimp only
    rw [hloc]
  unfold FatFile.read
  rw [if_neg (by simp [FatFile.isOpen, hkind, hread])]
  have hclamp : FatFile.readClamp f p 1 = 1 := by
    unfold FatFile.readClamp
    rw [if_neg (by simp [FatFile.isFile, hkind]),
      if_neg (by simp [FatFile.isRootFixed, hkind])]
  dsimp only
  rw [hclamp]
  unfold FatFile.readLoop
  rw [if_neg (by omega), hstep]
  rfl

end DirectoryRead


section DirectoryScan

theorem slot_index (k : Nat) : ((32 * k) >>> 5) &&& 15 = k % 16 := by
  rw [Nat.shiftRight_eq_div_pow]
  have h1 : 32 * k / 2 ^ 5 = k := by
    have : (2 : Nat) ^ 5 = 32 := by norm_num
    rw [this]
    omega
  rw [h1]
  exact Nat.and_pow_two_sub_one_eq_mod k 4

/-- The bytes of slot `k` lie in one sector of one cluster. -/
theorem slot_sector (p : FatPartition) (hS : p.bytesPerSectorShift = 9) (c k j : Nat)
    (hj : j < 32) :
    (32 * k + j) / p.bytesPerCluster = 32 * k / p.bytesPerCluster
    ∧ dataSector p c (32 * k + j) = dataSector p c (32 * k)
    ∧ (32 * k + j) % p.bytesPerSector = 32 * (k % 16) + j := by
  have h1 : (32 * k + j) / 512 = 32 * k / 512 := by omega
  refine ⟨?_, ?_, ?_⟩
  · rw [(sector_split p hS _).2, (sector_split p hS _).2, h1]
  · unfold dataSector
    rw [(sector_split p hS _).1, (sector_split p hS _).1, h1]
  · rw [bytesPerSector_512 p hS]
    omega

/-- Slot `k + 1` lies in the sector of slot `k` unless it is the first of its sector. -/
theorem slot_next (p : FatPartition) (hS : p.bytesPerSectorShift = 9) (c k : Nat)
    (hk : (k + 1) % 16 ≠ 0) :
    32 * (k + 1) / p.bytesPerCluster = 32 * k / p.bytesPerCluster
    ∧ dataSector p c (32 * (k + 1)) = dataSector p c (32 * k) := by
  have h1 : 32 * (k + 1) / 512 = 32 * k / 512 := by omega
  refine ⟨?_, ?_⟩
  · rw [(sector_split p hS _).2, (sector_split p hS _).2, h1]
  · unfold dataSector
    rw [(sector_split p hS _).1, (sector_split p hS _).1, h1]

theorem slot_prev (p : FatPartition) (hS : p.bytesPerSectorShift = 9) (k : Nat)
    (hk : k % 16 ≠ 0) :
    (32 * k - 1) / p.bytesPerCluster = 32 * k / p.bytesPerCluster := by
  have h1 : (32 * k - 1) / 512 = 32 * k / 512 := by omega
  rw [(sector_split p hS _).2, (sector_split p hS _).2, h1]

/-- The chain of `L` clusters has a whole number of slots. -/
theorem slot_room (p : FatPartition) (hS : p.bytesPerSectorShift = 9) (L k : Nat)
    (hk : 32 * k < L * p.bytesPerCluster) : 32 * k + 32 ≤ L * p.bytesPerCluster := by
  rw [bytesPerCluster_512 p hS] at hk ⊢
  have h1 : L * (512 * p.sectorsPerCluster) = 32 * (16 * (L * p.sectorsPerCluster)) := by ring
  rw [h1] at hk ⊢
  generalize 16 * (L * p.sectorsPerCluster) = y at hk ⊢
  omega

/-- The bytes of slot `k` in the cache line, when the line holds the sector of
the slot. -/
theorem slot_bytes (p q : FatPartition) (first L k c : Nat) (E : Nat → Nat)
    (hS : p.bytesPerSectorShift = 9)
    (hE : FileHolds p first E (L * p.bytesPerCluster))
    (hk : 32 * k < L * p.bytesPerCluster)
    (hkeep : ∀ s j v, Stored p s j v → Stored q s j v)
    (hc : clusterAt p first (32 * k / p.bytesPerCluster) = some c)
    (hcs : q.cacheSector = dataSector p c (32 * k)) :
    ∀ j, j < 32 → q.cacheData (32 * (k % 16) + j) = E (32 * k + j) := by
  intro j hj
  have hroom := slot_room p hS L k hk
  obtain ⟨c2, hc2, hst⟩ := hE (32 * k + j) (by omega)
  obtain ⟨e1, e2, e3⟩ := slot_sector p hS c2 k j hj
  rw [e1, hc] at hc2
  cases hc2
  rw [e2, e3] at hst
  exact (hkeep _ _ _ hst).1 hcs

theorem posInv_dir (g : FatFile) (q : FatPartition) (hkind : g.kind = FileKind.subdir)
    (h0 : g.curPosition ≠ 0)
    (h : clusterAt q g.firstCluster ((g.curPosition - 1) / q.bytesPerCluster)
          = some g.curCluster) : PosInv g q :=
  ⟨fun hx => absurd hx h0, fun _ => by rw [chainStart_subdir g q hkind]; exact h⟩

/-- One call of `readDirCache(true)` by the scan of `rmdir` before a slot of
the chain: it returns the slot, with the bytes of the slot in the cache line,
and the scan is then before the next slot. -/
theorem readDirCache_slot (fuel : Nat) (p q : FatPartition) (g : FatFile) (first L k : Nat)
    (E : Nat → Nat)
    (hS : p.bytesPerSectorShift = 9) (hbad : ∀ s, p.badSector s = false)
    (hchain : ChainLen p first L) (hu : L * p.bytesPerCluster < U32)
    (hE : FileHolds p first E (L * p.bytesPerCluster))
    (hk : 32 * k < L * p.bytesPerCluster)
    (hinv : DirScanInv p first k g q) :
    ∃ r, FatFile.readDirCache (fuel + 1) g q true = some r
      ∧ r.slot = some (k % 16)
      ∧ DirScanInv p first (k + 1) r.file r.part
      ∧ r.file.error = g.error ∧ r.file.flags = g.flags ∧ r.file.readOnly = g.readOnly
      ∧ (∀ j, j < 32 → r.part.cacheData (32 * (k % 16) + j) = E (32 * k + j)) := by
  obtain ⟨hkind, hread, hfc, hpos, hpi, hm, hfat, hkeep, hcache⟩ := hinv
  have hroom := slot_room p hS L k hk
  have hB := bytesPerCluster_congr p q hm
  have hSq : q.bytesPerSectorShift = 9 := by
    rw [show q.bytesPerSectorShift = p.bytesPerSectorShift from
      congrArg Mount.bytesPerSectorShift hm]
    exact hS
  have hmod : (32 * k + 32) % U32 = 32 * (k + 1) := by
    rw [Nat.mod_eq_of_lt (by omega)]
    ring
  have e31 : 32 * (k + 1) - 1 = 32 * k + 31 := by omega
  unfold FatFile.readDirCache
  dsimp only
  rw [hpos, slot_index]
  by_cases hi : k % 16 = 0
  · rw [if_pos (Or.inl hi)]
    have hbadq : ∀ s, q.badSector s = false := by
      intro s
      rw [show q.badSector = p.badSector from congrArg Mount.badSector hm]
      exact hbad s
    obtain ⟨c, r, hc, hr, hret, hfile, hcs, hm2, hfat2, hkeep2⟩ :=
      read_one_dir fuel g q L hSq hbadq hkind hread
        (by rw [hfc]; exact chainLen_fat p q hm hfat _ _ hchain) hpi
        (by rw [hpos]; omega) (by rw [hpos, hB]; exact hk) (by rw [hB]; exact hu)
    rw [hpos, hfc, hB, clusterAt_fat p q hm hfat] at hc
    rw [hpos, dataSector_congr p q hm] at hcs
    rw [hr]
    rcases r with ⟨rf, rp, rret, rdata⟩
    simp only at hfile hret hcs hm2 hfat2 hkeep2
    subst hfile
    dsimp only
    rw [if_neg (by rw [hret]; simp)]
    have hmod2 : (g.curPosition + 1 + 31) % U32 = 32 * (k + 1) := by
      rw [hpos, ← hmod]
    have hm3 : rp.toMount = p.toMount := hm2.trans hm
    have hfat3 : rp.fat = p.fat := hfat2.trans hfat
    refine ⟨_, rfl, rfl, ?_, rfl, rfl, rfl, ?_⟩
    · refine ⟨hkind, hread, hfc, hmod2, ?_, hm3, hfat3,
        fun s j v h => hkeep2 s j v (hkeep s j v h), fun hnext => ?_⟩
      · refine posInv_dir _ _ hkind ?_ ?_
        · show (g.curPosition + 1 + 31) % U32 ≠ 0
          rw [hmod2]; omega
        · show clusterAt rp g.firstCluster (((g.curPosition + 1 + 31) % U32 - 1)
              / rp.bytesPerCluster) = some c
          rw [hmod2, bytesPerCluster_congr p rp hm3, clusterAt_fat p rp hm3 hfat3, e31,
            (slot_sector p hS c k 31 (by omega)).1, hfc]
          exact hc
      · obtain ⟨e1, e2⟩ := slot_next p hS c k hnext
        exact ⟨c, by rw [e1]; exact hc, by rw [e2]; exact hcs⟩
    · exact slot_bytes p rp first L k c E hS hE hk
        (fun s j v h => hkeep2 s j v (hkeep s j v h)) hc hcs
  · rw [if_neg (by simp [hi])]
    obtain ⟨c, hc, hcs⟩ := hcache hi
    have h0 : g.curPosition ≠ 0 := by rw [hpos]; omega
    have hcur := hpi.2 h0
    rw [chainStart_subdir g q hkind, hfc, hpos, hB, slot_prev p hS k hi,
      clusterAt_fat p q hm hfat, hc] at hcur
    refine ⟨_, rfl, rfl, ?_, rfl, rfl, rfl, ?_⟩
    · refine ⟨hkind, hread, hfc, hmod, ?_, hm, hfat, hkeep, fun hnext => ?_⟩
      · refine posInv_dir _ _ hkind ?_ ?_
        · show (32 * k + 32) % U32 ≠ 0
          rw [hmod]; omega
        · show clusterAt q g.firstCluster (((32 * k + 32) % U32 - 1) / q.bytesPerCluster)
            = some g.curCluster
          rw [hmod, hB, clusterAt_fat p q hm hfat, e31,
            (slot_sector p hS c k 31 (by omega)).1, hfc, hc]
          exact hcur
      · obtain ⟨e1, e2⟩ := slot_next p hS c k hnext
        exact ⟨c, by rw [e1]; exact hc, by rw [e2]; exact hcs⟩
    · exact slot_bytes p q first L k c E hS hE hk hkeep hc hcs

end DirectoryScan


section RmdirScan

theorem readDirCache_eof (fuel : Nat) (p q : FatPartition) (g : FatFile) (first L k : Nat)
    (hS : p.bytesPerSectorShift = 9) (hchain : ChainLen p first L) (hL : 0 < L)
    (hk : 32 * k = L * p.bytesPerCluster) (hinv : DirScanInv p first k g q) :
    FatFile.readDirCache (fuel + 1) g q true = some { slot := none, file := g, part := q } := by
  obtain ⟨hkind, hread, hfc, hpos, hpi, hm, hfat, _, _⟩ := hinv
  have hB := bytesPerCluster_congr p q hm
  have hSq : q.bytesPerSectorShift = 9 := by
    rw [show q.bytesPerSectorShift = p.bytesPerSectorShift from
      congrArg Mount.bytesPerSectorShift hm]
    exact hS
  have hi : k % 16 = 0 := by
    rw [bytesPerCluster_512 p hS] at hk
    have h1 : L * (512 * p.sectorsPerCluster) = 32 * (16 * (L * p.sectorsPerCluster)) := by ring
    rw [h1] at hk
    generalize L * p.sectorsPerCluster = y at hk
    omega
  have hr := read_eof_dir fuel g q L hSq hkind hread
    (by rw [hfc]; exact chainLen_fat p q hm hfat _ _ hchain) hL hpi (by rw [hpos, hB]; exact hk)
  unfold FatFile.readDirCache
  dsimp only
  rw [hpos, slot_index, if_pos (Or.inl hi), hr]
  rfl

theorem isFileOrSubdir_congr (a b : Nat → Nat) (x y : Nat) (h0 : a x = b y)
    (h11 : a (x + 11) = b (y + 11)) : isFileOrSubdir a x = isFileOrSubdir b y := by
  unfold isFileOrSubdir
  rw [h0, h11]

/-- The scan of `rmdir` from slot `k` of a directory of which `m` slots
remain gives the outcome that the bytes of the directory determine, and leaves
the FAT and every stored byte as they were. -/
theorem rmdirScan_spec (fuel : Nat) (p : FatPartition) (first L : Nat) (E : Nat → Nat)
    (hS : p.bytesPerSectorShift = 9) (hbad : ∀ s, p.badSector s = false)
    (hchain : ChainLen p first L) (hL : 0 < L) (hu : L * p.bytesPerCluster < U32)
    (hE : FileHolds p first E (L * p.bytesPerCluster)) :
    ∀ (m k b : Nat) (g : FatFile) (q : FatPartition), m < b →
      32 * (k + m) = L * p.bytesPerCluster → DirScanInv p first k g q → g.getError = false →
      ∃ g1 q1, FatFile.rmdirScan (fuel + 1) b g q = some (dirEmptyFrom E m k, g1, q1)
        ∧ g1.flags = g.flags ∧ q1.fat = p.fat
        ∧ (∀ s j v, Stored p s j v → Stored q1 s j v) := by
  intro m
  induction m with
  | zero =>
    intro k b g q hb hk hinv herr
    obtain ⟨b1, rfl⟩ : ∃ b1, b = b1 + 1 := ⟨b - 1, by omega⟩
    have hr := readDirCache_eof fuel p q g first L k hS hchain hL (by omega) hinv
    unfold FatFile.rmdirScan
    rw [hr]
    dsimp only
    rw [herr]
    exact ⟨g, q, rfl, rfl, hinv.2.2.2.2.2.2.1, hinv.2.2.2.2.2.2.2.1⟩
  | succ m ih =>
    intro k b g q hb hk hinv herr
    obtain ⟨b1, rfl⟩ : ∃ b1, b = b1 + 1 := ⟨b - 1, by omega⟩
    obtain ⟨r, hr, hslot, hinv2, herr2, hflags2, _, hbytes⟩ :=
      readDirCache_slot fuel p q g first L k E hS hbad hchain hu hE (by omega) hinv
    have hname : r.part.cacheData (32 * (k % 16)) = E (32 * k) := hbytes 0 (by omega)
    have hattr : r.part.cacheData (32 * (k % 16) + 11) = E (32 * k + 11) := hbytes 11 (by omega)
    have hrec := ih (k + 1) b1 r.file r.part (by omega) (by omega) hinv2
      (by unfold FatFile.getError at herr ⊢; rw [herr2]; exact herr)
    unfold FatFile.rmdirScan dirEmptyFrom
    rw [hr]
    dsimp only
    rw [hslot]
    dsimp only
    rw [hname, isFileOrSubdir_congr r.part.cacheData E _ _ hname hattr]
    by_cases h0 : E (32 * k) = 0
    · rw [if_pos h0, if_pos h0]
      exact ⟨r.file, r.part, rfl, hflags2, hinv2.2.2.2.2.2.2.1, hinv2.2.2.2.2.2.2.2.1⟩
    · rw [if_neg h0, if_neg h0]
      by_cases h1 : E (32 * k) = 229 ∨ E (32 * k) = 46
      · rw [if_pos h1, if_pos h1]
        obtain ⟨g1, q1, e1, e2, e3, e4⟩ := hrec
        exact ⟨g1, q1, e1, e2.trans hflags2, e3, e4⟩
      · rw [if_neg h1, if_neg h1]
        by_cases h2 : isFileOrSubdir E (32 * k) = true
        · rw [if_pos h2, if_pos h2]
          exact ⟨r.file, r.part, rfl, hflags2, hinv2.2.2.2.2.2.2.1, hinv2.2.2.2.2.2.2.2.1⟩
        · rw [if_neg h2, if_neg h2]
          obtain ⟨g1, q1, e1, e2, e3, e4⟩ := hrec
          exact ⟨g1, q1, e1, e2.trans hflags2, e3, e4⟩

/-- The outcome of the scan in the words of the claim. -/
theorem dirEmptyFrom_false (E : Nat → Nat) :
    ∀ m k, dirEmptyFrom E m k = false
      ↔ ∃ i, i < m ∧ (∀ j, j < i → E (32 * (k + j)) ≠ 0)
          ∧ E (32 * (k + i)) ≠ 229 ∧ E (32 * (k + i)) ≠ 46
          ∧ isFileOrSubdir E (32 * (k + i)) = true := by
  intro m
  induction m with
  | zero =>
    intro k
    unfold dirEmptyFrom
    exact ⟨fun h => (by cases h), fun ⟨i, hi, _⟩ => by omega⟩
  | succ m ih =>
    intro k
    unfold dirEmptyFrom
    have hzero : isFileOrSubdir E (32 * k) = true → E (32 * k) ≠ 0 := by
      intro h
      unfold isFileOrSubdir at h
      simp only [decide_eq_true_eq] at h
      exact h.2.2.1
    -- the witnesses beyond slot `k` and those from slot `k + 1` on
    have hsucc : E (32 * k) ≠ 0 →
        ((∃ i, i < m ∧ (∀ j, j < i → E (32 * (k + 1 + j)) ≠ 0)
          ∧ E (32 * (k + 1 + i)) ≠ 229 ∧ E (32 * (k + 1 + i)) ≠ 46
          ∧ isFileOrSubdir E (32 * (k + 1 + i)) = true)
        ↔ ∃ i, 0 < i ∧ i < m + 1 ∧ (∀ j, j < i → E (32 * (k + j)) ≠ 0)
          ∧ E (32 * (k + i)) ≠ 229 ∧ E (32 * (k + i)) ≠ 46
          ∧ isFileOrSubdir E (32 * (k + i)) = true) := by
      intro hk0
      constructor
      · rintro ⟨i, hi, hj, a1, a2, a3⟩
        have e : k + 1 + i = k + (i + 1) := by omega
        rw [e] at a1 a2 a3
        refine ⟨i + 1, by omega, by omega, ?_, a1, a2, a3⟩
        intro j hjlt
        rcases Nat.eq_zero_or_pos j with hj0 | hjpos
        · rw [hj0]; exact hk0
        · have := hj (j - 1) (by omega)
          have e2 : k + 1 + (j - 1) = k + j := by omega
          rw [e2] at this
          exact this
      · rintro ⟨i, hpos, hi, hj, a1, a2, a3⟩
        have e : k + i = k + 1 + (i - 1) := by omega
        rw [e] at a1 a2 a3
        refine ⟨i - 1, by omega, ?_, a1, a2, a3⟩
        intro j hjlt
        have := hj (j + 1) (by omega)
        have e2 : k + (j + 1) = k + 1 + j := by omega
        rw [e2] at this
        exact this
    by_cases h0 : E (32 * k) = 0
    · rw [if_pos h0]
      refine ⟨fun h => (by cases h), ?_⟩
      rintro ⟨i, _, hj, _, _, a3⟩
      rcases Nat.eq_zero_or_pos i with hi0 | hipos
      · rw [hi0] at a3
        exact absurd h0 (hzero a3)
      · exact absurd h0 (hj 0 hipos)
    · rw [if_neg h0]
      by_cases h1 : E (32 * k) = 229 ∨ E (32 * k) = 46
      · rw [if_pos h1, ih (k + 1), hsucc h0]
        constructor
        · rintro ⟨i, _, hi, rest⟩
          exact ⟨i, hi, rest⟩
        · rintro ⟨i, hi, hj, a1, a2, a3⟩
          rcases Nat.eq_zero_or_pos i with hi0 | hipos
          · rw [hi0] at a1 a2
            rcases h1 with h1 | h1
            · exact absurd h1 a1
            · exact absurd h1 a2
          · exact ⟨i, hipos, hi, hj, a1, a2, a3⟩
      · rw [if_neg h1]
        by_cases h2 : isFileOrSubdir E (32 * k) = true
        · rw [if_pos h2]
          refine ⟨fun _ => ⟨0, by omega, fun j hj => by omega, ?_, ?_, h2⟩, fun _ => rfl⟩
          · exact fun hx => h1 (Or.inl hx)
          · exact fun hx => h1 (Or.inr hx)
        · rw [if_neg h2, ih (k + 1), hsucc h0]
          constructor
          · rintro ⟨i, _, hi, rest⟩
            exact ⟨i, hi, rest⟩
          · rintro ⟨i, hi, hj, a1, a2, a3⟩
            rcases Nat.eq_zero_or_pos i with hi0 | hipos
            · rw [hi0] at a3
              exact absurd a3 h2
            · exact ⟨i, hipos, hi, hj, a1, a2, a3⟩

theorem dirNotEmpty_iff (E : Nat → Nat) (n : Nat) :
    DirNotEmpty E n ↔ dirEmptyFrom E n 0 = false := by
  rw [dirEmptyFrom_false]
  unfold DirNotEmpty
  simp only [Nat.zero_add]

end RmdirScan


section Rmdir

/-- After `rewind()` the scan of `rmdir` is before slot 0. -/
theorem rewind_scanInv (f : FatFile) (p : FatPartition)
    (hkind : f.kind = FileKind.subdir) (hread : f.flags.read = true) (hinv : PosInv f p) :
    DirScanInv p f.firstCluster 0 (f.rewind p) p
    ∧ (f.rewind p).flags = f.flags ∧ (f.rewind p).error = f.error := by
  unfold FatFile.rewind FatFile.seekSet
  rw [if_neg (by simp [FatFile.isOpen, hkind])]
  by_cases h0 : 0 = f.curPosition
  · rw [if_pos h0]
    exact ⟨⟨hkind, hread, rfl, h0.symm, hinv, rfl, rfl, fun _ _ _ h => h,
      fun hx => absurd rfl hx⟩, rfl, rfl⟩
  · rw [if_neg h0, if_pos rfl]
    exact ⟨⟨hkind, hread, rfl, rfl, ⟨fun _ => rfl, fun hx => absurd rfl hx⟩, rfl, rfl,
      fun _ _ _ h => h, fun hx => absurd rfl hx⟩, rfl, rfl⟩

/-- The scan of `rmdir` with sectors of 512 bytes: `rmdir()` returns
false with the handle and the partition untouched when the handle is not a
subdirectory.  For a readable subdirectory without an error bit, on a partition
with 512-byte sectors and no unreadable sector, whose chain of `L` clusters
holds the bytes `E`: the scan ends, leaving the FAT and every stored byte as
they were (no cluster is freed, no slot is marked deleted); `rmdir()` returns
false, without calling `remove()`, when the scan from slot 0 meets, before the
first slot whose `name[0]` is 0x00 and before the end of the chain, an entry
with `name[0]` not in {0xE5, '.'} that is a file or subdirectory; and when no
such entry exists it converts `attr` to FILE, adds WRITE to the flags and
returns the result of `remove()`. -/
theorem rmdir_refuses_nonempty (c : Collab) (fuel : Nat) (f : FatFile) (p : FatPartition)
    (L : Nat) (E : Nat → Nat) :
    (f.isSubDir = false → FatFile.rmdir c fuel f p = some (false, f, p))
    ∧ (f.kind = FileKind.subdir → f.flags.read = true → f.getError = false → PosInv f p →
        p.bytesPerSectorShift = 9 → (∀ s, p.badSector s = false) →
        ChainLen p f.firstCluster L → 0 < L → L * p.bytesPerCluster < U32 →
        FileHolds p f.firstCluster E (L * p.bytesPerCluster) →
        L * p.bytesPerCluster / 32 < fuel →
        ∃ g q, q.fat = p.fat ∧ (∀ s j v, Stored p s j v → Stored q s j v)
          ∧ g.flags = f.flags
          ∧ (DirNotEmpty E (L * p.bytesPerCluster / 32) →
              FatFile.rmdir c fuel f p = some (false, g, q))
          ∧ (¬ DirNotEmpty E (L * p.bytesPerCluster / 32) →
              FatFile.rmdir c fuel f p
                = some (c.remove { g with kind := FileKind.file, readOnly := false,
                                          flags := { g.flags with write := true } } q))) := by
  constructor
  · intro h
    unfold FatFile.rmdir
    rw [if_pos (Or.inl h)]
  · intro hkind hread herr hinv hS hbad hchain hL hu hE hfuel
    obtain ⟨fuel1, rfl⟩ : ∃ fuel1, fuel = fuel1 + 1 := ⟨fuel - 1, by omega⟩
    obtain ⟨hscan, hfl, her⟩ := rewind_scanInv f p hkind hread hinv
    have hn : 32 * (0 + L * p.bytesPerCluster / 32) = L * p.bytesPerCluster := by
      rw [bytesPerCluster_512 p hS]
      have h1 : L * (512 * p.sectorsPerCluster) = 32 * (16 * (L * p.sectorsPerCluster)) := by
        ring
      rw [h1]
      generalize 16 * (L * p.sectorsPerCluster) = y
      omega
    obtain ⟨g1, q1, hres, hflags, hfat, hkeep⟩ :=
      rmdirScan_spec fuel1 p f.firstCluster L E hS hbad hchain hL hu hE
        (L * p.bytesPerCluster / 32) 0 (fuel1 + 1) (f.rewind p) p hfuel hn hscan
        (by unfold FatFile.getError at herr ⊢; rw [her]; exact herr)
    have hsub : ¬ (f.isSubDir = false ∨ (USE_LONG_FILE_NAMES = false ∧ f.isLFN = true)) := by
      simp [FatFile.isSubDir, hkind, USE_LONG_FILE_NAMES]
    refine ⟨g1, q1, hfat, hkeep, hflags.trans hfl, ?_, ?_⟩
    · intro hne
      rw [dirNotEmpty_iff] at hne
      rw [hne] at hres
      unfold FatFile.rmdir
      rw [if_neg hsub, hres]
    · intro hne
      rw [dirNotEmpty_iff] at hne
      have htrue : dirEmptyFrom E (L * p.bytesPerCluster / 32) 0 = true := by
        simpa using hne
      rw [htrue] at hres
      unfold FatFile.rmdir
      rw [if_neg hsub, hres]

theorem dirVolume_holds (data : Nat → Nat) :
    FileHolds (dirVolume data) 2 data (1 * (dirVolume data).bytesPerCluster) := by
  intro i hi
  have hi2 : i < 512 := hi
  have h1 : i / (dirVolume data).bytesPerCluster = 0 := Nat.div_eq_of_lt hi2
  have h2 : i % (dirVolume data).bytesPerSector = i := Nat.mod_eq_of_lt hi2
  have h3 : dataSector (dirVolume data) 2 i = 100 := by
    show 100 + (2 - 2) * 2 ^ 0 + (i / 512) % 1 = 100
    omega
  refine ⟨2, by rw [h1]; rfl, ?_⟩
  rw [h2, h3]
  exact ⟨fun hx => (by cases hx), Or.inr rfl⟩

theorem rmdir_refuses_nonempty_witness :
    subdirHandle.kind = FileKind.subdir
    ∧ DirNotEmpty fullDirData (1 * (dirVolume fullDirData).bytesPerCluster / 32)
    ∧ ¬ DirNotEmpty emptyDirData (1 * (dirVolume emptyDirData).bytesPerCluster / 32)
    ∧ (∃ g q, q.fat = (dirVolume fullDirData).fat
        ∧ (∀ s j v, Stored (dirVolume fullDirData) s j v → Stored q s j v)
        ∧ g.flags = subdirHandle.flags
        ∧ (DirNotEmpty fullDirData (1 * (dirVolume fullDirData).bytesPerCluster / 32) →
            FatFile.rmdir demoCollab 17 subdirHandle (dirVolume fullDirData)
              = some (false, g, q))
        ∧ (¬ DirNotEmpty fullDirData (1 * (dirVolume fullDirData).bytesPerCluster / 32) →
            FatFile.rmdir demoCollab 17 subdirHandle (dirVolume fullDirData)
              = some (demoCollab.remove
                  { g with kind := FileKind.file, readOnly := false,
                           flags := { g.flags with write := true } } q)))
    ∧ (FatFile.rmdir demoCollab 17 subdirHandle (dirVolume fullDirData)).map Prod.fst
        = some false
    ∧ (FatFile.rmdir demoCollab 17 subdirHandle (dirVolume emptyDirData)).map Prod.fst
        = some true :=
  ⟨rfl,
    ⟨3, by decide, by decide, by decide, by decide, by decide⟩,
    fun h => by
      rw [dirNotEmpty_iff] at h
      revert h
      decide,
    (rmdir_refuses_nonempty demoCollab 17 subdirHandle (dirVolume fullDirData) 1 fullDirData).2
      rfl rfl rfl ⟨fun _ => rfl, fun h => absurd rfl h⟩ rfl (fun _ => rfl)
      (Or.inr ⟨by decide, 2, rfl, by decide⟩) (by decide) (by decide)
      (dirVolume_holds fullDirData) (by decide),
    by decide, by decide⟩

/-- A failed read stops `rmdir`: an empty
subdirectory (only `.` and `..`, then free slots), so that no entry that is a
file or subdirectory exists, and a `remove()` that always succeeds; when the
sector of the directory cannot be read, and when the handle lacks the READ
flag, `rmdir()` returns false instead of the result of `remove()`. -/
theorem rmdir_read_failure_counterexample :
    ¬ DirNotEmpty emptyDirData 16
    ∧ (∀ g q, (demoCollab.remove g q).1 = true)
    ∧ (FatFile.rmdir demoCollab 17 subdirHandle badDirVolume).map Prod.fst = some false
    ∧ (FatFile.rmdir demoCollab 17
        { subdirHandle with flags := { subdirHandle.flags with read := false } }
        (dirVolume emptyDirData)).map Prod.fst = some false :=
  ⟨fun h => by
      rw [dirNotEmpty_iff] at h
      revert h
      decide,
    fun _ _ => rfl, by decide, by decide⟩

end Rmdir

section RmdirWideSectors

end RmdirWideSectors


section CacheInvalidation

/-- C30, the code at a failing input.  The multi-sector write of `write` to
the sectors `[100, 101)` (`nSector = 1`) with the dirty cache line of sector
300, which lies outside that range: the test of lines 1292-1293,
`sector <= cacheSectorNumber() && sector < cacheSectorNumber() + nSector`,
holds for every resident sector from `sector` on, `cacheInvalidate` is called
and the dirty line is discarded without being written (sector 300 of the
device keeps its old content).  In a file of three sectors, a byte 77 written
at position 1024 is read back as 77, but after a further write of 1024 bytes
at position 0 (sectors 100 and 101) it is read back as the old byte 0. -/
theorem writeMulti_discards_far_line :
    dirtyLinePartition.cacheSectorNumber = 300 ∧ dirtyLinePartition.cacheDirty = true
    ∧ dirtyLinePartition.cacheData 0 = 1 ∧ dirtyLinePartition.dev 300 0 = 0
    ∧ FatFile.writeSectorCount dirtyLinePartition 1024 0 = 1
    ∧ ¬ (100 ≤ 300 ∧ 300 < 100 + 1)
    ∧ (stepPart (FatFile.writeMulti emptyFile dirtyLinePartition 1024 100 0 testBuf)).map
        (fun q => (q.cacheSector, q.cacheDirty, q.dev 300 0, q.log))
        = some (4294967295, false, 0, [Call.writeSectors 100 1, Call.cacheInvalidate])
    ∧ lossStep1.map (fun w => (w.ret, w.part.cacheSector, w.part.cacheDirty)) = some (1, 102, true)
    ∧ readBack lossStep1 = some (1, [77])
    ∧ lossStep2.map (fun w => w.ret) = some 1024
    ∧ readBack lossStep2 = some (1, [0]) := by
  decide

end CacheInvalidation


section FailedWrite

/-- C27, the code at a failing input.  An empty regular file (`curPosition =
0 <= fileSize = 0`) on a partition with 512-byte clusters of which only
cluster 2 exists: `write(buf, 1025)` transfers the first sector, fails to
allocate a second cluster and returns `(size_t)-1` with WRITE_ERROR set; the
position is then 512 and the size still 0. -/
theorem write_failure_leaves_position_past_size :
    emptyFile.kind = FileKind.file ∧ emptyFile.curPosition ≤ emptyFile.fileSize
    ∧ (FatFile.write 3 emptyFile (blankPartition 0 2) testBuf 1025).map
        (fun w => (w.ret, w.file.error.writeError, w.file.curPosition, w.file.fileSize,
          w.part.dev 100 0, w.part.dev 100 511))
        = some (SIZE_MAX, true, 512, 0, 1, 10) := by
  decide

end FailedWrite


section FixedRootClamp

/-- C24, the code at a failing input.  A fixed root directory of 2048
entries (65536 bytes) at position 0: the clamp of lines 615-618 is computed in
a `uint16_t`, `32 * 2048 - 0 = 65536` becomes 0, and `read(buf, 32)` returns 0
without transferring a byte, where `min(32, 32 * 2048 - 0) = 32`; with 2047
entries the same call transfers 32 bytes. -/
theorem fixed_root_clamp_truncates :
    fixedRootHandle.kind = FileKind.rootFixed ∧ fixedRootHandle.flags.read = true
    ∧ fixedRootHandle.curPosition ≤ 32 * (fixedRootPartition 2048).rootDirEntryCount
    ∧ min 32 (32 * (fixedRootPartition 2048).rootDirEntryCount - fixedRootHandle.curPosition) = 32
    ∧ FatFile.readClamp fixedRootHandle (fixedRootPartition 2048) 32 = 0
    ∧ (FatFile.read 2 fixedRootHandle (fixedRootPartition 2048) 32).map
        (fun r => (r.ret, r.data.length, r.file.curPosition, r.part.log)) = some (0, 0, 0, [])
    ∧ (FatFile.read 2 fixedRootHandle (fixedRootPartition 2047) 32).map
        (fun r => (r.ret, r.data.length, r.file.curPosition)) = some (32, 32, 32) := by
  decide

end FixedRootClamp

section ReadOneStep

/-- A failed iteration of the loop of `read` can only have moved
`curCluster`. -/
theorem readStep_fail (f g : FatFile) (p q : FatPartition) (toRead : Nat)
    (h : FatFile.readStep f p toRead = FatFile.Step.fail g q) :
    ∃ cc, g = { f with curCluster := cc } := by
  unfold FatFile.readStep at h
  dsimp only at h
  split at h
  · cases h; exact ⟨f.curCluster, rfl⟩
  · cases h
  · rename_i f1 sector soc hloc
    have hg : g = f1 := by
      unfold FatFile.readTransfer at h
      split at h
      · unfold FatFile.readCached at h
        dsimp only at h
        split at h
        · cases h; rfl
        · cases h
      · split at h
        · unfold FatFile.readMulti at h
          dsimp only at h
          split at h
          · cases h; rfl
          · split at h
            · cases h; rfl
            · cases h
        · unfold FatFile.readSingle at h
          split at h
          · cases h; rfl
          · cases h
    subst hg
    unfold FatFile.readLocate at hloc
    split at hloc
    · cases hloc; exact ⟨f.curCluster, rfl⟩
    · dsimp only at hloc
      split at hloc
      · split at hloc
        · cases hloc; exact ⟨_, rfl⟩
        · split at hloc
          · cases hloc
          · split at hloc <;> cases hloc
          · cases hloc; exact ⟨_, rfl⟩
      · cases hloc; exact ⟨f.curCluster, rfl⟩

/-- The loop of `read` when its first iteration transfers all that was asked:
it fails or stops with the position where it was, or ends after that one
transfer. -/
theorem readLoop_one_step (fuel : Nat) (f : FatFile) (p : FatPartition) (N : Nat)
    (e : FatFile.LoopEnd) (h : FatFile.readLoop fuel f p N [] = some e)
    (hn : ∀ g q n chunk, FatFile.readStep f p N = FatFile.Step.next g q n chunk → n = N) :
    (∃ cc q, e = FatFile.LoopEnd.failed { f with curCluster := cc } q [])
      ∨ (∃ q, e = FatFile.LoopEnd.ok f q N [])
      ∨ (∃ cc q out, e = FatFile.LoopEnd.ok
            { f with curCluster := cc, curPosition := (f.curPosition + N) % U32 } q 0 out
          ∧ out.length = N ∧ 0 < N) := by
  cases fuel with
  | zero =>
    unfold FatFile.readLoop at h
    split at h
    · cases h
      exact Or.inr (Or.inl ⟨p, rfl⟩)
    · cases h
  | succ k =>
    unfold FatFile.readLoop at h
    split at h
    · cases h
      exact Or.inr (Or.inl ⟨p, rfl⟩)
    · split at h
      · rename_i f1 p1 hstep
        cases h
        obtain ⟨cc, rfl⟩ := readStep_fail _ _ _ _ _ hstep
        exact Or.inl ⟨cc, p1, rfl⟩
      · rename_i f1 p1 hstep
        cases h
        have := readStep_stop _ _ _ _ _ hstep
        subst this
        exact Or.inr (Or.inl ⟨p1, rfl⟩)
      · rename_i hN _ f1 p1 n chunk hstep
        have hnn := hn _ _ _ _ hstep
        subst hnn
        obtain ⟨⟨cc, rfl⟩, _⟩ := readStep_next _ _ _ _ _ _ _ hstep
        rw [Nat.sub_self, readLoop_zero] at h
        cases h
        exact Or.inr (Or.inr ⟨cc, p1, _, rfl, by simp, Nat.pos_of_ne_zero hN⟩)

/-- A `read` whose first iteration transfers the whole clamped count: the
handle keeps every field but `curCluster`, the position and the READ_ERROR
bit; either the position has advanced by the clamped count, which is the
result, or the position is where it was and the result is 0 or -1. -/
theorem read_one_step (fuel : Nat) (f : FatFile) (p : FatPartition) (nbyte : Nat)
    (r : FatFile.ReadOut) (h : f.read fuel p nbyte = some r)
    (hn : ∀ g q n chunk,
      FatFile.readStep f p (FatFile.readClamp f p nbyte) = FatFile.Step.next g q n chunk →
        n = FatFile.readClamp f p nbyte) :
    ∃ cc e pos, r.file = { f with curCluster := cc, curPosition := pos,
                                  error := { f.error with readError := e } }
      ∧ ((pos = (f.curPosition + FatFile.readClamp f p nbyte) % U32
            ∧ r.ret = toInt32 (FatFile.readClamp f p nbyte)
            ∧ r.data.length = FatFile.readClamp f p nbyte
            ∧ 0 < FatFile.readClamp f p nbyte)
          ∨ (pos = f.curPosition ∧ (r.ret = 0 ∨ r.ret = -1) ∧ r.data = [])) := by
  unfold FatFile.read at h
  split at h
  · cases h
    exact ⟨f.curCluster, true, f.curPosition, rfl, Or.inr ⟨rfl, Or.inr rfl, rfl⟩⟩
  · dsimp only at h
    generalize FatFile.readClamp f p nbyte = N at h hn ⊢
    have hzero : toInt32 (N - N) = 0 := by simp [toInt32]
    rcases hl : FatFile.readLoop fuel f p N [] with _ | e
    · rw [hl] at h; cases h
    · rw [hl] at h
      rcases readLoop_one_step _ _ _ _ _ hl hn with
        ⟨cc, q, rfl⟩ | ⟨q, rfl⟩ | ⟨cc, q, out, rfl, hlen, hN⟩
      · cases h
        exact ⟨cc, true, f.curPosition, rfl, Or.inr ⟨rfl, Or.inr rfl, rfl⟩⟩
      · cases h
        exact ⟨f.curCluster, f.error.readError, f.curPosition, rfl,
          Or.inr ⟨rfl, Or.inl hzero, rfl⟩⟩
      · cases h
        exact ⟨cc, f.error.readError, (f.curPosition + N) % U32, rfl,
          Or.inl ⟨rfl, by simp, hlen, hN⟩⟩

/-- An iteration of the loop of `read` that asks for no more than the rest of
the current sector transfers exactly what was asked. -/
theorem readStep_whole (f g : FatFile) (p q : FatPartition) (toRead n : Nat) (chunk : Nat → Nat)
    (h : FatFile.readStep f p toRead = FatFile.Step.next g q n chunk)
    (hfit : toRead + f.curPosition % p.bytesPerSector ≤ p.bytesPerSector) : n = toRead := by
  have hpos := bytesPerSector_pos p
  have hoff : f.curPosition % p.bytesPerSector < p.bytesPerSector := Nat.mod_lt _ hpos
  unfold FatFile.readStep at h
  dsimp only at h
  rw [land_sectorMask] at h
  split at h
  · cases h
  · cases h
  · rename_i f1 sector soc hloc
    unfold FatFile.readTransfer at h
    split at h
    · unfold FatFile.readCached at h
      dsimp only at h
      split at h
      · cases h
      · cases h
        unfold FatFile.partCount
        dsimp only
        split <;> omega
    · rename_i hc
      split at h
      · omega
      · unfold FatFile.readSingle at h
        split at h
        · cases h
        · rename_i p1 hrs
          cases h
          have hm : q.toMount = p.toMount := by
            have := (readSector_dataStep p sector).1
            rw [hrs] at this
            exact this
          rw [bytesPerSector_congr p q hm]
          omega

end ReadOneStep

section ReadOneByte

/-- The clamp of `read` never raises the count. -/
theorem readClamp_le (f : FatFile) (p : FatPartition) (nbyte : Nat) :
    FatFile.readClamp f p nbyte ≤ nbyte := by
  unfold FatFile.readClamp
  split
  · dsimp only
    split <;> omega
  · split
    · dsimp only
      split <;> omega
    · exact le_refl _

/-- A `read` of one byte: the handle keeps every field but `curCluster`, the
position and the READ_ERROR bit; the position has advanced by one when the
result is 1 and is where it was otherwise. -/
theorem read_byte_pos (fuel : Nat) (f : FatFile) (p : FatPartition) (r : FatFile.ReadOut)
    (h : f.read fuel p 1 = some r) :
    ∃ cc e pos, r.file = { f with curCluster := cc, curPosition := pos,
                                  error := { f.error with readError := e } }
      ∧ ((r.ret = 1 ∧ pos = (f.curPosition + 1) % U32 ∧ r.data.length = 1)
          ∨ ((r.ret = 0 ∨ r.ret = -1) ∧ pos = f.curPosition ∧ r.data = [])) := by
  have hle := readClamp_le f p 1
  have hoff : f.curPosition % p.bytesPerSector < p.bytesPerSector :=
    Nat.mod_lt _ (bytesPerSector_pos p)
  obtain ⟨cc, e, pos, hf, hcase⟩ := read_one_step fuel f p 1 r h (by
    intro g q n chunk hstep
    exact readStep_whole _ _ _ _ _ _ _ hstep (by omega))
  refine ⟨cc, e, pos, hf, ?_⟩
  rcases hcase with ⟨hp, hr, hl, hN⟩ | ⟨hp, hr, hd⟩
  · have h1 : FatFile.readClamp f p 1 = 1 := by omega
    rw [h1] at hp hr hl
    exact Or.inl ⟨by rw [hr]; decide, hp, hl⟩
  · exact Or.inr ⟨hr, hp, hd⟩

end ReadOneByte

section ReadOneStepTotal

/-- The loop of `read` ends within one iteration when that iteration transfers
all that was asked. -/
theorem readLoop_one_step_total (fuel : Nat) (f : FatFile) (p : FatPartition) (N : Nat)
    (hn : ∀ g q n chunk, FatFile.readStep f p N = FatFile.Step.next g q n chunk → n = N) :
    ∃ e, FatFile.readLoop (fuel + 1) f p N [] = some e := by
  unfold FatFile.readLoop
  split
  · exact ⟨_, rfl⟩
  · rcases hstep : FatFile.readStep f p N with ⟨g, q, n, chunk⟩ | ⟨g, q⟩ | ⟨g, q⟩
    · have hnn := hn _ _ _ _ hstep
      subst hnn
      dsimp only
      rw [Nat.sub_self, readLoop_zero]
      exact ⟨_, rfl⟩
    · exact ⟨_, rfl⟩
    · exact ⟨_, rfl⟩

/-- A `read` whose first iteration transfers the whole clamped count returns
with any positive iteration budget. -/
theorem read_one_step_total (fuel : Nat) (f : FatFile) (p : FatPartition) (nbyte : Nat)
    (hn : ∀ g q n chunk,
      FatFile.readStep f p (FatFile.readClamp f p nbyte) = FatFile.Step.next g q n chunk →
        n = FatFile.readClamp f p nbyte) :
    ∃ r, f.read (fuel + 1) p nbyte = some r := by
  unfold FatFile.read
  split
  · exact ⟨_, rfl⟩
  · dsimp only
    obtain ⟨e, he⟩ := readLoop_one_step_total fuel f p _ hn
    rw [he]
    cases e <;> exact ⟨_, rfl⟩

/-- A `read` of one byte returns with any positive iteration budget. -/
theorem read_byte_total (fuel : Nat) (f : FatFile) (p : FatPartition) :
    ∃ r, f.read (fuel + 1) p 1 = some r := by
  have hle := readClamp_le f p 1
  have hoff : f.curPosition % p.bytesPerSector < p.bytesPerSector :=
    Nat.mod_lt _ (bytesPerSector_pos p)
  exact read_one_step_total fuel f p 1 (by
    intro g q n chunk hstep
    exact readStep_whole _ _ _ _ _ _ _ hstep (by omega))

/-- The slot index `(m_curPosition >> 5) & 0XF` of `readDirCache`. -/
theorem slot_of_pos (x : Nat) : (x >>> 5) &&& 15 = x / 32 % 16 := by
  rw [Nat.shiftRight_eq_div_pow]
  exact Nat.and_pow_two_sub_one_eq_mod _ 4

end ReadOneStepTotal

section ReadDirCacheRule

/-- The two cases of `readDirCache`: the read is skipped when the slot index is
not 0 and `skipReadOk` is true, and performed otherwise. -/
theorem readDirCache_cases (fuel : Nat) (f : FatFile) (p : FatPartition) (skipReadOk : Bool) :
    (f.curPosition / 32 % 16 ≠ 0 ∧ skipReadOk = true →
        FatFile.readDirCache fuel f p skipReadOk
          = some (FatFile.DirCacheOut.mk (some (f.curPosition / 32 % 16))
              { f with curPosition := (f.curPosition + 32) % U32 } p))
    ∧ (f.curPosition / 32 % 16 = 0 ∨ skipReadOk = false →
        ∃ r, f.read (fuel + 1) p 1 = some r
          ∧ (r.ret = 1 →
              FatFile.readDirCache (fuel + 1) f p skipReadOk
                = some (FatFile.DirCacheOut.mk (some (f.curPosition / 32 % 16))
                    { r.file with curPosition := (f.curPosition + 32) % U32 } r.part))
          ∧ (r.ret ≠ 1 →
              FatFile.readDirCache (fuel + 1) f p skipReadOk
                  = some (FatFile.DirCacheOut.mk none r.file r.part)
                ∧ r.file.curPosition = f.curPosition)) := by
  constructor
  · rintro ⟨hi, hs⟩
    unfold FatFile.readDirCache
    dsimp only
    rw [slot_of_pos, if_neg (by
      rintro (h | h)
      · exact hi h
      · rw [hs] at h; cases h)]
  · intro hc
    obtain ⟨r, hr⟩ := read_byte_total fuel f p
    obtain ⟨cc, e, pos, hf, hcase⟩ := read_byte_pos _ f p r hr
    refine ⟨r, hr, ?_, ?_⟩
    · intro h1
      unfold FatFile.readDirCache
      dsimp only
      rw [slot_of_pos, if_pos hc, hr]
      dsimp only
      rw [if_neg (not_not.mpr h1)]
      rcases hcase with ⟨_, hp, _⟩ | ⟨h0, _, _⟩
      · have hpos : r.file.curPosition = (f.curPosition + 1) % U32 := by rw [hf, hp]
        rw [hpos]
        have : ((f.curPosition + 1) % U32 + 31) % U32 = (f.curPosition + 32) % U32 := by
          rw [Nat.add_mod, Nat.mod_mod, ← Nat.add_mod]
        rw [this]
      · rcases h0 with h0 | h0 <;> rw [h0] at h1 <;> cases h1
    · intro h1
      unfold FatFile.readDirCache
      dsimp only
      rw [slot_of_pos, if_pos hc, hr]
      dsimp only
      rw [if_pos h1]
      refine ⟨rfl, ?_⟩
      rcases hcase with ⟨h0, _, _⟩ | ⟨_, hp, _⟩
      · exact absurd h0 h1
      · rw [hf, hp]

/-- C26 (amended): with `i = (curPosition >> 5) mod 16`, `readDirCache` skips
the read exactly when `i != 0` and `skipReadOk` is true: it then returns slot
`i`, advances the position by 32 and leaves the partition as it was.  In the
other case (`i = 0` or `skipReadOk` false) the one-byte `read` is performed
and returns; when it returns 1 the slot `i` is returned with the position
advanced by 32 in all, otherwise the null pointer is returned and the position
is where it was. -/
theorem readDirCache_read_rule (fuel : Nat) (f : FatFile) (p : FatPartition) (skipReadOk : Bool) :
    (f.curPosition / 32 % 16 ≠ 0 ∧ skipReadOk = true →
        FatFile.readDirCache fuel f p skipReadOk
          = some (FatFile.DirCacheOut.mk (some (f.curPosition / 32 % 16))
              { f with curPosition := (f.curPosition + 32) % U32 } p))
    ∧ (f.curPosition / 32 % 16 = 0 ∨ skipReadOk = false →
        ∃ r, f.read (fuel + 1) p 1 = some r
          ∧ (r.ret = 1 →
              FatFile.readDirCache (fuel + 1) f p skipReadOk
                = some (FatFile.DirCacheOut.mk (some (f.curPosition / 32 % 16))
                    { r.file with curPosition := (f.curPosition + 32) % U32 } r.part))
          ∧ (r.ret ≠ 1 →
              FatFile.readDirCache (fuel + 1) f p skipReadOk
                  = some (FatFile.DirCacheOut.mk none r.file r.part)
                ∧ r.file.curPosition = f.curPosition)) :=
  readDirCache_cases fuel f p skipReadOk

/-- At slot 1 with `skipReadOk` true no read is made: slot 1 is returned, the
position is 64 and the partition, whose cache is empty, is as it was. -/
theorem readDirCache_read_rule_witness :
    (atSlotOne.curPosition / 32 % 16 ≠ 0 ∧ true = true)
      ∧ FatFile.readDirCache 1 atSlotOne (dirVolume fullDirData) true
          = some (FatFile.DirCacheOut.mk (some 1) { atSlotOne with curPosition := 64 }
              (dirVolume fullDirData)) :=
  ⟨⟨by decide, rfl⟩,
   (readDirCache_read_rule 1 atSlotOne (dirVolume fullDirData) true).1 ⟨by decide, rfl⟩⟩

/-- C26 (as stated, refuted): at slot 1 (`i != 0`) with `skipReadOk` true the
read is not performed, the cache stays empty and no device call is logged; at
slot 0 (`i = 0`) with `skipReadOk` true the read is performed and loads sector
100 into the cache. -/
theorem readDirCache_read_rule_counterexample :
    (FatFile.readDirCache 1 atSlotOne (dirVolume fullDirData) true).map
        (fun r => (r.slot, r.file.curPosition, r.part.cacheSector, r.part.log))
      = some (some 1, 64, 4294967295, [])
    ∧ (FatFile.readDirCache 1 subdirHandle (dirVolume fullDirData) true).map
        (fun r => (r.slot, r.file.curPosition, r.part.cacheSector, r.part.cacheData 96))
      = some (some 0, 32, 100, 65) := by
  decide

end ReadDirCacheRule

section ReadFrame

/-- One iteration of the loop of `read` leaves the mount data and the FAT of
the partition as they were. -/
theorem readStep_dataStep (f : FatFile) (p : FatPartition) (toRead : Nat) (e : FatFile.Step) :
    FatFile.readStep f p toRead = e →
    match e with
    | FatFile.Step.next _ q _ _ => DataStep p q
    | FatFile.Step.stop _ q => DataStep p q
    | FatFile.Step.fail _ q => DataStep p q := by
  intro h
  unfold FatFile.readStep at h
  dsimp only at h
  split at h
  · subst h; exact DataStep.refl p
  · subst h; exact DataStep.refl p
  · rename_i f1 sector soc hloc
    unfold FatFile.readTransfer at h
    split at h
    · unfold FatFile.readCached at h
      dsimp only at h
      have := cacheFetchData_dataStep p sector CacheMode.forRead
      split at h <;> rename_i hc <;> rw [hc] at this <;> subst h <;> exact this
    · split at h
      · unfold FatFile.readMulti at h
        dsimp only at h
        split at h
        · rename_i p1 hfl
          have h1 : DataStep p p1 := by
            split at hfl
            · have := cacheSyncData_dataStep p
              rw [hfl] at this
              exact this
            · cases hfl
          subst h
          exact h1
        · rename_i p1 hfl
          have h1 : DataStep p p1 := by
            split at hfl
            · have := cacheSyncData_dataStep p
              rw [hfl] at this
              exact this
            · cases hfl
              exact DataStep.refl p
          have h2 := readSectors_dataStep p1 sector (FatFile.readSectorCount f1 p toRead soc)
          split at h <;> rename_i hc <;> rw [hc] at h2 <;> subst h <;> exact h1.trans h2
      · unfold FatFile.readSingle at h
        have := readSector_dataStep p sector
        split at h <;> rename_i hc <;> rw [hc] at this <;> subst h <;> exact this

/-- The loop of `read` leaves the mount data and the FAT of the partition as
they were. -/
theorem readLoop_dataStep (fuel : Nat) :
    ∀ (f : FatFile) (p : FatPartition) (toRead : Nat) (out : List Nat) (e : FatFile.LoopEnd),
      FatFile.readLoop fuel f p toRead out = some e →
      match e with
      | FatFile.LoopEnd.ok _ q _ _ => DataStep p q
      | FatFile.LoopEnd.failed _ q _ => DataStep p q := by
  induction fuel with
  | zero =>
    intro f p toRead out e h
    unfold FatFile.readLoop at h
    split at h
    · cases h; exact DataStep.refl p
    · cases h
  | succ fuel ih =>
    intro f p toRead out e h
    unfold FatFile.readLoop at h
    split at h
    · cases h; exact DataStep.refl p
    · split at h
      · rename_i f1 p1 hstep
        have hs := readStep_dataStep f p toRead _ hstep
        cases h
        exact hs
      · rename_i f1 p1 hstep
        have hs := readStep_dataStep f p toRead _ hstep
        cases h
        exact hs
      · rename_i f1 p1 n chunk hstep
        have hs := readStep_dataStep f p toRead _ hstep
        have := ih _ _ _ _ e h
        cases e with
        | ok g q rest o => exact DataStep.trans hs this
        | failed g q o => exact DataStep.trans hs this

/-- A call of `read` leaves the mount data and the FAT of the partition as
they were. -/
theorem read_dataStep (fuel : Nat) (f : FatFile) (p : FatPartition) (nbyte : Nat)
    (r : FatFile.ReadOut) (h : f.read fuel p nbyte = some r) : DataStep p r.part := by
  unfold FatFile.read at h
  split at h
  · cases h; exact DataStep.refl p
  · dsimp only at h
    rcases hl : FatFile.readLoop fuel f p (FatFile.readClamp f p nbyte) [] with _ | e
    · rw [hl] at h; cases h
    · rw [hl] at h
      have := readLoop_dataStep fuel _ _ _ _ e hl
      cases e with
      | ok g q rest o => cases h; exact this
      | failed g q o => cases h; exact this

end ReadFrame

section DirectoryAlignment

/-- The clamp of a 32-byte `read` on a directory at an aligned position is 32
or 0. -/
theorem readClamp_dir (f : FatFile) (p : FatPartition) (hdir : f.isDir = true)
    (hal : f.curPosition % 32 = 0) :
    FatFile.readClamp f p 32 = 32 ∨ FatFile.readClamp f p 32 = 0 := by
  unfold FatFile.readClamp
  have hk : f.kind = FileKind.subdir ∨ f.kind = FileKind.rootFixed ∨ f.kind = FileKind.root32 := by
    simpa [FatFile.isDir] using hdir
  have hfile : f.isFile = false := by
    rcases hk with h | h | h <;> simp [FatFile.isFile, h]
  rw [hfile]
  simp only [Bool.false_eq_true, if_false]
  split
  · split <;> omega
  · exact Or.inl rfl

/-- An aligned position leaves room for a whole 32-byte entry in its sector. -/
theorem aligned_fit (p : FatPartition) (x : Nat) (hS : 5 ≤ p.bytesPerSectorShift)
    (hal : x % 32 = 0) : 32 + x % p.bytesPerSector ≤ p.bytesPerSector := by
  obtain ⟨m, hm, hb⟩ : ∃ m, 0 < m ∧ p.bytesPerSector = 32 * m := by
    refine ⟨2 ^ (p.bytesPerSectorShift - 5), Nat.two_pow_pos _, ?_⟩
    unfold FatPartition.bytesPerSector
    have : p.bytesPerSectorShift = 5 + (p.bytesPerSectorShift - 5) := by omega
    conv_lhs => rw [this, Nat.pow_add]
  rw [hb, Nat.mod_mul, hal]
  have := Nat.mod_lt (x / 32) hm
  generalize x / 32 % m = k at this
  omega

/-- A `read` of 32 bytes on a directory at an aligned position: the handle
keeps every field but `curCluster`, the position and the READ_ERROR bit; the
position has advanced by 32 when the result is 32 and is where it was
otherwise. -/
theorem read_entry_pos (fuel : Nat) (f : FatFile) (p : FatPartition) (r : FatFile.ReadOut)
    (h : f.read fuel p 32 = some r) (hdir : f.isDir = true) (hal : f.curPosition % 32 = 0)
    (hS : 5 ≤ p.bytesPerSectorShift) :
    ∃ cc e pos, r.file = { f with curCluster := cc, curPosition := pos,
                                  error := { f.error with readError := e } }
      ∧ ((r.ret = 32 ∧ pos = (f.curPosition + 32) % U32 ∧ r.data.length = 32)
          ∨ ((r.ret = 0 ∨ r.ret = -1) ∧ pos = f.curPosition ∧ r.data = [])) := by
  have hfit := aligned_fit p f.curPosition hS hal
  have hN := readClamp_dir f p hdir hal
  obtain ⟨cc, e, pos, hf, hcase⟩ := read_one_step fuel f p 32 r h (by
    intro g q n chunk hstep
    exact readStep_whole _ _ _ _ _ _ _ hstep (by omega))
  refine ⟨cc, e, pos, hf, ?_⟩
  rcases hcase with ⟨hp, hr, hl, hpos⟩ | ⟨hp, hr, hd⟩
  · have h1 : FatFile.readClamp f p 32 = 32 := by omega
    rw [h1] at hp hr hl
    exact Or.inl ⟨by rw [hr]; decide, hp, hl⟩
  · exact Or.inr ⟨hr, hp, hd⟩

/-- The position of a handle after a wrapped advance by 32 is aligned when it
was. -/
theorem aligned_next (x : Nat) (hal : x % 32 = 0) : (x + 32) % U32 % 32 = 0 := by
  unfold U32
  omega

/-- The loop of `readDir` from an aligned position of a directory: when it
returns, the position is aligned, the result is 32, 0 or -1, and the result is
32 only with an entry in `*dir` that is a file or subdirectory whose first name
byte is none of 0x00, 0xE5 and `.`. -/
theorem readDirLoop_aligned (fuel : Nat) :
    ∀ (k : Nat) (f : FatFile) (p : FatPartition) (dir : Nat → Nat) (r : FatFile.ReadDirOut),
      FatFile.readDirLoop fuel k f p dir = some r →
      f.isDir = true → f.curPosition % 32 = 0 → 5 ≤ p.bytesPerSectorShift →
      r.file.curPosition % 32 = 0 ∧ r.file.isDir = true
        ∧ (r.ret = 32 ∨ r.ret = 0 ∨ r.ret = -1)
        ∧ (r.ret = 32 → isFileOrSubdir r.dir 0 = true
              ∧ r.dir 0 ≠ 0 ∧ r.dir 0 ≠ 229 ∧ r.dir 0 ≠ 46) := by
  intro k
  induction k with
  | zero =>
    intro f p dir r h
    unfold FatFile.readDirLoop at h
    cases h
  | succ k ih =>
    intro f p dir r h hdir hal hS
    unfold FatFile.readDirLoop at h
    rcases hr : f.read fuel p 32 with _ | ro
    · rw [hr] at h; cases h
    · rw [hr] at h
      dsimp only at h
      obtain ⟨cc, e, pos, hf, hcase⟩ := read_entry_pos fuel f p ro hr hdir hal hS
      have hpos : ro.file.curPosition = pos := by rw [hf]
      have hdir1 : ro.file.isDir = true := by
        rw [hf]; exact hdir
      have hal1 : ro.file.curPosition % 32 = 0 := by
        rw [hpos]
        rcases hcase with ⟨_, hp, _⟩ | ⟨_, hp, _⟩
        · rw [hp]; exact aligned_next _ hal
        · rw [hp]; exact hal
      have hm : ro.part.bytesPerSectorShift = p.bytesPerSectorShift :=
        congrArg Mount.bytesPerSectorShift (read_dataStep fuel f p 32 ro hr).1
      have hS1 : 5 ≤ ro.part.bytesPerSectorShift := by rw [hm]; exact hS
      generalize hx : (if 0 < ro.data.length then ro.data.getD 0 0 else dir 0) = x at h
      generalize hd : (fun i => if i < ro.data.length then ro.data.getD i 0 else dir i) = dir1 at h
      have hxd : dir1 0 = x := by rw [← hd, ← hx]
      by_cases h32 : ro.ret = 32
      · rw [if_neg (not_not.mpr h32)] at h
        by_cases hn0 : x = 0
        · rw [if_pos hn0] at h
          cases h
          exact ⟨hal1, hdir1, Or.inr (Or.inl rfl), fun h => by cases h⟩
        · rw [if_neg hn0] at h
          by_cases hskip : x = 229 ∨ x = 46
          · rw [if_pos hskip] at h
            exact ih _ _ _ _ h hdir1 hal1 hS1
          · rw [if_neg hskip] at h
            by_cases hfs : isFileOrSubdir dir1 0 = true
            · rw [if_pos hfs] at h
              cases h
              refine ⟨hal1, hdir1, Or.inl h32, fun _ => ⟨hfs, ?_, ?_, ?_⟩⟩
              · show dir1 0 ≠ 0
                rw [hxd]; exact hn0
              · show dir1 0 ≠ 229
                rw [hxd]; exact fun hx => hskip (Or.inl hx)
              · show dir1 0 ≠ 46
                rw [hxd]; exact fun hx => hskip (Or.inr hx)
            · rw [if_neg hfs] at h
              exact ih _ _ _ _ h hdir1 hal1 hS1
      · rw [if_pos h32] at h
        cases h
        refine ⟨hal1, hdir1, ?_, fun hx => ?_⟩
        · show (if ro.ret = 0 then (0 : Int) else -1) = 32
              ∨ (if ro.ret = 0 then (0 : Int) else -1) = 0
              ∨ (if ro.ret = 0 then (0 : Int) else -1) = -1
          split
          · exact Or.inr (Or.inl rfl)
          · exact Or.inr (Or.inr rfl)
        · exfalso
          have hx2 : (if ro.ret = 0 then (0 : Int) else -1) = 32 := hx
          split at hx2 <;> cases hx2

/-- C29: for an open directory at a position that is a multiple of 32 (sectors
of at least 32 bytes, position not at the very end of the 32-bit range):
`readDirCache` returns, the position is again a multiple of 32, and either it
returns slot `(curPosition / 32) mod 16` with the position advanced by 32 or it
returns the null pointer with the position where it was; whenever `readDir`
returns, the position is a multiple of 32, the result is 32, 0 or -1, and it is
32 only with an entry that is a file or subdirectory whose first name byte is
none of 0x00, 0xE5 and `.`. -/
theorem dir_positions_aligned (fuel : Nat) (f : FatFile) (p : FatPartition)
    (hdir : f.isDir = true) (hal : f.curPosition % 32 = 0) (hS : 5 ≤ p.bytesPerSectorShift)
    (hpos : f.curPosition + 32 < U32) :
    (∀ skipReadOk, ∃ r, FatFile.readDirCache (fuel + 1) f p skipReadOk = some r
        ∧ r.file.curPosition % 32 = 0
        ∧ ((r.slot = some (f.curPosition / 32 % 16) ∧ r.file.curPosition = f.curPosition + 32)
            ∨ (r.slot = none ∧ r.file.curPosition = f.curPosition)))
    ∧ (∀ dir r, FatFile.readDir fuel f p dir = some r →
        r.file.curPosition % 32 = 0
        ∧ (r.ret = 32 ∨ r.ret = 0 ∨ r.ret = -1)
        ∧ (r.ret = 32 → isFileOrSubdir r.dir 0 = true
              ∧ r.dir 0 ≠ 0 ∧ r.dir 0 ≠ 229 ∧ r.dir 0 ≠ 46)) := by
  have hmod : (f.curPosition + 32) % U32 = f.curPosition + 32 := Nat.mod_eq_of_lt hpos
  constructor
  · intro skip
    obtain ⟨hskip, hread⟩ := readDirCache_cases fuel f p skip
    by_cases hc : f.curPosition / 32 % 16 = 0 ∨ skip = false
    · obtain ⟨r, _, h1, h2⟩ := hread hc
      by_cases hr : r.ret = 1
      · refine ⟨_, h1 hr, ?_, Or.inl ⟨rfl, hmod⟩⟩
        show (f.curPosition + 32) % U32 % 32 = 0
        exact aligned_next _ hal
      · obtain ⟨h3, h4⟩ := h2 hr
        refine ⟨_, h3, ?_, Or.inr ⟨rfl, h4⟩⟩
        show r.file.curPosition % 32 = 0
        rw [h4]; exact hal
    · have hc2 : f.curPosition / 32 % 16 ≠ 0 ∧ skip = true := by
        constructor
        · exact fun h => hc (Or.inl h)
        · cases skip
          · exact absurd (Or.inr rfl) hc
          · rfl
      have h1 : FatFile.readDirCache (fuel + 1) f p skip = _ :=
        (readDirCache_cases (fuel + 1) f p skip).1 hc2
      refine ⟨_, h1, ?_, Or.inl ⟨rfl, hmod⟩⟩
      show (f.curPosition + 32) % U32 % 32 = 0
      exact aligned_next _ hal
  · intro dir r h
    unfold FatFile.readDir at h
    split at h
    · rename_i hbad
      rcases hbad with hbad | hbad
      · rw [hdir] at hbad; cases hbad
      · exfalso
        apply hbad
        have : f.curPosition &&& 31 = f.curPosition % 32 :=
          Nat.and_pow_two_sub_one_eq_mod _ 5
        rw [this, hal]
    · obtain ⟨h1, _, h3, h4⟩ := readDirLoop_aligned fuel fuel f p dir r h hdir hal hS
      exact ⟨h1, h3, h4⟩

/-- The subdirectory `subdirHandle` at position 0 of the volume
`dirVolume fullDirData`: `readDirCache(true)` returns slot 0 and moves to
position 32; `readDir` passes `.`, `..` and the deleted entry and returns 32
with the entry of `A.TXT`, at position 128. -/
theorem dir_positions_aligned_witness :
    (∃ r, FatFile.readDirCache 1 subdirHandle (dirVolume fullDirData) true = some r
        ∧ r.file.curPosition % 32 = 0
        ∧ ((r.slot = some (subdirHandle.curPosition / 32 % 16)
              ∧ r.file.curPosition = subdirHandle.curPosition + 32)
            ∨ (r.slot = none ∧ r.file.curPosition = subdirHandle.curPosition)))
    ∧ (FatFile.readDirCache 1 subdirHandle (dirVolume fullDirData) true).map
          (fun r => (r.slot, r.file.curPosition)) = some (some 0, 32)
    ∧ (FatFile.readDir 4 subdirHandle (dirVolume fullDirData) (fun _ => 0)).map
          (fun r => (r.ret, r.file.curPosition, r.dir 0, r.dir 11)) = some (32, 128, 65, 32) :=
  ⟨(dir_positions_aligned 0 subdirHandle (dirVolume fullDirData) (by decide) (by decide)
      (by decide) (by decide)).1 true, by decide, by decide⟩

end DirectoryAlignment

section Fgets

/-- The loop of `fgets`, entered with every earlier `read` having returned 1:
either it ends at once at the test `(n + 1) < num`, or at least one `read` was
made and the final value of `r` is negative exactly when a `read` returned a
negative value. -/
theorem fgetsLoop_reads (fuel : Nat) (num : Int) (delim : Option (List Nat)) :
    ∀ (k : Nat) (f : FatFile) (p : FatPartition) (str : List Nat) (r : Int) (reads : List Int)
      (f1 : FatFile) (p1 : FatPartition) (str1 : List Nat) (r1 : Int) (reads1 : List Int),
      FatFile.fgetsLoop fuel num delim k f p str r reads = some (f1, p1, str1, r1, reads1) →
      (∀ x ∈ reads, x = 1) → (reads ≠ [] → r = 1) →
      (reads1 = reads ∧ r1 = r ∧ ¬ ((str.length : Int) + 1 < num))
        ∨ (reads1 ≠ [] ∧ (r1 < 0 ↔ ∃ x ∈ reads1, x < 0)) := by
  intro k
  induction k with
  | zero =>
    intro f p str r reads f1 p1 str1 r1 reads1 h
    unfold FatFile.fgetsLoop at h
    cases h
  | succ k ih =>
    intro f p str r reads f1 p1 str1 r1 reads1 h hall hr
    unfold FatFile.fgetsLoop at h
    by_cases hfull : (str.length : Int) + 1 < num
    · rw [if_neg (not_not.mpr hfull)] at h
      rcases hro : f.read fuel p 1 with _ | ro
      · rw [hro] at h; cases h
      · rw [hro] at h
        dsimp only at h
        have hall1 : ∀ x ∈ reads ++ [ro.ret], ro.ret = 1 → x = 1 := by
          intro x hx h1
          rcases List.mem_append.mp hx with hx | hx
          · exact hall x hx
          · rw [List.mem_singleton.mp hx]; exact h1
        have hne : reads ++ [ro.ret] ≠ [] := by simp
        have hdone : ∀ (s : List Nat), ro.ret = 1 →
            (reads ++ [ro.ret] ≠ [] ∧ (ro.ret < 0 ↔ ∃ x ∈ reads ++ [ro.ret], x < 0)) := by
          intro _ h1
          refine ⟨hne, ⟨fun hlt => ⟨ro.ret, by simp, hlt⟩, ?_⟩⟩
          rintro ⟨x, hx, hlt⟩
          rw [hall1 x hx h1] at hlt
          rw [h1]
          exact hlt
        have hrec : ∀ (s : List Nat), ro.ret = 1 →
            FatFile.fgetsLoop fuel num delim k ro.file ro.part s ro.ret (reads ++ [ro.ret])
              = some (f1, p1, str1, r1, reads1) →
            (reads1 ≠ [] ∧ (r1 < 0 ↔ ∃ x ∈ reads1, x < 0)) := by
          intro s h1 hs
          rcases ih _ _ _ _ _ _ _ _ _ _ hs (fun x hx => hall1 x hx h1) (fun _ => h1) with
            ⟨e1, e2, _⟩ | h2
          · rw [e1, e2]
            exact hdone s h1
          · exact h2
        by_cases h1 : ro.ret = 1
        · rw [if_neg (not_not.mpr h1)] at h
          by_cases hcr : ro.data.headD 0 = 13
          · rw [if_pos hcr] at h
            exact Or.inr (hrec _ h1 h)
          · rw [if_neg hcr] at h
            by_cases hdl : FatFile.isDelim delim (ro.data.headD 0) = true
            · rw [if_pos hdl] at h
              simp only [Option.some.injEq, Prod.mk.injEq] at h
              obtain ⟨_, _, _, e4, e5⟩ := h
              rw [← e4, ← e5]
              exact Or.inr (hdone [] h1)
            · rw [if_neg hdl] at h
              exact Or.inr (hrec _ h1 h)
        · rw [if_pos h1] at h
          simp only [Option.some.injEq, Prod.mk.injEq] at h
          obtain ⟨_, _, _, e4, e5⟩ := h
          rw [← e4, ← e5]
          refine Or.inr ⟨hne, ⟨fun hlt => ⟨ro.ret, by simp, hlt⟩, ?_⟩⟩
          rintro ⟨x, hx, hlt⟩
          rcases List.mem_append.mp hx with hx | hx
          · rw [hall x hx] at hlt
            exact absurd hlt (by decide)
          · rw [List.mem_singleton.mp hx] at hlt
            exact hlt
    · rw [if_pos hfull] at h
      simp only [Option.some.injEq, Prod.mk.injEq] at h
      obtain ⟨_, _, _, e4, e5⟩ := h
      exact Or.inl ⟨e5.symm, e4.symm, hfull⟩

/-- C22 (divergence): for `num <= 1` the function `fgets` returns -1 although
no `read` was made: the handle and the partition are as they were and the
terminator is not stored.  For `num >= 2` the claim holds: at least one `read`
is made, the result is -1 exactly when a `read` returned a negative value, and
otherwise it is the number of characters stored, with the terminator behind
them. -/
theorem fgets_minus_one_without_read (fuel : Nat) (f : FatFile) (p : FatPartition) (num : Int)
    (delim : Option (List Nat)) :
    (num ≤ 1 →
        FatFile.fgets (fuel + 1) f p num delim
          = some { file := f, part := p, ret := -1, str := [], terminated := false, reads := [] })
    ∧ (2 ≤ num → ∀ out, FatFile.fgets fuel f p num delim = some out →
        out.reads ≠ [] ∧ (out.ret = -1 ↔ ∃ x ∈ out.reads, x < 0)
          ∧ (out.ret ≠ -1 → out.ret = (out.str.length : Int) ∧ out.terminated = true)) := by
  constructor
  · intro h1
    unfold FatFile.fgets FatFile.fgetsLoop
    rw [if_pos (by simp only [List.length_nil]; omega)]
    simp
  · intro h2 out h
    unfold FatFile.fgets at h
    rcases hl : FatFile.fgetsLoop fuel num delim fuel f p [] (-1) [] with _ | ⟨f1, p1, str, r, reads⟩
    · rw [hl] at h; cases h
    · rw [hl] at h
      dsimp only at h
      rcases fgetsLoop_reads fuel num delim fuel f p [] (-1) [] f1 p1 str r reads hl
          (by simp) (by simp) with ⟨_, _, h3⟩ | ⟨hne, hiff⟩
      · exfalso
        apply h3
        simp only [List.length_nil]
        omega
      · by_cases hr : r < 0
        · rw [if_pos hr] at h
          cases h
          exact ⟨hne, ⟨fun _ => hiff.mp hr, fun _ => rfl⟩, fun hx => absurd rfl hx⟩
        · rw [if_neg hr] at h
          cases h
          refine ⟨hne, ⟨fun hx => ?_, fun hx => absurd (hiff.mpr hx) hr⟩, fun _ => ⟨rfl, rfl⟩⟩
          exfalso
          have : (0 : Int) ≤ (str.length : Int) := Int.natCast_nonneg _
          have hx2 : (str.length : Int) = -1 := hx
          omega

/-- With `num = 1` on the file `threeSectorFile`, which is open for reading and
has 1025 bytes, `fgets` returns -1 and makes no `read`; with `num = 3` it
makes two reads, stores two characters and returns 2. -/
theorem fgets_minus_one_without_read_witness :
    FatFile.fgets 1 threeSectorFile chainPartition 1 none
        = some { file := threeSectorFile, part := chainPartition, ret := -1, str := [],
                 terminated := false, reads := [] }
    ∧ (FatFile.fgets 3 threeSectorFile chainPartition 3 none).map
        (fun o => (o.ret, o.str, o.terminated, o.reads, o.file.curPosition))
        = some (2, [0, 0], true, [1, 1], 2) :=
  ⟨(fgets_minus_one_without_read 0 threeSectorFile chainPartition 1 none).1 (by decide),
   by decide⟩

end Fgets

section ReadAgain

/-- The sector search of `read` depends on the partition only through the
mount data and the FAT. -/
theorem readLocate_congr (f : FatFile) (p q : FatPartition) (off : Nat)
    (hm : q.toMount = p.toMount) (hf : q.fat = p.fat) :
    FatFile.readLocate f q off = FatFile.readLocate f p off := by
  have e1 : q.rootDirStart = p.rootDirStart := congrArg Mount.rootDirStart hm
  have e2 : q.clusterStartSector = p.clusterStartSector := congrArg Mount.clusterStartSector hm
  have e3 : q.bytesPerSectorShift = p.bytesPerSectorShift :=
    congrArg Mount.bytesPerSectorShift hm
  unfold FatFile.readLocate
  simp only [e1, e2, e3, sectorOfCluster_congr p q hm, fatGet_congr p q hm hf]

/-- The clamp of `read` depends on the partition only through the mount data. -/
theorem readClamp_congr (f : FatFile) (p q : FatPartition) (nbyte : Nat)
    (hm : q.toMount = p.toMount) :
    FatFile.readClamp f q nbyte = FatFile.readClamp f p nbyte := by
  have e1 : q.rootDirEntryCount = p.rootDirEntryCount := congrArg Mount.rootDirEntryCount hm
  unfold FatFile.readClamp
  simp only [e1]

/-- A fetch of the resident sector succeeds. -/
theorem cacheFetchData_hit (p : FatPartition) (sector : Nat) (mode : CacheMode)
    (h : p.cacheSector = sector) : ∃ q, p.cacheFetchData sector mode = (true, q) := by
  unfold FatPartition.cacheFetchData
  dsimp only
  rw [if_pos (show (p.logCall (Call.cacheFetchData sector mode)).cacheSector = sector from h)]
  exact ⟨_, rfl⟩

/-- An iteration of the loop of `read` for one byte that delivered the byte
delivers the same byte when it is repeated on the partition it left. -/
theorem readStep_again (f g : FatFile) (p q : FatPartition) (n : Nat) (chunk : Nat → Nat)
    (h : FatFile.readStep f p 1 = FatFile.Step.next g q n chunk) :
    ∃ q2 chunk2, FatFile.readStep f q 1 = FatFile.Step.next g q2 n chunk2
      ∧ chunk2 0 = chunk 0 := by
  have hds := readStep_dataStep f p 1 _ h
  have hm : q.toMount = p.toMount := hds.1
  have hf : q.fat = p.fat := hds.2.1
  have hbps := bytesPerSector_congr p q hm
  have hpos := bytesPerSector_pos p
  unfold FatFile.readStep at h ⊢
  dsimp only at h ⊢
  rw [sectorMask_congr p q hm, readLocate_congr f p q _ hm hf]
  split at h
  · cases h
  · cases h
  · rename_i f1 sector soc hloc
    unfold FatFile.readTransfer at h
    split at h
    · unfold FatFile.readCached at h
      dsimp only at h
      split at h
      · cases h
      · rename_i p1 hfetch
        cases h
        obtain ⟨_, _, hcs, _, _, _, _⟩ := cacheFetchData_stored p q sector _ hfetch
        obtain ⟨q2, hq2⟩ := cacheFetchData_hit q sector CacheMode.forRead hcs
        obtain ⟨_, _, _, _, hdata, _, _⟩ := cacheFetchData_stored q q2 sector _ hq2
        unfold FatFile.readTransfer
        rw [if_pos (Or.inr (Or.inr (show sector = q.cacheSectorNumber from hcs.symm)))]
        unfold FatFile.readCached
        dsimp only
        rw [hq2]
        dsimp only
        have hpc : FatFile.partCount q (f.curPosition &&& p.sectorMask) 1
            = FatFile.partCount p (f.curPosition &&& p.sectorMask) 1 := by
          unfold FatFile.partCount
          rw [hbps]
        rw [hpc]
        refine ⟨q2, fun i => q2.cacheData ((f.curPosition &&& p.sectorMask) + i), rfl, ?_⟩
        show q2.cacheData _ = q.cacheData _
        rw [hdata hcs]
    · rename_i hc
      split at h
      · omega
      · unfold FatFile.readSingle at h
        split at h
        · cases h
        · rename_i p1 hrs
          cases h
          unfold FatPartition.readSector at hrs
          simp only [Prod.mk.injEq] at hrs
          obtain ⟨hb, hq⟩ := hrs
          have hcsn : q.cacheSectorNumber = p.cacheSectorNumber := by
            rw [← hq]; rfl
          have hbad : q.badSector sector = p.badSector sector := by
            rw [← hq]; rfl
          unfold FatFile.readTransfer
          rw [if_neg (by rw [hbps, hcsn]; exact hc), if_neg (by rw [hbps]; omega)]
          unfold FatFile.readSingle FatPartition.readSector
          rw [hbad, hb]
          dsimp only
          refine ⟨_, _, rfl, ?_⟩
          dsimp only
          rw [← hq]
          rfl

/-- A `read` of one byte that returns 1 went through one iteration of the
loop, which delivered the byte; the handle it leaves differs from the old one
in `curCluster` and the position only. -/
theorem read_byte_shape (fuel : Nat) (f : FatFile) (p : FatPartition) (r : FatFile.ReadOut)
    (h : f.read fuel p 1 = some r) (h1 : r.ret = 1) :
    ¬ (f.isOpen = false ∨ f.flags.read = false) ∧ FatFile.readClamp f p 1 = 1
      ∧ ∃ cc chunk, FatFile.readStep f p 1
            = FatFile.Step.next { f with curCluster := cc } r.part 1 chunk
          ∧ r.file = { f with curCluster := cc, curPosition := (f.curPosition + 1) % U32 }
          ∧ r.data = [chunk 0] := by
  have hle := readClamp_le f p 1
  have hoff : f.curPosition % p.bytesPerSector < p.bytesPerSector :=
    Nat.mod_lt _ (bytesPerSector_pos p)
  unfold FatFile.read at h
  by_cases hopen : f.isOpen = false ∨ f.flags.read = false
  · rw [if_pos hopen] at h
    cases h
    cases h1
  · rw [if_neg hopen] at h
    dsimp only at h
    refine ⟨hopen, ?_⟩
    generalize hN : FatFile.readClamp f p 1 = N at h hle
    have hzero : toInt32 (N - N) = 0 := by simp [toInt32]
    have hN0 : N = 0 → False := by
      intro h0
      subst h0
      rw [readLoop_zero] at h
      cases h
      cases h1
    have hN1 : N = 1 := by
      rcases Nat.eq_zero_or_pos N with h0 | h0
      · exact absurd h0 hN0
      · omega
    subst hN1
    refine ⟨rfl, ?_⟩
    cases fuel with
    | zero =>
      unfold FatFile.readLoop at h
      simp at h
    | succ k =>
      unfold FatFile.readLoop at h
      rw [if_neg (by decide)] at h
      rcases hstep : FatFile.readStep f p 1 with ⟨g, q, n, chunk⟩ | ⟨g, q⟩ | ⟨g, q⟩
      · rw [hstep] at h
        dsimp only at h
        have hn := readStep_whole _ _ _ _ _ _ _ hstep (by omega)
        subst hn
        obtain ⟨⟨cc, rfl⟩, _⟩ := readStep_next _ _ _ _ _ _ _ hstep
        rw [Nat.sub_self, readLoop_zero] at h
        cases h
        exact ⟨cc, chunk, rfl, rfl, rfl⟩
      · rw [hstep] at h
        cases h
        rw [hzero] at h1
        cases h1
      · rw [hstep] at h
        cases h
        cases h1

/-- A `read` of one byte that returned 1, repeated from the old position and
cluster on the partition it left, returns 1 and delivers the same byte. -/
theorem read_byte_again (fuel k : Nat) (f : FatFile) (p : FatPartition) (r : FatFile.ReadOut)
    (h : f.read fuel p 1 = some r) (h1 : r.ret = 1) :
    { r.file with curPosition := f.curPosition, curCluster := f.curCluster } = f
      ∧ ∃ r2, f.read (k + 1) r.part 1 = some r2 ∧ r2.ret = 1 ∧ r2.data = r.data
          ∧ ∃ b, r.data = [b] := by
  obtain ⟨hopen, hN, cc, chunk, hstep, hfile, hdata⟩ := read_byte_shape fuel f p r h h1
  have hm : r.part.toMount = p.toMount := (read_dataStep fuel f p 1 r h).1
  obtain ⟨q2, chunk2, hstep2, hch⟩ := readStep_again _ _ _ _ _ _ hstep
  refine ⟨by rw [hfile], ?_⟩
  unfold FatFile.read
  rw [if_neg hopen]
  dsimp only
  rw [readClamp_congr f p r.part 1 hm, hN]
  unfold FatFile.readLoop
  rw [if_neg (by decide), hstep2]
  dsimp only
  rw [Nat.sub_self, readLoop_zero]
  refine ⟨_, rfl, ?_, ?_, chunk 0, hdata⟩
  · show toInt32 (1 - 0) = 1
    decide
  · rw [hdata]
    show [chunk2 0] = [chunk 0]
    rw [hch]

end ReadAgain

section Peek

/-- A `read` of one byte of a regular file whose bytes `B` are stored, at a
position before the end of the file: it returns 1 and delivers the byte of the
file at the position. -/
theorem read_byte_file (fuel : Nat) (f : FatFile) (p : FatPartition) (L : Nat) (B : Nat → Nat)
    (hkind : f.kind = FileKind.file) (hread : f.flags.read = true)
    (hbad : ∀ s, p.badSector s = false)
    (hchain : ChainLen p f.firstCluster L) (hfit : f.fileSize ≤ L * p.bytesPerCluster)
    (hcur : f.curPosition ≠ 0 →
        clusterAt p f.firstCluster ((f.curPosition - 1) / p.bytesPerCluster)
          = some f.curCluster)
    (hlt : f.curPosition < f.fileSize) (hu : f.fileSize < U32)
    (hfile : FileHolds p f.firstCluster B f.fileSize) :
    ∃ r, f.read (fuel + 1) p 1 = some r ∧ r.ret = 1 ∧ r.data = [B f.curPosition] := by
  have hS := bytesPerSector_pos p
  have hBpc := bytesPerCluster_pos p
  have hN : FatFile.readClamp f p 1 = 1 := by
    unfold FatFile.readClamp
    rw [if_pos (by simp [FatFile.isFile, hkind])]
    have : sub32 f.fileSize f.curPosition = f.fileSize - f.curPosition := by
      unfold sub32
      unfold U32 at hu ⊢
      omega
    dsimp only
    rw [this]
    split <;> omega
  have hidx : f.curPosition / p.bytesPerCluster < L :=
    (Nat.div_lt_iff_lt_mul hBpc).2 (by omega)
  obtain ⟨c, hc, hloc⟩ := readLocate_spec f p L hkind hchain hcur hidx
  obtain ⟨c2, hc2, hst⟩ := hfile f.curPosition hlt
  have hcc : c2 = c := by
    rw [hc] at hc2
    cases hc2
    rfl
  subst hcc
  have hstep : ∃ q chunk, FatFile.readStep f p 1
        = FatFile.Step.next { f with curCluster := c2 } q 1 chunk
      ∧ chunk 0 = B f.curPosition := by
    unfold FatFile.readStep
    dsimp only
    rw [hloc]
    dsimp only
    rw [land_sectorMask]
    have hoff : f.curPosition % p.bytesPerSector < p.bytesPerSector := Nat.mod_lt _ hS
    unfold FatFile.readTransfer
    by_cases hcond : f.curPosition % p.bytesPerSector ≠ 0 ∨ 1 < p.bytesPerSector
        ∨ dataSector p c2 f.curPosition = p.cacheSectorNumber
    · rw [if_pos hcond]
      obtain ⟨q, hq⟩ := cacheFetchData_ok p hbad (dataSector p c2 f.curPosition)
        CacheMode.forRead
      obtain ⟨_, _, hcs, _, _, _, hkeep⟩ := cacheFetchData_stored p q _ _ hq
      unfold FatFile.readCached
      dsimp only
      rw [hq]
      dsimp only
      have hpc : FatFile.partCount p (f.curPosition % p.bytesPerSector) 1 = 1 := by
        unfold FatFile.partCount
        dsimp only
        split <;> omega
      rw [hpc]
      refine ⟨q, _, rfl, ?_⟩
      exact (hkeep _ _ _ hst (Or.inl rfl)).1 hcs
    · rw [if_neg hcond, if_neg (by omega)]
      have h0 : f.curPosition % p.bytesPerSector = 0 := by
        by_contra hne
        exact hcond (Or.inl hne)
      have h1 : p.bytesPerSector = 1 := by
        have : ¬ 1 < p.bytesPerSector := fun hx => hcond (Or.inr (Or.inl hx))
        omega
      have hns : p.cacheSector ≠ dataSector p c2 f.curPosition :=
        fun hx => hcond (Or.inr (Or.inr hx.symm))
      unfold FatFile.readSingle
      rw [readSector_ok p hbad]
      dsimp only
      refine ⟨_, _, by rw [← h1]; rfl, ?_⟩
      rw [h0] at hst
      rcases hst.2 with ⟨hx, _⟩ | hx
      · exact absurd hx hns
      · exact hx
  obtain ⟨q, chunk, hs, hch⟩ := hstep
  unfold FatFile.read
  rw [if_neg (by simp [FatFile.isOpen, hkind, hread])]
  dsimp only
  rw [hN]
  unfold FatFile.readLoop
  rw [if_neg (by decide), hs]
  dsimp only
  rw [Nat.sub_self, readLoop_zero]
  refine ⟨_, rfl, ?_, ?_⟩
  · show toInt32 (1 - 0) = 1
    decide
  · show [chunk 0] = [B f.curPosition]
    rw [hch]

/-- C25: `peek` returns with any positive iteration budget and, whatever it
returns, `curPosition` and `curCluster` are those before the call; the result
is -1 or a value in 0..255; when it is not -1, the next one-byte `read()` on
the state that `peek` left returns the same value; and on a regular file open
for reading whose bytes `B` are stored (no unreadable sector, well-formed
chain, position/cluster invariant) with a byte at the position, the result is
that byte, `B curPosition`, as a value in 0..255. -/
theorem peek_restores (fuel : Nat) (f : FatFile) (p : FatPartition) :
    ∃ c g q, f.peek (fuel + 1) p = some (c, g, q)
      ∧ g.curPosition = f.curPosition ∧ g.curCluster = f.curCluster
      ∧ (c = -1 ∨ (0 ≤ c ∧ c ≤ 255))
      ∧ (c ≠ -1 → ∀ k, ∃ g2 q2, g.readByte (k + 1) q = some (c, g2, q2))
      ∧ (∀ L B, f.kind = FileKind.file → f.flags.read = true →
          (∀ s, p.badSector s = false) →
          ChainLen p f.firstCluster L → f.fileSize ≤ L * p.bytesPerCluster →
          (f.curPosition ≠ 0 →
            clusterAt p f.firstCluster ((f.curPosition - 1) / p.bytesPerCluster)
              = some f.curCluster) →
          f.curPosition < f.fileSize → f.fileSize < U32 →
          FileHolds p f.firstCluster B f.fileSize →
          c = ((B f.curPosition % 256 : Nat) : Int)) := by
  obtain ⟨r, hr⟩ := read_byte_total fuel f p
  have hpeek : f.peek (fuel + 1) p
      = some (if r.ret = 1 then ((r.data.headD 0 % 256 : Nat) : Int) else -1,
          { r.file with curPosition := f.curPosition, curCluster := f.curCluster }, r.part) := by
    unfold FatFile.peek FatFile.readByte
    rw [hr]
  refine ⟨_, _, _, hpeek, rfl, rfl, ?_, ?_, ?_⟩
  · by_cases h1 : r.ret = 1
    · rw [if_pos h1]
      right
      have := Nat.mod_lt (r.data.headD 0) (show 0 < 256 by decide)
      omega
    · rw [if_neg h1]
      exact Or.inl rfl
  · intro hc k
    by_cases h1 : r.ret = 1
    · obtain ⟨hg, r2, hr2, h21, hd, _⟩ := read_byte_again (fuel + 1) k f p r hr h1
      rw [hg]
      unfold FatFile.readByte
      rw [hr2]
      dsimp only
      rw [if_pos h1, if_pos h21, hd]
      exact ⟨_, _, rfl⟩
    · rw [if_neg h1] at hc
      exact absurd rfl hc
  · intro L B hkind hread hbad hchain hfit hcur hlt hu hfile
    obtain ⟨r2, hr2, h21, hd⟩ :=
      read_byte_file fuel f p L B hkind hread hbad hchain hfit hcur hlt hu hfile
    rw [hr] at hr2
    cases hr2
    rw [if_pos h21, hd]
    rfl

/-- The file `peekFile` on `dirVolume fullDirData`: `peek` returns the byte 65
at position 96 and leaves position 96 and cluster 2; the `read()` after it
returns 65 too and moves to position 97. -/
theorem peek_restores_witness :
    (∃ c g q, peekFile.peek 1 (dirVolume fullDirData) = some (c, g, q)
        ∧ g.curPosition = peekFile.curPosition ∧ g.curCluster = peekFile.curCluster
        ∧ (c = -1 ∨ (0 ≤ c ∧ c ≤ 255)))
    ∧ (peekFile.peek 1 (dirVolume fullDirData)).map
        (fun x => (x.1, x.2.1.curPosition, x.2.1.curCluster)) = some (65, 96, 2)
    ∧ ((peekFile.peek 1 (dirVolume fullDirData)).bind
          (fun x => x.2.1.readByte 1 x.2.2)).map
        (fun x => (x.1, x.2.1.curPosition)) = some (65, 97) := by
  obtain ⟨c, g, q, h1, h2, h3, h4, _⟩ := peek_restores 0 peekFile (dirVolume fullDirData)
  exact ⟨⟨c, g, q, h1, h2, h3, h4⟩, by decide, by decide⟩

end Peek

section DirectoryCap

/-- The zeroing loop of `addDirCluster` leaves the mount data and the FAT as
they were. -/
theorem zeroSectors_dataStep (sector : Nat) :
    ∀ (count i : Nat) (p : FatPartition), DataStep p (FatFile.zeroSectors sector count i p).2 := by
  intro count
  induction count with
  | zero =>
    intro i p
    exact DataStep.refl p
  | succ count ih =>
    intro i p
    unfold FatFile.zeroSectors
    have h1 := writeSector_dataStep p (sector + i) p.cacheData
    rcases hw : p.writeSector (sector + i) p.cacheData with ⟨ok, p1⟩
    rw [hw] at h1
    cases ok
    · exact h1
    · exact h1.trans (ih (i + 1) p1)

/-- The zeroing loop of `addDirCluster` succeeds when no sector is unwritable. -/
theorem zeroSectors_ok (sector : Nat) :
    ∀ (count i : Nat) (p : FatPartition), (∀ s, p.badSector s = false) →
      (FatFile.zeroSectors sector count i p).1 = true := by
  intro count
  induction count with
  | zero =>
    intro i p _
    rfl
  | succ count ih =>
    intro i p hbad
    unfold FatFile.zeroSectors
    have h1 := writeSector_dataStep p (sector + i) p.cacheData
    rcases hw : p.writeSector (sector + i) p.cacheData with ⟨ok, p1⟩
    rw [hw] at h1
    have hbad1 : ∀ s, p1.badSector s = false := by
      intro s
      rw [show p1.badSector = p.badSector from congrArg Mount.badSector h1.1]
      exact hbad s
    have hok : ok = true := by
      have := congrArg Prod.fst hw
      unfold FatPartition.writeSector at this
      dsimp only at this
      rw [show (p.logCall (Call.writeSector (sector + i))).badSector (sector + i)
        = p.badSector (sector + i) from rfl, hbad] at this
      exact this.symm
    subst hok
    exact ih (i + 1) p1 hbad1

/-- A successful `addDirCluster`: the handle is not the fixed root, the position
was below the cap `512 * 4095`, a cluster was allocated, and the position has
advanced by `bytesPerCluster`. -/
theorem addDirCluster_true (f g : FatFile) (p q : FatPartition)
    (h : f.addDirCluster p = (true, g, q)) :
    f.isRootFixed = false ∧ f.curPosition < 512 * 4095 ∧ q.toMount = p.toMount
      ∧ g.curPosition = (f.curPosition + p.bytesPerCluster) % U32
      ∧ g.kind = f.kind
      ∧ p.allocCalls < q.allocCalls := by
  unfold FatFile.addDirCluster at h
  by_cases hroot : f.isRootFixed = true
  · rw [if_pos hroot] at h; cases h
  · rw [if_neg hroot] at h
    by_cases hcap : f.curPosition ≥ 512 * 4095
    · rw [if_pos hcap] at h; cases h
    · rw [if_neg hcap] at h
      have hfr := allocateCluster_frame p f.setDirDirty.curCluster
      unfold FatFile.addCluster at h
      dsimp only at h
      rcases ha : p.allocateCluster f.setDirDirty.curCluster with ⟨ok, p1, c⟩
      rw [ha] at h hfr
      dsimp only at h hfr
      cases ok
      · cases h
      · dsimp only at h
        have h2 := cacheFetchData_dataStep p1 (p1.clusterStartSector c)
          CacheMode.reserveForWrite
        rcases hc : p1.cacheFetchData (p1.clusterStartSector c) CacheMode.reserveForWrite
          with ⟨ok2, p2⟩
        rw [hc] at h h2
        cases ok2
        · cases h
        · dsimp only at h
          split at h
          · cases h
          · rename_i p4 hz
            simp only [Prod.mk.injEq] at h
            obtain ⟨_, hg, hq⟩ := h
            subst hq
            have h34 : DataStep p2 p4 := by
              have := zeroSectors_dataStep (p1.clusterStartSector c)
                (FatPartition.sectorsPerCluster p2 - 1) 1
                (FatPartition.mk p2.toMount p2.fat p2.dev p2.cacheSector p2.cacheDirty
                  (memcpyAt p2.cacheData 0 p2.bytesPerSector (fun _ => 0)) p2.log)
              rw [show FatFile.zeroSectors (p1.clusterStartSector c)
                  (FatPartition.sectorsPerCluster p2 - 1) 1
                  (FatPartition.mk p2.toMount p2.fat p2.dev p2.cacheSector p2.cacheDirty
                    (memcpyAt p2.cacheData 0 p2.bytesPerSector (fun _ => 0)) p2.log)
                  = (true, p4) from hz] at this
              exact this
            have hds : DataStep p1 p4 := h2.trans h34
            have hm : p4.toMount = p.toMount := hds.1.trans hfr.1
            refine ⟨by simpa using hroot, by omega, hm, ?_, ?_, ?_⟩
            · rw [← hg, bytesPerCluster_congr p p4 hm]
              rfl
            · rw [← hg]; rfl
            · rw [hds.2.2, hfr.2.1]
              omega

/-- Positions reached by successful `addDirCluster` calls from a multiple of
`bytesPerCluster` (512-byte sectors, at most 128 sectors per cluster): each
call adds `bytesPerCluster`, and the position stays within `4096 * 512`, and
within `4095 * 512` for one-sector clusters. -/
theorem growDir_bound :
    ∀ (k : Nat) (f g : FatFile) (p q : FatPartition),
      growDir k f p = some (g, q) →
      p.bytesPerSectorShift = 9 → p.sectorsPerClusterShift ≤ 7 →
      f.curPosition % p.bytesPerCluster = 0 → f.curPosition ≤ 4096 * 512 →
      (p.sectorsPerClusterShift = 0 → f.curPosition ≤ 4095 * 512) →
      g.curPosition = f.curPosition + k * p.bytesPerCluster
        ∧ g.curPosition ≤ 4096 * 512
        ∧ (p.sectorsPerClusterShift = 0 → g.curPosition ≤ 4095 * 512) := by
  intro k
  induction k with
  | zero =>
    intro f g p q h _ _ _ hle h0
    unfold growDir at h
    cases h
    exact ⟨by omega, hle, h0⟩
  | succ k ih =>
    intro f g p q h hS hC hal hle h0
    unfold growDir at h
    rcases ha : f.addDirCluster p with ⟨ok, f1, p1⟩
    rw [ha] at h
    cases ok
    · cases h
    · dsimp only at h
      obtain ⟨_, hcap, hm, hpos, _, _⟩ := addDirCluster_true f f1 p p1 ha
      have hS1 : p1.bytesPerSectorShift = 9 := by
        rw [show p1.bytesPerSectorShift = p.bytesPerSectorShift from
          congrArg Mount.bytesPerSectorShift hm]
        exact hS
      have hC1 : p1.sectorsPerClusterShift = p.sectorsPerClusterShift :=
        congrArg Mount.sectorsPerClusterShift hm
      have hB1 := bytesPerCluster_congr p p1 hm
      have hB : p.bytesPerCluster = 512 * 2 ^ p.sectorsPerClusterShift := by
        rw [bytesPerCluster_512 p hS]
        rfl
      have hstep : f.curPosition + p.bytesPerCluster ≤ 4096 * 512
          ∧ (p.sectorsPerClusterShift = 0 → f.curPosition + p.bytesPerCluster ≤ 4095 * 512) := by
        rw [hB] at hal ⊢
        generalize p.sectorsPerClusterShift = s at hC hal ⊢
        interval_cases s <;> simp only [Nat.reducePow, Nat.reduceMul] at hal ⊢ <;> omega
      have hmod : (f.curPosition + p.bytesPerCluster) % U32 = f.curPosition + p.bytesPerCluster :=
        Nat.mod_eq_of_lt (by unfold U32; omega)
      rw [hmod] at hpos
      obtain ⟨e1, e2, e3⟩ := ih f1 g p1 q h hS1 (by rw [hC1]; exact hC)
        (by rw [hB1, hpos, Nat.add_mod, hal, Nat.mod_self]; simp) (by rw [hpos]; exact hstep.1)
        (by rw [hC1, hpos]; exact hstep.2)
      refine ⟨?_, e2, by rw [← hC1]; exact e3⟩
      rw [e1, hpos, hB1]
      ring

/-- A call of `addDirCluster` below the cap on a directory that is not the
fixed root succeeds when the allocation succeeds and no sector is unwritable. -/
theorem addDirCluster_ok (f : FatFile) (p p1 : FatPartition) (c : Nat)
    (hroot : f.isRootFixed = false) (hcap : f.curPosition < 512 * 4095)
    (hbad : ∀ s, p.badSector s = false)
    (ha : p.allocateCluster f.curCluster = (true, p1, c)) :
    ∃ q, f.addDirCluster p
        = (true, { f.setDirDirty with curCluster := c,
                                      curPosition := (f.curPosition + p.bytesPerCluster) % U32 }, q)
      ∧ DataStep p1 q := by
  have hm1 : p1.toMount = p.toMount := by
    have := (allocateCluster_frame p f.curCluster).1
    rw [ha] at this
    exact this
  have hbad1 : ∀ s, p1.badSector s = false := by
    intro s
    rw [show p1.badSector = p.badSector from congrArg Mount.badSector hm1]
    exact hbad s
  obtain ⟨p2, hc⟩ := cacheFetchData_ok p1 hbad1 (p1.clusterStartSector c)
    CacheMode.reserveForWrite
  have h2 := cacheFetchData_dataStep p1 (p1.clusterStartSector c) CacheMode.reserveForWrite
  rw [hc] at h2
  have hbad2 : ∀ s, p2.badSector s = false := by
    intro s
    rw [show p2.badSector = p1.badSector from congrArg Mount.badSector h2.1]
    exact hbad1 s
  have hok := zeroSectors_ok (p1.clusterStartSector c) (FatPartition.sectorsPerCluster p2 - 1) 1
    (FatPartition.mk p2.toMount p2.fat p2.dev p2.cacheSector p2.cacheDirty
      (memcpyAt p2.cacheData 0 p2.bytesPerSector (fun _ => 0)) p2.log) hbad2
  have h4 := zeroSectors_dataStep (p1.clusterStartSector c)
    (FatPartition.sectorsPerCluster p2 - 1) 1
    (FatPartition.mk p2.toMount p2.fat p2.dev p2.cacheSector p2.cacheDirty
      (memcpyAt p2.cacheData 0 p2.bytesPerSector (fun _ => 0)) p2.log)
  rcases hz : FatFile.zeroSectors (p1.clusterStartSector c)
    (FatPartition.sectorsPerCluster p2 - 1) 1
    (FatPartition.mk p2.toMount p2.fat p2.dev p2.cacheSector p2.cacheDirty
      (memcpyAt p2.cacheData 0 p2.bytesPerSector (fun _ => 0)) p2.log) with ⟨ok, p4⟩
  rw [hz] at hok h4
  have hok2 : ok = true := hok
  subst hok2
  have h34 : DataStep p2 p4 := h4
  have hds : DataStep p1 p4 := h2.trans h34
  have hB : p4.bytesPerCluster = p.bytesPerCluster :=
    bytesPerCluster_congr p p4 (hds.1.trans hm1)
  refine ⟨p4, ?_, hds⟩
  unfold FatFile.addDirCluster
  rw [if_neg (by rw [hroot]; decide), if_neg (by omega)]
  unfold FatFile.addCluster
  dsimp only
  rw [show f.setDirDirty.curCluster = f.curCluster from rfl, ha]
  dsimp only
  rw [hc]
  dsimp only
  rw [show FatFile.zeroSectors (p1.clusterStartSector c)
      (FatPartition.sectorsPerCluster
        (FatPartition.mk p2.toMount p2.fat p2.dev p2.cacheSector p2.cacheDirty
          (memcpyAt p2.cacheData 0 p2.bytesPerSector (fun _ => 0)) p2.log) - 1) 1
      (FatPartition.mk p2.toMount p2.fat p2.dev p2.cacheSector p2.cacheDirty
        (memcpyAt p2.cacheData 0 p2.bytesPerSector (fun _ => 0)) p2.log) = (true, p4) from hz]
  dsimp only
  rw [hB]
  rfl

/-- One more cluster for the directory `growHandle` on `growPartition`: below
2048 clusters the call succeeds. -/
theorem grow_step (k : Nat) (f : FatFile) (p : FatPartition) (hinv : GrowInv k f p)
    (hk : k < 2048) :
    ∃ f1 p1, f.addDirCluster p = (true, f1, p1) ∧ GrowInv (k + 1) f1 p1 := by
  obtain ⟨hkind, hpos, hcur, hm, hfree⟩ := hinv
  have hsearch : p.allocSearch = growPartition.allocSearch := congrArg Mount.allocSearch hm
  have hlast : p.lastCluster = 5000 := congrArg Mount.lastCluster hm
  have hbad : ∀ s, p.badSector s = false := by
    intro s
    rw [show p.badSector = growPartition.badSector from congrArg Mount.badSector hm]
    rfl
  have hB : p.bytesPerCluster = 1024 := by
    rw [bytesPerCluster_congr growPartition p hm]
    decide
  have hc : (if f.curCluster = 0 then 2 else f.curCluster + 1) = k + 2 := by
    rw [hcur]
    by_cases h0 : k = 0
    · subst h0; rfl
    · rw [if_neg h0, if_neg (by omega)]
  have hcr : f.curCluster = 0 ∨ (2 ≤ f.curCluster ∧ f.curCluster ≤ 5000) := by
    rw [hcur]
    by_cases h0 : k = 0
    · left; rw [if_pos h0]
    · right; rw [if_neg h0]; omega
  have hne : f.curCluster ≠ k + 2 := by
    rw [hcur]
    split <;> omega
  obtain ⟨p1, ha, hfat⟩ : ∃ p1, p.allocateCluster f.curCluster = (true, p1, k + 2)
      ∧ ∀ c, k + 3 ≤ c → p1.fat c = FatEntry.continues 0 := by
    unfold FatPartition.allocateCluster
    dsimp only
    rw [show (p.logCall (Call.allocateCluster f.curCluster)).allocSearch
          (p.logCall (Call.allocateCluster f.curCluster)).fat f.curCluster
        = some (k + 2) from by
      show p.allocSearch p.fat f.curCluster = some (k + 2)
      rw [hsearch]
      show some (if f.curCluster = 0 then 2 else f.curCluster + 1) = some (k + 2)
      rw [hc]]
    dsimp only
    rw [if_pos ⟨by omega, by
      show k + 2 ≤ p.lastCluster
      rw [hlast]; omega, hfree (k + 2) (le_refl _), by
      show f.curCluster = 0 ∨ (2 ≤ f.curCluster ∧ f.curCluster ≤ p.lastCluster)
      rw [hlast]; exact hcr⟩]
    refine ⟨_, rfl, ?_⟩
    intro c hcge
    have hc1 : c ≠ k + 2 := by omega
    have hc2 : c ≠ f.curCluster := by
      rw [hcur]
      split <;> omega
    show (if f.curCluster = 0 then upd p.fat (k + 2) FatEntry.endOfChain
      else upd (upd p.fat (k + 2) FatEntry.endOfChain) f.curCluster
        (FatEntry.continues (k + 2))) c = FatEntry.continues 0
    split
    · unfold upd
      rw [if_neg hc1]
      exact hfree c (by omega)
    · unfold upd
      rw [if_neg hc2, if_neg hc1]
      exact hfree c (by omega)
  obtain ⟨q, hq, hds⟩ := addDirCluster_ok f p p1 (k + 2)
    (by simp [FatFile.isRootFixed, hkind]) (by omega) hbad ha
  have hm1 : p1.toMount = p.toMount := by
    have := (allocateCluster_frame p f.curCluster).1
    rw [ha] at this
    exact this
  refine ⟨_, q, hq, hkind, ?_, ?_, (hds.1.trans hm1).trans hm, ?_⟩
  · show (f.curPosition + p.bytesPerCluster) % U32 = 1024 * (k + 1)
    rw [hpos, hB, Nat.mod_eq_of_lt (by unfold U32; omega)]
    ring
  · show k + 2 = if k + 1 = 0 then 0 else k + 1 + 1
    rw [if_neg (by omega)]
  · intro c hcge
    rw [hds.2.1]
    exact hfat c (by omega)

/-- The directory `growHandle` on `growPartition` can be grown to 2048
clusters by successful `addDirCluster` calls. -/
theorem growDir_run :
    ∀ (n k : Nat) (f : FatFile) (p : FatPartition), GrowInv k f p → k + n ≤ 2048 →
      ∃ g q, growDir n f p = some (g, q) ∧ GrowInv (k + n) g q := by
  intro n
  induction n with
  | zero =>
    intro k f p hinv _
    exact ⟨f, p, rfl, hinv⟩
  | succ n ih =>
    intro k f p hinv hk
    obtain ⟨f1, p1, ha, hinv1⟩ := grow_step k f p hinv (by omega)
    obtain ⟨g, q, hg, hinv2⟩ := ih (k + 1) f1 p1 hinv1 (by omega)
    refine ⟨g, q, ?_, ?_⟩
    · unfold growDir
      rw [ha]
      exact hg
    · rw [show k + (n + 1) = k + 1 + n from by omega]
      exact hinv2

theorem growHandle_inv : GrowInv 0 growHandle growPartition :=
  ⟨rfl, rfl, rfl, rfl, fun _ _ => rfl⟩

/-- C23 (amended): `addDirCluster` returns false and leaves handle and
partition as they were (no cluster is allocated) when the directory is the
fixed root or when `curPosition >= 512 * 4095`; a successful call found the
position below that cap, allocated a cluster and advanced the position by
`bytesPerCluster`; and with 512-byte sectors and 1 to 128 sectors per cluster
a directory grown from position 0 by `k` successful calls has the position
`k * bytesPerCluster`, which is never greater than `4096 * 512`, and never
greater than `4095 * 512` when a cluster is one sector. -/
theorem addDirCluster_cap (f : FatFile) (p : FatPartition) :
    ((f.isRootFixed = true ∨ 512 * 4095 ≤ f.curPosition) → f.addDirCluster p = (false, f, p))
    ∧ (∀ g q, f.addDirCluster p = (true, g, q) →
        f.curPosition < 512 * 4095 ∧ p.allocCalls < q.allocCalls
          ∧ g.curPosition = (f.curPosition + p.bytesPerCluster) % U32)
    ∧ (∀ k g q, f.curPosition = 0 → p.bytesPerSectorShift = 9 →
        p.sectorsPerClusterShift ≤ 7 → growDir k f p = some (g, q) →
        g.curPosition = k * p.bytesPerCluster ∧ g.curPosition ≤ 4096 * 512
          ∧ (p.sectorsPerClusterShift = 0 → g.curPosition ≤ 4095 * 512)) := by
  refine ⟨?_, ?_, ?_⟩
  · intro h
    unfold FatFile.addDirCluster
    by_cases hroot : f.isRootFixed = true
    · rw [if_pos hroot]
    · rw [if_neg hroot]
      rcases h with h | h
      · exact absurd h hroot
      · rw [if_pos h]
  · intro g q h
    obtain ⟨_, h2, _, h4, _, h6⟩ := addDirCluster_true f g p q h
    exact ⟨h2, h6, h4⟩
  · intro k g q h0 hS hC hg
    obtain ⟨e1, e2, e3⟩ := growDir_bound k f g p q hg hS hC (by rw [h0]; simp)
      (by rw [h0]; omega) (fun _ => by rw [h0]; omega)
    refine ⟨?_, e2, e3⟩
    rw [e1, h0]
    omega

/-- Three successful calls on `growPartition` (clusters of 1024 bytes) lead to
position 3072. -/
theorem addDirCluster_cap_witness :
    ∃ g q, growDir 3 growHandle growPartition = some (g, q)
      ∧ g.curPosition = 3 * growPartition.bytesPerCluster ∧ g.curPosition ≤ 4096 * 512 := by
  obtain ⟨g, q, hg, _⟩ := growDir_run 3 0 growHandle growPartition growHandle_inv (by omega)
  obtain ⟨e1, e2, _⟩ := (addDirCluster_cap growHandle growPartition).2.2 3 g q rfl rfl
    (by decide) hg
  exact ⟨g, q, hg, e1, e2⟩

/-- C23 (as stated, refuted): with two sectors per cluster (clusters of 1024
bytes) the directory `growHandle`, grown from position 0 by 2048 successful
`addDirCluster` calls, has the position `2097152 = 4096 * 512`, which is
greater than `4095 * 512`: at position `2047 * 1024 = 2096128` the test
`curPosition >= 512 * 4095 = 2096640` does not yet hold. -/
theorem addDirCluster_cap_counterexample :
    growPartition.bytesPerSector = 512 ∧ growPartition.sectorsPerCluster = 2
    ∧ growHandle.curPosition = 0
    ∧ ∃ g q, growDir 2048 growHandle growPartition = some (g, q)
        ∧ g.curPosition = 2097152 ∧ 4095 * 512 < g.curPosition := by
  refine ⟨by decide, by decide, rfl, ?_⟩
  obtain ⟨g, q, hg, hinv⟩ := growDir_run 2048 0 growHandle growPartition growHandle_inv
    (by omega)
  have hpos : g.curPosition = 1024 * (0 + 2048) := hinv.2.1
  exact ⟨g, q, hg, by rw [hpos], by rw [hpos]; decide⟩

end DirectoryCap

section TimestampFields

/-- Within the validated ranges `FS_DATE` is the bit expression of the spec,
without loss in the 16 bits. -/
theorem fs_date_eq (year month day : Nat) (hy : year ≤ 2107) (hm : month ≤ 12) (hd : day ≤ 31) :
    FS_DATE year month day = ((year - 1980) <<< 9) ||| (month <<< 5) ||| day := by
  unfold FS_DATE
  apply Nat.mod_eq_of_lt
  have h16 : (65536 : Nat) = 2 ^ 16 := by norm_num
  rw [h16]
  apply Nat.or_lt_two_pow
  · apply Nat.or_lt_two_pow
    · rw [Nat.shiftLeft_eq]; omega
    · rw [Nat.shiftLeft_eq]; omega
  · omega

/-- Within the validated ranges `FS_TIME` is the bit expression of the spec,
without loss in the 16 bits. -/
theorem fs_time_eq (hour minute second : Nat) (hh : hour ≤ 23) (hm : minute ≤ 59)
    (hs : second ≤ 59) :
    FS_TIME hour minute second = (hour <<< 11) ||| (minute <<< 5) ||| (second >>> 1) := by
  unfold FS_TIME
  apply Nat.mod_eq_of_lt
  have h16 : (65536 : Nat) = 2 ^ 16 := by norm_num
  rw [h16]
  apply Nat.or_lt_two_pow
  · apply Nat.or_lt_two_pow
    · rw [Nat.shiftLeft_eq]; omega
    · rw [Nat.shiftLeft_eq]; omega
  · rw [Nat.shiftRight_eq_div_pow]; omega

/-- The stores of `timestamp` in the entry at offset `off`: the fields of the
flags that are set hold the date and the time, every other byte is as it was. -/
theorem stampEntry_fields (E : Nat → Nat) (off : Nat) (flags : TFlag)
    (year month day hour minute second : Nat) :
    (flags.create = true →
        getLe16 (FatFile.stampEntry E off flags year month day hour minute second) (off + 16)
          = FS_DATE year month day
        ∧ getLe16 (FatFile.stampEntry E off flags year month day hour minute second) (off + 14)
          = FS_TIME hour minute second
        ∧ FatFile.stampEntry E off flags year month day hour minute second (off + 13)
          = (if second % 2 = 1 then 100 else 0))
    ∧ (flags.write = true →
        getLe16 (FatFile.stampEntry E off flags year month day hour minute second) (off + 24)
          = FS_DATE year month day
        ∧ getLe16 (FatFile.stampEntry E off flags year month day hour minute second) (off + 22)
          = FS_TIME hour minute second)
    ∧ (flags.access = true →
        getLe16 (FatFile.stampEntry E off flags year month day hour minute second) (off + 18)
          = FS_DATE year month day) := by
  have hD : FS_DATE year month day < 65536 := Nat.mod_lt _ (by decide)
  have hT : FS_TIME hour minute second < 65536 := Nat.mod_lt _ (by decide)
  have hodd : second &&& 1 = second % 2 := Nat.and_one_is_mod second
  unfold FatFile.stampEntry
  rw [hodd]
  generalize FS_DATE year month day = D at hD ⊢
  generalize FS_TIME hour minute second = T at hT ⊢
  rcases flags with ⟨a, c, w⟩
  have h2 : second % 2 = 0 ∨ second % 2 = 1 := by omega
  refine ⟨?_, ?_, ?_⟩
  · intro hc
    dsimp only at hc
    subst hc
    cases a <;> cases w <;> rcases h2 with h2 | h2 <;>
      simp [getLe16, setLe16, setByte, upd, h2] <;> omega
  · intro hw
    dsimp only at hw
    subst hw
    cases a <;> cases c <;>
      simp [getLe16, setLe16, setByte, upd] <;> omega
  · intro ha
    dsimp only at ha
    subst ha
    cases c <;> cases w <;>
      simp [getLe16, setLe16, setByte, upd] <;> omega

/-- The stores of `timestamp` leave every byte outside the fields of the flags
that are set as it was. -/
theorem stampEntry_other (E : Nat → Nat) (off : Nat) (flags : TFlag)
    (year month day hour minute second j : Nat)
    (h1 : ¬ (flags.create = true ∧ off + 13 ≤ j ∧ j ≤ off + 17))
    (h2 : ¬ (flags.access = true ∧ off + 18 ≤ j ∧ j ≤ off + 19))
    (h3 : ¬ (flags.write = true ∧ off + 22 ≤ j ∧ j ≤ off + 25)) :
    FatFile.stampEntry E off flags year month day hour minute second j = E j := by
  have e16 : ∀ (d : Nat → Nat) (o v : Nat), j ≠ o → j ≠ o + 1 → setLe16 d o v j = d j := by
    intro d o v a b
    simp [setLe16, setByte, upd, a, b]
  have e8 : ∀ (d : Nat → Nat) (i v : Nat), j ≠ i → setByte d i v j = d j := by
    intro d i v a
    simp [setByte, upd, a]
  unfold FatFile.stampEntry
  generalize FS_DATE year month day = D
  generalize FS_TIME hour minute second = T
  have hd1 : (if flags.access = true then setLe16 E (off + 18) D else E) j = E j := by
    by_cases ha : flags.access = true
    · have n2 : ¬ (off + 18 ≤ j ∧ j ≤ off + 19) := fun hx => h2 ⟨ha, hx⟩
      rw [if_pos ha, e16 _ _ _ (by omega) (by omega)]
    · rw [if_neg ha]
  generalize (if flags.access = true then setLe16 E (off + 18) D else E) = d1 at hd1 ⊢
  have hd2 : (if flags.create = true then
        setByte (setLe16 (setLe16 d1 (off + 16) D) (off + 14) T) (off + 13)
          (if second &&& 1 ≠ 0 then 100 else 0)
      else d1) j = E j := by
    by_cases hc : flags.create = true
    · have n1 : ¬ (off + 13 ≤ j ∧ j ≤ off + 17) := fun hx => h1 ⟨hc, hx⟩
      rw [if_pos hc, e8 _ _ _ (by omega), e16 _ _ _ (by omega) (by omega),
        e16 _ _ _ (by omega) (by omega)]
      exact hd1
    · rw [if_neg hc]
      exact hd1
  generalize (if flags.create = true then
        setByte (setLe16 (setLe16 d1 (off + 16) D) (off + 14) T) (off + 13)
          (if second &&& 1 ≠ 0 then 100 else 0)
      else d1) = d2 at hd2 ⊢
  by_cases hw : flags.write = true
  · have n3 : ¬ (off + 22 ≤ j ∧ j ≤ off + 25) := fun hx => h3 ⟨hw, hx⟩
    rw [if_pos hw, e16 _ _ _ (by omega) (by omega), e16 _ _ _ (by omega) (by omega)]
    exact hd2
  · rw [if_neg hw]
    exact hd2

/-- A fetch that reads makes the line the bytes of the sector as the file layer
saw them before. -/
theorem cacheFetchData_view (p q : FatPartition) (s : Nat) (mode : CacheMode)
    (h : p.cacheFetchData s mode = (true, q)) (hmode : mode ≠ CacheMode.reserveForWrite) :
    q.cacheData = sectorView p s := by
  unfold FatPartition.cacheFetchData at h
  dsimp only at h
  by_cases hres : (p.logCall (Call.cacheFetchData s mode)).cacheSector = s
  · rw [if_pos hres] at h
    cases h
    have hres2 : p.cacheSector = s := hres
    unfold sectorView
    rw [if_pos hres2]
    rfl
  · rw [if_neg hres] at h
    have hres2 : ¬ p.cacheSector = s := hres
    rcases hfl : (p.logCall (Call.cacheFetchData s mode)).flushLine with ⟨ok, p1⟩
    rw [hfl] at h
    cases ok
    · cases h
    · dsimp only at h
      rw [if_neg hmode] at h
      split at h
      · cases h
      · cases h
        obtain ⟨_, _, _, _, _, hdev, _⟩ := flushLine_stored _ _ hfl
        unfold sectorView
        rw [if_neg hres2]
        exact hdev s (fun hx => hres2 hx.symm)

/-- A result whose first component is true, written as a triple. -/
theorem triple_of_true {α β : Type} (x : Bool × α × β) (h : x.1 = true) :
    x = (true, x.2.1, x.2.2) := by
  rcases x with ⟨a, b, c⟩
  dsimp only at h
  subst h
  rfl

/-- C21: after a successful `timestamp` with a date
`D = ((year-1980) << 9) | (month << 5) | day` and a time
`T = (hour << 11) | (minute << 5) | (second >> 1)`: `sync` had succeeded and
the handle is the one it left; the sector of the entry is resident and equal
on the device; with T_CREATE the entry has `createDate = D`, `createTime = T`
and `creationTimeTenths` 100 for an odd and 0 for an even second; with T_WRITE
`modifyDate = D` and `modifyTime = T`; with T_ACCESS `accessDate = D`; every
byte of the sector outside the fields of the flags that are set, so every field
whose flag is not set and every other byte of the entry, is the byte the
sector had after `sync`. -/
theorem timestamp_fields (f : FatFile) (p : FatPartition) (flags : TFlag)
    (year month day hour minute second : Nat) (g : FatFile) (q : FatPartition)
    (h : f.timestamp p flags year month day hour minute second = (true, g, q)) :
    (f.sync p).1 = true ∧ g = (f.sync p).2.1
    ∧ q.cacheSector = f.dirSector ∧ q.dev f.dirSector = q.cacheData
    ∧ (flags.create = true →
        getLe16 q.cacheData (f.dirOffset + 16) = ((year - 1980) <<< 9) ||| (month <<< 5) ||| day
        ∧ getLe16 q.cacheData (f.dirOffset + 14)
            = (hour <<< 11) ||| (minute <<< 5) ||| (second >>> 1)
        ∧ q.cacheData (f.dirOffset + 13) = (if second % 2 = 1 then 100 else 0))
    ∧ (flags.write = true →
        getLe16 q.cacheData (f.dirOffset + 24) = ((year - 1980) <<< 9) ||| (month <<< 5) ||| day
        ∧ getLe16 q.cacheData (f.dirOffset + 22)
            = (hour <<< 11) ||| (minute <<< 5) ||| (second >>> 1))
    ∧ (flags.access = true →
        getLe16 q.cacheData (f.dirOffset + 18) = ((year - 1980) <<< 9) ||| (month <<< 5) ||| day)
    ∧ (∀ j, ¬ (flags.create = true ∧ f.dirOffset + 13 ≤ j ∧ j ≤ f.dirOffset + 17) →
        ¬ (flags.access = true ∧ f.dirOffset + 18 ≤ j ∧ j ≤ f.dirOffset + 19) →
        ¬ (flags.write = true ∧ f.dirOffset + 22 ≤ j ∧ j ≤ f.dirOffset + 25) →
        q.cacheData j = sectorView (f.sync p).2.2 f.dirSector j) := by
  unfold FatFile.timestamp at h
  by_cases hbad : f.isFile = false ∨ year < 1980 ∨ year > 2107 ∨ month < 1 ∨ month > 12
      ∨ day < 1 ∨ day > 31 ∨ hour > 23 ∨ minute > 59 ∨ second > 59
  · rw [if_pos hbad] at h
    cases h
  · rw [if_neg hbad] at h
    have hy : year ≤ 2107 := by
      by_contra hx
      exact hbad (Or.inr (Or.inr (Or.inl (by omega))))
    have hmo : month ≤ 12 := by
      by_contra hx
      exact hbad (Or.inr (Or.inr (Or.inr (Or.inr (Or.inl (by omega))))))
    have hda : day ≤ 31 := by
      by_contra hx
      exact hbad (Or.inr (Or.inr (Or.inr (Or.inr (Or.inr (Or.inr (Or.inl (by omega))))))))
    have hho : hour ≤ 23 := by
      by_contra hx
      exact hbad (Or.inr (Or.inr (Or.inr (Or.inr (Or.inr (Or.inr (Or.inr
        (Or.inl (by omega)))))))))
    have hmi : minute ≤ 59 := by
      by_contra hx
      exact hbad (Or.inr (Or.inr (Or.inr (Or.inr (Or.inr (Or.inr (Or.inr
        (Or.inr (Or.inl (by omega))))))))))
    have hse : second ≤ 59 := by
      by_contra hx
      exact hbad (Or.inr (Or.inr (Or.inr (Or.inr (Or.inr (Or.inr (Or.inr
        (Or.inr (Or.inr (by omega))))))))))
    have hD := fs_date_eq year month day hy hmo hda
    have hT := fs_time_eq hour minute second hho hmi hse
    rcases hs : f.sync p with ⟨ok1, f1, p1⟩
    rw [hs] at h
    cases ok1
    · cases h
    · dsimp only at h
      obtain ⟨dd, ee, hf1⟩ := sync_ok_file f f1 p p1 hs
      have hsec : f1.dirSector = f.dirSector := by rw [hf1]
      have hoff : f1.dirOffset = f.dirOffset := by rw [hf1]; rfl
      rcases hc : f1.cacheDirEntry p1 CacheMode.forWrite with ⟨ok2, p2⟩
      rw [hc] at h
      cases ok2
      · cases h
      · dsimp only at h
        have hc2 : p1.cacheFetchData f.dirSector CacheMode.forWrite = (true, p2) := by
          rw [← hsec]; exact hc
        obtain ⟨_, _, hcs2, hdirty2, _, _, _⟩ := cacheFetchData_stored p1 p2 _ _ hc2
        have hview := cacheFetchData_view p1 p2 _ _ hc2 (by decide)
        rw [hoff] at h
        generalize hst : FatFile.stampEntry p2.cacheData f.dirOffset flags year month day hour
          minute second = S at h
        rcases hy4 : FatPartition.cacheSync (FatPartition.mk p2.toMount p2.fat p2.dev
          p2.cacheSector p2.cacheDirty S p2.log) with ⟨ok4, p4⟩
        have h' : (ok4, f1, p4) = (true, g, q) := by
          rw [← h]
          show (ok4, f1, p4) = (match FatPartition.cacheSync (FatPartition.mk p2.toMount p2.fat
            p2.dev p2.cacheSector p2.cacheDirty S p2.log) with | (ok, p4) => (ok, f1, p4))
          rw [hy4]
        simp only [Prod.mk.injEq] at h'
        obtain ⟨hok4, hg, hq⟩ := h'
        subst hok4
        subst hq
        obtain ⟨_, _, hcs4, hcl4, hdata4, _, _⟩ := cacheSync_stored _ _ hy4
        have hdata : p4.cacheData = S := hdata4
        have hcsq : p4.cacheSector = f.dirSector := by
          rw [hcs4]; exact hcs2
        have hdev : p4.dev f.dirSector = p4.cacheData := by
          unfold FatPartition.cacheSync FatPartition.flushLine at hy4
          rw [if_pos (show (FatPartition.logCall (FatPartition.mk p2.toMount p2.fat p2.dev
            p2.cacheSector p2.cacheDirty S p2.log) Call.cacheSync).cacheDirty = true from
              hdirty2 (by decide))] at hy4
          split at hy4
          · cases hy4
          · cases hy4
            show upd p2.dev p2.cacheSector S f.dirSector = S
            unfold upd
            rw [if_pos hcs2.symm]
        obtain ⟨hcr, hwr, hac⟩ := stampEntry_fields p2.cacheData f.dirOffset flags year month
          day hour minute second
        rw [hst] at hcr hwr hac
        rw [hD, hT] at hcr hwr
        rw [hD] at hac
        refine ⟨rfl, hg.symm, hcsq, hdev, ?_, ?_, ?_, ?_⟩
        · intro hx; rw [hdata]; exact hcr hx
        · intro hx; rw [hdata]; exact hwr hx
        · intro hx; rw [hdata]; exact hac hx
        · intro j h1 h2 h3
          rw [hdata, ← hst, stampEntry_other _ _ _ _ _ _ _ _ _ j h1 h2 h3, hview]

/-- The file `chainFile`, whose entry is slot 3 of sector 50 of `dirPartition`,
stamped with T_ACCESS and T_CREATE on 2024-02-29 at 23:59:59. -/
theorem timestamp_fields_witness :
    (chainFile.timestamp dirPartition { access := true, create := true, write := false }
        2024 2 29 23 59 59).1 = true
    ∧ getLe16 (chainFile.timestamp dirPartition { access := true, create := true, write := false }
        2024 2 29 23 59 59).2.2.cacheData (chainFile.dirOffset + 16)
        = ((2024 - 1980) <<< 9) ||| (2 <<< 5) ||| 29
    ∧ (chainFile.timestamp dirPartition { access := true, create := true, write := false }
        2024 2 29 23 59 59).2.2.cacheData (chainFile.dirOffset + 13) = 100
    ∧ (chainFile.timestamp dirPartition { access := true, create := true, write := false }
        2024 2 29 23 59 59).2.2.cacheData (chainFile.dirOffset + 24) = 33 :=
  have hok : (chainFile.timestamp dirPartition
      { access := true, create := true, write := false } 2024 2 29 23 59 59).1 = true := by
    decide
  have T := timestamp_fields chainFile dirPartition
    { access := true, create := true, write := false } 2024 2 29 23 59 59 _ _
    (triple_of_true _ hok)
  ⟨hok, (T.2.2.2.2.1 rfl).1, (T.2.2.2.2.1 rfl).2.2, by decide⟩

end TimestampFields

section FreeWalk

/-- An index of a chain of `L` clusters at which a cluster is found is below
`L`. -/
theorem clusterAt_some_lt (p : FatPartition) (first L i c : Nat) (h : ChainLen p first L)
    (hL : 0 < L) (hc : clusterAt p first i = some c) : i < L := by
  by_contra hge
  rcases h with ⟨h0, _⟩ | ⟨_, last, hlast, heoc⟩
  · omega
  · obtain ⟨b, hb⟩ := clusterAt_le p first i c hc L (by omega)
    have hL1 : L = (L - 1) + 1 := by omega
    rw [hL1] at hb
    obtain ⟨b2, hb2, hcont⟩ := clusterAt_succ p first (L - 1) b hb
    rw [hlast] at hb2
    cases hb2
    rw [heoc] at hcont
    cases hcont

/-- The part of a chain behind a cluster that has a successor is a chain of its
own. -/
theorem chainLen_tail (p : FatPartition) (c n M : Nat) (h : ChainLen p c M)
    (hn : p.fatGet c = FatEntry.continues n) (hM : 0 < M) :
    2 ≤ M ∧ ChainLen p n (M - 1) := by
  have hM2 : 2 ≤ M := by
    by_contra hlt
    have h1 : M = 1 := by omega
    obtain ⟨c0, hc0, heoc, _⟩ := chainLen_member p c M h 0 hM
    simp only [clusterAt, Option.some.injEq] at hc0
    subst hc0
    rw [heoc (by omega)] at hn
    cases hn
  refine ⟨hM2, Or.inr ⟨by omega, ?_⟩⟩
  rcases h with ⟨h0, _⟩ | ⟨_, last, hlast, heoc⟩
  · omega
  · refine ⟨last, ?_, heoc⟩
    have e : M - 1 = (M - 1 - 1) + 1 := by omega
    rw [e, clusterAt_succ_left p c n _ hn] at hlast
    exact hlast

/-- The walk of `freeChain` along a well-formed chain changes the FAT entry of
no cluster outside that chain. -/
theorem freeWalk_frame :
    ∀ (M k : Nat) (pf : FatPartition) (c : Nat) (fat1 : Nat → FatEntry) (x : Nat),
      ChainLen pf c M → 0 < M →
      freeWalk pf.lastCluster k pf.fat c = (true, fat1) →
      (∀ j, j < M → clusterAt pf c j ≠ some x) → fat1 x = pf.fat x := by
  intro M
  induction M with
  | zero =>
    intro k pf c fat1 x _ hM
    omega
  | succ M ih =>
    intro k pf c fat1 x hchain hM hwalk hx
    have hxc : x ≠ c := by
      intro hxc
      apply hx 0 (by omega)
      rw [hxc]
      rfl
    obtain ⟨hne, hc2, hc3, _⟩ := chainLen_member_valid pf c (M + 1) hchain 0 c (by omega) rfl
    have hget : pf.fatGet c = pf.fat c := by
      unfold FatPartition.fatGet
      rw [if_neg (by omega)]
    cases k with
    | zero =>
      unfold freeWalk at hwalk
      cases hwalk
    | succ k =>
      unfold freeWalk at hwalk
      rw [if_neg (by omega)] at hwalk
      rcases hf : pf.fat c with _ | _ | n
      · rw [hf] at hwalk
        cases hwalk
      · rw [hf] at hwalk
        simp only [Prod.mk.injEq, true_and] at hwalk
        rw [← hwalk]
        unfold upd
        rw [if_neg hxc]
      · rw [hf] at hwalk
        dsimp only at hwalk
        have hcont : pf.fatGet c = FatEntry.continues n := by rw [hget, hf]
        obtain ⟨hM2, htail⟩ := chainLen_tail pf c n (M + 1) hchain hcont (by omega)
        have hM1 : M + 1 - 1 = M := by omega
        rw [hM1] at htail
        have hsame : ∀ y, y ≠ c →
            FatPartition.fatGet { pf with fat := upd pf.fat c (FatEntry.continues 0) } y
              = pf.fatGet y := by
          intro y hy
          unfold FatPartition.fatGet
          show (if y < 2 ∨ pf.lastCluster < y then FatEntry.error
            else upd pf.fat c (FatEntry.continues 0) y) = _
          unfold upd
          rw [if_neg hy]
        have hmem : ∀ j y, j < M → clusterAt pf n j = some y → y ≠ c := by
          intro j y hj hy hyc
          rw [← clusterAt_succ_left pf c n j hcont] at hy
          rw [hyc] at hy
          exact chainLen_inj pf c (M + 1) hchain 0 (j + 1) c (by omega) (by omega) rfl hy
        have hcongr : ∀ K, K < M →
            clusterAt { pf with fat := upd pf.fat c (FatEntry.continues 0) } n K
              = clusterAt pf n K := by
          intro K hK
          apply clusterAt_congr
          intro j y hj hy
          exact hsame y (hmem j y (by omega) hy)
        have htail1 : ChainLen { pf with fat := upd pf.fat c (FatEntry.continues 0) } n M := by
          rcases htail with ⟨h0, _⟩ | ⟨hpos, last, hlast, heoc⟩
          · omega
          · refine Or.inr ⟨hpos, last, ?_, ?_⟩
            · rw [hcongr (M - 1) (by omega)]
              exact hlast
            · rw [hsame last (hmem (M - 1) last (by omega) hlast)]
              exact heoc
        have := ih k { pf with fat := upd pf.fat c (FatEntry.continues 0) } n fat1 x htail1
          (by omega) hwalk (by
            intro j hj
            rw [hcongr j hj, ← clusterAt_succ_left pf c n j hcont]
            exact hx (j + 1) (by omega))
        rw [this]
        show upd pf.fat c (FatEntry.continues 0) x = pf.fat x
        unfold upd
        rw [if_neg hxc]

end FreeWalk

section TruncateChain

/-- `fatGet` depends on the partition only through `lastCluster` and the FAT
entry asked for. -/
theorem fatGet_of_fat (p q : FatPartition) (x : Nat) (hl : q.lastCluster = p.lastCluster)
    (hx : q.fat x = p.fat x) : q.fatGet x = p.fatGet x := by
  unfold FatPartition.fatGet
  rw [hl, hx]

/-- Cutting a well-formed chain behind the cluster with index `i`: when that
cluster is marked end of chain and the walk of `freeChain` from its successor
succeeds, the cluster is still the one with index `i` and is the end of the
chain. -/
theorem cut_chain (p p2 : FatPartition) (first L i cur next : Nat)
    (hchain : ChainLen p first L) (hL : 0 < L) (hcur : clusterAt p first i = some cur)
    (hnext : p.fatGet cur = FatEntry.continues next)
    (hlast : p2.lastCluster = p.lastCluster)
    (hwalk : freeWalk p.lastCluster p.lastCluster (upd p.fat cur FatEntry.endOfChain) next
      = (true, p2.fat)) :
    clusterAt p2 first i = some cur ∧ p2.fatGet cur = FatEntry.endOfChain ∧ 2 ≤ next := by
  have hi : i < L := clusterAt_some_lt p first L i cur hchain hL hcur
  obtain ⟨_, hc2, hc3, _⟩ := chainLen_member_valid p first L hchain i cur hi hcur
  obtain ⟨c0, hc0, heoc, hcont⟩ := chainLen_member p first L hchain i hi
  rw [hcur] at hc0
  cases hc0
  have hi1 : i + 1 < L := by
    by_contra hge
    rw [heoc (by omega)] at hnext
    cases hnext
  obtain ⟨n, hn, hnAt⟩ := hcont hi1
  rw [hnext] at hn
  cases hn
  obtain ⟨_, hn2, _, _⟩ := chainLen_member_valid p first L hchain (i + 1) next hi1 hnAt
  have hpf : ∀ y, y ≠ cur →
      FatPartition.fatGet { p with fat := upd p.fat cur FatEntry.endOfChain } y = p.fatGet y := by
    intro y hy
    refine fatGet_of_fat p _ y rfl ?_
    show upd p.fat cur FatEntry.endOfChain y = p.fat y
    unfold upd
    rw [if_neg hy]
  have hsuffix : ∀ j, clusterAt p next j = clusterAt p first (i + 1 + j) := by
    intro j
    rw [clusterAt_add, hnAt]
    rfl
  have hmem : ∀ j y, i + 1 + j < L → clusterAt p next j = some y → y ≠ cur := by
    intro j y hj hy hyc
    rw [hsuffix, hyc] at hy
    exact chainLen_inj p first L hchain i (i + 1 + j) cur (by omega) hj hcur hy
  have hcongr : ∀ K, i + 1 + K < L →
      clusterAt { p with fat := upd p.fat cur FatEntry.endOfChain } next K
        = clusterAt p next K := by
    intro K hK
    apply clusterAt_congr
    intro j y hj hy
    exact hpf y (hmem j y (by omega) hy)
  have htail : ChainLen { p with fat := upd p.fat cur FatEntry.endOfChain } next (L - (i + 1)) := by
    rcases hchain with ⟨h0, _⟩ | ⟨_, last, hlastc, hleoc⟩
    · omega
    · have e : L - 1 = i + 1 + (L - (i + 1) - 1) := by omega
      rw [e, ← hsuffix] at hlastc
      refine Or.inr ⟨by omega, last, ?_, ?_⟩
      · rw [hcongr _ (by omega)]
        exact hlastc
      · rw [hpf last (hmem _ last (by omega) hlastc)]
        exact hleoc
  have hframe : ∀ k x, k ≤ i → clusterAt p first k = some x →
      p2.fat x = upd p.fat cur FatEntry.endOfChain x := by
    intro k x hk hx
    apply freeWalk_frame (L - (i + 1)) p.lastCluster
      { p with fat := upd p.fat cur FatEntry.endOfChain } next p2.fat x htail (by omega) hwalk
    intro j hj
    rw [hcongr j (by omega), hsuffix]
    intro hy
    exact chainLen_inj p first L hchain k (i + 1 + j) x (by omega) (by omega) hx hy
  refine ⟨?_, ?_, hn2⟩
  · rw [← hcur]
    apply clusterAt_congr
    intro k x hk hx
    refine fatGet_of_fat p p2 x hlast ?_
    rw [hframe k x (by omega) hx]
    unfold upd
    rw [if_neg]
    intro hxc
    rw [hxc] at hx
    exact chainLen_inj p first L hchain k i cur hk hi hx hcur
  · unfold FatPartition.fatGet
    rw [hlast, if_neg (by omega), hframe i cur (le_refl _) hcur]
    unfold upd
    rw [if_pos rfl]

/-- Cache calls in front of the log do not change the lists of `freeChain` and
`fatPutEOC` calls. -/
theorem chainCalls_append (p q : FatPartition) (l : List Call) (s : Nat) (m : CacheMode)
    (hl : ∀ c ∈ l, c = Call.cacheSync ∨ c = Call.cacheFetchData s m)
    (h : q.log = l ++ p.log) :
    freeChainCalls q = freeChainCalls p ∧ putEOCCalls q = putEOCCalls p := by
  unfold freeChainCalls putEOCCalls
  rw [h, List.filterMap_append, List.filterMap_append]
  have h1 : l.filterMap (fun c => match c with | Call.freeChain n => some n | _ => none)
      = [] := by
    rw [List.filterMap_eq_nil_iff]
    intro c hc
    rcases hl c hc with rfl | rfl <;> rfl
  have h2 : l.filterMap (fun c => match c with | Call.fatPutEOC n => some n | _ => none)
      = [] := by
    rw [List.filterMap_eq_nil_iff]
    intro c hc
    rcases hl c hc with rfl | rfl <;> rfl
  rw [h1, h2]
  exact ⟨rfl, rfl⟩

end TruncateChain

section TruncateCut

/-- The rounded-up quotient `ceil(x / B)` of a positive `x`. -/
theorem ceil_div_pos (x B : Nat) (hB : 0 < B) (hx : 0 < x) :
    (x + B - 1) / B = (x - 1) / B + 1 := by
  have e : x + B - 1 = (x - 1) + B := by omega
  rw [e, Nat.add_div_right _ hB]

/-- A successful `fatPutEOC`: the entry of the cluster is the end-of-chain
mark, nothing else of the FAT changes, and the call is logged. -/
theorem fatPutEOC_true (p q : FatPartition) (c : Nat) (h : p.fatPutEOC c = (true, q)) :
    q.toMount = p.toMount ∧ q.fat = upd p.fat c FatEntry.endOfChain
      ∧ q.log = Call.fatPutEOC c :: p.log := by
  unfold FatPartition.fatPutEOC at h
  dsimp only at h
  split at h
  · cases h
  · cases h
    exact ⟨rfl, rfl, rfl⟩

/-- A successful `freeChain`: the walk from the cluster succeeded and gave the
new FAT, and the call is logged. -/
theorem freeChain_true (p q : FatPartition) (c : Nat) (h : p.freeChain c = (true, q)) :
    q.toMount = p.toMount ∧ freeWalk p.lastCluster p.lastCluster p.fat c = (true, q.fat)
      ∧ q.log = Call.freeChain c :: p.log := by
  unfold FatPartition.freeChain at h
  dsimp only at h
  rcases hw : freeWalk (p.logCall (Call.freeChain c)).lastCluster
    (p.logCall (Call.freeChain c)).lastCluster (p.logCall (Call.freeChain c)).fat c
    with ⟨ok, fat1⟩
  rw [hw] at h
  simp only [Prod.mk.injEq] at h
  obtain ⟨hok, hq⟩ := h
  subst hok
  subst hq
  exact ⟨rfl, hw, rfl⟩

/-- A successful `truncate` of a regular file with clusters, a well-formed
chain and the position/cluster invariant, from a position that is not 0: the
first cluster stays, the chain that is left ends at `curCluster` and has
`(curPosition - 1) / bytesPerCluster + 1` clusters, and `fatPutEOC` and
`freeChain` are called for a successor of `curCluster` and not otherwise. -/
theorem truncate_cut_pos (f g : FatFile) (p q : FatPartition) (L : Nat)
    (hkind : f.kind = FileKind.file) (hw : f.flags.write = true) (hfc : f.firstCluster ≠ 0)
    (hinv : PosInv f p) (hchain : ChainLen p f.firstCluster L) (hpos : 0 < f.curPosition)
    (h : f.truncate p = (true, g, q)) :
    g.firstCluster = f.firstCluster
      ∧ ChainLen q f.firstCluster ((f.curPosition - 1) / p.bytesPerCluster + 1)
      ∧ q.fatGet f.curCluster = FatEntry.endOfChain
      ∧ (∀ next, p.fatGet f.curCluster = FatEntry.continues next →
          putEOCCalls q = f.curCluster :: putEOCCalls p
          ∧ freeChainCalls q = next :: freeChainCalls p)
      ∧ (p.fatGet f.curCluster = FatEntry.endOfChain →
          putEOCCalls q = putEOCCalls p ∧ freeChainCalls q = freeChainCalls p) := by
  have hL : 0 < L := by
    by_contra h0
    exact hfc ((chainLen_zero_iff p _ L hchain).1 (by omega))
  have hcur : clusterAt p f.firstCluster ((f.curPosition - 1) / p.bytesPerCluster)
      = some f.curCluster := by
    have := hinv.2 (by omega)
    rwa [chainStart_file f p hkind] at this
  generalize (f.curPosition - 1) / p.bytesPerCluster = i at hcur ⊢
  have hi : i < L := clusterAt_some_lt p _ L i _ hchain hL hcur
  obtain ⟨_, hc2, hc3, _⟩ := chainLen_member_valid p _ L hchain i _ hi hcur
  unfold FatFile.truncate at h
  rw [if_neg (by simp [FatFile.isFile, hkind, hw]), if_neg hfc] at h
  unfold FatFile.truncateCut at h
  rw [if_pos (by omega)] at h
  rcases hfg : p.fatGet f.curCluster with _ | _ | next
  · rw [hfg] at h
    cases h
  · rw [hfg] at h
    dsimp only at h
    rw [if_neg (by simp)] at h
    dsimp only at h
    obtain ⟨dd, ee, hg⟩ := sync_ok_file _ g p q h
    have hds := sync_dataStep ({ f with fileSize := f.curPosition }.setDirDirty) p
    rw [h] at hds
    obtain ⟨l, hl, hcalls⟩ := sync_log ({ f with fileSize := f.curPosition }.setDirDirty) p
    rw [h] at hl
    obtain ⟨e1, e2⟩ := chainCalls_append p q l _ _ hcalls hl
    have heocq : q.fatGet f.curCluster = FatEntry.endOfChain := by
      rw [fatGet_congr p q hds.1 hds.2.1]
      exact hfg
    refine ⟨by rw [hg]; rfl, ?_, heocq, (fun next hx => by cases hx), fun _ => ⟨e2, e1⟩⟩
    refine Or.inr ⟨by omega, f.curCluster, ?_, heocq⟩
    rw [show i + 1 - 1 = i from by omega, clusterAt_dataStep p q hds]
    exact hcur
  · rw [hfg] at h
    dsimp only at h
    rcases hput : p.fatPutEOC f.curCluster with ⟨ok1, p1⟩
    rw [hput] at h
    cases ok1
    · cases h
    · dsimp only at h
      obtain ⟨hm1, hfat1, hlog1⟩ := fatPutEOC_true p p1 _ hput
      by_cases hn0 : next ≠ 0
      · rw [if_pos hn0] at h
        rcases hfree : p1.freeChain next with ⟨ok2, p2⟩
        rw [hfree] at h
        cases ok2
        · cases h
        · dsimp only at h
          obtain ⟨hm2, hwalk, hlog2⟩ := freeChain_true p1 p2 _ hfree
          have hl1 : p1.lastCluster = p.lastCluster := congrArg Mount.lastCluster hm1
          have hl2 : p2.lastCluster = p.lastCluster :=
            (congrArg Mount.lastCluster hm2).trans hl1
          rw [hl1, hfat1] at hwalk
          obtain ⟨hat, heoc, _⟩ := cut_chain p p2 f.firstCluster L i f.curCluster next hchain hL
            hcur hfg hl2 hwalk
          obtain ⟨dd, ee, hg⟩ := sync_ok_file _ g p2 q h
          have hds := sync_dataStep ({ f with fileSize := f.curPosition }.setDirDirty) p2
          rw [h] at hds
          obtain ⟨l, hl, hcalls⟩ :=
            sync_log ({ f with fileSize := f.curPosition }.setDirDirty) p2
          rw [h] at hl
          obtain ⟨e1, e2⟩ := chainCalls_append p2 q l _ _ hcalls hl
          have heocq : q.fatGet f.curCluster = FatEntry.endOfChain := by
            rw [fatGet_congr p2 q hds.1 hds.2.1]
            exact heoc
          have hatq : clusterAt q f.firstCluster i = some f.curCluster := by
            rw [clusterAt_dataStep p2 q hds]
            exact hat
          refine ⟨by rw [hg]; rfl, Or.inr ⟨by omega, f.curCluster, hatq, heocq⟩, heocq, ?_,
            (fun hx => by cases hx)⟩
          intro n2 hx
          cases hx
          rw [e1, e2]
          unfold putEOCCalls freeChainCalls
          rw [hlog2, hlog1]
          exact ⟨rfl, rfl⟩
      · exfalso
        obtain ⟨c0, hc0, heoc, hcont⟩ := chainLen_member p _ L hchain i hi
        rw [hcur] at hc0
        cases hc0
        have hi1 : i + 1 < L := by
          by_contra hge
          rw [heoc (by omega)] at hfg
          cases hfg
        obtain ⟨n, hn, hnAt⟩ := hcont hi1
        rw [hfg] at hn
        cases hn
        obtain ⟨_, hn2, _, _⟩ := chainLen_member_valid p _ L hchain (i + 1) next hi1 hnAt
        omega

/-- A successful `truncate` of a regular file with clusters from position 0,
where `curCluster` is 0: `freeChain` is called for the first cluster, no
end-of-chain mark is written and the handle has no first cluster. -/
theorem truncate_cut_zero (f g : FatFile) (p q : FatPartition)
    (hkind : f.kind = FileKind.file) (hw : f.flags.write = true) (hfc : f.firstCluster ≠ 0)
    (hcur : f.curCluster = 0) (h : f.truncate p = (true, g, q)) :
    g.firstCluster = 0
      ∧ freeChainCalls q = f.firstCluster :: freeChainCalls p
      ∧ putEOCCalls q = putEOCCalls p := by
  unfold FatFile.truncate at h
  rw [if_neg (by simp [FatFile.isFile, hkind, hw]), if_neg hfc] at h
  unfold FatFile.truncateCut at h
  rw [if_neg (by simp [hcur])] at h
  dsimp only at h
  rw [if_pos hfc] at h
  rcases hfree : p.freeChain f.firstCluster with ⟨ok2, p2⟩
  rw [hfree] at h
  cases ok2
  · cases h
  · dsimp only at h
    obtain ⟨_, _, hlog2⟩ := freeChain_true p p2 _ hfree
    obtain ⟨dd, ee, hg⟩ := sync_ok_file _ g p2 q h
    obtain ⟨l, hl, hcalls⟩ :=
      sync_log ({ { f with firstCluster := 0 } with fileSize := f.curPosition }.setDirDirty) p2
    rw [h] at hl
    obtain ⟨e1, e2⟩ := chainCalls_append p2 q l _ _ hcalls hl
    refine ⟨by rw [hg]; rfl, ?_, ?_⟩
    · rw [e1]
      unfold freeChainCalls
      rw [hlog2]
      rfl
    · rw [e2]
      unfold putEOCCalls
      rw [hlog2]
      rfl

/-- C28: `truncate` returns false and changes nothing when the handle is not a
regular file or lacks WRITE.  On a regular writable file with
`firstCluster != 0`, the position/cluster invariant and a well-formed chain, a
successful `truncate` leaves a chain of exactly
`ceil(curPosition / bytesPerCluster)` clusters; with `curPosition > 0` the
first cluster is unchanged, `curCluster` is the end of the chain, `fatPutEOC`
is called at `curCluster` and `freeChain` once on the successor exactly when
`fatGet(curCluster)` reported a successor, and neither is called when
`curCluster` was already the end of the chain; with `curPosition = 0`
(`curCluster = 0`) `freeChain(firstCluster)` is called and `firstCluster`
becomes 0. -/
theorem truncate_cuts_chain (f : FatFile) (p : FatPartition) :
    ((f.isFile = false ∨ f.flags.write = false) → f.truncate p = (false, f, p))
    ∧ (∀ g q L, f.kind = FileKind.file → f.flags.write = true → f.firstCluster ≠ 0 →
        PosInv f p → ChainLen p f.firstCluster L → f.truncate p = (true, g, q) →
        ChainLen q g.firstCluster ((f.curPosition + p.bytesPerCluster - 1) / p.bytesPerCluster)
        ∧ (0 < f.curPosition →
            g.firstCluster = f.firstCluster ∧ q.fatGet f.curCluster = FatEntry.endOfChain
            ∧ (∀ next, p.fatGet f.curCluster = FatEntry.continues next →
                putEOCCalls q = f.curCluster :: putEOCCalls p
                ∧ freeChainCalls q = next :: freeChainCalls p)
            ∧ (p.fatGet f.curCluster = FatEntry.endOfChain →
                putEOCCalls q = putEOCCalls p ∧ freeChainCalls q = freeChainCalls p))
        ∧ (f.curPosition = 0 →
            f.curCluster = 0 ∧ g.firstCluster = 0
            ∧ freeChainCalls q = f.firstCluster :: freeChainCalls p
            ∧ putEOCCalls q = putEOCCalls p)) := by
  constructor
  · intro hbad
    unfold FatFile.truncate
    rw [if_pos hbad]
  · intro g q L hkind hw hfc hinv hchain h
    have hB := bytesPerCluster_pos p
    refine ⟨?_, ?_, ?_⟩
    · by_cases hpos : 0 < f.curPosition
      · obtain ⟨h1, h2, _⟩ := truncate_cut_pos f g p q L hkind hw hfc hinv hchain hpos h
        rw [h1, ceil_div_pos _ _ hB hpos]
        exact h2
      · have h0 : f.curPosition = 0 := by omega
        obtain ⟨h1, _, _⟩ := truncate_cut_zero f g p q hkind hw hfc (hinv.1 h0) h
        rw [h1, h0, Nat.zero_add, Nat.div_eq_of_lt (by omega)]
        exact Or.inl ⟨rfl, rfl⟩
    · intro hpos
      obtain ⟨h1, _, h3, h4, h5⟩ := truncate_cut_pos f g p q L hkind hw hfc hinv hchain hpos h
      exact ⟨h1, h3, h4, h5⟩
    · intro h0
      obtain ⟨h1, h2, h3⟩ := truncate_cut_zero f g p q hkind hw hfc (hinv.1 h0) h
      exact ⟨hinv.1 h0, h1, h2, h3⟩

/-- The file `chainFile` (1025 bytes in the clusters 2, 3, 4 of 512 bytes, at
position 600 in cluster 3) is truncated: the chain that is left has
`ceil(600 / 512) = 2` clusters, `fatPutEOC(3)` and `freeChain(4)` were called. -/
theorem truncate_cuts_chain_witness :
    (chainFile.truncate chainPartition).1 = true
    ∧ ChainLen (chainFile.truncate chainPartition).2.2
        (chainFile.truncate chainPartition).2.1.firstCluster
        ((chainFile.curPosition + chainPartition.bytesPerCluster - 1)
          / chainPartition.bytesPerCluster)
    ∧ (chainFile.curPosition + chainPartition.bytesPerCluster - 1)
          / chainPartition.bytesPerCluster = 2
    ∧ putEOCCalls (chainFile.truncate chainPartition).2.2 = [3]
    ∧ freeChainCalls (chainFile.truncate chainPartition).2.2 = [4]
    ∧ (chainFile.truncate chainPartition).2.2.fatGet 4 = FatEntry.continues 0 :=
  have hok : (chainFile.truncate chainPartition).1 = true := by decide
  have T := (truncate_cuts_chain chainFile chainPartition).2 _ _ 3 rfl rfl (by decide)
    ⟨by decide, fun _ => by decide⟩ (Or.inr ⟨by decide, 4, by decide, by decide⟩)
    (triple_of_true _ hok)
  ⟨hok, T.1, by decide, (T.2.1 (by decide)).2.2.1 4 (by decide) |>.1,
    (T.2.1 (by decide)).2.2.1 4 (by decide) |>.2, by decide⟩

end TruncateCut

section TimestampLossless

/-- The packed date is the sum of its three bit fields. -/
theorem date_bits (a month day : Nat) (hm : month ≤ 12) (hd : day ≤ 31) :
    (a <<< 9) ||| (month <<< 5) ||| day = 512 * a + 32 * month + day := by
  have h1 : (month <<< 5) ||| day = 32 * month + day := by
    rw [Nat.shiftLeft_eq, Nat.mul_comm]
    exact (Nat.mul_add_lt_is_or (show day < 2 ^ 5 by omega) month).symm
  have h2 : (a <<< 9) ||| (32 * month + day) = 512 * a + (32 * month + day) := by
    rw [Nat.shiftLeft_eq, Nat.mul_comm]
    exact (Nat.mul_add_lt_is_or (show 32 * month + day < 2 ^ 9 by omega) a).symm
  rw [Nat.or_assoc, h1, h2]
  omega

/-- The packed time is the sum of its three bit fields. -/
theorem time_bits (hour minute second : Nat) (hmi : minute ≤ 59) (hs : second ≤ 59) :
    (hour <<< 11) ||| (minute <<< 5) ||| (second >>> 1) = 2048 * hour + 32 * minute + second / 2 := by
  have hs2 : second >>> 1 = second / 2 := by
    rw [Nat.shiftRight_eq_div_pow]
  have h1 : (minute <<< 5) ||| (second / 2) = 32 * minute + second / 2 := by
    rw [Nat.shiftLeft_eq, Nat.mul_comm]
    exact (Nat.mul_add_lt_is_or (show second / 2 < 2 ^ 5 by omega) minute).symm
  have h2 : (hour <<< 11) ||| (32 * minute + second / 2)
      = 2048 * hour + (32 * minute + second / 2) := by
    rw [Nat.shiftLeft_eq, Nat.mul_comm]
    exact (Nat.mul_add_lt_is_or (show 32 * minute + second / 2 < 2 ^ 11 by omega) hour).symm
  rw [hs2, Nat.or_assoc, h1, h2]
  omega

/-- C32: on the range that `timestamp` accepts the encoding of date and time
is lossless.  The packed date `((year-1980) << 9) | (month << 5) | day` and
time `(hour << 11) | (minute << 5) | (second >> 1)` are below `2^16` and are
the values `FS_DATE` and `FS_TIME` that `timestamp` stores; the inputs are
recovered from them and from `creationTimeTenths`:
`year = 1980 + (date >> 9)`, `month = (date >> 5) & 0xF`, `day = date & 0x1F`,
`hour = time >> 11`, `minute = (time >> 5) & 0x3F` and
`second = 2 * (time & 0x1F) + creationTimeTenths / 100`; and they are recovered
in the same way from the 16-bit fields createDate (offset 16), createTime
(offset 14) and the byte creationTimeTenths (offset 13) of an entry stamped
with T_CREATE. -/
theorem timestamp_encoding_lossless (year month day hour minute second : Nat)
    (hy1 : 1980 ≤ year) (hy2 : year ≤ 2107) (hm1 : 1 ≤ month) (hm2 : month ≤ 12)
    (hd1 : 1 ≤ day) (hd2 : day ≤ 31) (hh : hour ≤ 23) (hmi : minute ≤ 59)
    (hs : second ≤ 59) :
    FS_DATE year month day = ((year - 1980) <<< 9) ||| (month <<< 5) ||| day
    ∧ FS_TIME hour minute second = (hour <<< 11) ||| (minute <<< 5) ||| (second >>> 1)
    ∧ ((year - 1980) <<< 9) ||| (month <<< 5) ||| day < 2 ^ 16
    ∧ (hour <<< 11) ||| (minute <<< 5) ||| (second >>> 1) < 2 ^ 16
    ∧ 1980 + (FS_DATE year month day >>> 9) = year
    ∧ (FS_DATE year month day >>> 5) &&& 15 = month
    ∧ FS_DATE year month day &&& 31 = day
    ∧ FS_TIME hour minute second >>> 11 = hour
    ∧ (FS_TIME hour minute second >>> 5) &&& 63 = minute
    ∧ 2 * (FS_TIME hour minute second &&& 31) + (if second &&& 1 ≠ 0 then 100 else 0) / 100
        = second
    ∧ (∀ (E : Nat → Nat) (off : Nat) (flags : TFlag), flags.create = true →
        1980 + (getLe16 (FatFile.stampEntry E off flags year month day hour minute second)
          (off + 16) >>> 9) = year
        ∧ (getLe16 (FatFile.stampEntry E off flags year month day hour minute second)
          (off + 16) >>> 5) &&& 15 = month
        ∧ getLe16 (FatFile.stampEntry E off flags year month day hour minute second)
          (off + 16) &&& 31 = day
        ∧ getLe16 (FatFile.stampEntry E off flags year month day hour minute second)
          (off + 14) >>> 11 = hour
        ∧ (getLe16 (FatFile.stampEntry E off flags year month day hour minute second)
          (off + 14) >>> 5) &&& 63 = minute
        ∧ 2 * (getLe16 (FatFile.stampEntry E off flags year month day hour minute second)
            (off + 14) &&& 31)
          + FatFile.stampEntry E off flags year month day hour minute second (off + 13) / 100
          = second) := by
  have hD := fs_date_eq year month day hy2 hm2 hd2
  have hT := fs_time_eq hour minute second hh hmi hs
  have hDb := date_bits (year - 1980) month day hm2 hd2
  have hTb := time_bits hour minute second hmi hs
  have e5 : ∀ x : Nat, x >>> 5 = x / 32 := fun x => by rw [Nat.shiftRight_eq_div_pow]
  have e9 : ∀ x : Nat, x >>> 9 = x / 512 := fun x => by rw [Nat.shiftRight_eq_div_pow]
  have e11 : ∀ x : Nat, x >>> 11 = x / 2048 := fun x => by rw [Nat.shiftRight_eq_div_pow]
  have a15 : ∀ x : Nat, x &&& 15 = x % 16 := fun x => Nat.and_pow_two_sub_one_eq_mod x 4
  have a31 : ∀ x : Nat, x &&& 31 = x % 32 := fun x => Nat.and_pow_two_sub_one_eq_mod x 5
  have a63 : ∀ x : Nat, x &&& 63 = x % 64 := fun x => Nat.and_pow_two_sub_one_eq_mod x 6
  have a1 : second &&& 1 = second % 2 := Nat.and_one_is_mod second
  have hdec : 1980 + (FS_DATE year month day >>> 9) = year
      ∧ (FS_DATE year month day >>> 5) &&& 15 = month
      ∧ FS_DATE year month day &&& 31 = day
      ∧ FS_TIME hour minute second >>> 11 = hour
      ∧ (FS_TIME hour minute second >>> 5) &&& 63 = minute
      ∧ 2 * (FS_TIME hour minute second &&& 31) + (if second % 2 = 1 then 100 else 0) / 100
          = second := by
    rw [hD, hT, hDb, hTb, e9, e5, e5, e11, a15, a31, a31, a63]
    refine ⟨by omega, by omega, by omega, by omega, by omega, ?_⟩
    by_cases h2 : second % 2 = 1
    · rw [if_pos h2]; omega
    · rw [if_neg h2]; omega
  obtain ⟨d1, d2, d3, d4, d5, d6⟩ := hdec
  refine ⟨hD, hT, by rw [hDb]; omega, by rw [hTb]; omega, d1, d2, d3, d4, d5, ?_, ?_⟩
  · rw [a1]
    by_cases h2 : second % 2 = 1
    · rw [if_pos (by omega)]
      rw [if_pos h2] at d6
      exact d6
    · rw [if_neg (by omega)]
      rw [if_neg h2] at d6
      exact d6
  · intro E off flags hc
    have s1 := (stampEntry_fields E off flags year month day hour minute second).1 hc
    rw [s1.1, s1.2.1, s1.2.2]
    exact ⟨d1, d2, d3, d4, d5, d6⟩

/-- The last second of the leap day of 2024: date 0x585D, time 0xBF7D, and the
six inputs come back from the two values and the tenths byte 100. -/
theorem timestamp_encoding_lossless_witness :
    FS_DATE 2024 2 29 = 22621 ∧ FS_TIME 23 59 59 = 49021
    ∧ 1980 + (FS_DATE 2024 2 29 >>> 9) = 2024
    ∧ (FS_DATE 2024 2 29 >>> 5) &&& 15 = 2
    ∧ FS_DATE 2024 2 29 &&& 31 = 29
    ∧ FS_TIME 23 59 59 >>> 11 = 23
    ∧ (FS_TIME 23 59 59 >>> 5) &&& 63 = 59
    ∧ 2 * (FS_TIME 23 59 59 &&& 31) + (if 59 &&& 1 ≠ 0 then 100 else 0) / 100 = 59 :=
  have T := timestamp_encoding_lossless 2024 2 29 23 59 59 (by decide) (by decide) (by decide)
    (by decide) (by decide) (by decide) (by decide) (by decide) (by decide)
  ⟨by decide, by decide, T.2.2.2.2.1, T.2.2.2.2.2.1, T.2.2.2.2.2.2.1, T.2.2.2.2.2.2.2.1,
    T.2.2.2.2.2.2.2.2.1, T.2.2.2.2.2.2.2.2.2.1⟩

end TimestampLossless

section FgetsShape

theorem mem_dropLast_cons (a x : Nat) (l : List Nat) (h : x ∈ (a :: l).dropLast) :
    x = a ∨ x ∈ l.dropLast := by
  cases l with
  | nil => simp at h
  | cons b t =>
    rw [List.dropLast_cons₂] at h
    rcases List.mem_cons.mp h with h | h
    · exact Or.inl h
    · exact Or.inr h

theorem dropCR_cr (bs : List Nat) : dropCR (13 :: bs) = dropCR bs := by
  simp [dropCR]

theorem dropCR_cons (b : Nat) (bs : List Nat) (h : b ≠ 13) : dropCR (b :: bs) = b :: dropCR bs := by
  simp [dropCR, h]

/-- One more successful read in front of a run of successful reads. -/
theorem readBytes_succ (fuel k : Nat) (f g : FatFile) (p q : FatPartition)
    (ro : FatFile.ReadOut) (bs : List Nat)
    (hr : f.read fuel p 1 = some ro) (h1 : ro.ret = 1)
    (h : readBytes fuel k ro.file ro.part = some (bs, g, q)) :
    readBytes fuel (k + 1) f p = some (ro.data.headD 0 :: bs, g, q) := by
  rw [readBytes, hr]
  dsimp only
  rw [if_pos h1, h]

/-- The loop of `fgets`: the characters it appends to `str` are the bytes that
the successful reads consumed, without the `'\r'` bytes; the state it leaves
is the one after those reads, or after one more read that did not return 1;
the length stays below `num`; and of the characters appended only the last can
be a delimiter. -/
theorem fgetsLoop_shape (fuel : Nat) (num : Int) (delim : Option (List Nat)) :
    ∀ (k : Nat) (f : FatFile) (p : FatPartition) (str : List Nat) (r : Int) (reads : List Int)
      (f1 : FatFile) (p1 : FatPartition) (str1 : List Nat) (r1 : Int) (reads1 : List Int),
      FatFile.fgetsLoop fuel num delim k f p str r reads = some (f1, p1, str1, r1, reads1) →
      ∃ m bs g q, readBytes fuel m f p = some (bs, g, q)
        ∧ str1 = str ++ dropCR bs
        ∧ ((f1 = g ∧ p1 = q)
            ∨ ∃ ro, g.read fuel q 1 = some ro ∧ ro.ret ≠ 1 ∧ f1 = ro.file ∧ p1 = ro.part
                ∧ r1 = ro.ret)
        ∧ ((str.length : Int) + 1 ≤ num → (str1.length : Int) + 1 ≤ num)
        ∧ (∀ x ∈ (dropCR bs).dropLast, FatFile.isDelim delim x = false) := by
  intro k
  induction k with
  | zero =>
    intro f p str r reads f1 p1 str1 r1 reads1 h
    unfold FatFile.fgetsLoop at h
    cases h
  | succ k ih =>
    intro f p str r reads f1 p1 str1 r1 reads1 h
    unfold FatFile.fgetsLoop at h
    by_cases hfull : (str.length : Int) + 1 < num
    · rw [if_neg (not_not.mpr hfull)] at h
      rcases hro : f.read fuel p 1 with _ | ro
      · rw [hro] at h; cases h
      · rw [hro] at h
        dsimp only at h
        by_cases h1 : ro.ret = 1
        · rw [if_neg (not_not.mpr h1)] at h
          by_cases hcr : ro.data.headD 0 = 13
          · rw [if_pos hcr] at h
            obtain ⟨m, bs, g, q, hb, hs, hst, hlen, hdl⟩ := ih _ _ _ _ _ _ _ _ _ _ h
            refine ⟨m + 1, ro.data.headD 0 :: bs, g, q, readBytes_succ _ _ _ _ _ _ _ _ hro h1 hb,
              ?_, hst, hlen, ?_⟩
            · rw [hcr, dropCR_cr]; exact hs
            · rw [hcr, dropCR_cr]; exact hdl
          · rw [if_neg hcr] at h
            by_cases hdl : FatFile.isDelim delim (ro.data.headD 0) = true
            · rw [if_pos hdl] at h
              simp only [Option.some.injEq, Prod.mk.injEq] at h
              obtain ⟨e1, e2, e3, _, _⟩ := h
              refine ⟨1, [ro.data.headD 0], ro.file, ro.part,
                readBytes_succ _ 0 _ _ _ _ _ _ hro h1 rfl, ?_, Or.inl ⟨e1.symm, e2.symm⟩, ?_, ?_⟩
              · rw [dropCR_cons _ _ hcr, ← e3]
                rfl
              · intro _
                rw [← e3]
                simp only [List.length_append, List.length_singleton, Nat.cast_add, Nat.cast_one]
                omega
              · rw [dropCR_cons _ _ hcr]
                intro x hx
                simp [dropCR] at hx
            · rw [if_neg hdl] at h
              obtain ⟨m, bs, g, q, hb, hs, hst, hlen, hd⟩ := ih _ _ _ _ _ _ _ _ _ _ h
              refine ⟨m + 1, ro.data.headD 0 :: bs, g, q,
                readBytes_succ _ _ _ _ _ _ _ _ hro h1 hb, ?_, hst, ?_, ?_⟩
              · rw [dropCR_cons _ _ hcr, hs]
                simp
              · intro _
                apply hlen
                simp only [List.length_append, List.length_singleton, Nat.cast_add, Nat.cast_one]
                omega
              · rw [dropCR_cons _ _ hcr]
                intro x hx
                rcases mem_dropLast_cons _ _ _ hx with hx | hx
                · rw [hx]
                  simpa using hdl
                · exact hd x hx
        · rw [if_pos h1] at h
          simp only [Option.some.injEq, Prod.mk.injEq] at h
          obtain ⟨e1, e2, e3, e4, _⟩ := h
          refine ⟨0, [], f, p, rfl, ?_, Or.inr ⟨ro, hro, h1, e1.symm, e2.symm, e4.symm⟩, ?_, ?_⟩
          · rw [← e3]; simp [dropCR]
          · intro hx; rw [← e3]; exact hx
          · intro x hx; simp [dropCR] at hx
    · rw [if_pos hfull] at h
      simp only [Option.some.injEq, Prod.mk.injEq] at h
      obtain ⟨e1, e2, e3, _, _⟩ := h
      refine ⟨0, [], f, p, rfl, ?_, Or.inl ⟨e1.symm, e2.symm⟩, ?_, ?_⟩
      · rw [← e3]; simp [dropCR]
      · intro hx; rw [← e3]; exact hx
      · intro x hx; simp [dropCR] at hx

end FgetsShape

section ReadBytesFile

/-- An iteration of the loop of `read` keeps every stored byte. -/
theorem readStep_stored (f g : FatFile) (p q : FatPartition) (toRead n : Nat)
    (chunk : Nat → Nat) (h : FatFile.readStep f p toRead = FatFile.Step.next g q n chunk) :
    ∀ s j v, Stored p s j v → Stored q s j v := by
  unfold FatFile.readStep at h
  dsimp only at h
  split at h
  · cases h
  · cases h
  · rename_i f1 sector soc hloc
    unfold FatFile.readTransfer at h
    split at h
    · unfold FatFile.readCached at h
      dsimp only at h
      split at h
      · cases h
      · rename_i p1 hfetch
        cases h
        obtain ⟨_, _, _, _, _, _, hkeep⟩ := cacheFetchData_stored p q sector _ hfetch
        exact fun s j v hst => hkeep s j v hst (Or.inl rfl)
    · split at h
      · unfold FatFile.readMulti at h
        dsimp only at h
        split at h
        · cases h
        · rename_i p1 hfl
          have h1 : ∀ s j v, Stored p s j v → Stored p1 s j v := by
            split at hfl
            · obtain ⟨_, _, _, _, _, _, hkeep⟩ := cacheSyncData_stored p p1 hfl
              exact hkeep
            · cases hfl
              exact fun _ _ _ hst => hst
          split at h
          · cases h
          · rename_i p2 hrs
            cases h
            unfold FatPartition.readSectors at hrs
            simp only [Prod.mk.injEq] at hrs
            obtain ⟨_, hq⟩ := hrs
            intro s j v hst
            have := h1 s j v hst
            rw [← hq]
            exact this
      · unfold FatFile.readSingle at h
        split at h
        · cases h
        · rename_i p1 hrs
          cases h
          unfold FatPartition.readSector at hrs
          simp only [Prod.mk.injEq] at hrs
          obtain ⟨_, hq⟩ := hrs
          intro s j v hst
          rw [← hq]
          exact hst

/-- A `read` of one byte of a regular file whose bytes `B` are stored, which
returns 1: the position was before the end of the file, the byte delivered is
the byte of the file at the position, and the state it leaves is again a state
of the file, one byte further. -/
theorem read_byte_file_state (fuel : Nat) (f : FatFile) (p : FatPartition) (L : Nat)
    (B : Nat → Nat) (r : FatFile.ReadOut)
    (hkind : f.kind = FileKind.file) (hread : f.flags.read = true)
    (hbad : ∀ s, p.badSector s = false)
    (hchain : ChainLen p f.firstCluster L) (hfit : f.fileSize ≤ L * p.bytesPerCluster)
    (hcur : f.curPosition ≠ 0 →
        clusterAt p f.firstCluster ((f.curPosition - 1) / p.bytesPerCluster)
          = some f.curCluster)
    (hle : f.curPosition ≤ f.fileSize) (hu : f.fileSize < U32)
    (hfile : FileHolds p f.firstCluster B f.fileSize)
    (hr : f.read fuel p 1 = some r) (h1 : r.ret = 1) :
    f.curPosition < f.fileSize ∧ r.data = [B f.curPosition]
      ∧ r.file.kind = FileKind.file ∧ r.file.flags.read = true
      ∧ r.file.firstCluster = f.firstCluster ∧ r.file.fileSize = f.fileSize
      ∧ r.file.curPosition = f.curPosition + 1
      ∧ (∀ s, r.part.badSector s = false)
      ∧ ChainLen r.part f.firstCluster L ∧ f.fileSize ≤ L * r.part.bytesPerCluster
      ∧ (clusterAt r.part f.firstCluster (f.curPosition / r.part.bytesPerCluster)
          = some r.file.curCluster)
      ∧ FileHolds r.part f.firstCluster B f.fileSize := by
  have hBpc := bytesPerCluster_pos p
  obtain ⟨_, hN, cc, chunk, hstep, hfileEq, hdata⟩ := read_byte_shape fuel f p r hr h1
  have hlt : f.curPosition < f.fileSize := by
    unfold FatFile.readClamp at hN
    rw [if_pos (by simp [FatFile.isFile, hkind])] at hN
    have : sub32 f.fileSize f.curPosition = f.fileSize - f.curPosition := by
      unfold sub32
      unfold U32 at hu ⊢
      omega
    dsimp only at hN
    rw [this] at hN
    split at hN <;> omega
  have hfuel : ∃ k, fuel = k + 1 := by
    cases fuel with
    | zero =>
      exfalso
      unfold FatFile.read at hr
      rw [if_neg (by simp [FatFile.isOpen, hkind, hread])] at hr
      dsimp only at hr
      rw [hN] at hr
      unfold FatFile.readLoop at hr
      simp at hr
    | succ k => exact ⟨k, rfl⟩
  obtain ⟨k, rfl⟩ := hfuel
  obtain ⟨r2, hr2, _, hd2⟩ := read_byte_file k f p L B hkind hread hbad hchain hfit hcur hlt hu hfile
  rw [hr] at hr2
  cases hr2
  have hidx : f.curPosition / p.bytesPerCluster < L :=
    (Nat.div_lt_iff_lt_mul hBpc).2 (by omega)
  obtain ⟨c, hc, hloc⟩ := readLocate_spec f p L hkind hchain hcur hidx
  have hkeep := readStep_stored _ _ _ _ _ _ _ hstep
  rw [readStep_of_found f _ p 1 _ _ hloc] at hstep
  obtain ⟨hg, _⟩ := readTransfer_next _ _ _ _ _ _ _ _ _ _ hstep
  have hcc : cc = c := congrArg FatFile.curCluster hg
  subst hcc
  have hds := read_dataStep (k + 1) f p 1 r hr
  have hB := bytesPerCluster_congr p r.part hds.1
  have hmod : (f.curPosition + 1) % U32 = f.curPosition + 1 := Nat.mod_eq_of_lt (by omega)
  refine ⟨hlt, hd2, by rw [hfileEq]; exact hkind, by rw [hfileEq]; exact hread,
    by rw [hfileEq], by rw [hfileEq], by rw [hfileEq]; exact hmod, ?_,
    chainLen_dataStep p r.part hds _ _ hchain, by rw [hB]; exact hfit, ?_,
    fileHolds_keep p r.part hds.1 hds.2.1 hkeep _ _ _ hfile⟩
  · intro s
    rw [show r.part.badSector = p.badSector from congrArg Mount.badSector hds.1]
    exact hbad s
  · rw [clusterAt_dataStep p r.part hds, hB, hfileEq]
    exact hc

/-- Successful one-byte reads in a row on a regular file whose bytes `B` are
stored deliver the bytes of the file from the position on, and stay within the
file. -/
theorem readBytes_file (fuel : Nat) (L : Nat) (B : Nat → Nat) :
    ∀ (m : Nat) (f g : FatFile) (p q : FatPartition) (bs : List Nat),
      f.kind = FileKind.file → f.flags.read = true → (∀ s, p.badSector s = false) →
      ChainLen p f.firstCluster L → f.fileSize ≤ L * p.bytesPerCluster →
      (f.curPosition ≠ 0 →
        clusterAt p f.firstCluster ((f.curPosition - 1) / p.bytesPerCluster)
          = some f.curCluster) →
      f.curPosition ≤ f.fileSize → f.fileSize < U32 →
      FileHolds p f.firstCluster B f.fileSize →
      readBytes fuel m f p = some (bs, g, q) →
      bs = (List.range m).map (fun i => B (f.curPosition + i))
        ∧ g.curPosition = f.curPosition + m ∧ f.curPosition + m ≤ f.fileSize := by
  intro m
  induction m with
  | zero =>
    intro f g p q bs _ _ _ _ _ _ hle _ _ h
    unfold readBytes at h
    simp only [Option.some.injEq, Prod.mk.injEq] at h
    obtain ⟨e1, e2, _⟩ := h
    rw [← e1, ← e2]
    exact ⟨rfl, rfl, hle⟩
  | succ m ih =>
    intro f g p q bs hkind hread hbad hchain hfit hcur hle hu hfile h
    unfold readBytes at h
    rcases hr : f.read fuel p 1 with _ | r
    · rw [hr] at h; cases h
    · rw [hr] at h
      dsimp only at h
      by_cases h1 : r.ret = 1
      · rw [if_pos h1] at h
        rcases hrest : readBytes fuel m r.file r.part with _ | ⟨bs2, g2, q2⟩
        · rw [hrest] at h; cases h
        · rw [hrest] at h
          simp only [Option.some.injEq, Prod.mk.injEq] at h
          obtain ⟨e1, e2, _⟩ := h
          obtain ⟨hlt, hd, k1, k2, k3, k4, k5, k6, k7, k8, k9, k10⟩ :=
            read_byte_file_state fuel f p L B r hkind hread hbad hchain hfit hcur hle hu hfile
              hr h1
          obtain ⟨i1, i2, i3⟩ := ih r.file g2 r.part q2 bs2 k1 k2 k6 (by rw [k3]; exact k7)
            (by rw [k4]; exact k8) (by
              intro _
              rw [k3, k5, Nat.add_sub_cancel]
              exact k9) (by rw [k4, k5]; omega) (by rw [k4]; exact hu)
            (by rw [k3, k4]; exact k10) hrest
          rw [k5] at i1 i2 i3
          rw [k4] at i3
          refine ⟨?_, by rw [← e2, i2]; omega, by omega⟩
          rw [← e1, hd, i1, List.range_succ_eq_map]
          simp only [List.headD_cons, List.map_cons, List.map_map, Nat.add_zero]
          congr 1
          apply List.map_congr_left
          intro i _
          simp only [Function.comp]
          congr 1
          omega
      · rw [if_neg h1] at h
        cases h

end ReadBytesFile

section FgetsOutput

/-- Every element of a list but the last is a member of the list without its
last element. -/
theorem getD_mem_dropLast : ∀ (l : List Nat) (i : Nat), i + 1 < l.length →
    l.getD i 0 ∈ l.dropLast
  | [], i, h => by simp at h
  | [_], i, h => by simp at h
  | a :: b :: t, 0, _ => by simp
  | a :: b :: t, i + 1, h => by
    rw [List.dropLast_cons₂]
    have := getD_mem_dropLast (b :: t) i (by simpa using h)
    simpa using Or.inr this

/-- The value of a function at the content of an option, read off the mapped
option. -/
theorem option_get_map {α β : Type} (o : Option α) (φ : α → β) (b : β)
    (hx : o.isSome = true) (h : o.map φ = some b) : φ (o.get hx) = b := by
  cases o with
  | none => cases hx
  | some a =>
    simp only [Option.map_some', Option.some.injEq] at h
    exact h

/-- C31: for `num >= 2`, when `fgets(str, num, delim)` returns `n >= 0`: `n`
is the number of characters stored and `n <= num - 1`; the terminator is
stored at `str[n]`, so every index written is below `num`; a delimiter
(`'\n'` when `delim` is NULL, otherwise a byte of `delim`) occurs in
`str[0..n)` only as the last byte; and `str[0..n)` is the sequence `bs` of the
bytes consumed from the file with every `'\r'` removed, where `bs` are the
bytes delivered by the `m` reads that returned 1 and the state left is the one
after those reads, or after one more read that returned 0.  For a regular file
open for reading whose bytes `B` are stored (no unreadable sector, well-formed
chain, position/cluster invariant, `curPosition <= fileSize`), `bs` is
`B curPosition, ..., B (curPosition + m - 1)` and the position has advanced by
`m`. -/
theorem fgets_output_shape (fuel : Nat) (f : FatFile) (p : FatPartition) (num : Int)
    (delim : Option (List Nat)) (out : FatFile.FgetsOut)
    (hnum : 2 ≤ num) (h : FatFile.fgets fuel f p num delim = some out) (hret : 0 ≤ out.ret) :
    out.ret = (out.str.length : Int) ∧ out.ret ≤ num - 1 ∧ out.terminated = true
    ∧ (∀ i, i + 1 < out.str.length → FatFile.isDelim delim (out.str.getD i 0) = false)
    ∧ (delim = none → ∀ i, i + 1 < out.str.length → out.str.getD i 0 ≠ 10)
    ∧ (∀ d, delim = some d → ∀ i, i + 1 < out.str.length → out.str.getD i 0 ∉ d)
    ∧ ∃ m bs g q, readBytes fuel m f p = some (bs, g, q)
        ∧ out.str = dropCR bs
        ∧ ((out.file = g ∧ out.part = q)
            ∨ ∃ ro, g.read fuel q 1 = some ro ∧ ro.ret = 0 ∧ out.file = ro.file
                ∧ out.part = ro.part)
        ∧ (∀ L B, f.kind = FileKind.file → f.flags.read = true →
            (∀ s, p.badSector s = false) →
            ChainLen p f.firstCluster L → f.fileSize ≤ L * p.bytesPerCluster →
            (f.curPosition ≠ 0 →
              clusterAt p f.firstCluster ((f.curPosition - 1) / p.bytesPerCluster)
                = some f.curCluster) →
            f.curPosition ≤ f.fileSize → f.fileSize < U32 →
            FileHolds p f.firstCluster B f.fileSize →
            bs = (List.range m).map (fun i => B (f.curPosition + i))
              ∧ out.file.curPosition = f.curPosition + m
              ∧ f.curPosition + m ≤ f.fileSize) := by
  unfold FatFile.fgets at h
  rcases hl : FatFile.fgetsLoop fuel num delim fuel f p [] (-1) []
    with _ | ⟨f1, p1, str, r, reads⟩
  · rw [hl] at h; cases h
  · rw [hl] at h
    dsimp only at h
    obtain ⟨m, bs, g, q, hb, hs, hst, hlen, hdl⟩ :=
      fgetsLoop_shape fuel num delim fuel f p [] (-1) [] f1 p1 str r reads hl
    have hs2 : str = dropCR bs := by rw [hs]; rfl
    have hlen2 : (str.length : Int) + 1 ≤ num :=
      hlen (by simp only [List.length_nil]; omega)
    by_cases hr : r < 0
    · rw [if_pos hr] at h
      cases h
      exact absurd hret (show ¬ (0 : Int) ≤ -1 by decide)
    · rw [if_neg hr] at h
      cases h
      have hdelim : ∀ i, i + 1 < str.length → FatFile.isDelim delim (str.getD i 0) = false := by
        intro i hi
        apply hdl
        rw [← hs2]
        exact getD_mem_dropLast str i hi
      refine ⟨rfl, ?_, rfl, hdelim, ?_, ?_, m, bs, g, q, hb, hs2, ?_, ?_⟩
      · show (str.length : Int) ≤ num - 1
        omega
      · intro hd i hi
        have := hdelim i hi
        rw [hd] at this
        simpa [FatFile.isDelim] using this
      · intro d hd i hi
        have := hdelim i hi
        rw [hd] at this
        simp only [FatFile.isDelim, decide_eq_false_iff_not, not_or] at this
        exact this.1
      · rcases hst with ⟨e1, e2⟩ | ⟨ro, hro, hne, e1, e2, e3⟩
        · exact Or.inl ⟨e1, e2⟩
        · right
          refine ⟨ro, hro, ?_, e1, e2⟩
          obtain ⟨_, _, _, _, hcase⟩ := read_byte_pos fuel g q ro hro
          rcases hcase with ⟨h1, _, _⟩ | ⟨h0, _, _⟩
          · exact absurd h1 hne
          · rcases h0 with h0 | h0
            · exact h0
            · rw [e3, h0] at hr
              exact absurd (by decide : (-1 : Int) < 0) hr
      · intro L B hkind hread hbad hchain hfit hcur hle hu hfile
        obtain ⟨i1, i2, i3⟩ := readBytes_file fuel L B m f g p q bs hkind hread hbad hchain hfit
          hcur hle hu hfile hb
        refine ⟨i1, ?_, i3⟩
        rcases hst with ⟨e1, _⟩ | ⟨ro, hro, hne, e1, _, _⟩
        · show f1.curPosition = _
          rw [e1]; exact i2
        · show f1.curPosition = _
          obtain ⟨cc, e, pos, hf, hcase⟩ := read_byte_pos fuel g q ro hro
          rcases hcase with ⟨h1, _, _⟩ | ⟨_, hp, _⟩
          · exact absurd h1 hne
          · rw [e1, hf]
            show pos = _
            rw [hp]; exact i2

/-- The text file `H i \r \n X`: `fgets(str, 10, NULL)` consumes four bytes,
stores `H i \n` and the terminator and returns 3. -/
theorem fgets_output_shape_witness :
    (FatFile.fgets 10 textFile (dirVolume textData) 10 none).map
        (fun o => (o.ret, o.str, o.terminated, o.file.curPosition))
      = some (3, [72, 105, 10], true, 4)
    ∧ (readBytes 10 4 textFile (dirVolume textData)).map (fun x => x.1) = some [72, 105, 13, 10]
    ∧ ∃ out, FatFile.fgets 10 textFile (dirVolume textData) 10 none = some out
        ∧ out.ret = (out.str.length : Int) ∧ out.ret ≤ 10 - 1 ∧ out.terminated = true
        ∧ (∀ i, i + 1 < out.str.length → out.str.getD i 0 ≠ 10)
        ∧ ∃ m bs g q, readBytes 10 m textFile (dirVolume textData) = some (bs, g, q)
            ∧ out.str = dropCR bs := by
  have hx : (FatFile.fgets 10 textFile (dirVolume textData) 10 none).isSome = true := by decide
  have hmap : (FatFile.fgets 10 textFile (dirVolume textData) 10 none).map (fun o => o.ret)
      = some 3 := by decide
  have hret : 0 ≤ ((FatFile.fgets 10 textFile (dirVolume textData) 10 none).get hx).ret := by
    have := option_get_map _ (fun o : FatFile.FgetsOut => o.ret) 3 hx hmap
    dsimp only at this
    rw [this]
    decide
  obtain ⟨t1, t2, t3, _, t5, _, m, bs, g, q, hq1, hq2, _⟩ :=
    fgets_output_shape 10 textFile (dirVolume textData) 10 none
      ((FatFile.fgets 10 textFile (dirVolume textData) 10 none).get hx) (by decide)
      (Option.some_get hx).symm hret
  exact ⟨by decide, by decide, _, (Option.some_get hx).symm, t1, t2, t3, t5 rfl, m, bs, g, q,
    hq1, hq2⟩

end FgetsOutput

end SdFs
